import Mathlib

/-!
# gumshoedb: fact table, row codec, dimension tables and queries

A shallow embedding of `src/gumshoe/core.go` and `src/gumshoe/dimension_table.go`.

Conventions of the embedding

* A Go `[]byte` is a `List Byte`; bytes are natural numbers below 256.
* A Go `map[K]V` is an association list with at most one entry per key (`GoMap`);
  indexing a missing key yields the zero value, as in Go.
* A Go call that can return a non-nil `error` or panic yields a `Result`.
* Go `int` is 64 bits wide.  Row counts, byte offsets and column indices are natural
  numbers: the byte size `Capacity × RowSize` of a table is the length of a buffer that was
  allocated, and every count, offset and index the code computes is bounded by it or by the
  length of another slice held in memory, so 64-bit wrap-around does not arise.  Narrowing
  conversions that the code spells out (`int32(len(...))`, `uint8(value)`, ...) are modelled
  with their wrap-around.
* Column indices are never negative: every caller passes a loop counter or a value read from
  `ColumnNameToIndex`.
* Multi-byte values are stored little-endian (the byte order of the amd64 host).
* A method that mutates its receiver returns the new table next to its result.
* The address of a row is its byte offset from the start of `table.rows`; a read through
  `unsafe.Pointer` that leaves the buffer has no defined result and is reported as a panic.
  The program itself does not check the address and returns the bytes that lie behind the
  buffer: a statement that covers such reads is made about `table.withAdjacent adjacent`,
  the table with those bytes behind its buffer.
* Where the code ranges over a Go map to build a result, the entries come in insertion
  order, one of the orders the iteration can take.  A statement about the buckets of a
  grouped scan that is to hold for every order is made up to a permutation of the result.
-/

namespace Gumshoe

/-! ## Go runtime notions -/

/-- One byte of row storage. -/
abbrev Byte := Nat

/-- Outcome of a Go call: a normal return, a returned non-nil `error`, or a run-time panic. -/
inductive Result (α : Type) where
  | ok (a : α)
  | error (msg : String)
  | panic (msg : String)
  deriving Repr, DecidableEq

/-- The call returned a non-nil error (it neither succeeded nor panicked). -/
def Result.isError {α : Type} : Result α → Bool
  | .error _ => true
  | _ => false

/-- The call panicked. -/
def Result.isPanic {α : Type} : Result α → Bool
  | .panic _ => true
  | _ => false

/-- The call returned normally. -/
def Result.isOk {α : Type} : Result α → Bool
  | .ok _ => true
  | _ => false

/-- Passes the outcome of a call through a function that cannot fail. -/
def Result.map {α β : Type} (f : α → β) : Result α → Result β
  | .ok a => .ok (f a)
  | .error msg => .error msg
  | .panic msg => .panic msg

/-- Feeds the outcome of a call into a call that can fail in turn. -/
def Result.bind {α β : Type} (r : Result α) (f : α → Result β) : Result β :=
  match r with
  | .ok a => f a
  | .error msg => .error msg
  | .panic msg => .panic msg

/-- A Go map, kept as an association list in insertion order. -/
abbrev GoMap (κ : Type) (β : Type) := List (κ × β)

/-- The comma-ok lookup `v, ok := m[k]`. -/
def GoMap.get? {κ β : Type} [DecidableEq κ] : GoMap κ β → κ → Option β
  | [], _ => none
  | (k', v') :: m, k => if k' = k then some v' else GoMap.get? m k

/-- The plain lookup `m[k]`, which yields the zero value for a missing key. -/
def GoMap.index {κ β : Type} [DecidableEq κ] [Inhabited β] (m : GoMap κ β) (k : κ) : β :=
  (m.get? k).getD default

/-- The assignment `m[k] = v`. -/
def GoMap.set {κ β : Type} [DecidableEq κ] : GoMap κ β → κ → β → GoMap κ β
  | [], k, v => [(k, v)]
  | (k', v') :: m, k, v => if k' = k then (k, v) :: m else (k', v') :: GoMap.set m k v

/-- The keys of a map, in the order `range` happens to visit them. -/
def GoMap.keys {κ β : Type} (m : GoMap κ β) : List κ := m.map Prod.fst

/-- A map has one entry per key. -/
def GoMap.WF {κ β : Type} (m : GoMap κ β) : Prop := (GoMap.keys m).Nodup

instance {κ β : Type} [DecidableEq κ] (m : GoMap κ β) : Decidable (GoMap.WF m) := by
  unfold GoMap.WF; infer_instance

/-- Go compares strings lexicographically byte by byte; on UTF-8 text this is the
lexicographic order of the code points. -/
def stringLE (a b : String) : Prop := a.toList ≤ b.toList

instance : DecidableRel stringLE := fun a b => by unfold stringLE; infer_instance

/-- The library call `sort.Strings`. -/
def sortStrings (keys : List String) : List String := List.insertionSort stringLE keys

/-! ## Go numeric values

Floating-point values are IEEE-754 bit patterns; the conversions the code applies are
spelled out on those bit patterns. -/

/-- A `float64`, as its 64-bit IEEE-754 pattern. -/
structure Float64 where
  bits : Nat
  deriving Repr, DecidableEq

/-- A `float32` (also the source's `Cell`), as its 32-bit IEEE-754 pattern. -/
structure Float32 where
  bits : Nat
  deriving Repr, DecidableEq

/-- What a floating-point pattern denotes: `fin neg m e` is `(-1)^neg * m * 2^e`. -/
inductive FloatVal where
  | nan
  | inf (neg : Bool)
  | fin (neg : Bool) (m : Nat) (e : Int)
  deriving Repr, DecidableEq

/-- Number of binary digits of `n`, counted with at most `fuel` halvings. -/
def bitLengthAux : Nat → Nat → Nat
  | 0, _ => 0
  | fuel + 1, n => if n = 0 then 0 else bitLengthAux fuel (n / 2) + 1

/-- Number of binary digits of `n` (0 for 0). -/
def bitLength (n : Nat) : Nat := bitLengthAux n n

/-- Exponent of the least significant mantissa bit of the smallest subnormal. -/
def minQuantum (ebits mbits : Nat) : Int := 2 - (2 : Int) ^ (ebits - 1) - mbits

/-- Decodes a pattern with `ebits` exponent bits and `mbits` mantissa bits. -/
def decodeFloat (ebits mbits : Nat) (bits : Nat) : FloatVal :=
  let m := bits % 2 ^ mbits
  let e := (bits / 2 ^ mbits) % 2 ^ ebits
  let neg := decide ((bits / 2 ^ (mbits + ebits)) % 2 = 1)
  if e = 2 ^ ebits - 1 then (if m = 0 then .inf neg else .nan)
  else if e = 0 then .fin neg m (minQuantum ebits mbits)
  else .fin neg (2 ^ mbits + m) ((e : Int) - 1 + minQuantum ebits mbits)

/-- Rounds `(-1)^neg * m * 2^e` to the nearest pattern (ties to even); values beyond the
largest finite number become infinities. -/
def roundFloat (ebits mbits : Nat) (neg : Bool) (m : Nat) (e : Int) : Nat :=
  let sign := if neg then 2 ^ (ebits + mbits) else 0
  if m = 0 then sign
  else
    let q : Int := max (e + bitLength m - 1 - mbits) (minQuantum ebits mbits)
    let mant : Nat :=
      if q ≤ e then m * 2 ^ (e - q).toNat
      else
        let shift := (q - e).toNat
        -- below half of the smallest subnormal: rounds to zero
        if bitLength m < shift then 0
        else
          let hi := m / 2 ^ shift
          let lo := m % 2 ^ shift
          let half := 2 ^ (shift - 1)
          if half < lo ∨ (lo = half ∧ hi % 2 = 1) then hi + 1 else hi
    let magnitude := (q - minQuantum ebits mbits).toNat * 2 ^ mbits + mant
    sign + min magnitude ((2 ^ ebits - 1) * 2 ^ mbits)

/-- Encodes a decoded value; every NaN becomes the default quiet NaN. -/
def encodeFloat (ebits mbits : Nat) : FloatVal → Nat
  | .nan => (2 ^ ebits - 1) * 2 ^ mbits + 2 ^ (mbits - 1)
  | .inf neg => (if neg then 2 ^ (ebits + mbits) else 0) + (2 ^ ebits - 1) * 2 ^ mbits
  | .fin neg m e => roundFloat ebits mbits neg m e

def Float64.val (x : Float64) : FloatVal := decodeFloat 11 52 x.bits

def Float32.val (x : Float32) : FloatVal := decodeFloat 8 23 x.bits

/-- The conversion `float64(n)` of an integer. -/
def Float64.ofInt (n : Int) : Float64 := ⟨roundFloat 11 52 (decide (n < 0)) n.natAbs 0⟩

/-- The conversion `float32(x)` of a `float64`. -/
def Float64.toFloat32 (x : Float64) : Float32 := ⟨encodeFloat 8 23 x.val⟩

/-- The conversion `float64(x)` of a `float32`; it is exact. -/
def Float32.toFloat64 (x : Float32) : Float64 := ⟨encodeFloat 11 52 x.val⟩

/-- A floating-point datum with its fraction discarded; `none` for NaN and infinities. -/
def FloatVal.trunc : FloatVal → Option Int
  | .nan => none
  | .inf _ => none
  | .fin neg m e =>
    let a : Nat := if 0 ≤ e then m <<< e.toNat else m >>> (-e).toNat
    some (if neg then -(a : Int) else a)

/-- The conversion of a `float64` to an unsigned integer type of `w` bits. The fraction is
discarded. When the result is out of range Go leaves the value to the implementation; here
it is the truncation reduced modulo `2^w`, and 0 for NaN and infinities. -/
def Float64.toUint (w : Nat) (x : Float64) : Nat :=
  match x.val.trunc with
  | some z => (z % (2 : Int) ^ w).toNat
  | none => 0

/-- Reduction of an integer into the range of the signed type of `w` bits (two's
complement wrap-around). -/
def wrapInt (w : Nat) (z : Int) : Int :=
  (z + (2 : Int) ^ (w - 1)) % (2 : Int) ^ w - (2 : Int) ^ (w - 1)

/-- The conversion of a `float64` to a signed integer type of `w` bits; see `toUint` for
values out of range. -/
def Float64.toInt (w : Nat) (x : Float64) : Int :=
  match x.val.trunc with
  | some z => wrapInt w z
  | none => 0

/-- The pattern denotes a NaN. -/
def Float32.isNaN (x : Float32) : Bool :=
  match x.val with
  | .nan => true
  | _ => false

/-- Position of a non-NaN `float32` pattern in the numeric order: the magnitude bits, negated
under the sign bit; both zeros sit at 0. -/
def Float32.key (x : Float32) : Int :=
  let magnitude : Nat := x.bits % 2 ^ 31
  if (x.bits / 2 ^ 31) % 2 = 1 then -(magnitude : Int) else magnitude

/-- The comparison `x == y` of two `float32`; a NaN equals nothing. -/
def Float32.eq (x y : Float32) : Bool := !x.isNaN && !y.isNaN && decide (x.key = y.key)

/-- The comparison `x != y`. -/
def Float32.ne (x y : Float32) : Bool := !x.eq y

/-- The comparison `x < y`; false when either side is a NaN. -/
def Float32.lt (x y : Float32) : Bool := !x.isNaN && !y.isNaN && decide (x.key < y.key)

/-- The comparison `x <= y`; false when either side is a NaN. -/
def Float32.le (x y : Float32) : Bool := !x.isNaN && !y.isNaN && decide (x.key ≤ y.key)

/-- The comparison `x > y`. -/
def Float32.gt (x y : Float32) : Bool := y.lt x

/-- The comparison `x >= y`. -/
def Float32.ge (x y : Float32) : Bool := y.le x

/-- The conversion `Cell(n)` of an integer. -/
def Float32.ofInt (n : Int) : Float32 := ⟨roundFloat 8 23 (decide (n < 0)) n.natAbs 0⟩

/-- The conversion of a `float32` to a signed integer type of `w` bits; see `Float64.toUint`
for values out of range. -/
def Float32.toInt (w : Nat) (x : Float32) : Int :=
  match x.val.trunc with
  | some z => wrapInt w z
  | none => 0

/-- The exact sum of two decoded values, before rounding. A sum of two zeros is negative only
when both are; terms that cancel give the positive zero. -/
def FloatVal.add : FloatVal → FloatVal → FloatVal
  | .nan, _ => .nan
  | _, .nan => .nan
  | .inf a, .inf b => if a = b then .inf a else .nan
  | .inf a, .fin _ _ _ => .inf a
  | .fin _ _ _, .inf b => .inf b
  | .fin s1 m1 e1, .fin s2 m2 e2 =>
    if m1 = 0 ∧ m2 = 0 then .fin (s1 && s2) 0 0
    else if m1 = 0 then .fin s2 m2 e2
    else if m2 = 0 then .fin s1 m1 e1
    else
      let e := min e1 e2
      let a1 : Nat := m1 <<< (e1 - e).toNat
      let a2 : Nat := m2 <<< (e2 - e).toNat
      let sum : Int := (if s1 then -(a1 : Int) else a1) + (if s2 then -(a2 : Int) else a2)
      if sum = 0 then .fin false 0 0 else .fin (decide (sum < 0)) sum.natAbs e

/-- The sum `x + y` of two `float64`. -/
def Float64.add (x y : Float64) : Float64 := ⟨encodeFloat 11 52 (x.val.add y.val)⟩

/-- The quotient of two decoded values, cut after `mbits + 3` digits beyond those of the
divisor, with one more digit that records whether anything was cut off: rounding it gives the
correctly rounded quotient. -/
def FloatVal.div (mbits : Nat) : FloatVal → FloatVal → FloatVal
  | .nan, _ => .nan
  | _, .nan => .nan
  | .inf _, .inf _ => .nan
  | .inf a, .fin s _ _ => .inf (xor a s)
  | .fin s _ _, .inf b => .fin (xor s b) 0 0
  | .fin s1 m1 e1, .fin s2 m2 e2 =>
    if m2 = 0 then (if m1 = 0 then .nan else .inf (xor s1 s2))
    else if m1 = 0 then .fin (xor s1 s2) 0 0
    else
      let k := bitLength m2 + mbits + 3
      let q := (m1 <<< k) / m2
      let sticky := if (m1 <<< k) % m2 = 0 then 0 else 1
      .fin (xor s1 s2) (2 * q + sticky) (e1 - e2 - k - 1)

/-- The quotient `x / y` of two `float64`; dividing by zero does not panic. -/
def Float64.div (x y : Float64) : Float64 := ⟨encodeFloat 11 52 (FloatVal.div 52 x.val y.val)⟩

/-- Little-endian bytes of the `w`-byte unsigned number `n`. -/
def toBytesLE : Nat → Nat → List Byte
  | 0, _ => []
  | w + 1, n => n % 256 :: toBytesLE w (n / 256)

/-- The unsigned number spelled by little-endian bytes. -/
def fromBytesLE : List Byte → Nat
  | [] => 0
  | b :: rest => b % 256 + 256 * fromBytesLE rest

/-- The signed reading of a `w`-bit two's complement number. -/
def toSigned (w : Nat) (n : Nat) : Int :=
  if n < 2 ^ (w - 1) then (n : Int) else (n : Int) - (2 : Int) ^ w

/-- The Go type `Untyped` (`interface{}`) with the dynamic types the code handles. -/
inductive Untyped where
  | nil
  | string (s : String)
  | bool (b : Bool)
  | float32 (x : Float32)
  | float64 (x : Float64)
  | uint8 (n : Nat)
  | uint16 (n : Nat)
  | uint32 (n : Nat)
  | uint64 (n : Nat)
  | int (n : Int)
  | int8 (n : Int)
  | int16 (n : Int)
  | int32 (n : Int)
  | int64 (n : Int)
  | Cell (x : Float32)
  deriving Repr, DecidableEq

/-! ## core.go: types and schema -/

def Uint8Type : Nat := 0
def Int8Type : Nat := 1
def Uint16Type : Nat := 2
def Int16Type : Nat := 3
def Uint32Type : Nat := 4
def Int32Type : Nat := 5
def Uint64Type : Nat := 6
def Int64Type : Nat := 7
def Float32Type : Nat := 8
def Float64Type : Nat := 9

/-- The map `typeSizes`: byte width of each element type. -/
def typeSizes : GoMap Nat Nat :=
  [(Uint8Type, 1), (Int8Type, 1), (Uint16Type, 2), (Int16Type, 2), (Uint32Type, 4),
   (Int32Type, 4), (Uint64Type, 8), (Int64Type, 8), (Float32Type, 4), (Float64Type, 8)]

/-- The struct `Schema`: column name to element type, per column group. -/
structure Schema where
  NumericColumns : GoMap String Nat
  StringColumns : GoMap String Nat
  deriving Repr, DecidableEq

/-- Every element type named by the schema is one of the ten type constants. -/
def Schema.validTypes (schema : Schema) : Prop :=
  ∀ kv ∈ schema.StringColumns ++ schema.NumericColumns, kv.2 ≤ Float64Type

instance (schema : Schema) : Decidable schema.validTypes := by
  unfold Schema.validTypes; infer_instance

/-- The struct `DimensionTable` of core.go. Ids are `int32` values. -/
structure DimensionTable where
  Name : String
  Rows : List String
  ValueToId : GoMap String Int
  deriving Repr, DecidableEq

def NewDimensionTable (name : String) : DimensionTable :=
  { Name := name, Rows := [], ValueToId := [] }

/-- The struct `FactTable` (the lock and the mmap handle carry no data and are left out). -/
structure FactTable where
  rows : List Byte
  FilePath : String
  NextInsertPosition : Nat
  Count : Nat
  ColumnCount : Nat
  Capacity : Nat
  RowSize : Nat
  DimensionTables : List DimensionTable
  ColumnNameToIndex : GoMap String Nat
  ColumnIndexToName : List String
  ColumnIndexToOffset : List Nat
  ColumnIndexToType : List Nat
  deriving Repr, DecidableEq

def FactTable.Rows (table : FactTable) : List Byte := table.rows

/-- Returns the keys from a map in sorted order. -/
def getSortedKeys (m : GoMap String Nat) : List String := sortStrings (GoMap.keys m)

/-- The two loops of NewFactTable that merge both column groups into `columnToType`;
numeric entries are written last. -/
def columnToType (schema : Schema) : GoMap String Nat :=
  schema.NumericColumns.foldl (fun m kv => GoMap.set m kv.1 kv.2)
    (schema.StringColumns.foldl (fun m kv => GoMap.set m kv.1 kv.2) [])

/-- The offset loop of NewFactTable, started at byte offset `columnOffset`: the offsets and
types it stores for the remaining columns, and the final value of `columnOffset`. -/
def offsetLoop (colTypes : GoMap String Nat) : List String → Nat → List Nat × List Nat × Nat
  | [], columnOffset => ([], [], columnOffset)
  | name :: rest, columnOffset =>
    let r := offsetLoop colTypes rest (columnOffset + GoMap.index typeSizes (GoMap.index colTypes name))
    (columnOffset :: r.1, GoMap.index colTypes name :: r.2.1, r.2.2)

/-- The last loop of NewFactTable, started at index `i`: fills `ColumnNameToIndex`. -/
def nameIndexLoop : List String → Nat → GoMap String Nat → GoMap String Nat
  | [], _, m => m
  | name :: rest, i, m => nameIndexLoop rest (i + 1) (GoMap.set m name i)

/-- Modelled from the spec: `CreateMemoryMappedFactTableStorage` is not among the sources.
Section 4.3 describes file-backed storage as a memory map of a file grown to exactly
`Capacity × RowSize` bytes; a freshly grown file reads as zero bytes. -/
def CreateMemoryMappedFactTableStorage (_filePath : String) (tableSize : Nat) : List Byte :=
  List.replicate tableSize 0

/-- Allocates a new FactTable. A negative `rowCount` makes the allocation panic, so the row
count is a natural number here. -/
def NewFactTable (filePath : String) (rowCount : Nat) (schema : Schema) : FactTable :=
  let stringColumnNames := getSortedKeys schema.StringColumns
  let numericColumnNames := getSortedKeys schema.NumericColumns
  let allColumnNames := stringColumnNames ++ numericColumnNames
  let layout := offsetLoop (columnToType schema) allColumnNames 0
  let rowSize := layout.2.2
  let tableSize := rowCount * rowSize
  { rows := if filePath = "" then List.replicate tableSize 0
            else CreateMemoryMappedFactTableStorage filePath tableSize
    FilePath := filePath
    NextInsertPosition := 0
    Count := 0
    ColumnCount := allColumnNames.length
    Capacity := rowCount
    RowSize := rowSize
    DimensionTables := stringColumnNames.map NewDimensionTable
    ColumnNameToIndex := nameIndexLoop allColumnNames 0 []
    ColumnIndexToName := allColumnNames
    ColumnIndexToOffset := layout.1
    ColumnIndexToType := layout.2.1 }

/-! ## core.go: ring storage -/

def FactTable.getRowOffset (table : FactTable) (row : Nat) : Nat := row * table.RowSize

/-- The slice expression `table.Rows()[rowOffset : rowOffset+table.RowSize]`, read as a
value; it panics when the bounds leave the buffer. -/
def FactTable.getRowSlice (table : FactTable) (row : Nat) : Result (List Byte) :=
  let rowOffset := table.getRowOffset row
  if rowOffset + table.RowSize ≤ table.Rows.length then
    .ok ((table.Rows.drop rowOffset).take table.RowSize)
  else .panic "slice bounds out of range"

/-- The builtin `copy(dst, src)` where `dst` is the view `buf[off : off+n]`: it copies
`min n (len src)` bytes and leaves the rest of `buf` alone. -/
def copyInto (buf : List Byte) (off n : Nat) (src : List Byte) : List Byte :=
  buf.take off ++ src.take n ++ buf.drop (off + min n src.length)

def FactTable.insertNormalizedRow (table : FactTable) (row : List Byte) : Result FactTable :=
  match table.getRowSlice table.NextInsertPosition with
  | .panic msg => .panic msg
  | .error msg => .error msg
  | .ok _ =>
    if table.Capacity = 0 then .panic "integer divide by zero"
    else
      .ok { table with
        rows := copyInto table.rows (table.getRowOffset table.NextInsertPosition) table.RowSize row
        NextInsertPosition := (table.NextInsertPosition + 1) % table.Capacity
        Count := if table.Count < table.Capacity then table.Count + 1 else table.Count }

/-! ## core.go: row codec -/

def FactTable.columnUsesDimensionTable (table : FactTable) (columnIndex : Nat) : Bool :=
  -- This expression is valid because we put the string columns at the beginning of the row.
  decide (columnIndex < table.DimensionTables.length)

def isString (value : Untyped) : Bool :=
  match value with
  | .string _ => true
  | _ => false

/-- The name of the dynamic type of a value, as run-time messages print it. -/
def goTypeName : Untyped → String
  | .nil => "nil"
  | .string _ => "string"
  | .bool _ => "bool"
  | .float32 _ => "float32"
  | .float64 _ => "float64"
  | .uint8 _ => "uint8"
  | .uint16 _ => "uint16"
  | .uint32 _ => "uint32"
  | .uint64 _ => "uint64"
  | .int _ => "int"
  | .int8 _ => "int8"
  | .int16 _ => "int16"
  | .int32 _ => "int32"
  | .int64 _ => "int64"
  | .Cell _ => "gumshoe.Cell"

def convertUntypedToFloat64 (v : Untyped) : Result Float64 :=
  match v with
  | .float32 x => .ok x.toFloat64
  | .float64 x => .ok x
  | .uint8 n => .ok (Float64.ofInt n)
  | .uint16 n => .ok (Float64.ofInt n)
  | .uint32 n => .ok (Float64.ofInt n)
  | .uint64 n => .ok (Float64.ofInt n)
  | .int n => .ok (Float64.ofInt n)
  | .int8 n => .ok (Float64.ofInt n)
  | .int32 n => .ok (Float64.ofInt n)
  | .int64 n => .ok (Float64.ofInt n)
  | .Cell x => .ok x.toFloat64
  | .nil => .panic "Unrecognized type: %!s(<nil>)"
  | v => .panic ("Unrecognized type: " ++ goTypeName v)

/-- The type assertion `value.(float64)` succeeds. -/
def isFloat64 (value : Untyped) : Bool :=
  match value with
  | .float64 _ => true
  | _ => false

/-- The pointer read `*(*T)(rowPtr + off)`: the value that `mk` builds from the unsigned
little-endian number in the `w` bytes at `row[off ..]`. A read that leaves the row has no
defined result and is reported as a panic. -/
def loadValue (row : List Byte) (off w : Nat) (mk : Nat → Untyped) : Result Untyped :=
  if off + w ≤ row.length then .ok (mk (fromBytesLE ((row.drop off).take w)))
  else .panic "memory access outside the row"

/-- The pointer write `*(*T)(rowPtr + off) = n` of a `w`-byte little-endian number; a write
that leaves the row is reported as a panic. -/
def storeBytes (row : List Byte) (off w n : Nat) : Result (List Byte) :=
  if off + w ≤ row.length then .ok (row.take off ++ toBytesLE w n ++ row.drop (off + w))
  else .panic "memory access outside the row"

/-- The bits of the two's complement representation of `z` in `w` bits. -/
def intBits (w : Nat) (z : Int) : Nat := (z % (2 : Int) ^ w).toNat

def FactTable.getColumnValue (table : FactTable) (row : List Byte) (column : Nat) :
    Result Untyped :=
  if row.length = 0 then .panic "index out of range"
  else
    match table.ColumnIndexToOffset[column]? with
    | none => .panic "index out of range"
    | some off =>
      match table.ColumnIndexToType[column]? with
      | none => .panic "index out of range"
      | some ty =>
        if ty = Uint8Type then loadValue row off 1 (fun n => .uint8 n)
        else if ty = Int8Type then loadValue row off 1 (fun n => .int8 (toSigned 8 n))
        else if ty = Uint16Type then loadValue row off 2 (fun n => .uint16 n)
        else if ty = Int16Type then loadValue row off 2 (fun n => .int16 (toSigned 16 n))
        else if ty = Uint32Type then loadValue row off 4 (fun n => .uint32 n)
        else if ty = Int32Type then loadValue row off 4 (fun n => .int32 (toSigned 32 n))
        else if ty = Uint64Type then loadValue row off 8 (fun n => .uint64 n)
        else if ty = Int64Type then loadValue row off 8 (fun n => .int64 (toSigned 64 n))
        else if ty = Float32Type then loadValue row off 4 (fun n => .float32 ⟨n⟩)
        else if ty = Float64Type then loadValue row off 8 (fun n => .float64 ⟨n⟩)
        else .ok .nil

def FactTable.setColumnValue (table : FactTable) (row : List Byte) (column : Nat)
    (value : Float64) : Result (List Byte) :=
  if row.length = 0 then .panic "index out of range"
  else
    match table.ColumnIndexToOffset[column]? with
    | none => .panic "index out of range"
    | some off =>
      match table.ColumnIndexToType[column]? with
      | none => .panic "index out of range"
      | some ty =>
        if ty = Uint8Type then storeBytes row off 1 (value.toUint 8)
        else if ty = Int8Type then storeBytes row off 1 (intBits 8 (value.toInt 8))
        else if ty = Uint16Type then storeBytes row off 2 (value.toUint 16)
        else if ty = Int16Type then storeBytes row off 2 (intBits 16 (value.toInt 16))
        else if ty = Uint32Type then storeBytes row off 4 (value.toUint 32)
        else if ty = Int32Type then storeBytes row off 4 (intBits 32 (value.toInt 32))
        else if ty = Uint64Type then storeBytes row off 8 (value.toUint 64)
        else if ty = Int64Type then storeBytes row off 8 (intBits 64 (value.toInt 64))
        else if ty = Float32Type then storeBytes row off 4 value.toFloat32.bits
        else if ty = Float64Type then storeBytes row off 8 value.bits
        else .ok row

/-- The loop of convertRowMapToRowArray over the entries of the row map. -/
def convertLoop (table : FactTable) : GoMap String Untyped → List Untyped → Result (List Untyped)
  | [], result => .ok result
  | (columnName, value) :: rest, result =>
    match GoMap.get? table.ColumnNameToIndex columnName with
    | none => .error ("Unrecognized column name: " ++ columnName)
    | some columnIndex =>
      if columnIndex < result.length then convertLoop table rest (result.set columnIndex value)
      else .panic "index out of range"

/-- Takes a map of column names => values, and returns a vector with the map's values in the
correct column position according to the table's schema. -/
def FactTable.convertRowMapToRowArray (table : FactTable) (rowMap : GoMap String Untyped) :
    Result (List Untyped) :=
  convertLoop table rowMap (List.replicate table.ColumnCount .nil)

def DimensionTable.addRow (table : DimensionTable) (rowValue : String) : Int × DimensionTable :=
  let nextId := wrapInt 32 table.Rows.length
  (nextId, { table with
    Rows := table.Rows ++ [rowValue]
    ValueToId := GoMap.set table.ValueToId rowValue nextId })

/-- The lookup-or-insert step of normalizeRow: `ValueToId[stringValue]`, or addRow when the
string has no id yet. The dimension table is held by pointer, so the caller sees it grow. -/
def DimensionTable.lookupOrAddRow (table : DimensionTable) (stringValue : String) :
    Int × DimensionTable :=
  match GoMap.get? table.ValueToId stringValue with
  | some dimensionRowId => (dimensionRowId, table)
  | none => table.addRow stringValue

/-- The body of the loop of normalizeRow for the value of column `columnIndex`: the row
slice with that column written, and the table as the step leaves it (dimension tables grow
on the way). -/
def FactTable.normalizeColumn (table : FactTable) (columnIndex : Nat) (value : Untyped)
    (rowSlice : List Byte) : Result (List Byte) × FactTable :=
  if table.columnUsesDimensionTable columnIndex then
    match value with
    | .string stringValue =>
      match table.DimensionTables[columnIndex]? with
      | none => (.panic "index out of range", table)
      | some dimensionTable =>
        let looked := dimensionTable.lookupOrAddRow stringValue
        let dimensionRowId := looked.1
        let table1 := { table with
          DimensionTables := table.DimensionTables.set columnIndex looked.2 }
        (table1.setColumnValue rowSlice columnIndex (Float64.ofInt dimensionRowId), table1)
    | _ =>
      match table.ColumnIndexToName[columnIndex]? with
      | none => (.panic "index out of range", table)
      | some name =>
        (.error ("Cannot insert a non-string value into column " ++ name ++ "."), table)
  else
    match value with
    | .float64 valueAsFloat64 =>
      (table.setColumnValue rowSlice columnIndex valueAsFloat64, table)
    | v =>
      (.panic ("interface conversion: interface \x7b\x7d is " ++ goTypeName v ++ ", not float64"),
        table)

/-- The loop of normalizeRow over `rowAsArray`, from column `columnIndex` on; it stops at
the first error or panic. -/
def normalizeLoop : List Untyped → Nat → List Byte → FactTable → Result (List Byte) × FactTable
  | [], _, rowSlice, table => (.ok rowSlice, table)
  | value :: rest, columnIndex, rowSlice, table =>
    match table.normalizeColumn columnIndex value rowSlice with
    | (.ok rowSlice1, table1) => normalizeLoop rest (columnIndex + 1) rowSlice1 table1
    | (.error msg, table1) => (.error msg, table1)
    | (.panic msg, table1) => (.panic msg, table1)

/-- Takes a row of mixed types and replaces all string columns with the id of the matching
string in the corresponding dimension table (creating a new row in the dimension table if
needed). Returns the outcome together with the table as the call leaves it. -/
def FactTable.normalizeRow (table : FactTable) (rowMap : GoMap String Untyped) :
    Result (List Byte) × FactTable :=
  match table.convertRowMapToRowArray rowMap with
  | .ok rowAsArray => normalizeLoop rowAsArray 0 (List.replicate table.RowSize 0) table
  | .error msg => (.error msg, table)
  | .panic msg => (.panic msg, table)

/-- The index expression `rows[index]` on a slice of strings with an `int` index; it panics
when the index is out of range. -/
def indexStrings (rows : List String) (index : Int) : Result String :=
  if index < 0 then .panic "index out of range"
  else
    match rows[index.toNat]? with
    | some s => .ok s
    | none => .panic "index out of range"

/-- Given a column value from a row vector, return either the column value if it is a
numeric column, or the corresponding string if it is a normalized string column. -/
def FactTable.denormalizeColumnValue (table : FactTable) (value : Untyped) (columnIndex : Nat) :
    Result Untyped :=
  if table.columnUsesDimensionTable columnIndex then
    match table.DimensionTables[columnIndex]? with
    | none => .panic "index out of range"
    | some dimensionTable =>
      match convertUntypedToFloat64 value with
      | .ok f =>
        match indexStrings dimensionTable.Rows (f.toInt 64) with
        | .ok s => .ok (.string s)
        | .error msg => .error msg
        | .panic msg => .panic msg
      | .error msg => .error msg
      | .panic msg => .panic msg
  else .ok value

/-- The loop of DenormalizeRow over the column indices still to visit. -/
def denormalizeLoop (table : FactTable) (row : List Byte) :
    List Nat → GoMap String Untyped → Result (GoMap String Untyped)
  | [], result => .ok result
  | i :: rest, result =>
    match table.ColumnIndexToName[i]? with
    | none => .panic "index out of range"
    | some name =>
      match table.getColumnValue row i with
      | .ok value =>
        match table.denormalizeColumnValue value i with
        | .ok v => denormalizeLoop table row rest (GoMap.set result name v)
        | .error msg => .error msg
        | .panic msg => .panic msg
      | .error msg => .error msg
      | .panic msg => .panic msg

/-- Takes a normalized row vector and returns a map consisting of column names and values
pulled from the dimension tables. -/
def FactTable.DenormalizeRow (table : FactTable) (row : List Byte) :
    Result (GoMap String Untyped) :=
  denormalizeLoop table row (List.range table.ColumnCount) []

/-- The loop of GetRowMaps from row `i` over `n` further rows. -/
def FactTable.getRowMapsLoop (table : FactTable) :
    Nat → Nat → List (GoMap String Untyped) → Result (List (GoMap String Untyped))
  | 0, _, results => .ok results
  | n + 1, i, results =>
    match table.getRowSlice i with
    | .ok row =>
      match table.DenormalizeRow row with
      | .ok rowMap => FactTable.getRowMapsLoop table n (i + 1) (results ++ [rowMap])
      | .error msg => .error msg
      | .panic msg => .panic msg
    | .error msg => .error msg
    | .panic msg => .panic msg

/-- Return a set of row maps. Useful for debugging the contents of the table. The row
indices are natural numbers here: with a negative `start` the first slice expression of the
source panics. -/
def FactTable.GetRowMaps (table : FactTable) (start end' : Nat) :
    Result (List (GoMap String Untyped)) :=
  if start > end' then .panic "Invalid row indices passed to GetRowMaps"
  else table.getRowMapsLoop (end' - start) start []

/-- The index `int(convertUntypedToFloat64(value))` that denormalizeColumnValue computes for
the value that getColumnValue reads in column `columnIndex` of `row`. -/
def FactTable.storedId (table : FactTable) (row : List Byte) (columnIndex : Nat) : Result Int :=
  (table.getColumnValue row columnIndex).bind (fun value =>
    (convertUntypedToFloat64 value).map (fun f => f.toInt 64))

/-- Inserts the given rows into the table: each row is normalized and written to the ring;
the call stops at the first row that fails and returns its error, with the earlier rows in
place. The lock is left out: calls do not overlap here. -/
def FactTable.InsertRowMaps (table : FactTable) :
    List (GoMap String Untyped) → Result Unit × FactTable
  | [] => (.ok (), table)
  | rowMap :: rest =>
    match table.normalizeRow rowMap with
    | (.ok normalizedRow, table1) =>
      match table1.insertNormalizedRow normalizedRow with
      | .ok table2 => FactTable.InsertRowMaps table2 rest
      | .error msg => (.error msg, table1)
      | .panic msg => (.panic msg, table1)
    | (.error msg, table1) => (.error msg, table1)
    | (.panic msg, table1) => (.panic msg, table1)

/-! ## core.go: queries -/

/-- The struct `RowAggregate`. -/
structure RowAggregate where
  GroupByValue : Float32
  Sums : List Float64
  Count : Nat
  deriving Repr, DecidableEq

/-- The type `FactTableFilterFunc`: a predicate on the address of a row. An address is the
byte offset from the start of `table.rows`. A call of the nil function and a read outside the
buffer have no result and are reported as a panic. -/
abbrev FactTableFilterFunc := Nat → Result Bool

/-- Modelled from the spec: the declaration of `QueryAggregate` is not among the sources.
Section 6 names its fields `type`, `column` and `name`, and the tests build it in that order.
`Type` is a reserved word in Lean, hence the spelling of the first field. -/
structure QueryAggregate where
  Type' : String
  Column : String
  Name : String
  deriving Repr, DecidableEq

/-- Modelled from the spec: the declaration of `QueryGrouping` is not among the sources.
Section 6 names its fields `timeTransform`, `column` and `name`. -/
structure QueryGrouping where
  TimeTransform : String
  Column : String
  Name : String
  deriving Repr, DecidableEq

/-- The dynamic types of the field `Value` of a filter that the code tells apart: a single
value, or the `[]interface{}` of an "in" filter. -/
inductive QueryValue where
  | scalar (v : Untyped)
  | list (vs : List Untyped)
  deriving Repr, DecidableEq

/-- Modelled from the spec: the declaration of `QueryFilter` is not among the sources.
Section 6 names its fields `type`, `column` and `value`. -/
structure QueryFilter where
  Type' : String
  Column : String
  Value : QueryValue
  deriving Repr, DecidableEq

/-- Modelled from the spec: the declaration of `Query` is not among the sources. Section 6
names its fields `table`, `aggregates`, `groupings` and `filters`. -/
structure Query where
  TableName : String
  Aggregates : List QueryAggregate
  Groupings : List QueryGrouping
  Filters : List QueryFilter
  deriving Repr, DecidableEq

/-- The pointer read `*(*Cell)(unsafe.Pointer(addr))` of the four bytes at offset `addr` of
the buffer. A read that leaves the buffer has no defined result and is reported as a panic;
`FactTable.withAdjacent` puts the bytes behind the buffer within reach of the read. -/
def readCell (mem : List Byte) (addr : Nat) : Result Float32 :=
  if addr + 4 ≤ mem.length then .ok ⟨fromBytesLE ((mem.drop addr).take 4)⟩
  else .panic "memory access outside the table"

/-- The bucket `new(RowAggregate)` with `Sums = make([]float64, table.ColumnCount)`. -/
def FactTable.newRowAggregate (table : FactTable) (groupByValue : Float32) : RowAggregate :=
  { GroupByValue := groupByValue, Sums := List.replicate table.ColumnCount ⟨0⟩, Count := 0 }

/-- The loop of scan over the filters for the row at `rowPtr`: it stops at the first filter
that rejects the row. -/
def passesFilters : List FactTableFilterFunc → Nat → Result Bool
  | [], _ => .ok true
  | filter :: rest, rowPtr =>
    match filter rowPtr with
    | .ok true => passesFilters rest rowPtr
    | .ok false => .ok false
    | .error msg => .error msg
    | .panic msg => .panic msg

/-- The loop of scan over the queried columns for the row at `rowPtr`: each column is read as
a `Cell` at byte `4 * columnIndex` of the row and added to its sum. -/
def sumColumns (mem : List Byte) (rowPtr : Nat) : List Nat → RowAggregate → Result RowAggregate
  | [], rowAggregate => .ok rowAggregate
  | columnIndex :: rest, rowAggregate =>
    match readCell mem (rowPtr + 4 * columnIndex) with
    | .ok columnValue =>
      match rowAggregate.Sums[columnIndex]? with
      | some sum =>
        sumColumns mem rowPtr rest
          { rowAggregate with
            Sums := rowAggregate.Sums.set columnIndex (sum.add columnValue.toFloat64) }
      | none => .panic "index out of range"
    | .error msg => .error msg
    | .panic msg => .panic msg

/-- What scan does to the bucket of a row that passed the filters: the sums, then
`Count++`. -/
def accumulateRow (mem : List Byte) (rowPtr : Nat) (columnIndices : List Nat)
    (rowAggregate : RowAggregate) : Result RowAggregate :=
  (sumColumns mem rowPtr columnIndices rowAggregate).map
    (fun r => { r with Count := r.Count + 1 })

/-- The map `rowAggregatesMap` of scan, in the order the buckets were created. Its keys are
`Cell`s, which a Go map compares with `==`. -/
abbrev RowAggregatesMap := List (Float32 × RowAggregate)

/-- Looks the bucket of `groupByValue` up, creates it (`fresh`) when there is none, and
applies `accumulate` to it. -/
def accumulateInto (groupByValue : Float32) (accumulate : RowAggregate → Result RowAggregate)
    (fresh : RowAggregate) : RowAggregatesMap → Result RowAggregatesMap
  | [] => (accumulate fresh).map (fun r => [(groupByValue, r)])
  | (key, rowAggregate) :: rest =>
    if key.eq groupByValue then (accumulate rowAggregate).map (fun r => (key, r) :: rest)
    else (accumulateInto groupByValue accumulate fresh rest).map (fun m => (key, rowAggregate) :: m)

/-- The variables of scan that change from row to row: the bucket used without grouping and
the map of buckets used with grouping. -/
structure ScanState where
  rowAggregate : RowAggregate
  rowAggregatesMap : RowAggregatesMap
  deriving Repr, DecidableEq

/-- The part of the loop body of scan that follows the filters: the row at `rowPtr` is added
to its bucket. -/
def FactTable.scanAccumulate (table : FactTable) (columnIndices : List Nat) (useGrouping : Bool)
    (columnIndexToGroupBy : Nat) (groupByColumnTransformFn : Option (Float32 → Result Float32))
    (state : ScanState) (rowPtr : Nat) : Result ScanState :=
  if useGrouping then
    match readCell table.rows (rowPtr + columnIndexToGroupBy * 4) with
    | .ok cell =>
      match (match groupByColumnTransformFn with
             | some transform => transform cell
             | none => .ok cell) with
      | .ok groupByValue =>
        (accumulateInto groupByValue (accumulateRow table.rows rowPtr columnIndices)
          (table.newRowAggregate groupByValue) state.rowAggregatesMap).map
          (fun m => { state with rowAggregatesMap := m })
      | .error msg => .error msg
      | .panic msg => .panic msg
    | .error msg => .error msg
    | .panic msg => .panic msg
  else
    (accumulateRow table.rows rowPtr columnIndices state.rowAggregate).map
      (fun r => { state with rowAggregate := r })

/-- The loop body of scan for the row at `rowPtr`. -/
def FactTable.scanRow (table : FactTable) (filters : List FactTableFilterFunc)
    (columnIndices : List Nat) (useGrouping : Bool) (columnIndexToGroupBy : Nat)
    (groupByColumnTransformFn : Option (Float32 → Result Float32))
    (state : ScanState) (rowPtr : Nat) : Result ScanState :=
  match passesFilters filters rowPtr with
  | .ok true =>
    table.scanAccumulate columnIndices useGrouping columnIndexToGroupBy
      groupByColumnTransformFn state rowPtr
  | .ok false => .ok state
  | .error msg => .error msg
  | .panic msg => .panic msg

/-- The outer loop of scan with `remaining` rows to go, the next one at `rowPtr`. -/
def FactTable.scanLoop (table : FactTable) (filters : List FactTableFilterFunc)
    (columnIndices : List Nat) (useGrouping : Bool) (columnIndexToGroupBy : Nat)
    (groupByColumnTransformFn : Option (Float32 → Result Float32)) :
    Nat → Nat → ScanState → Result ScanState
  | 0, _, state => .ok state
  | remaining + 1, rowPtr, state =>
    match table.scanRow filters columnIndices useGrouping columnIndexToGroupBy
        groupByColumnTransformFn state rowPtr with
    | .ok state1 =>
      FactTable.scanLoop table filters columnIndices useGrouping columnIndexToGroupBy
        groupByColumnTransformFn remaining (rowPtr + table.RowSize) state1
    | .error msg => .error msg
    | .panic msg => .panic msg

/-- Scans all rows in the table, aggregating columns, filtering and grouping rows. The
buckets of a grouped scan are returned in the order of their creation, one of the orders the
iteration over the map can take. -/
def FactTable.scan (table : FactTable) (filters : List FactTableFilterFunc)
    (columnIndices : List Nat) (groupByColumnName : String)
    (groupByColumnTransformFn : Option (Float32 → Result Float32)) : Result (List RowAggregate) :=
  let found := GoMap.get? table.ColumnNameToIndex groupByColumnName
  let columnIndexToGroupBy := found.getD 0
  let useGrouping := found.isSome
  (table.scanLoop filters columnIndices useGrouping columnIndexToGroupBy
      groupByColumnTransformFn table.Count 0
      { rowAggregate := table.newRowAggregate ⟨0⟩, rowAggregatesMap := [] }).map
    (fun state =>
      if useGrouping then state.rowAggregatesMap.map Prod.snd else [state.rowAggregate])

def FactTable.getColumnIndicesFromQuery (table : FactTable) (query : Query) : List Nat :=
  query.Aggregates.map (fun queryAggregate =>
    GoMap.index table.ColumnNameToIndex queryAggregate.Column)

/-- The loop of mapRowAggregatesToJSONResultsFormat over the aggregates of the query. -/
def FactTable.formatAggregates (table : FactTable) (rowAggregate : RowAggregate) :
    List QueryAggregate → GoMap String Untyped → Result (GoMap String Untyped)
  | [], jsonRow => .ok jsonRow
  | queryAggregate :: rest, jsonRow =>
    match rowAggregate.Sums[GoMap.index table.ColumnNameToIndex queryAggregate.Column]? with
    | none => .panic "index out of range"
    | some sums =>
      if queryAggregate.Type' = "sum" then
        FactTable.formatAggregates table rowAggregate rest
          (GoMap.set jsonRow queryAggregate.Name (.float64 sums))
      else if queryAggregate.Type' = "average" then
        FactTable.formatAggregates table rowAggregate rest
          (GoMap.set jsonRow queryAggregate.Name
            (.float64 (sums.div (Float64.ofInt rowAggregate.Count))))
      else FactTable.formatAggregates table rowAggregate rest jsonRow

/-- The loop of mapRowAggregatesToJSONResultsFormat over the groupings of the query. -/
def FactTable.formatGroupings (table : FactTable) (rowAggregate : RowAggregate) :
    List QueryGrouping → GoMap String Untyped → Result (GoMap String Untyped)
  | [], jsonRow => .ok jsonRow
  | grouping :: rest, jsonRow =>
    match table.denormalizeColumnValue (.Cell rowAggregate.GroupByValue)
        (GoMap.index table.ColumnNameToIndex grouping.Column) with
    | .ok value =>
      FactTable.formatGroupings table rowAggregate rest (GoMap.set jsonRow grouping.Name value)
    | .error msg => .error msg
    | .panic msg => .panic msg

/-- The body of the loop of mapRowAggregatesToJSONResultsFormat: the result row of one
bucket. -/
def FactTable.formatRow (table : FactTable) (query : Query) (rowAggregate : RowAggregate) :
    Result (GoMap String Untyped) :=
  match table.formatAggregates rowAggregate query.Aggregates [] with
  | .ok jsonRow =>
    (table.formatGroupings rowAggregate query.Groupings jsonRow).map
      (fun jsonRow1 => GoMap.set jsonRow1 "rowCount" (.int rowAggregate.Count))
  | .error msg => .error msg
  | .panic msg => .panic msg

def FactTable.mapRowAggregatesToJSONResultsFormat (table : FactTable) (query : Query) :
    List RowAggregate → Result (List (GoMap String Untyped))
  | [] => .ok []
  | rowAggregate :: rest =>
    match table.formatRow query rowAggregate with
    | .ok jsonRow =>
      (FactTable.mapRowAggregatesToJSONResultsFormat table query rest).map
        (fun jsonRows => jsonRow :: jsonRows)
    | .error msg => .error msg
    | .panic msg => .panic msg

/-- Given a list of values, looks up the corresponding row IDs for those values. If those
values do not exist in the dimension table, they are omitted. -/
def DimensionTable.getDimensionRowIdsForValues (table : DimensionTable) (values : List String) :
    List Float32 :=
  values.filterMap (fun value => (GoMap.get? table.ValueToId value).map Float32.ofInt)

/-- The loop of type assertions `value.(string)` over the values of an "in" filter. -/
def assertStrings : List Untyped → Result (List String)
  | [] => .ok []
  | .string s :: rest => (assertStrings rest).map (fun ss => s :: ss)
  | v :: _ =>
    .panic ("interface conversion: interface \x7b\x7d is " ++ goTypeName v ++ ", not string")

/-- The loop of conversions `Cell(convertUntypedToFloat64(value))` over the values of an
"in" filter. -/
def convertCells : List Untyped → Result (List Float32)
  | [] => .ok []
  | value :: rest =>
    match convertUntypedToFloat64 value with
    | .ok f => (convertCells rest).map (fun cells => f.toFloat32 :: cells)
    | .error msg => .error msg
    | .panic msg => .panic msg

/-- The `switch` of convertQueryFilterToFilterFunc on the filter type: the comparison the
filter applies to the `Cell` of a row, or `none` when no case matches and the function stays
nil. -/
def filterTest (filterType : String) (valueAsCell : Float32) (valueAsCells : List Float32) :
    Option (Float32 → Bool) :=
  if filterType = "greaterThan" ∨ filterType = ">" then
    some (fun columnValue => columnValue.gt valueAsCell)
  else if filterType = "greaterThanOrEqualTo" ∨ filterType = ">=" then
    some (fun columnValue => columnValue.ge valueAsCell)
  else if filterType = "lessThan" ∨ filterType = "<" then
    some (fun columnValue => columnValue.lt valueAsCell)
  else if filterType = "lessThanOrEqualTo" ∨ filterType = "<=" then
    some (fun columnValue => columnValue.le valueAsCell)
  else if filterType = "notequal" ∨ filterType = "!=" then
    some (fun columnValue => columnValue.ne valueAsCell)
  else if filterType = "equal" ∨ filterType = "=" then
    some (fun columnValue => columnValue.eq valueAsCell)
  else if filterType = "in" then
    some (fun columnValue => valueAsCells.any (fun cell => columnValue.eq cell))
  else none

/-- The tail of convertQueryFilterToFilterFunc, from `columnOffset := ...` on: the closure
over the column offset and the value or values to compare with. -/
def FactTable.filterFunc (table : FactTable) (filterType : String) (columnIndex : Nat)
    (valueAsCell : Float32) (valueAsCells : List Float32) : Result FactTableFilterFunc :=
  match table.ColumnIndexToOffset[columnIndex]? with
  | none => .panic "index out of range"
  | some columnOffset =>
    match filterTest filterType valueAsCell valueAsCells with
    | some test => .ok (fun row => (readCell table.rows (row + columnOffset)).map test)
    | none => .ok (fun _ => .panic "invalid memory address or nil pointer dereference")

/-- Given a QueryFilter, return a filter function that can be tested against a row. The
closures read the rows the table holds when the filter is made. -/
def convertQueryFilterToFilterFunc (queryFilter : QueryFilter) (table : FactTable) :
    Result FactTableFilterFunc :=
  let columnIndex := GoMap.index table.ColumnNameToIndex queryFilter.Column
  if queryFilter.Type' = "in" then
    match queryFilter.Value with
    | .list untypedQueryValues =>
      if (untypedQueryValues.head?.map isString).getD false then
        match assertStrings untypedQueryValues with
        | .ok queryValuesAstrings =>
          match table.DimensionTables[columnIndex]? with
          | some dimensionTable =>
            table.filterFunc queryFilter.Type' columnIndex ⟨0⟩
              (dimensionTable.getDimensionRowIdsForValues queryValuesAstrings)
          | none => .panic "index out of range"
        | .error msg => .error msg
        | .panic msg => .panic msg
      else
        match convertCells untypedQueryValues with
        | .ok valueAsCells => table.filterFunc queryFilter.Type' columnIndex ⟨0⟩ valueAsCells
        | .error msg => .error msg
        | .panic msg => .panic msg
    | .scalar v =>
      .panic ("interface conversion: interface \x7b\x7d is " ++ goTypeName v
        ++ ", not []interface \x7b\x7d")
  else
    match queryFilter.Value with
    | .scalar (.string s) =>
      match table.DimensionTables[columnIndex]? with
      | some dimensionTable =>
        match dimensionTable.getDimensionRowIdsForValues [s] with
        | [] => .ok (fun _ => .ok false)
        | valueAsCell :: _ => table.filterFunc queryFilter.Type' columnIndex valueAsCell []
      | none => .panic "index out of range"
    | .scalar v =>
      match convertUntypedToFloat64 v with
      | .ok f => table.filterFunc queryFilter.Type' columnIndex f.toFloat32 []
      | .error msg => .error msg
      | .panic msg => .panic msg
    | .list _ => .panic "Unrecognized type: []interface \x7b\x7d"

/-- Returns a function which, given a cell, performs a date-truncation transformation.
`transformFunctionName` is one of minute, hour, day; for another name the divisor stays 0 and
the remainder panics. -/
def convertTimeTransformToFunc (transformFunctionName : String) : Float32 → Result Float32 :=
  let divisor : Int :=
    if transformFunctionName = "minute" then 60
    else if transformFunctionName = "hour" then 60 * 60
    else if transformFunctionName = "day" then 60 * 60 * 24
    else 0
  fun cell =>
    let cellInt := cell.toInt 64
    if divisor = 0 then .panic "integer divide by zero"
    else .ok (Float32.ofInt (cellInt - Int.tmod cellInt divisor))

/-- The loop of InvokeQuery that turns the filters of the query into functions. -/
def convertFilters (table : FactTable) : List QueryFilter → Result (List FactTableFilterFunc)
  | [] => .ok []
  | queryFilter :: rest =>
    match convertQueryFilterToFilterFunc queryFilter table with
    | .ok f => (convertFilters table rest).map (fun fs => f :: fs)
    | .error msg => .error msg
    | .panic msg => .panic msg

/-- Runs a query: the value stored under "results" in the map that InvokeQuery returns. The
query runs on the rows the table holds at the call. -/
def FactTable.InvokeQuery (table : FactTable) (query : Query) :
    Result (List (GoMap String Untyped)) :=
  let columnIndices := table.getColumnIndicesFromQuery query
  let groupByColumn := (query.Groupings.head?.map (fun grouping => grouping.Column)).getD ""
  let groupByTransformFunc : Option (Float32 → Result Float32) :=
    match query.Groupings with
    | grouping :: _ =>
      if grouping.TimeTransform ≠ "" then some (convertTimeTransformToFunc grouping.TimeTransform)
      else none
    | [] => none
  match convertFilters table query.Filters with
  | .ok filterFuncs =>
    match table.scan filterFuncs columnIndices groupByColumn groupByTransformFunc with
    | .ok results => table.mapRowAggregatesToJSONResultsFormat query results
    | .error msg => .error msg
    | .panic msg => .panic msg
  | .error msg => .error msg
  | .panic msg => .panic msg

/-! ## dimension_table.go

This file declares its own `DimensionTable` (fields `Values` and `ValueToIndex`); it is kept
apart from the one of core.go by a namespace. -/

namespace dimension_table

/-- The struct `DimensionTable` of dimension_table.go. Indices are `int32` values. -/
structure DimensionTable where
  Values : List String
  ValueToIndex : GoMap String Int
  deriving Repr, DecidableEq

def newDimensionTable : DimensionTable :=
  { Values := [], ValueToIndex := [] }

def DimensionTable.Get (t : DimensionTable) (s : String) : Int × Bool :=
  match GoMap.get? t.ValueToIndex s with
  | some i => (i, true)
  | none => (0, false)

/-- Returns `(index, alreadyExisted)` and the table as the call leaves it. -/
def DimensionTable.GetAndMaybeSet (t : DimensionTable) (s : String) :
    (Int × Bool) × DimensionTable :=
  match GoMap.get? t.ValueToIndex s with
  | some i => ((i, true), t)
  | none =>
    let i := wrapInt 32 t.Values.length
    ((i, false), { Values := t.Values ++ [s], ValueToIndex := GoMap.set t.ValueToIndex s i })

/-- The table after GetAndMaybeSet was called with each string of `ss` in turn. -/
def DimensionTable.afterCalls (t : DimensionTable) (ss : List String) : DimensionTable :=
  ss.foldl (fun t s => (t.GetAndMaybeSet s).2) t

/-- The strings `a`, `aa`, `aaa`, ... : `n` pairwise distinct strings. -/
def distinctStrings (n : Nat) : List String :=
  (List.range n).map (fun i => String.mk (List.replicate (i + 1) 'a'))

/-- The loop of UnmarshalJSON over `d.Values`, started at index `i`: fills `ValueToIndex`. -/
def unmarshalLoop : List String → Nat → GoMap String Int → GoMap String Int
  | [], _, m => m
  | value :: rest, i, m => unmarshalLoop rest (i + 1) (GoMap.set m value (wrapInt 32 i))

/-- Loads the table from JSON. The library call `json.Unmarshal(b, &v)` is not part of the
program: its outcome on the bytes `b`, either the decoded `Values` or an error, is the
argument `decoded`. -/
def DimensionTable.UnmarshalJSON (d : DimensionTable) (decoded : Result (List String)) :
    Result Unit × DimensionTable :=
  match decoded with
  | .ok values => (.ok (), { Values := values, ValueToIndex := unmarshalLoop values 0 [] })
  | .error msg => (.error msg, d)
  | .panic msg => (.panic msg, d)

end dimension_table

/-! ## Runs of calls -/

/-- Calls insertNormalizedRow once per row of `rows`, in order, stopping at a panic. -/
def FactTable.insertNormalizedRows (table : FactTable) : List (List Byte) → Result FactTable
  | [] => .ok table
  | row :: rest =>
    match table.insertNormalizedRow row with
    | .ok table1 => FactTable.insertNormalizedRows table1 rest
    | .error msg => .error msg
    | .panic msg => .panic msg

/-- The core.go table after the lookup-or-insert step of normalizeRow ran for each string of
`ss` in turn. -/
def DimensionTable.afterRows (table : DimensionTable) (ss : List String) : DimensionTable :=
  ss.foldl (fun t s => (t.lookupOrAddRow s).2) table

/-- Adds the rows at the given addresses to their buckets one after the other, as scan does
with the rows that passed the filters; it stops at the first panic. -/
def FactTable.accumulateRows (table : FactTable) (columnIndices : List Nat) (useGrouping : Bool)
    (columnIndexToGroupBy : Nat) (groupByColumnTransformFn : Option (Float32 → Result Float32)) :
    List Nat → ScanState → Result ScanState
  | [], state => .ok state
  | rowPtr :: rest, state =>
    match table.scanAccumulate columnIndices useGrouping columnIndexToGroupBy
        groupByColumnTransformFn state rowPtr with
    | .ok state1 =>
      FactTable.accumulateRows table columnIndices useGrouping columnIndexToGroupBy
        groupByColumnTransformFn rest state1
    | .error msg => .error msg
    | .panic msg => .panic msg

/-- The keys of the buckets of a grouped scan after one more row with the key
`groupByValue`: a key that equals none of those present is added at the end. -/
def insertKey (keys : List Float32) (groupByValue : Float32) : List Float32 :=
  if keys.any (fun key => key.eq groupByValue) then keys else keys ++ [groupByValue]

/-- The group-by key scan computes for the row at `rowPtr`: the `Cell` at byte
`4 * columnIndexToGroupBy` of the row, passed through the transform when there is one. -/
def FactTable.groupByValueAt (table : FactTable) (columnIndexToGroupBy : Nat)
    (groupByColumnTransformFn : Option (Float32 → Result Float32)) (rowPtr : Nat) :
    Result Float32 :=
  match readCell table.rows (rowPtr + columnIndexToGroupBy * 4) with
  | .ok cell =>
    match groupByColumnTransformFn with
    | some transform => transform cell
    | none => .ok cell
  | .error msg => .error msg
  | .panic msg => .panic msg

/-- The table after one call of InsertRowMaps per batch, in order, whatever the outcome of
each call. -/
def FactTable.afterBatches (table : FactTable) (batches : List (List (GoMap String Untyped))) :
    FactTable :=
  batches.foldl (fun t batch => (t.InsertRowMaps batch).2) table

/-! ## The buckets of a scan, stated over the rows

The definitions named `spec...` do not follow the code of scan but the words of the
specification: they say over the rows of the table which rows a scan adds up and what its
buckets hold, for comparison with `FactTable.scan`. -/

/-- The table together with the bytes `adjacent` that lie behind its buffer in memory. The
queries read four bytes at a computed address without a bounds check, and a read near the end
of the buffer runs on into these bytes. -/
def FactTable.withAdjacent (table : FactTable) (adjacent : List Byte) : FactTable :=
  { table with rows := table.rows ++ adjacent }

/-- The `float32` spelled by the four bytes at the address `addr` of the memory. -/
def cellAt (mem : List Byte) (addr : Nat) : Float32 :=
  ⟨fromBytesLE ((mem.drop addr).take 4)⟩

/-- Specification side. The rows a scan is to add up: those with index in `[0, Count)` on
which every filter returns true. -/
def FactTable.specPassingRows (table : FactTable) (filters : List FactTableFilterFunc) :
    List Nat :=
  (List.range table.Count).filter
    (fun i => filters.all (fun f => decide (f (i * table.RowSize) = .ok true)))

/-- Specification side. The sum of column `k` over the rows `rows`: starting from zero, for
each row in turn the cell at byte `4 * k` of the row is added as a `float64`, once for every
occurrence of `k` among the queried columns. -/
def FactTable.specColumnSum (table : FactTable) (columnIndices : List Nat) (k : Nat)
    (rows : List Nat) : Float64 :=
  (rows.flatMap (fun i => (columnIndices.filter (fun c => c = k)).map
      (fun _ => (cellAt table.rows (i * table.RowSize + 4 * k)).toFloat64))).foldl
    Float64.add ⟨0⟩

/-- Specification side. The bucket with the key `groupByValue` that holds the rows `rows`:
a sum for every column of the table and the number of the rows. -/
def FactTable.specBucket (table : FactTable) (columnIndices : List Nat)
    (groupByValue : Float32)
    (rows : List Nat) : RowAggregate :=
  { GroupByValue := groupByValue
    Sums := (List.range table.ColumnCount).map
      (fun k => table.specColumnSum columnIndices k rows)
    Count := rows.length }

/-- Specification side. Row `j` belongs to the group of row `h`: it is that row, or its key
equals the key of `h` under `==` (a NaN equals nothing, so a row with a NaN key is alone in
its group). -/
def specSameGroup (key : Nat → Float32) (h j : Nat) : Bool :=
  decide (j = h) || (key h).eq (key j)

/-- Specification side. The first row of every group among the rows `rows` (given in rising
order): the rows whose key equals the key of no earlier row. -/
def specGroupLeaders (key : Nat → Float32) (rows : List Nat) : List Nat :=
  rows.filter (fun h => rows.all (fun j => decide (h ≤ j) || !(key j).eq (key h)))

/-- Specification side. The rows of `rows` in the group of row `h`. -/
def specGroupMembers (key : Nat → Float32) (rows : List Nat) (h : Nat) : List Nat :=
  rows.filter (specSameGroup key h)

/-- Specification side. The buckets of a grouped scan over the rows `rows`: one for every
group, with the key of the first row of the group and the rows of the group added up in row
order. -/
def FactTable.specGroupBuckets (table : FactTable) (columnIndices : List Nat)
    (key : Nat → Float32) (rows : List Nat) : List RowAggregate :=
  (specGroupLeaders key rows).map
    (fun h => table.specBucket columnIndices (key h) (specGroupMembers key rows h))

/-! ## Invariants -/

/-- Storage invariant of a table: the buffer holds `Capacity` rows and the write cursor
addresses one of them. -/
structure FactTable.RingOK (table : FactTable) : Prop where
  len : table.rows.length = table.Capacity * table.RowSize
  pos : table.NextInsertPosition < table.Capacity

/-- Layout facts of a table that the row codec relies on: the per-column vectors have
`ColumnCount` entries, the string columns come first, every column's bytes lie within the
row, and every element type is one of the ten type constants. -/
structure FactTable.LayoutOK (table : FactTable) : Prop where
  offsets : table.ColumnIndexToOffset.length = table.ColumnCount
  types : table.ColumnIndexToType.length = table.ColumnCount
  names : table.ColumnIndexToName.length = table.ColumnCount
  dims : table.DimensionTables.length ≤ table.ColumnCount
  fits : ∀ i off ty : Nat, table.ColumnIndexToOffset[i]? = some off →
    table.ColumnIndexToType[i]? = some ty → off + GoMap.index typeSizes ty ≤ table.RowSize
  valid : ∀ ty, ty ∈ table.ColumnIndexToType → ty ≤ Float64Type

/-- The table has the shape NewFactTable gives a table of this schema: the same column
count, row size, name and index maps, offsets and element types, and one dimension table per
string column. Its rows, counters and the contents of its dimension tables are free, so every
table that NewFactTable returned and inserts have since changed is covered. -/
structure FactTable.HasLayoutOf (table : FactTable) (schema : Schema) : Prop where
  columnCount : table.ColumnCount
    = (NewFactTable table.FilePath table.Capacity schema).ColumnCount
  rowSize : table.RowSize = (NewFactTable table.FilePath table.Capacity schema).RowSize
  nameToIndex : table.ColumnNameToIndex
    = (NewFactTable table.FilePath table.Capacity schema).ColumnNameToIndex
  indexToName : table.ColumnIndexToName
    = (NewFactTable table.FilePath table.Capacity schema).ColumnIndexToName
  indexToOffset : table.ColumnIndexToOffset
    = (NewFactTable table.FilePath table.Capacity schema).ColumnIndexToOffset
  indexToType : table.ColumnIndexToType
    = (NewFactTable table.FilePath table.Capacity schema).ColumnIndexToType
  dimensionTables : table.DimensionTables.length
    = (NewFactTable table.FilePath table.Capacity schema).DimensionTables.length

/-- Representation invariant shared by both dimension tables: the values are pairwise
distinct and the map sends exactly the stored strings to the `int32` of their position. -/
def InternOK (values : List String) (m : GoMap String Int) : Prop :=
  values.Nodup ∧
  ∀ s, GoMap.get? m s = if s ∈ values then some (wrapInt 32 (values.indexOf s)) else none

/-- Appends `s` unless it is already listed. -/
def appendNew (values : List String) (s : String) : List String :=
  if s ∈ values then values else values ++ [s]

/-- The element type of column `columnIndex` represents the id exactly: whenever
setColumnValue writes the id into a row, the index that denormalizeColumnValue computes
from that column of the row is the id. -/
def FactTable.holdsId (table : FactTable) (columnIndex : Nat) (id : Int) : Prop :=
  ∀ row row1 : List Byte, table.setColumnValue row columnIndex (Float64.ofInt id) = .ok row1 →
    table.storedId row1 columnIndex = .ok id

/-- The table `table1` is `table` after inserts: the layout is the same, and every dimension
table holds the strings it held, at the same indices, possibly followed by more, and keeps
its representation invariant. -/
structure FactTable.Extends (table table1 : FactTable) : Prop where
  filePath : table1.FilePath = table.FilePath
  capacity : table1.Capacity = table.Capacity
  columnCount : table1.ColumnCount = table.ColumnCount
  rowSize : table1.RowSize = table.RowSize
  nameToIndex : table1.ColumnNameToIndex = table.ColumnNameToIndex
  indexToName : table1.ColumnIndexToName = table.ColumnIndexToName
  indexToOffset : table1.ColumnIndexToOffset = table.ColumnIndexToOffset
  indexToType : table1.ColumnIndexToType = table.ColumnIndexToType
  dimsLength : table1.DimensionTables.length = table.DimensionTables.length
  grow : ∀ (i : Nat) (d : DimensionTable), table.DimensionTables[i]? = some d →
    ∃ d1 : DimensionTable, table1.DimensionTables[i]? = some d1 ∧ d.Rows <+: d1.Rows ∧
      (InternOK d.Rows d.ValueToId → InternOK d1.Rows d1.ValueToId)

/-- Every dimension table of the table satisfies the representation invariant. -/
def FactTable.DimsOK (table : FactTable) : Prop :=
  ∀ (i : Nat) (d : DimensionTable), table.DimensionTables[i]? = some d →
    InternOK d.Rows d.ValueToId

/-- The element type of every string column represents every id assigned so far exactly:
the id of the string at index `n` of a dimension table is `int32(n)`. -/
def FactTable.Exact (table : FactTable) : Prop :=
  ∀ (i : Nat) (d : DimensionTable), table.DimensionTables[i]? = some d →
    ∀ n : Nat, n < d.Rows.length → table.holdsId i (wrapInt 32 n)

/-- The row `row` stores the row map `rowMap`: in every string column the index read back
is the id `int32(n)` of an index `n` of the dimension table of the column, and the string at
that index is the string the row map gives the column. -/
def FactTable.RowHolds (table : FactTable) (row : List Byte) (rowMap : GoMap String Untyped) :
    Prop :=
  ∀ (i : Nat) (d : DimensionTable), table.DimensionTables[i]? = some d →
    ∃ (n : Nat) (s name : String), table.storedId row i = .ok (wrapInt 32 n) ∧
      d.Rows[n]? = some s ∧ table.ColumnIndexToName[i]? = some name ∧
      GoMap.get? rowMap name = some (.string s)

/-- Invariant of the tables that inserts of the row maps `inserted` reach from a new table:
the layout of the schema, the storage invariant, the representation invariant of the
dimension tables, the write cursor at `Count` until the ring is full, and in every row below
`Count` the stored form of one of the row maps. -/
structure FactTable.IdsOK (table : FactTable) (schema : Schema)
    (inserted : List (GoMap String Untyped)) : Prop where
  layout : table.HasLayoutOf schema
  ring : table.RingOK
  dims : table.DimsOK
  count : table.Count ≤ table.Capacity
  cursor : table.Count < table.Capacity → table.NextInsertPosition = table.Count
  stored : ∀ r : Nat, r < table.Count →
    ∃ row rowMap, table.getRowSlice r = .ok row ∧ rowMap ∈ inserted ∧ table.RowHolds row rowMap

/-! ## Fixtures -/

/-- The schema of the test fixture: numeric `col1` and string `col2`, both stored in four
bytes as the tests assume. -/
def fixtureSchema : Schema :=
  { NumericColumns := [("col1", Float32Type)], StringColumns := [("col2", Float32Type)] }

/-- The fixture of the tests, with room for ten rows. -/
def tableFixture : FactTable := NewFactTable "" 10 fixtureSchema

/-- The schema of a table with one string column stored as `int16`. -/
def int16Schema : Schema :=
  { NumericColumns := [], StringColumns := [("s", Int16Type)] }

/-- The fixture after the two rows most tests insert: `(1, "stringvalue1")` and
`(2, "stringvalue2")`. -/
def twoRowFixture : FactTable :=
  (tableFixture.InsertRowMaps
    [[("col1", .float64 (Float64.ofInt 1)), ("col2", .string "stringvalue1")],
     [("col1", .float64 (Float64.ofInt 2)), ("col2", .string "stringvalue2")]]).2

/-- The query of the tests: the sum of `col1` under the given filters, without grouping. -/
def sumQuery (filters : List QueryFilter) : Query :=
  { TableName := "", Aggregates := [⟨"sum", "col1", "col1"⟩], Groupings := [],
    Filters := filters }

/-- The filters of a query as functions, or no filter at all when one of them cannot be
made. -/
def filtersOf (table : FactTable) (filters : List QueryFilter) : List FactTableFilterFunc :=
  match convertFilters table filters with
  | .ok filterFuncs => filterFuncs
  | _ => []

/-- A schema with columns of two widths: `a` is a `float64`, `b` a `float32`. -/
def mixedSchema : Schema :=
  { NumericColumns := [("a", Float64Type), ("b", Float32Type)], StringColumns := [] }

/-- A table of `mixedSchema` holding the one row `a = 1, b = 2`. -/
def mixedTable : FactTable :=
  ((NewFactTable "" 10 mixedSchema).InsertRowMaps
    [[("a", .float64 (Float64.ofInt 1)), ("b", .float64 (Float64.ofInt 2))]]).2

/-- A schema whose string column stores its ids as `uint32`. -/
def uint32Schema : Schema :=
  { NumericColumns := [], StringColumns := [("s", Uint32Type)] }

/-- A table of `uint32Schema` holding the rows `s = "a"` and `s = "b"`. -/
def uint32Table : FactTable :=
  ((NewFactTable "" 10 uint32Schema).InsertRowMaps
    [[("s", .string "a")], [("s", .string "b")]]).2

/-- A schema whose only column is named by the empty string. -/
def emptyNameSchema : Schema :=
  { NumericColumns := [("", Float32Type)], StringColumns := [] }

/-- A table of `emptyNameSchema` holding the rows 1 and 2. -/
def emptyNameTable : FactTable :=
  ((NewFactTable "" 10 emptyNameSchema).InsertRowMaps
    [[("", .float64 (Float64.ofInt 1))], [("", .float64 (Float64.ofInt 2))]]).2

/-- A schema with a numeric column named by the empty string and the string column `col2`. -/
def emptyNameStringSchema : Schema :=
  { NumericColumns := [("", Float32Type)], StringColumns := [("col2", Float32Type)] }

/-- A table of `emptyNameStringSchema` holding the rows `(1, "stringvalue1")` and
`(2, "stringvalue2")`. -/
def emptyNameStringTable : FactTable :=
  ((NewFactTable "" 10 emptyNameStringSchema).InsertRowMaps
    [[("", .float64 (Float64.ofInt 1)), ("col2", .string "stringvalue1")],
     [("", .float64 (Float64.ofInt 2)), ("col2", .string "stringvalue2")]]).2

/-- A schema with the two string columns `a` and `b`. -/
def twoStringSchema : Schema :=
  { NumericColumns := [], StringColumns := [("a", Float32Type), ("b", Float32Type)] }

/-- An empty table of `twoStringSchema`. -/
def twoStringTable : FactTable := NewFactTable "" 10 twoStringSchema

/-- The fixture after the three rows of the group-by test: `(1, "stringvalue1")`,
`(2, "stringvalue1")` and `(5, "stringvalue2")`. -/
def threeRowFixture : FactTable :=
  (tableFixture.InsertRowMaps
    [[("col1", .float64 (Float64.ofInt 1)), ("col2", .string "stringvalue1")],
     [("col1", .float64 (Float64.ofInt 2)), ("col2", .string "stringvalue1")],
     [("col1", .float64 (Float64.ofInt 5)), ("col2", .string "stringvalue2")]]).2

/-- The fixture after the three rows of the time transform test: `col1` is 0, 120 and 150,
`col2` the empty string. -/
def timeFixture : FactTable :=
  (tableFixture.InsertRowMaps
    [[("col1", .float64 (Float64.ofInt 0)), ("col2", .string "")],
     [("col1", .float64 (Float64.ofInt 120)), ("col2", .string "")],
     [("col1", .float64 (Float64.ofInt 150)), ("col2", .string "")]]).2

/-- The schema of a table with one string column stored as `int32`, the type of the ids. -/
def int32Schema : Schema :=
  { NumericColumns := [], StringColumns := [("s", Int32Type)] }

/-! ## Theorems -/

theorem length_copyInto (buf src : List Byte) (off n : Nat) (h : off + n ≤ buf.length) :
    (copyInto buf off n src).length = buf.length := by
  simp only [copyInto, List.length_append, List.length_take, List.length_drop]
  omega

theorem NewFactTable_rows_length (filePath : String) (rowCount : Nat) (schema : Schema) :
    (NewFactTable filePath rowCount schema).rows.length
      = rowCount * (NewFactTable filePath rowCount schema).RowSize := by
  simp only [NewFactTable, CreateMemoryMappedFactTableStorage]
  split <;> simp

theorem NewFactTable_RingOK (filePath : String) (rowCount : Nat) (schema : Schema)
    (h : 0 < rowCount) : (NewFactTable filePath rowCount schema).RingOK :=
  ⟨NewFactTable_rows_length filePath rowCount schema, h⟩

theorem slot_in_bounds (table : FactTable) (h : table.RingOK) (row : Nat)
    (hrow : row < table.Capacity) :
    table.getRowOffset row + table.RowSize ≤ table.rows.length := by
  rw [h.len, FactTable.getRowOffset]
  calc row * table.RowSize + table.RowSize = (row + 1) * table.RowSize := by ring
    _ ≤ table.Capacity * table.RowSize := Nat.mul_le_mul_right _ hrow

theorem insertNormalizedRow_eq (table : FactTable) (h : table.RingOK) (row : List Byte) :
    table.insertNormalizedRow row = .ok { table with
        rows := copyInto table.rows (table.getRowOffset table.NextInsertPosition) table.RowSize row
        NextInsertPosition := (table.NextInsertPosition + 1) % table.Capacity
        Count := if table.Count < table.Capacity then table.Count + 1 else table.Count } := by
  have hb := slot_in_bounds table h _ h.pos
  have hc : table.Capacity ≠ 0 := by have := h.pos; omega
  simp only [FactTable.insertNormalizedRow, FactTable.getRowSlice, FactTable.Rows, hb, if_true,
    hc, if_false]

theorem insertNormalizedRow_RingOK (table table1 : FactTable) (h : table.RingOK)
    (row : List Byte) (h1 : table.insertNormalizedRow row = .ok table1) :
    table1.RingOK ∧ table1.Capacity = table.Capacity ∧ table1.RowSize = table.RowSize := by
  rw [insertNormalizedRow_eq table h row] at h1
  injection h1 with h1
  subst h1
  refine ⟨⟨?_, ?_⟩, rfl, rfl⟩
  · simp only
    rw [length_copyInto _ _ _ _ (slot_in_bounds table h _ h.pos)]
    exact h.len
  · exact Nat.mod_lt _ (by have := h.pos; omega)

/-- Counters after a run of inserts from any state that satisfies the storage invariant. -/
theorem insertNormalizedRows_counters (rs : List (List Byte)) :
    ∀ table : FactTable, table.RingOK → table.Count ≤ table.Capacity →
      ∃ table1, table.insertNormalizedRows rs = .ok table1 ∧ table1.RingOK ∧
        table1.Capacity = table.Capacity ∧ table1.RowSize = table.RowSize ∧
        table1.Count = min (table.Count + rs.length) table.Capacity ∧
        table1.NextInsertPosition = (table.NextInsertPosition + rs.length) % table.Capacity := by
  induction rs with
  | nil =>
    intro table h hc
    refine ⟨table, rfl, h, rfl, rfl, ?_, ?_⟩
    · simp [hc]
    · simp [Nat.mod_eq_of_lt h.pos]
  | cons row rest ih =>
    intro table h hc
    have heq := insertNormalizedRow_eq table h row
    obtain ⟨hr, hcap, hsz⟩ := insertNormalizedRow_RingOK table _ h row heq
    have hcount : (if table.Count < table.Capacity then table.Count + 1 else table.Count)
        ≤ table.Capacity := by split <;> omega
    obtain ⟨t2, h2, hr2, hcap2, hsz2, hcnt2, hpos2⟩ := ih _ hr hcount
    refine ⟨t2, ?_, hr2, ?_, ?_, ?_, ?_⟩
    · simp only [FactTable.insertNormalizedRows, heq]
      exact h2
    · exact hcap2
    · exact hsz2
    · rw [hcnt2]
      simp only [List.length_cons]
      split <;> omega
    · rw [hpos2]
      simp only [List.length_cons]
      rw [Nat.add_mod, Nat.mod_mod, ← Nat.add_mod]
      congr 1
      omega

/-- Claim C1. For a table created by NewFactTable with `Capacity > 0`, inserting any `n` rows
one at a time with insertNormalizedRow succeeds and leaves `Count = min n Capacity` and
`NextInsertPosition = n mod Capacity`; while `n` does not exceed `Capacity`, `Count = n` and
`NextInsertPosition = Count mod Capacity`. -/
theorem C1_count_and_cursor (filePath : String) (rowCount : Nat) (schema : Schema)
    (rs : List (List Byte)) (hcap : 0 < rowCount) :
    ∃ table, (NewFactTable filePath rowCount schema).insertNormalizedRows rs = .ok table ∧
      table.Capacity = rowCount ∧
      table.Count = min rs.length table.Capacity ∧
      table.NextInsertPosition = rs.length % table.Capacity ∧
      (rs.length ≤ table.Capacity →
        table.Count = rs.length ∧
        table.NextInsertPosition = table.Count % table.Capacity) := by
  obtain ⟨t, h1, _, hc, _, hcnt, hpos⟩ :=
    insertNormalizedRows_counters rs (NewFactTable filePath rowCount schema)
      (NewFactTable_RingOK filePath rowCount schema hcap) (Nat.zero_le _)
  have hc0 : (NewFactTable filePath rowCount schema).Capacity = rowCount := rfl
  have hn0 : (NewFactTable filePath rowCount schema).Count = 0 := rfl
  have hp0 : (NewFactTable filePath rowCount schema).NextInsertPosition = 0 := rfl
  rw [hc0, hn0, Nat.zero_add] at hcnt
  rw [hc0, hp0, Nat.zero_add] at hpos
  rw [hc0] at hc
  refine ⟨t, h1, hc, ?_, ?_, ?_⟩
  · rw [hc]; exact hcnt
  · rw [hc]; exact hpos
  · intro hle
    rw [hc] at hle
    have : t.Count = rs.length := by rw [hcnt]; exact Nat.min_eq_left hle
    exact ⟨this, by rw [this, hc]; exact hpos⟩

/-- Witness for claim C1: three rows into the fixture schema with room for two. -/
theorem C1_count_and_cursor_witness :
    0 < 2 ∧
    ∃ table, (NewFactTable "" 2 fixtureSchema).insertNormalizedRows
        [[1, 0, 0, 0, 0, 0, 0, 0], [2, 0, 0, 0, 0, 0, 0, 0], [3, 0, 0, 0, 0, 0, 0, 0]] = .ok table ∧
      table.Capacity = 2 ∧
      table.Count = min 3 table.Capacity ∧
      table.NextInsertPosition = 3 % table.Capacity ∧
      (3 ≤ table.Capacity →
        table.Count = 3 ∧ table.NextInsertPosition = table.Count % table.Capacity) :=
  ⟨by decide, C1_count_and_cursor "" 2 fixtureSchema
    [[1, 0, 0, 0, 0, 0, 0, 0], [2, 0, 0, 0, 0, 0, 0, 0], [3, 0, 0, 0, 0, 0, 0, 0]] (by decide)⟩

theorem getElem?_copyInto (buf src : List Byte) (off n j : Nat) (h : off + n ≤ buf.length) :
    (copyInto buf off n src)[j]? =
      if off ≤ j ∧ j < off + min n src.length then src[j - off]? else buf[j]? := by
  have h1 : (List.take off buf).length = off := by
    rw [List.length_take]; exact Nat.min_eq_left (by omega)
  have h2 : (List.take n src).length = min n src.length := List.length_take _ _
  have hmin : min n src.length ≤ n := Nat.min_le_left _ _
  have hmin2 : min n src.length ≤ src.length := Nat.min_le_right _ _
  unfold copyInto
  by_cases hj : j < off
  · have hc : ¬ (off ≤ j ∧ j < off + min n src.length) := by omega
    rw [if_neg hc, List.append_assoc, List.getElem?_append_left (by rw [h1]; exact hj),
      List.getElem?_take_of_lt hj]
  · by_cases hj2 : j < off + min n src.length
    · have hc : off ≤ j ∧ j < off + min n src.length := ⟨by omega, hj2⟩
      rw [if_pos hc, List.append_assoc, List.getElem?_append_right (by rw [h1]; omega), h1,
        List.getElem?_append_left (by rw [h2]; omega), List.getElem?_take_of_lt (by omega)]
    · have hc : ¬ (off ≤ j ∧ j < off + min n src.length) := by omega
      rw [if_neg hc, List.append_assoc, List.getElem?_append_right (by rw [h1]; omega), h1,
        List.getElem?_append_right (by rw [h2]; omega), h2, List.getElem?_drop]
      congr 1
      omega

theorem slice_copyInto_same (buf src : List Byte) (off n : Nat) (h : off + n ≤ buf.length)
    (hs : src.length = n) : ((copyInto buf off n src).drop off).take n = src := by
  apply List.ext_getElem?
  intro i
  rw [List.getElem?_take, List.getElem?_drop, getElem?_copyInto _ _ _ _ _ h, hs]
  by_cases hi : i < n
  · simp [hi]
  · simp only [hi, if_false]
    rw [List.getElem?_eq_none]
    omega

theorem slice_copyInto_other (buf src : List Byte) (a b n : Nat) (h : a * n + n ≤ buf.length)
    (hab : a ≠ b) :
    ((copyInto buf (a * n) n src).drop (b * n)).take n = (buf.drop (b * n)).take n := by
  apply List.ext_getElem?
  intro i
  rw [List.getElem?_take, List.getElem?_take, List.getElem?_drop, List.getElem?_drop,
    getElem?_copyInto _ _ _ _ _ h]
  by_cases hi : i < n
  · have : ¬ (a * n ≤ b * n + i ∧ b * n + i < a * n + min n src.length) := by
      rintro ⟨h1, h2⟩
      have h3 : b * n + i < a * n + n := by
        have := Nat.min_le_left n src.length
        omega
      rcases Nat.lt_or_gt_of_ne hab with hlt | hgt
      · have : (a + 1) * n ≤ b * n := Nat.mul_le_mul_right _ hlt
        rw [Nat.add_mul, Nat.one_mul] at this
        omega
      · have : (b + 1) * n ≤ a * n := Nat.mul_le_mul_right _ hgt
        rw [Nat.add_mul, Nat.one_mul] at this
        omega
    simp [hi, this]
  · simp [hi]

theorem insertNormalizedRows_append (xs : List (List Byte)) (x : List Byte) :
    ∀ table : FactTable, table.insertNormalizedRows (xs ++ [x]) =
      match table.insertNormalizedRows xs with
      | .ok table1 => table1.insertNormalizedRow x
      | .error msg => .error msg
      | .panic msg => .panic msg := by
  induction xs with
  | nil =>
    intro table
    simp only [List.nil_append, FactTable.insertNormalizedRows]
    cases table.insertNormalizedRow x <;> rfl
  | cons y ys ih =>
    intro table
    simp only [List.cons_append, FactTable.insertNormalizedRows]
    cases table.insertNormalizedRow y with
    | ok t1 => exact ih t1
    | error msg => rfl
    | panic msg => rfl

/-- Ring contents: after the rows `rs` were inserted into a fresh table, the slot `m mod
Capacity` holds row `m` for each of the last `Capacity` row numbers `m`. -/
theorem ring_contents (filePath : String) (rowCount : Nat) (schema : Schema) (hcap : 0 < rowCount)
    (rs : List (List Byte)) :
    (∀ r ∈ rs, r.length = (NewFactTable filePath rowCount schema).RowSize) →
    ∃ table, (NewFactTable filePath rowCount schema).insertNormalizedRows rs = .ok table ∧
      table.RingOK ∧ table.Capacity = rowCount ∧
      table.RowSize = (NewFactTable filePath rowCount schema).RowSize ∧
      table.NextInsertPosition = rs.length % rowCount ∧
      ∀ m r, rs[m]? = some r → rs.length ≤ m + rowCount →
        table.getRowSlice (m % rowCount) = .ok r := by
  induction rs using List.reverseRecOn with
  | nil =>
    intro _
    refine ⟨_, rfl, NewFactTable_RingOK filePath rowCount schema hcap, rfl, rfl, ?_, ?_⟩
    · simp [NewFactTable]
    · intro m r hm
      simp at hm
  | append_singleton xs x ih =>
    intro hlen
    obtain ⟨t, ht, hok, hc, hsz, hpos, hslots⟩ :=
      ih (fun r hr => hlen r (List.mem_append_left _ hr))
    have hx : x.length = t.RowSize := by
      rw [hsz]; exact hlen x (List.mem_append_right _ (List.mem_singleton_self x))
    have heq := insertNormalizedRow_eq t hok x
    obtain ⟨hok1, hc1, hsz1⟩ := insertNormalizedRow_RingOK t _ hok x heq
    refine ⟨_, ?_, hok1, hc1.trans hc, hsz1.trans hsz, ?_, ?_⟩
    · rw [insertNormalizedRows_append, ht]
      exact heq
    · simp only [List.length_append, List.length_singleton]
      rw [hpos, hc, Nat.add_mod, Nat.mod_mod, ← Nat.add_mod]
    · intro m r hm hle
      simp only [List.length_append, List.length_singleton] at hle
      have hb := slot_in_bounds t hok _ hok.pos
      simp only [FactTable.getRowOffset] at hb
      have hmlt : m % rowCount < t.Capacity := by rw [hc]; exact Nat.mod_lt _ hcap
      have hbm := slot_in_bounds t hok _ hmlt
      simp only [FactTable.getRowOffset] at hbm
      have hlen1 : (copyInto t.rows (t.NextInsertPosition * t.RowSize) t.RowSize x).length
          = t.rows.length := length_copyInto _ _ _ _ hb
      by_cases hmx : m < xs.length
      · rw [List.getElem?_append_left hmx] at hm
        have hne : t.NextInsertPosition ≠ m % rowCount := by
          rw [hpos]
          intro hmod
          have h1 : (xs.length - m) % rowCount = 0 :=
            Nat.sub_mod_eq_zero_of_mod_eq hmod
          have h2 : xs.length - m < rowCount := by omega
          rw [Nat.mod_eq_of_lt h2] at h1
          omega
        have hprev := hslots m r hm (by omega)
        simp only [FactTable.getRowSlice, FactTable.getRowOffset, FactTable.Rows, hbm,
          if_true] at hprev
        simp only [FactTable.getRowSlice, FactTable.getRowOffset, FactTable.Rows, hlen1, hbm,
          if_true]
        rw [slice_copyInto_other _ _ _ _ _ hb hne]
        exact hprev
      · have hmeq : m = xs.length := by
          have := (List.getElem?_eq_some_iff.mp hm).1
          simp at this
          omega
        subst hmeq
        simp at hm
        subst hm
        rw [← hpos]
        simp only [FactTable.getRowSlice, FactTable.getRowOffset, FactTable.Rows, hlen1, hb,
          if_true]
        rw [slice_copyInto_same _ _ _ _ hb hx]

/-- Claim C2. For `Capacity > 0` and `N > Capacity` rows of `RowSize` bytes each inserted into
a fresh table, `Count = Capacity` and for every `k < Capacity` the row slot
`(NextInsertPosition + k) mod Capacity` holds exactly row `N - Capacity + k`: the last
`Capacity` rows, oldest first, in ring order from `NextInsertPosition`. -/
theorem C2_ring_retains_last_rows (filePath : String) (rowCount : Nat) (schema : Schema)
    (rs : List (List Byte)) (hcap : 0 < rowCount)
    (hsize : ∀ r ∈ rs, r.length = (NewFactTable filePath rowCount schema).RowSize)
    (hN : rowCount < rs.length) :
    ∃ table, (NewFactTable filePath rowCount schema).insertNormalizedRows rs = .ok table ∧
      table.Capacity = rowCount ∧ table.Count = table.Capacity ∧
      ∀ k, k < table.Capacity →
        ∃ r, rs[rs.length - table.Capacity + k]? = some r ∧
          table.getRowSlice ((table.NextInsertPosition + k) % table.Capacity) = .ok r := by
  obtain ⟨t, ht, _, hc, _, hpos, hslots⟩ := ring_contents filePath rowCount schema hcap rs hsize
  obtain ⟨t1, ht1, _, _, _, hcnt, _⟩ :=
    insertNormalizedRows_counters rs (NewFactTable filePath rowCount schema)
      (NewFactTable_RingOK filePath rowCount schema hcap) (Nat.zero_le _)
  rw [ht] at ht1
  injection ht1 with ht1
  subst ht1
  have hc0 : (NewFactTable filePath rowCount schema).Capacity = rowCount := rfl
  have hn0 : (NewFactTable filePath rowCount schema).Count = 0 := rfl
  rw [hc0, hn0, Nat.zero_add] at hcnt
  refine ⟨t, ht, hc, ?_, ?_⟩
  · rw [hcnt, hc]
    exact Nat.min_eq_right (Nat.le_of_lt hN)
  · intro k hk
    rw [hc] at hk ⊢
    have hidx : rs.length - rowCount + k < rs.length := by omega
    refine ⟨rs[rs.length - rowCount + k], List.getElem?_eq_getElem hidx, ?_⟩
    have := hslots (rs.length - rowCount + k) _ (List.getElem?_eq_getElem hidx) (by omega)
    rw [hpos]
    have hmod : (rs.length % rowCount + k) % rowCount = (rs.length - rowCount + k) % rowCount := by
      have h1 : rs.length - rowCount + k + rowCount = rs.length + k := by omega
      rw [← Nat.add_mod_right (rs.length - rowCount + k) rowCount, h1, Nat.mod_add_mod]
    rw [hmod]
    exact this

/-- Witness for claim C2: three rows of eight bytes into the fixture schema with room for
two. -/
theorem C2_ring_retains_last_rows_witness :
    ∃ table, (NewFactTable "" 2 fixtureSchema).insertNormalizedRows
        [[1, 0, 0, 0, 0, 0, 0, 0], [2, 0, 0, 0, 0, 0, 0, 0], [3, 0, 0, 0, 0, 0, 0, 0]] = .ok table ∧
      table.Capacity = 2 ∧ table.Count = table.Capacity ∧
      ∀ k, k < table.Capacity →
        ∃ r, ([[1, 0, 0, 0, 0, 0, 0, 0], [2, 0, 0, 0, 0, 0, 0, 0], [3, 0, 0, 0, 0, 0, 0, 0]] :
            List (List Byte))[3 - table.Capacity + k]? = some r ∧
          table.getRowSlice ((table.NextInsertPosition + k) % table.Capacity) = .ok r :=
  C2_ring_retains_last_rows "" 2 fixtureSchema
    [[1, 0, 0, 0, 0, 0, 0, 0], [2, 0, 0, 0, 0, 0, 0, 0], [3, 0, 0, 0, 0, 0, 0, 0]]
    (by decide) (by decide) (by decide)

theorem GoMap.get?_set {κ β : Type} [DecidableEq κ] (m : GoMap κ β) (k k' : κ) (v : β) :
    GoMap.get? (GoMap.set m k v) k' = if k = k' then some v else GoMap.get? m k' := by
  induction m with
  | nil => simp [GoMap.set, GoMap.get?]
  | cons kv rest ih =>
    obtain ⟨k0, v0⟩ := kv
    by_cases h0 : k0 = k
    · subst h0
      by_cases h1 : k0 = k' <;> simp [GoMap.set, GoMap.get?, h1]
    · by_cases h1 : k0 = k'
      · subst h1
        have : ¬ k = k0 := fun h => h0 h.symm
        simp [GoMap.set, GoMap.get?, h0, this]
      · simp [GoMap.set, GoMap.get?, h0, h1, ih]

theorem foldl_set_not_mem (kvs : GoMap String Nat) (k : String) :
    ∀ m : GoMap String Nat, k ∉ GoMap.keys kvs →
      GoMap.get? (kvs.foldl (fun m kv => GoMap.set m kv.1 kv.2) m) k = GoMap.get? m k := by
  induction kvs with
  | nil => intro m _; rfl
  | cons kv rest ih =>
    intro m hk
    simp only [GoMap.keys, List.map_cons, List.mem_cons, not_or] at hk
    simp only [List.foldl_cons]
    rw [ih _ hk.2, GoMap.get?_set, if_neg (fun h => hk.1 h.symm)]

theorem foldl_set_of_mem (kvs : GoMap String Nat) (k : String) (v : Nat) :
    ∀ m : GoMap String Nat, GoMap.WF kvs → (k, v) ∈ kvs →
      GoMap.get? (kvs.foldl (fun m kv => GoMap.set m kv.1 kv.2) m) k = some v := by
  induction kvs with
  | nil => intro m _ h; simp at h
  | cons kv rest ih =>
    intro m hwf h
    have hwf' : kv.1 ∉ GoMap.keys rest ∧ GoMap.WF rest := by
      simpa [GoMap.WF, GoMap.keys] using hwf
    simp only [List.foldl_cons]
    rcases List.mem_cons.mp h with heq | hrest
    · subst heq
      rw [foldl_set_not_mem _ _ _ hwf'.1, GoMap.get?_set, if_pos rfl]
    · exact ih _ hwf'.2 hrest

/-- A string column whose name is not also a numeric column keeps the element type the
schema gives it. -/
theorem columnToType_string (schema : Schema) (name : String) (ty : Nat)
    (hwf : GoMap.WF schema.StringColumns) (h : (name, ty) ∈ schema.StringColumns)
    (hnum : name ∉ GoMap.keys schema.NumericColumns) :
    GoMap.index (columnToType schema) name = ty := by
  unfold GoMap.index columnToType
  rw [foldl_set_not_mem _ _ _ hnum, foldl_set_of_mem _ _ _ _ hwf h]
  rfl

theorem offsetLoop_types (colTypes : GoMap String Nat) (names : List String) :
    ∀ off, (offsetLoop colTypes names off).2.1 = names.map (GoMap.index colTypes) := by
  induction names with
  | nil => intro off; rfl
  | cons name rest ih => intro off; simp only [offsetLoop, List.map_cons, ih]

theorem offsetLoop_length (colTypes : GoMap String Nat) (names : List String) :
    ∀ off, (offsetLoop colTypes names off).1.length = names.length := by
  induction names with
  | nil => intro off; rfl
  | cons name rest ih => intro off; simp only [offsetLoop, List.length_cons, ih]

theorem offsetLoop_final (colTypes : GoMap String Nat) (names : List String) :
    ∀ off, (offsetLoop colTypes names off).2.2
      = off + ((names.map (GoMap.index colTypes)).map (GoMap.index typeSizes)).sum := by
  induction names with
  | nil => intro off; rfl
  | cons name rest ih =>
    intro off
    simp only [offsetLoop, List.map_cons, List.sum_cons, ih]
    omega

theorem offsetLoop_offsets (colTypes : GoMap String Nat) (names : List String) :
    ∀ off i, i < names.length → (offsetLoop colTypes names off).1[i]?
      = some (off + (((names.map (GoMap.index colTypes)).take i).map (GoMap.index typeSizes)).sum) := by
  induction names with
  | nil => intro off i hi; simp at hi
  | cons name rest ih =>
    intro off i hi
    cases i with
    | zero => simp [offsetLoop]
    | succ i =>
      simp only [List.length_cons, Nat.add_lt_add_iff_right] at hi
      simp only [offsetLoop, List.getElem?_cons_succ, List.map_cons, List.take_succ_cons,
        List.sum_cons, ih _ i hi]
      congr 1
      omega

theorem sum_take_mono (l : List Nat) (i j : Nat) (h : i ≤ j) :
    (l.take i).sum ≤ (l.take j).sum :=
  List.Sublist.sum_le_sum (List.take_prefix_take_left l h).sublist (fun _ _ => Nat.zero_le _)

theorem sum_take_le_sum (l : List Nat) (i : Nat) : (l.take i).sum ≤ l.sum :=
  List.Sublist.sum_le_sum (List.take_sublist i l) (fun _ _ => Nat.zero_le _)

theorem NewFactTable_types (filePath : String) (rowCount : Nat) (schema : Schema) :
    (NewFactTable filePath rowCount schema).ColumnIndexToType
      = (NewFactTable filePath rowCount schema).ColumnIndexToName.map
          (GoMap.index (columnToType schema)) :=
  offsetLoop_types _ _ 0

theorem NewFactTable_offsets_length (filePath : String) (rowCount : Nat) (schema : Schema) :
    (NewFactTable filePath rowCount schema).ColumnIndexToOffset.length
      = (NewFactTable filePath rowCount schema).ColumnCount :=
  offsetLoop_length _ _ 0

theorem NewFactTable_offset (filePath : String) (rowCount : Nat) (schema : Schema) (i : Nat)
    (hi : i < (NewFactTable filePath rowCount schema).ColumnCount) :
    (NewFactTable filePath rowCount schema).ColumnIndexToOffset[i]?
      = some ((((NewFactTable filePath rowCount schema).ColumnIndexToType.take i).map
          (GoMap.index typeSizes)).sum) := by
  have hoff := offsetLoop_offsets (columnToType schema)
    (getSortedKeys schema.StringColumns ++ getSortedKeys schema.NumericColumns) 0 i hi
  rw [Nat.zero_add] at hoff
  rw [NewFactTable_types]
  exact hoff

theorem NewFactTable_rowSize (filePath : String) (rowCount : Nat) (schema : Schema) :
    (NewFactTable filePath rowCount schema).RowSize
      = (((NewFactTable filePath rowCount schema).ColumnIndexToType).map
          (GoMap.index typeSizes)).sum := by
  have hfin := offsetLoop_final (columnToType schema)
    (getSortedKeys schema.StringColumns ++ getSortedKeys schema.NumericColumns) 0
  rw [Nat.zero_add] at hfin
  rw [NewFactTable_types]
  exact hfin

/-- The end of column `i` is the prefix sum of the widths up to and including `i`. -/
theorem NewFactTable_column_end (filePath : String) (rowCount : Nat) (schema : Schema)
    (i off ty : Nat)
    (ho : (NewFactTable filePath rowCount schema).ColumnIndexToOffset[i]? = some off)
    (ht : (NewFactTable filePath rowCount schema).ColumnIndexToType[i]? = some ty) :
    off + GoMap.index typeSizes ty
      = ((((NewFactTable filePath rowCount schema).ColumnIndexToType.take (i + 1)).map
          (GoMap.index typeSizes)).sum) := by
  have hi : i < (NewFactTable filePath rowCount schema).ColumnCount := by
    rw [← NewFactTable_offsets_length]; exact (List.getElem?_eq_some_iff.mp ho).1
  rw [NewFactTable_offset _ _ _ i hi] at ho
  injection ho with ho
  have hit := (List.getElem?_eq_some_iff.mp ht)
  rw [← ho, List.map_take, List.map_take,
    List.sum_take_succ _ i (by rw [List.length_map]; exact hit.1)]
  congr 1
  rw [List.getElem_map, hit.2]

theorem NewFactTable_fits (filePath : String) (rowCount : Nat) (schema : Schema)
    (i off ty : Nat)
    (ho : (NewFactTable filePath rowCount schema).ColumnIndexToOffset[i]? = some off)
    (ht : (NewFactTable filePath rowCount schema).ColumnIndexToType[i]? = some ty) :
    off + GoMap.index typeSizes ty ≤ (NewFactTable filePath rowCount schema).RowSize := by
  rw [NewFactTable_column_end _ _ _ i off ty ho ht, NewFactTable_rowSize, List.map_take]
  exact sum_take_le_sum _ _

theorem sortStrings_perm (keys : List String) : (sortStrings keys).Perm keys :=
  List.perm_insertionSort _ _

theorem sortStrings_sorted (keys : List String) : List.Sorted (· ≤ ·) (sortStrings keys) := by
  haveI : IsTotal String stringLE := ⟨fun a b => le_total a.toList b.toList⟩
  haveI : IsTrans String stringLE := ⟨fun a b c h1 h2 => le_trans (α := List Char) h1 h2⟩
  have h := List.sorted_insertionSort stringLE keys
  exact List.Pairwise.imp (fun {a b} hab => String.le_iff_toList_le.mpr hab) h

theorem sortStrings_strict (keys : List String) (h : keys.Nodup) :
    List.Sorted (· < ·) (sortStrings keys) :=
  (sortStrings_sorted keys).lt_of_le ((sortStrings_perm keys).nodup_iff.mpr h)

theorem nameIndexLoop_not_mem (names : List String) (k : String) :
    ∀ (i : Nat) (m : GoMap String Nat), k ∉ names →
      GoMap.get? (nameIndexLoop names i m) k = GoMap.get? m k := by
  induction names with
  | nil => intro i m _; rfl
  | cons n rest ih =>
    intro i m hk
    simp only [List.mem_cons, not_or] at hk
    simp only [nameIndexLoop]
    rw [ih _ _ hk.2, GoMap.get?_set, if_neg (fun h => hk.1 h.symm)]

theorem nameIndexLoop_some (names : List String) (k : String) :
    ∀ (i : Nat) (m : GoMap String Nat) (idx : Nat),
      GoMap.get? (nameIndexLoop names i m) k = some idx →
      (GoMap.get? m k = some idx ∧ k ∉ names) ∨ (i ≤ idx ∧ names[idx - i]? = some k) := by
  induction names with
  | nil => intro i m idx h; exact Or.inl ⟨h, List.not_mem_nil _⟩
  | cons n rest ih =>
    intro i m idx h
    simp only [nameIndexLoop] at h
    rcases ih _ _ _ h with ⟨h1, h2⟩ | ⟨h1, h2⟩
    · rw [GoMap.get?_set] at h1
      by_cases hn : n = k
      · rw [if_pos hn] at h1
        injection h1 with h1
        right
        subst h1
        simp [hn]
      · rw [if_neg hn] at h1
        left
        exact ⟨h1, by simp only [List.mem_cons, not_or]; exact ⟨fun h => hn h.symm, h2⟩⟩
    · right
      refine ⟨by omega, ?_⟩
      have : idx - i = (idx - (i + 1)) + 1 := by omega
      rw [this, List.getElem?_cons_succ]
      exact h2

theorem nameIndexLoop_mem (names : List String) (k : String) :
    ∀ (i : Nat) (m : GoMap String Nat), k ∈ names →
      ∃ idx, GoMap.get? (nameIndexLoop names i m) k = some idx := by
  induction names with
  | nil => intro i m hk; simp at hk
  | cons n rest ih =>
    intro i m hk
    simp only [nameIndexLoop]
    by_cases hr : k ∈ rest
    · exact ih _ _ hr
    · have hkn : k = n := by
        rcases List.mem_cons.mp hk with h | h
        · exact h
        · exact absurd h hr
      rw [nameIndexLoop_not_mem _ _ _ _ hr, GoMap.get?_set, if_pos hkn.symm]
      exact ⟨i, rfl⟩

theorem nameIndexLoop_nodup (names : List String) (k : String) :
    ∀ (i : Nat) (m : GoMap String Nat) (j : Nat), names.Nodup → names[j]? = some k →
      GoMap.get? (nameIndexLoop names i m) k = some (i + j) := by
  induction names with
  | nil => intro i m j _ hj; simp at hj
  | cons n rest ih =>
    intro i m j hnd hj
    rw [List.nodup_cons] at hnd
    simp only [nameIndexLoop]
    cases j with
    | zero =>
      simp only [List.getElem?_cons_zero, Option.some.injEq] at hj
      subst hj
      rw [nameIndexLoop_not_mem _ _ _ _ hnd.1, GoMap.get?_set, if_pos rfl]
      rfl
    | succ j =>
      rw [List.getElem?_cons_succ] at hj
      rw [ih _ _ j hnd.2 hj]
      congr 1
      omega

/-- Lookups in the `ColumnNameToIndex` of a fresh table always land on a column carrying
that name. -/
theorem NewFactTable_index_name (filePath : String) (rowCount : Nat) (schema : Schema)
    (k : String) (idx : Nat)
    (h : GoMap.get? (NewFactTable filePath rowCount schema).ColumnNameToIndex k = some idx) :
    (NewFactTable filePath rowCount schema).ColumnIndexToName[idx]? = some k := by
  simp only [NewFactTable] at h ⊢
  rcases nameIndexLoop_some _ _ _ _ _ h with ⟨h1, _⟩ | ⟨_, h2⟩
  · simp [GoMap.get?] at h1
  · simpa using h2

theorem NewFactTable_names_perm (filePath : String) (rowCount : Nat) (schema : Schema) :
    (NewFactTable filePath rowCount schema).ColumnIndexToName.Perm
      (GoMap.keys schema.StringColumns ++ GoMap.keys schema.NumericColumns) := by
  simp only [NewFactTable, getSortedKeys]
  exact (sortStrings_perm _).append (sortStrings_perm _)

/-- Claim C4. When the column names are unique across the string and numeric columns,
NewFactTable lists the sorted string column names followed by the sorted numeric column
names (each group strictly ascending, every string column before every numeric column),
`ColumnIndexToName` and `ColumnNameToIndex` are mutually inverse, and
columnUsesDimensionTable holds exactly at the indices of string columns. -/
theorem C4_column_order (filePath : String) (rowCount : Nat) (schema : Schema)
    (huniq : (GoMap.keys schema.StringColumns ++ GoMap.keys schema.NumericColumns).Nodup) :
    (NewFactTable filePath rowCount schema).ColumnIndexToName
        = getSortedKeys schema.StringColumns ++ getSortedKeys schema.NumericColumns ∧
    (getSortedKeys schema.StringColumns).Perm (GoMap.keys schema.StringColumns) ∧
    (getSortedKeys schema.NumericColumns).Perm (GoMap.keys schema.NumericColumns) ∧
    List.Sorted (· < ·) (getSortedKeys schema.StringColumns) ∧
    List.Sorted (· < ·) (getSortedKeys schema.NumericColumns) ∧
    (∀ (i j : Nat) (s n : String), s ∈ GoMap.keys schema.StringColumns →
      n ∈ GoMap.keys schema.NumericColumns →
      (NewFactTable filePath rowCount schema).ColumnIndexToName[i]? = some s →
      (NewFactTable filePath rowCount schema).ColumnIndexToName[j]? = some n → i < j) ∧
    (∀ (i : Nat) (name : String),
      (NewFactTable filePath rowCount schema).ColumnIndexToName[i]? = some name ↔
      GoMap.get? (NewFactTable filePath rowCount schema).ColumnNameToIndex name = some i) ∧
    (∀ i : Nat, (NewFactTable filePath rowCount schema).columnUsesDimensionTable i = true ↔
      ∃ name, name ∈ GoMap.keys schema.StringColumns ∧
        (NewFactTable filePath rowCount schema).ColumnIndexToName[i]? = some name) := by
  have hps := sortStrings_perm (GoMap.keys schema.StringColumns)
  have hpn := sortStrings_perm (GoMap.keys schema.NumericColumns)
  have hnd := List.nodup_append.mp huniq
  have hall : (getSortedKeys schema.StringColumns ++ getSortedKeys schema.NumericColumns).Nodup :=
    (NewFactTable_names_perm filePath rowCount schema).nodup_iff.mpr huniq
  have hlenS : (getSortedKeys schema.StringColumns).length
      = (NewFactTable filePath rowCount schema).DimensionTables.length := by
    simp [NewFactTable]
  -- position of a name tells its group
  have hstr : ∀ (i : Nat) (s : String), s ∈ GoMap.keys schema.StringColumns →
      (getSortedKeys schema.StringColumns ++ getSortedKeys schema.NumericColumns)[i]? = some s →
      i < (getSortedKeys schema.StringColumns).length := by
    intro i s hs hi
    by_contra hge
    rw [List.getElem?_append_right (by omega)] at hi
    have hmem : s ∈ getSortedKeys schema.NumericColumns := List.mem_iff_getElem?.mpr ⟨_, hi⟩
    exact hnd.2.2 hs (hpn.mem_iff.mp hmem)
  have hnum : ∀ (j : Nat) (n : String), n ∈ GoMap.keys schema.NumericColumns →
      (getSortedKeys schema.StringColumns ++ getSortedKeys schema.NumericColumns)[j]? = some n →
      (getSortedKeys schema.StringColumns).length ≤ j := by
    intro j n hn hj
    by_contra hlt
    rw [List.getElem?_append_left (by omega)] at hj
    have hmem : n ∈ getSortedKeys schema.StringColumns := List.mem_iff_getElem?.mpr ⟨_, hj⟩
    exact hnd.2.2 (hps.mem_iff.mp hmem) hn
  refine ⟨rfl, hps, hpn, sortStrings_strict _ hnd.1, sortStrings_strict _ hnd.2.1, ?_, ?_, ?_⟩
  · intro i j s n hs hn hi hj
    exact Nat.lt_of_lt_of_le (hstr i s hs hi) (hnum j n hn hj)
  · intro i name
    constructor
    · intro hi
      have := nameIndexLoop_nodup _ name 0 [] i hall hi
      simpa [NewFactTable] using this
    · exact NewFactTable_index_name filePath rowCount schema name i
  · intro i
    simp only [FactTable.columnUsesDimensionTable, decide_eq_true_eq, ← hlenS]
    constructor
    · intro hi
      refine ⟨(getSortedKeys schema.StringColumns)[i], ?_, ?_⟩
      · exact hps.mem_iff.mp (List.getElem_mem _)
      · show (getSortedKeys schema.StringColumns ++ getSortedKeys schema.NumericColumns)[i]? = _
        rw [List.getElem?_append_left hi, List.getElem?_eq_getElem hi]
    · rintro ⟨name, hs, hi⟩
      exact hstr i name hs hi

/-- Witness for claim C4: the fixture schema. -/
theorem C4_column_order_witness :
    (NewFactTable "" 10 fixtureSchema).ColumnIndexToName = ["col2", "col1"] ∧
    ∀ i : Nat, (NewFactTable "" 10 fixtureSchema).columnUsesDimensionTable i = true ↔
      ∃ name, name ∈ GoMap.keys fixtureSchema.StringColumns ∧
        (NewFactTable "" 10 fixtureSchema).ColumnIndexToName[i]? = some name :=
  ⟨by decide, (C4_column_order "" 10 fixtureSchema (by decide)).2.2.2.2.2.2.2⟩

theorem NewFactTable_get?_isSome (filePath : String) (rowCount : Nat) (schema : Schema)
    (k : String) :
    (∃ idx, GoMap.get? (NewFactTable filePath rowCount schema).ColumnNameToIndex k = some idx) ↔
      k ∈ GoMap.keys schema.StringColumns ∨ k ∈ GoMap.keys schema.NumericColumns := by
  have hperm := NewFactTable_names_perm filePath rowCount schema
  rw [← List.mem_append, ← hperm.mem_iff]
  constructor
  · rintro ⟨idx, h⟩
    exact List.mem_iff_getElem?.mpr ⟨idx, NewFactTable_index_name _ _ _ _ _ h⟩
  · intro h
    exact nameIndexLoop_mem _ _ 0 [] h

theorem NewFactTable_index_lt (filePath : String) (rowCount : Nat) (schema : Schema)
    (k : String) (idx : Nat)
    (h : GoMap.get? (NewFactTable filePath rowCount schema).ColumnNameToIndex k = some idx) :
    idx < (NewFactTable filePath rowCount schema).ColumnCount :=
  (List.getElem?_eq_some_iff.mp (NewFactTable_index_name _ _ _ _ _ h)).1

/-- The conversion loop reports an error exactly when it meets an unknown key, provided
the indices of the name map fit the result vector. -/
theorem convertLoop_isError (table : FactTable) (rowMap : GoMap String Untyped) :
    ∀ result : List Untyped,
      (∀ k idx, GoMap.get? table.ColumnNameToIndex k = some idx → idx < result.length) →
      ((convertLoop table rowMap result).isError = true ↔
        ∃ k, k ∈ GoMap.keys rowMap ∧ GoMap.get? table.ColumnNameToIndex k = none) ∧
      (convertLoop table rowMap result).isPanic = false := by
  induction rowMap with
  | nil => intro result _; simp [convertLoop, Result.isError, Result.isPanic, GoMap.keys]
  | cons kv rest ih =>
    obtain ⟨k0, v0⟩ := kv
    intro result hidx
    cases hk : GoMap.get? table.ColumnNameToIndex k0 with
    | none =>
      simp only [convertLoop, hk, Result.isError, Result.isPanic, true_iff, and_true]
      exact ⟨k0, by simp [GoMap.keys], hk⟩
    | some i0 =>
      have hlt := hidx k0 i0 hk
      simp only [convertLoop, hk, hlt, if_true]
      have := ih (result.set i0 v0) (by simpa using hidx)
      refine ⟨this.1.trans ?_, this.2⟩
      constructor
      · rintro ⟨k, hmem, hnone⟩
        exact ⟨k, by simp only [GoMap.keys, List.map_cons, List.mem_cons]; right; exact hmem, hnone⟩
      · rintro ⟨k, hmem, hnone⟩
        simp only [GoMap.keys, List.map_cons, List.mem_cons] at hmem
        rcases hmem with h | h
        · subst h; rw [hk] at hnone; cases hnone
        · exact ⟨k, h, hnone⟩

/-- What the conversion loop leaves in the result vector when it succeeds. -/
theorem convertLoop_ok (table : FactTable)
    (hinj : ∀ k k' idx, GoMap.get? table.ColumnNameToIndex k = some idx →
      GoMap.get? table.ColumnNameToIndex k' = some idx → k = k')
    (rowMap : GoMap String Untyped) :
    ∀ result arr : List Untyped, GoMap.WF rowMap → convertLoop table rowMap result = .ok arr →
      arr.length = result.length ∧
      (∀ i, (∀ k, k ∈ GoMap.keys rowMap → GoMap.get? table.ColumnNameToIndex k ≠ some i) →
        arr[i]? = result[i]?) ∧
      (∀ k v, (k, v) ∈ rowMap →
        ∃ i, GoMap.get? table.ColumnNameToIndex k = some i ∧ arr[i]? = some v) := by
  induction rowMap with
  | nil =>
    intro result arr _ h
    simp only [convertLoop, Result.ok.injEq] at h
    subst h
    exact ⟨rfl, fun _ _ => rfl, fun _ _ hm => absurd hm (List.not_mem_nil _)⟩
  | cons kv rest ih =>
    obtain ⟨k0, v0⟩ := kv
    intro result arr hwf h
    have hwf' : (k0 ∉ GoMap.keys rest) ∧ GoMap.WF rest := by
      simpa [GoMap.WF, GoMap.keys] using hwf
    cases hk : GoMap.get? table.ColumnNameToIndex k0 with
    | none => simp [convertLoop, hk] at h
    | some i0 =>
      simp only [convertLoop, hk] at h
      by_cases hlt : i0 < result.length
      · simp only [hlt, if_true] at h
        obtain ⟨h1, h2, h3⟩ := ih _ _ hwf'.2 h
        have hfree : ∀ k, k ∈ GoMap.keys rest → GoMap.get? table.ColumnNameToIndex k ≠ some i0 := by
          intro k hkm hki
          have := hinj k k0 i0 hki hk
          subst this
          exact hwf'.1 hkm
        refine ⟨by simpa using h1, ?_, ?_⟩
        · intro i hi
          have hne : i0 ≠ i := by
            intro hii
            subst hii
            exact hi k0 (by simp [GoMap.keys]) hk
          have hrest : ∀ k, k ∈ GoMap.keys rest →
              GoMap.get? table.ColumnNameToIndex k ≠ some i := by
            intro k hkm
            apply hi k
            simp only [GoMap.keys, List.map_cons, List.mem_cons]
            right
            exact hkm
          rw [h2 i hrest, List.getElem?_set, if_neg hne]
        · intro k v hm
          rcases List.mem_cons.mp hm with heq | hm'
          · injection heq with hk1 hv1
            subst hk1; subst hv1
            refine ⟨i0, hk, ?_⟩
            rw [h2 i0 hfree, List.getElem?_set, if_pos rfl, if_pos hlt]
          · exact h3 k v hm'
      · simp [hlt] at h

theorem NewFactTable_HasLayoutOf (filePath : String) (rowCount : Nat) (schema : Schema) :
    (NewFactTable filePath rowCount schema).HasLayoutOf schema :=
  ⟨rfl, rfl, rfl, rfl, rfl, rfl, rfl⟩

/-- Lookups in `ColumnNameToIndex` land on a column carrying that name. -/
theorem layout_index_name (table : FactTable) (schema : Schema) (hs : table.HasLayoutOf schema)
    (k : String) (idx : Nat) (h : GoMap.get? table.ColumnNameToIndex k = some idx) :
    table.ColumnIndexToName[idx]? = some k := by
  rw [hs.nameToIndex] at h
  rw [hs.indexToName]
  exact NewFactTable_index_name _ _ _ _ _ h

/-- The names `ColumnNameToIndex` knows are the column names of the schema. -/
theorem layout_known_iff (table : FactTable) (schema : Schema) (hs : table.HasLayoutOf schema)
    (k : String) :
    (∃ idx, GoMap.get? table.ColumnNameToIndex k = some idx) ↔
      k ∈ GoMap.keys schema.StringColumns ∨ k ∈ GoMap.keys schema.NumericColumns := by
  rw [hs.nameToIndex]
  exact NewFactTable_get?_isSome _ _ _ k

/-- The indices held by `ColumnNameToIndex` fit the converted row. -/
theorem layout_index_fits (table : FactTable) (schema : Schema) (hs : table.HasLayoutOf schema) :
    ∀ k idx, GoMap.get? table.ColumnNameToIndex k = some idx →
      idx < (List.replicate table.ColumnCount Untyped.nil).length := by
  intro k idx h
  rw [List.length_replicate, hs.columnCount]
  rw [hs.nameToIndex] at h
  exact NewFactTable_index_lt _ _ _ _ _ h

/-- Two names with the same index are the same name. -/
theorem layout_index_inj (table : FactTable) (schema : Schema) (hs : table.HasLayoutOf schema) :
    ∀ k k' idx, GoMap.get? table.ColumnNameToIndex k = some idx →
      GoMap.get? table.ColumnNameToIndex k' = some idx → k = k' := by
  intro k k' idx h h'
  have h1 := layout_index_name table schema hs _ _ h
  have h2 := layout_index_name table schema hs _ _ h'
  rw [h1] at h2
  exact Option.some.inj h2

/-- The call convertRowMapToRowArray returns an error exactly when the row map has a key
outside the schema. -/
theorem convertRowMapToRowArray_isError (table : FactTable) (schema : Schema)
    (hs : table.HasLayoutOf schema) (rowMap : GoMap String Untyped) :
    (table.convertRowMapToRowArray rowMap).isError = true ↔
      ∃ k, k ∈ GoMap.keys rowMap ∧ k ∉ GoMap.keys schema.StringColumns ∧
        k ∉ GoMap.keys schema.NumericColumns := by
  rw [FactTable.convertRowMapToRowArray,
    (convertLoop_isError _ rowMap _ (layout_index_fits table schema hs)).1]
  constructor
  · rintro ⟨k, hk, hnone⟩
    refine ⟨k, hk, ?_⟩
    rw [← not_or, ← layout_known_iff table schema hs k]
    rintro ⟨idx, h⟩
    rw [hnone] at h
    cases h
  · rintro ⟨k, hk, hnot⟩
    refine ⟨k, hk, ?_⟩
    rw [← not_or, ← layout_known_iff table schema hs k] at hnot
    cases h : GoMap.get? table.ColumnNameToIndex k with
    | none => rfl
    | some idx => exact absurd ⟨idx, h⟩ hnot

/-- The call convertRowMapToRowArray never panics. -/
theorem convertRowMapToRowArray_no_panic (table : FactTable) (schema : Schema)
    (hs : table.HasLayoutOf schema) (rowMap : GoMap String Untyped) :
    (table.convertRowMapToRowArray rowMap).isPanic = false :=
  (convertLoop_isError _ rowMap _ (layout_index_fits table schema hs)).2

/-- The call convertRowMapToRowArray succeeds when every key is a column name. -/
theorem convertRowMapToRowArray_known (table : FactTable) (schema : Schema)
    (hs : table.HasLayoutOf schema) (rowMap : GoMap String Untyped)
    (hknown : ∀ k, k ∈ GoMap.keys rowMap →
      k ∈ GoMap.keys schema.StringColumns ∨ k ∈ GoMap.keys schema.NumericColumns) :
    ∃ arr, table.convertRowMapToRowArray rowMap = .ok arr := by
  cases harr : table.convertRowMapToRowArray rowMap with
  | ok arr => exact ⟨arr, rfl⟩
  | error msg =>
    exfalso
    have : (table.convertRowMapToRowArray rowMap).isError = true := by rw [harr]; rfl
    obtain ⟨k', hk', hnS, hnN⟩ := (convertRowMapToRowArray_isError table schema hs _).mp this
    rcases hknown k' hk' with h | h
    · exact hnS h
    · exact hnN h
  | panic msg =>
    have := convertRowMapToRowArray_no_panic table schema hs rowMap
    rw [harr] at this
    simp [Result.isPanic] at this

/-- A successful convertRowMapToRowArray yields `ColumnCount` entries with every supplied
value at the index of its column. -/
theorem convertRowMapToRowArray_values (table : FactTable) (schema : Schema)
    (hs : table.HasLayoutOf schema) (rowMap : GoMap String Untyped) (hwf : GoMap.WF rowMap)
    (arr : List Untyped) (harr : table.convertRowMapToRowArray rowMap = .ok arr) :
    arr.length = table.ColumnCount ∧
    ∀ k v, (k, v) ∈ rowMap →
      ∃ i, GoMap.get? table.ColumnNameToIndex k = some i ∧
        table.ColumnIndexToName[i]? = some k ∧ arr[i]? = some v := by
  obtain ⟨h1, _, h3⟩ :=
    convertLoop_ok _ (layout_index_inj table schema hs) rowMap _ arr hwf harr
  refine ⟨by simpa using h1, ?_⟩
  intro k v hm
  obtain ⟨i, hi, hv⟩ := h3 k v hm
  exact ⟨i, hi, layout_index_name table schema hs _ _ hi, hv⟩

/-- Claim C5. On every table with the layout of a schema, convertRowMapToRowArray returns an
error if and only if the row map has a key that is not a column name of the schema, and it
never panics; when it succeeds the result has `ColumnCount` entries and every supplied value
sits at the index of its column. Inserting a batch that starts with a row map with an
unknown key returns the error and leaves the table as it was. -/
theorem C5_unknown_column (table : FactTable) (schema : Schema)
    (rowMap : GoMap String Untyped) (hs : table.HasLayoutOf schema) (hwf : GoMap.WF rowMap) :
    ((table.convertRowMapToRowArray rowMap).isError = true ↔
      ∃ k, k ∈ GoMap.keys rowMap ∧ k ∉ GoMap.keys schema.StringColumns ∧
        k ∉ GoMap.keys schema.NumericColumns) ∧
    (table.convertRowMapToRowArray rowMap).isPanic = false ∧
    (∀ arr, table.convertRowMapToRowArray rowMap = .ok arr →
      arr.length = table.ColumnCount ∧
      ∀ k v, (k, v) ∈ rowMap →
        ∃ i, GoMap.get? table.ColumnNameToIndex k = some i ∧
          table.ColumnIndexToName[i]? = some k ∧ arr[i]? = some v) ∧
    ((∃ k, k ∈ GoMap.keys rowMap ∧ k ∉ GoMap.keys schema.StringColumns ∧
        k ∉ GoMap.keys schema.NumericColumns) →
      ∀ rest, ∃ msg, table.InsertRowMaps (rowMap :: rest) = (.error msg, table)) := by
  refine ⟨convertRowMapToRowArray_isError table schema hs _,
    convertRowMapToRowArray_no_panic table schema hs _, ?_, ?_⟩
  · intro arr harr
    exact convertRowMapToRowArray_values table schema hs rowMap hwf arr harr
  · intro hunknown rest
    have herr := (convertRowMapToRowArray_isError table schema hs rowMap).mpr hunknown
    cases hconv : table.convertRowMapToRowArray rowMap with
    | ok arr => rw [hconv] at herr; cases herr
    | panic msg => rw [hconv] at herr; cases herr
    | error msg =>
      refine ⟨msg, ?_⟩
      simp only [FactTable.InsertRowMaps, FactTable.normalizeRow, hconv]

/-- Witness for claim C5, from the test: `{col1: 5, unknownColumn: 10}` is rejected by the
fixture table. -/
theorem C5_unknown_column_witness :
    GoMap.WF [("col1", Untyped.int 5), ("unknownColumn", Untyped.int 10)] ∧
    (tableFixture.convertRowMapToRowArray
      [("col1", .int 5), ("unknownColumn", .int 10)]).isError = true :=
  ⟨by decide,
    (C5_unknown_column tableFixture fixtureSchema [("col1", .int 5), ("unknownColumn", .int 10)]
      (NewFactTable_HasLayoutOf "" 10 fixtureSchema) (by decide)).1.mpr
      ⟨"unknownColumn", by decide, by decide, by decide⟩⟩

theorem foldl_set_get? (kvs : GoMap String Nat) :
    ∀ (m : GoMap String Nat) (k : String) (v : Nat),
      GoMap.get? (kvs.foldl (fun m kv => GoMap.set m kv.1 kv.2) m) k = some v →
      (k, v) ∈ kvs ∨ GoMap.get? m k = some v := by
  induction kvs with
  | nil => intro m k v h; exact Or.inr h
  | cons kv rest ih =>
    intro m k v h
    simp only [List.foldl_cons] at h
    rcases ih _ _ _ h with h1 | h1
    · exact Or.inl (List.mem_cons_of_mem _ h1)
    · rw [GoMap.get?_set] at h1
      by_cases hk : kv.1 = k
      · rw [if_pos hk] at h1
        injection h1 with h1
        left
        rw [← hk, ← h1]
        exact List.mem_cons_self _ _
      · rw [if_neg hk] at h1
        exact Or.inr h1

theorem columnToType_valid (schema : Schema) (hvalid : schema.validTypes) (name : String) :
    GoMap.index (columnToType schema) name ≤ Float64Type := by
  unfold GoMap.index
  cases h : GoMap.get? (columnToType schema) name with
  | none => exact Nat.zero_le _
  | some v =>
    simp only [Option.getD_some]
    rcases foldl_set_get? _ _ _ _ h with h1 | h1
    · exact hvalid (name, v) (List.mem_append_right _ h1)
    · rcases foldl_set_get? _ _ _ _ h1 with h2 | h2
      · exact hvalid (name, v) (List.mem_append_left _ h2)
      · simp [GoMap.get?] at h2

theorem NewFactTable_LayoutOK (filePath : String) (rowCount : Nat) (schema : Schema)
    (hvalid : schema.validTypes) : (NewFactTable filePath rowCount schema).LayoutOK where
  offsets := NewFactTable_offsets_length _ _ _
  types := by rw [NewFactTable_types, List.length_map]; rfl
  names := rfl
  dims := by simp [NewFactTable]
  fits := NewFactTable_fits _ _ _
  valid := by
    intro ty hty
    rw [NewFactTable_types, List.mem_map] at hty
    obtain ⟨name, _, hname⟩ := hty
    rw [← hname]
    exact columnToType_valid schema hvalid name

theorem length_toBytesLE (w : Nat) : ∀ n, (toBytesLE w n).length = w := by
  induction w with
  | zero => intro n; rfl
  | succ w ih => intro n; simp [toBytesLE, ih]

theorem storeBytes_ok (row : List Byte) (off w n : Nat) (h : off + w ≤ row.length) :
    ∃ row1, storeBytes row off w n = .ok row1 ∧ row1.length = row.length := by
  refine ⟨_, if_pos h, ?_⟩
  simp only [List.length_append, List.length_take, List.length_drop, length_toBytesLE]
  omega

/-- On a well laid out table setColumnValue writes inside the row and returns normally. -/
theorem setColumnValue_ok (table : FactTable) (h : table.LayoutOK) (row : List Byte)
    (column : Nat) (value : Float64) (hrow : row.length = table.RowSize)
    (hcol : column < table.ColumnCount) :
    ∃ row1, table.setColumnValue row column value = .ok row1 ∧ row1.length = row.length := by
  have ho : column < table.ColumnIndexToOffset.length := by rw [h.offsets]; exact hcol
  have ht : column < table.ColumnIndexToType.length := by rw [h.types]; exact hcol
  have hoff := List.getElem?_eq_getElem ho
  have hty := List.getElem?_eq_getElem ht
  have hfit := h.fits column _ _ hoff hty
  have hv := h.valid _ (List.getElem_mem ht)
  rw [← hrow] at hfit
  generalize table.ColumnIndexToOffset[column] = off at hoff hfit
  generalize table.ColumnIndexToType[column] = ty at hty hfit hv
  simp only [Float64Type] at hv
  have hpos : row.length ≠ 0 := by
    have : 1 ≤ GoMap.index typeSizes ty := by
      interval_cases ty <;> decide
    omega
  simp only [FactTable.setColumnValue, hpos, if_false, hoff, hty]
  interval_cases ty
  all_goals
    simp only [Uint8Type, Int8Type, Uint16Type, Int16Type, Uint32Type, Int32Type, Uint64Type,
      Int64Type, Float32Type, Float64Type, if_true, if_false, Nat.reduceEqDiff, OfNat.ofNat_ne_zero,
      OfNat.zero_ne_ofNat, OfNat.ofNat_ne_one, OfNat.one_ne_ofNat, one_ne_zero, zero_ne_one]
    exact storeBytes_ok _ _ _ _ hfit

/-- Replacing a dimension table keeps the layout facts. -/
theorem LayoutOK_setDimensionTable (table : FactTable) (h : table.LayoutOK) (i : Nat)
    (d : DimensionTable) :
    ({ table with DimensionTables := table.DimensionTables.set i d } : FactTable).LayoutOK where
  offsets := h.offsets
  types := h.types
  names := h.names
  dims := by simp only [List.length_set]; exact h.dims
  fits := h.fits
  valid := h.valid

/-- The loop body on a string value of a string column: it writes the id and goes on. -/
theorem normalizeColumn_string (table : FactTable) (hl : table.LayoutOK) (columnIndex : Nat)
    (stringValue : String) (rowSlice : List Byte) (hrow : rowSlice.length = table.RowSize)
    (hdim : columnIndex < table.DimensionTables.length) :
    ∃ rowSlice1 table1, table.normalizeColumn columnIndex (.string stringValue) rowSlice
        = (.ok rowSlice1, table1) ∧
      rowSlice1.length = rowSlice.length ∧ table1.LayoutOK ∧ table1.RowSize = table.RowSize ∧
      table1.DimensionTables.length = table.DimensionTables.length ∧
      table1.ColumnCount = table.ColumnCount := by
  have hcol : columnIndex < table.ColumnCount := Nat.lt_of_lt_of_le hdim hl.dims
  have huse : table.columnUsesDimensionTable columnIndex = true := by
    simp [FactTable.columnUsesDimensionTable, hdim]
  have hd := List.getElem?_eq_getElem hdim
  have hl1 := LayoutOK_setDimensionTable table hl columnIndex
    (table.DimensionTables[columnIndex].lookupOrAddRow stringValue).2
  obtain ⟨row1, hset, hlen1⟩ := setColumnValue_ok _ hl1 rowSlice columnIndex
    (Float64.ofInt (table.DimensionTables[columnIndex].lookupOrAddRow stringValue).1)
    hrow hcol
  refine ⟨row1, _, ?_, hlen1, hl1, rfl, List.length_set _ _ _, rfl⟩
  simp only [FactTable.normalizeColumn, huse, if_true, hd, hset]

/-- The loop body on a value of a string column that is not a string: it returns the
error and leaves the table alone. -/
theorem normalizeColumn_non_string (table : FactTable) (hl : table.LayoutOK) (columnIndex : Nat)
    (value : Untyped) (rowSlice : List Byte) (hns : isString value = false)
    (hdim : columnIndex < table.DimensionTables.length) :
    ∃ msg, table.normalizeColumn columnIndex value rowSlice = (.error msg, table) := by
  have hcol : columnIndex < table.ColumnCount := Nat.lt_of_lt_of_le hdim hl.dims
  have huse : table.columnUsesDimensionTable columnIndex = true := by
    simp [FactTable.columnUsesDimensionTable, hdim]
  obtain ⟨name, hname⟩ : ∃ name, table.ColumnIndexToName[columnIndex]? = some name :=
    ⟨_, List.getElem?_eq_getElem (by rw [hl.names]; exact hcol)⟩
  refine ⟨"Cannot insert a non-string value into column " ++ name ++ ".", ?_⟩
  cases value with
  | string s => simp [isString] at hns
  | _ => simp only [FactTable.normalizeColumn, huse, if_true, hname]

/-- The loop body changes nothing of the table but the contents of its dimension tables. -/
theorem normalizeColumn_frame (table : FactTable) (columnIndex : Nat) (value : Untyped)
    (rowSlice : List Byte) :
    ∃ dims, (table.normalizeColumn columnIndex value rowSlice).2
        = { table with DimensionTables := dims } ∧
      dims.length = table.DimensionTables.length := by
  unfold FactTable.normalizeColumn
  split
  · split
    · split
      · exact ⟨table.DimensionTables, rfl, rfl⟩
      · exact ⟨_, rfl, List.length_set _ _ _⟩
    · split
      · exact ⟨table.DimensionTables, rfl, rfl⟩
      · exact ⟨table.DimensionTables, rfl, rfl⟩
  · split
    · exact ⟨table.DimensionTables, rfl, rfl⟩
    · exact ⟨table.DimensionTables, rfl, rfl⟩

/-- The loop of normalizeRow returns an error when a string column still ahead of it holds
a value that is not a string. -/
theorem normalizeLoop_error (rest : List Untyped) :
    ∀ (columnIndex : Nat) (rowSlice : List Byte) (table : FactTable),
      table.LayoutOK → rowSlice.length = table.RowSize →
      (∃ j v, columnIndex + j < table.DimensionTables.length ∧ rest[j]? = some v ∧
        isString v = false) →
      ∃ msg, (normalizeLoop rest columnIndex rowSlice table).1 = .error msg := by
  induction rest with
  | nil =>
    rintro columnIndex rowSlice table _ _ ⟨j, v, _, hj, _⟩
    simp at hj
  | cons value rest ih =>
    rintro columnIndex rowSlice table hl hrow ⟨j, v, hj, hv, hns⟩
    have hdim : columnIndex < table.DimensionTables.length := by omega
    by_cases hstr : isString value = true
    · -- a string: the loop goes on to the next column
      cases value <;> simp only [isString] at hstr <;> try exact absurd hstr (by decide)
      rename_i stringValue
      have hj0 : j ≠ 0 := by
        intro h0
        subst h0
        simp only [List.getElem?_cons_zero, Option.some.injEq] at hv
        subst hv
        simp [isString] at hns
      obtain ⟨j1, rfl⟩ := Nat.exists_eq_succ_of_ne_zero hj0
      rw [List.getElem?_cons_succ] at hv
      obtain ⟨row1, table1, hstep, hlen1, hl1, hsz1, hd1, _⟩ :=
        normalizeColumn_string table hl columnIndex stringValue rowSlice hrow hdim
      simp only [normalizeLoop, hstep]
      apply ih (columnIndex + 1) row1 table1 hl1 (by rw [hlen1, hrow, hsz1])
      exact ⟨j1, v, by rw [hd1]; omega, hv, hns⟩
    · -- not a string: the loop returns the error
      obtain ⟨msg, hstep⟩ := normalizeColumn_non_string table hl columnIndex value rowSlice
        (by simpa using hstr) hdim
      exact ⟨msg, by simp only [normalizeLoop, hstep]⟩

/-- The layout facts hold for every table with the layout of a schema whose element types
are among the ten type constants. -/
theorem layout_LayoutOK (table : FactTable) (schema : Schema) (hs : table.HasLayoutOf schema)
    (hvalid : schema.validTypes) : table.LayoutOK := by
  have h0 := NewFactTable_LayoutOK table.FilePath table.Capacity schema hvalid
  refine ⟨?_, ?_, ?_, ?_, ?_, ?_⟩
  · rw [hs.indexToOffset, hs.columnCount]; exact h0.offsets
  · rw [hs.indexToType, hs.columnCount]; exact h0.types
  · rw [hs.indexToName, hs.columnCount]; exact h0.names
  · rw [hs.dimensionTables, hs.columnCount]; exact h0.dims
  · rw [hs.indexToOffset, hs.indexToType, hs.rowSize]; exact h0.fits
  · rw [hs.indexToType]; exact h0.valid

/-- A slot of the converted row that no key of the row map is mapped to keeps the nil
value. -/
theorem convertRowMapToRowArray_nil (table : FactTable) (schema : Schema)
    (hs : table.HasLayoutOf schema) (rowMap : GoMap String Untyped) (hwf : GoMap.WF rowMap)
    (arr : List Untyped) (harr : table.convertRowMapToRowArray rowMap = .ok arr)
    (i : Nat) (hi : i < table.ColumnCount)
    (hfree : ∀ k, k ∈ GoMap.keys rowMap → GoMap.get? table.ColumnNameToIndex k ≠ some i) :
    arr[i]? = some Untyped.nil := by
  obtain ⟨_, h2, _⟩ :=
    convertLoop_ok _ (layout_index_inj table schema hs) rowMap _ arr hwf harr
  rw [h2 i hfree, List.getElem?_replicate, if_pos hi]

/-- Every string column name of the schema sits at an index below the number of dimension
tables. -/
theorem layout_string_slot (table : FactTable) (schema : Schema) (hs : table.HasLayoutOf schema)
    (k : String) (hk : k ∈ GoMap.keys schema.StringColumns) :
    ∃ i, i < table.DimensionTables.length ∧ table.ColumnIndexToName[i]? = some k := by
  have hmem : k ∈ getSortedKeys schema.StringColumns :=
    (sortStrings_perm _).mem_iff.mpr hk
  obtain ⟨i, hi, hik⟩ := List.getElem_of_mem hmem
  refine ⟨i, ?_, ?_⟩
  · rw [hs.dimensionTables]
    simpa [NewFactTable] using hi
  · rw [hs.indexToName]
    show (getSortedKeys schema.StringColumns ++ getSortedKeys schema.NumericColumns)[i]? = _
    rw [List.getElem?_append_left hi, List.getElem?_eq_getElem hi, hik]

/-- The call normalizeRow returns an error as soon as the converted row holds a non-string
value in the slot of a string column. -/
theorem normalizeRow_error_of_slot (table : FactTable) (schema : Schema)
    (hs : table.HasLayoutOf schema) (hvalid : schema.validTypes)
    (rowMap : GoMap String Untyped) (arr : List Untyped)
    (harr : table.convertRowMapToRowArray rowMap = .ok arr)
    (j : Nat) (v : Untyped) (hj : j < table.DimensionTables.length)
    (hv : arr[j]? = some v) (hns : isString v = false) :
    ∃ msg, (table.normalizeRow rowMap).1 = .error msg := by
  simp only [FactTable.normalizeRow, harr]
  apply normalizeLoop_error arr 0 _ _ (layout_LayoutOK table schema hs hvalid)
    (List.length_replicate _ _)
  exact ⟨j, v, by omega, hv, hns⟩

/-- The loop of normalizeRow changes nothing of the table but the contents of its dimension
tables. -/
theorem normalizeLoop_frame (rest : List Untyped) :
    ∀ (columnIndex : Nat) (rowSlice : List Byte) (table : FactTable),
      ∃ dims, (normalizeLoop rest columnIndex rowSlice table).2
          = { table with DimensionTables := dims } ∧
        dims.length = table.DimensionTables.length := by
  induction rest with
  | nil => intro c row t; exact ⟨t.DimensionTables, rfl, rfl⟩
  | cons value rest ih =>
    intro c row t
    obtain ⟨dims, h1, h2⟩ := normalizeColumn_frame t c value row
    cases hstep : t.normalizeColumn c value row with
    | mk res t1 =>
      rw [hstep] at h1
      simp only at h1
      subst h1
      cases res with
      | ok row1 =>
        simp only [normalizeLoop, hstep]
        obtain ⟨dims2, h3, h4⟩ := ih (c + 1) row1 { t with DimensionTables := dims }
        exact ⟨dims2, h3, h4.trans h2⟩
      | error msg =>
        simp only [normalizeLoop, hstep]
        exact ⟨dims, rfl, h2⟩
      | panic msg =>
        simp only [normalizeLoop, hstep]
        exact ⟨dims, rfl, h2⟩

/-- The call normalizeRow keeps the layout of the table, whatever its outcome. -/
theorem normalizeRow_HasLayoutOf (table : FactTable) (schema : Schema)
    (hs : table.HasLayoutOf schema) (rowMap : GoMap String Untyped) :
    (table.normalizeRow rowMap).2.HasLayoutOf schema := by
  unfold FactTable.normalizeRow
  split
  · rename_i arr harr
    obtain ⟨dims, h1, h2⟩ := normalizeLoop_frame arr 0 (List.replicate table.RowSize 0) table
    rw [h1]
    exact ⟨hs.columnCount, hs.rowSize, hs.nameToIndex, hs.indexToName, hs.indexToOffset,
      hs.indexToType, h2.trans hs.dimensionTables⟩
  · exact hs
  · exact hs

/-- The call insertNormalizedRow keeps the layout of the table. -/
theorem insertNormalizedRow_HasLayoutOf (table table1 : FactTable) (schema : Schema)
    (hs : table.HasLayoutOf schema) (row : List Byte)
    (h : table.insertNormalizedRow row = .ok table1) : table1.HasLayoutOf schema := by
  unfold FactTable.insertNormalizedRow at h
  split at h
  · cases h
  · cases h
  · split at h
    · cases h
    · injection h with h
      subst h
      exact ⟨hs.columnCount, hs.rowSize, hs.nameToIndex, hs.indexToName, hs.indexToOffset,
        hs.indexToType, hs.dimensionTables⟩

/-- The call InsertRowMaps keeps the layout of the table, whatever its outcome. -/
theorem InsertRowMaps_HasLayoutOf (schema : Schema) (rows : List (GoMap String Untyped)) :
    ∀ table : FactTable, table.HasLayoutOf schema →
      (table.InsertRowMaps rows).2.HasLayoutOf schema := by
  induction rows with
  | nil => intro table hs; exact hs
  | cons rowMap rest ih =>
    intro table hs
    have h1 := normalizeRow_HasLayoutOf table schema hs rowMap
    cases hn : table.normalizeRow rowMap with
    | mk res table1 =>
      rw [hn] at h1
      cases res with
      | ok normalizedRow =>
        cases hi : table1.insertNormalizedRow normalizedRow with
        | ok table2 =>
          simp only [FactTable.InsertRowMaps, hn, hi]
          exact ih table2 (insertNormalizedRow_HasLayoutOf table1 table2 schema h1 _ hi)
        | error msg => simp only [FactTable.InsertRowMaps, hn, hi]; exact h1
        | panic msg => simp only [FactTable.InsertRowMaps, hn, hi]; exact h1
      | error msg => simp only [FactTable.InsertRowMaps, hn]; exact h1
      | panic msg => simp only [FactTable.InsertRowMaps, hn]; exact h1

/-- Claim C6. On every table with the layout of a schema (element types among the ten type
constants), for a row map whose keys are all column names: if the value supplied for some
string column is not a string, normalizeRow returns an error, hence no row bytes. -/
theorem C6_non_string_dimension_value (table : FactTable) (schema : Schema)
    (rowMap : GoMap String Untyped) (hs : table.HasLayoutOf schema)
    (hvalid : schema.validTypes) (hwf : GoMap.WF rowMap)
    (hknown : ∀ k, k ∈ GoMap.keys rowMap →
      k ∈ GoMap.keys schema.StringColumns ∨ k ∈ GoMap.keys schema.NumericColumns)
    (hbad : ∃ k v, (k, v) ∈ rowMap ∧ k ∈ GoMap.keys schema.StringColumns ∧ isString v = false) :
    ∃ msg, (table.normalizeRow rowMap).1 = .error msg := by
  obtain ⟨k, v, hmem, hk, hns⟩ := hbad
  obtain ⟨arr, harr⟩ := convertRowMapToRowArray_known table schema hs rowMap hknown
  obtain ⟨_, hvals⟩ := convertRowMapToRowArray_values table schema hs rowMap hwf arr harr
  obtain ⟨i, hi, _, hiv⟩ := hvals k v hmem
  obtain ⟨i0, hi0, hname0⟩ := layout_string_slot table schema hs k hk
  by_cases hii : i = i0
  · -- the value sits in the slot of the string column
    subst hii
    exact normalizeRow_error_of_slot table schema hs hvalid rowMap arr harr i v hi0 hiv hns
  · -- the name is also a numeric column: the slot of the string column stays nil
    have hnil : arr[i0]? = some Untyped.nil := by
      apply convertRowMapToRowArray_nil table schema hs rowMap hwf arr harr i0
        (Nat.lt_of_lt_of_le hi0 (layout_LayoutOK table schema hs hvalid).dims)
      intro k' _ hk'
      have h1 := layout_index_name table schema hs _ _ hk'
      rw [hname0] at h1
      have : k = k' := Option.some.inj h1
      subst this
      rw [hi] at hk'
      exact hii (Option.some.inj hk')
    exact normalizeRow_error_of_slot table schema hs hvalid rowMap arr harr i0 _ hi0 hnil rfl

/-- Witness for claim C6: the fixture table rejects `{col1: 5.0, col2: 7.0}`. -/
theorem C6_non_string_dimension_value_witness :
    ∃ msg, (tableFixture.normalizeRow
      [("col1", .float64 (Float64.ofInt 5)), ("col2", .float64 (Float64.ofInt 7))]).1
        = .error msg :=
  C6_non_string_dimension_value tableFixture fixtureSchema
    [("col1", .float64 (Float64.ofInt 5)), ("col2", .float64 (Float64.ofInt 7))]
    (NewFactTable_HasLayoutOf "" 10 fixtureSchema) (by decide) (by decide) (by decide)
    ⟨"col2", .float64 (Float64.ofInt 7), by decide, by decide, by decide⟩

/-- The loop body on a `float64` value of a numeric column: it writes the value and goes
on with the same table. -/
theorem normalizeColumn_float64 (table : FactTable) (hl : table.LayoutOK) (columnIndex : Nat)
    (x : Float64) (rowSlice : List Byte) (hrow : rowSlice.length = table.RowSize)
    (hnum : table.DimensionTables.length ≤ columnIndex) (hcol : columnIndex < table.ColumnCount) :
    ∃ rowSlice1, table.normalizeColumn columnIndex (.float64 x) rowSlice
        = (.ok rowSlice1, table) ∧ rowSlice1.length = rowSlice.length := by
  have huse : table.columnUsesDimensionTable columnIndex = false := by
    simp [FactTable.columnUsesDimensionTable, hnum]
  obtain ⟨row1, hset, hlen1⟩ := setColumnValue_ok table hl rowSlice columnIndex x hrow hcol
  exact ⟨row1, by simp [FactTable.normalizeColumn, huse, hset], hlen1⟩

/-- The loop body on a value of a numeric column that is not a `float64`: the type
assertion panics. -/
theorem normalizeColumn_not_float64 (table : FactTable) (columnIndex : Nat) (value : Untyped)
    (rowSlice : List Byte) (hnf : isFloat64 value = false)
    (hnum : table.DimensionTables.length ≤ columnIndex) :
    table.normalizeColumn columnIndex value rowSlice
      = (.panic ("interface conversion: interface \x7b\x7d is " ++ goTypeName value
          ++ ", not float64"), table) := by
  have huse : table.columnUsesDimensionTable columnIndex = false := by
    simp [FactTable.columnUsesDimensionTable, hnum]
  cases value with
  | float64 x => simp [isFloat64] at hnf
  | _ => simp [FactTable.normalizeColumn, huse]

/-- The loop of normalizeRow panics when every string column ahead of it holds a string and
some numeric column ahead of it holds a value that is not a `float64`. -/
theorem normalizeLoop_panic (rest : List Untyped) :
    ∀ (columnIndex : Nat) (rowSlice : List Byte) (table : FactTable),
      table.LayoutOK → rowSlice.length = table.RowSize →
      columnIndex + rest.length = table.ColumnCount →
      (∀ j v, columnIndex + j < table.DimensionTables.length → rest[j]? = some v →
        isString v = true) →
      (∃ j v, table.DimensionTables.length ≤ columnIndex + j ∧ rest[j]? = some v ∧
        isFloat64 v = false) →
      ∃ msg, (normalizeLoop rest columnIndex rowSlice table).1 = .panic msg := by
  induction rest with
  | nil =>
    rintro columnIndex rowSlice table _ _ _ _ ⟨j, v, _, hj, _⟩
    simp at hj
  | cons value rest ih =>
    rintro columnIndex rowSlice table hl hrow hcount hstrs ⟨j, v, hj, hv, hnf⟩
    simp only [List.length_cons] at hcount
    by_cases hdim : columnIndex < table.DimensionTables.length
    · -- a string column: it holds a string and the loop goes on
      have hs := hstrs 0 value (by simpa using hdim) (by simp)
      cases value <;> simp only [isString] at hs <;> try exact absurd hs (by decide)
      rename_i stringValue
      have hj0 : j ≠ 0 := by
        intro h0
        subst h0
        omega
      obtain ⟨j1, rfl⟩ := Nat.exists_eq_succ_of_ne_zero hj0
      rw [List.getElem?_cons_succ] at hv
      obtain ⟨row1, table1, hstep, hlen1, hl1, hsz1, hd1, hcc1⟩ :=
        normalizeColumn_string table hl columnIndex stringValue rowSlice hrow hdim
      simp only [normalizeLoop, hstep]
      apply ih (columnIndex + 1) row1 table1 hl1 (by rw [hlen1, hrow, hsz1])
        (by rw [hcc1]; omega)
      · intro j' v' hj' hv'
        apply hstrs (j' + 1) v' (by rw [hd1] at hj'; omega)
        rw [List.getElem?_cons_succ]
        exact hv'
      · exact ⟨j1, v, by rw [hd1]; omega, hv, hnf⟩
    · -- a numeric column
      have hnum : table.DimensionTables.length ≤ columnIndex := Nat.le_of_not_lt hdim
      by_cases hf : isFloat64 value = true
      · cases value <;> simp only [isFloat64] at hf <;> try exact absurd hf (by decide)
        rename_i x
        have hj0 : j ≠ 0 := by
          intro h0
          subst h0
          simp only [List.getElem?_cons_zero, Option.some.injEq] at hv
          subst hv
          simp [isFloat64] at hnf
        obtain ⟨j1, rfl⟩ := Nat.exists_eq_succ_of_ne_zero hj0
        rw [List.getElem?_cons_succ] at hv
        obtain ⟨row1, hstep, hlen1⟩ := normalizeColumn_float64 table hl columnIndex x rowSlice
          hrow hnum (by omega)
        simp only [normalizeLoop, hstep]
        apply ih (columnIndex + 1) row1 table hl (by rw [hlen1, hrow]) (by omega)
        · intro j' v' hj' _
          omega
        · exact ⟨j1, v, by omega, hv, hnf⟩
      · have hstep := normalizeColumn_not_float64 table columnIndex value rowSlice
          (by simpa using hf) hnum
        exact ⟨"interface conversion: interface \x7b\x7d is " ++ goTypeName value ++ ", not float64",
          by simp only [normalizeLoop, hstep]⟩

theorem layout_names (table : FactTable) (schema : Schema) (hs : table.HasLayoutOf schema) :
    table.ColumnIndexToName
        = getSortedKeys schema.StringColumns ++ getSortedKeys schema.NumericColumns ∧
    table.DimensionTables.length = (getSortedKeys schema.StringColumns).length := by
  refine ⟨hs.indexToName, ?_⟩
  rw [hs.dimensionTables]
  simp [NewFactTable]

/-- On every table with the layout of a schema with unique column names: when the row map
gives a string to every string column and no `float64` to some numeric column, normalizeRow
panics; it does not return an error. -/
theorem normalizeRow_numeric_mismatch_panics (table : FactTable) (schema : Schema)
    (rowMap : GoMap String Untyped) (hs : table.HasLayoutOf schema)
    (hvalid : schema.validTypes) (hwf : GoMap.WF rowMap)
    (huniq : (GoMap.keys schema.StringColumns ++ GoMap.keys schema.NumericColumns).Nodup)
    (hknown : ∀ k, k ∈ GoMap.keys rowMap →
      k ∈ GoMap.keys schema.StringColumns ∨ k ∈ GoMap.keys schema.NumericColumns)
    (hstrings : ∀ k, k ∈ GoMap.keys schema.StringColumns →
      ∃ s, (k, Untyped.string s) ∈ rowMap)
    (hbad : ∃ k, k ∈ GoMap.keys schema.NumericColumns ∧
      ∀ x, (k, Untyped.float64 x) ∉ rowMap) :
    ∃ msg, (table.normalizeRow rowMap).1 = .panic msg := by
  obtain ⟨k, hk, hnofloat⟩ := hbad
  obtain ⟨arr, harr⟩ := convertRowMapToRowArray_known table schema hs rowMap hknown
  obtain ⟨hlen, hvals⟩ := convertRowMapToRowArray_values table schema hs rowMap hwf arr harr
  obtain ⟨hnames, hdims⟩ := layout_names table schema hs
  have hl := layout_LayoutOK table schema hs hvalid
  have hps := sortStrings_perm (GoMap.keys schema.StringColumns)
  have hpn := sortStrings_perm (GoMap.keys schema.NumericColumns)
  have hdisj := (List.nodup_append.mp huniq).2.2
  have hnd : table.ColumnIndexToName.Nodup := by
    rw [hnames]
    exact ((hps.append hpn).nodup_iff).mpr huniq
  -- two indices carrying the same name coincide
  have hsame : ∀ (i j : Nat) (name : String), table.ColumnIndexToName[i]? = some name →
      table.ColumnIndexToName[j]? = some name → i = j := by
    intro i j name hi hj
    obtain ⟨hi1, hi2⟩ := List.getElem?_eq_some_iff.mp hi
    obtain ⟨hj1, hj2⟩ := List.getElem?_eq_some_iff.mp hj
    exact (List.Nodup.getElem_inj_iff hnd).mp (hi2.trans hj2.symm)
  simp only [FactTable.normalizeRow, harr]
  apply normalizeLoop_panic arr 0 _ table hl (List.length_replicate _ _)
    (by rw [Nat.zero_add]; exact hlen)
  · -- every slot of a string column holds a string
    intro j v hj hv
    rw [Nat.zero_add] at hj
    have hjs : j < (getSortedKeys schema.StringColumns).length := by rw [← hdims]; exact hj
    have hname : table.ColumnIndexToName[j]? = some (getSortedKeys schema.StringColumns)[j] := by
      rw [hnames, List.getElem?_append_left hjs, List.getElem?_eq_getElem hjs]
    have hmem : (getSortedKeys schema.StringColumns)[j] ∈ GoMap.keys schema.StringColumns :=
      hps.mem_iff.mp (List.getElem_mem _)
    obtain ⟨s, hs1⟩ := hstrings _ hmem
    obtain ⟨i, _, hin, hiv⟩ := hvals _ _ hs1
    have hij := hsame i j _ hin hname
    subst hij
    rw [hiv] at hv
    injection hv with hv
    rw [← hv]
    rfl
  · -- the slot of the numeric column `k` holds no float64
    obtain ⟨i, hi⟩ := (layout_known_iff table schema hs k).mpr (Or.inr hk)
    have hiname := layout_index_name table schema hs k i hi
    have hilt : i < table.ColumnCount := by
      rw [← hl.names]; exact (List.getElem?_eq_some_iff.mp hiname).1
    have hige : table.DimensionTables.length ≤ i := by
      by_contra hlt
      have hlt' : i < (getSortedKeys schema.StringColumns).length := by rw [← hdims]; omega
      rw [hnames, List.getElem?_append_left hlt'] at hiname
      have : k ∈ getSortedKeys schema.StringColumns := List.mem_iff_getElem?.mpr ⟨i, hiname⟩
      exact hdisj (hps.mem_iff.mp this) hk
    by_cases hsup : ∃ v, (k, v) ∈ rowMap
    · obtain ⟨v, hv⟩ := hsup
      obtain ⟨i', hi', _, hiv⟩ := hvals k v hv
      rw [hi] at hi'
      injection hi' with hi'
      subst hi'
      refine ⟨i, v, by omega, hiv, ?_⟩
      cases v with
      | float64 x => exact absurd hv (hnofloat x)
      | _ => rfl
    · have hnil : arr[i]? = some Untyped.nil := by
        apply convertRowMapToRowArray_nil table schema hs rowMap hwf arr harr i hilt
        intro k' hk'mem hk'
        have h1 := layout_index_name table schema hs _ _ hk'
        rw [hiname] at h1
        have : k = k' := Option.some.inj h1
        subst this
        obtain ⟨kv, hkv, hfst⟩ := List.mem_map.mp hk'mem
        exact hsup ⟨kv.2, by rw [← hfst]; exact hkv⟩
      exact ⟨i, .nil, by omega, hnil, rfl⟩

/-- Claim C7 (failing input). The fixture table, row map `{col1: "five", col2: "a"}`: the
numeric column `col1` holds a string, and normalizeRow panics in the type assertion
`value.(float64)` instead of returning an error. -/
theorem C7_numeric_mismatch_panics :
    (tableFixture.normalizeRow [("col1", .string "five"), ("col2", .string "a")]).1
      = .panic "interface conversion: interface \x7b\x7d is string, not float64" := by
  decide

/-- Counterexample to claim C8 as stated. The fixture table, row map `{col1: 5.0}` that omits
the string column `col2`: normalizeRow does not succeed, it returns the non-string error. -/
theorem C8_counterexample :
    (tableFixture.normalizeRow [("col1", .float64 (Float64.ofInt 5))]).1
      = .error "Cannot insert a non-string value into column col2." := by
  decide

/-- Claim C8 (amended). On every table with the layout of a schema (element types among the
ten type constants), for a row map whose keys are all column names and that omits some
string column, normalizeRow returns an error and hence no row bytes: a missing string column
is rejected, not stored as zero. -/
theorem C8_missing_string_column (table : FactTable) (schema : Schema)
    (rowMap : GoMap String Untyped) (hs : table.HasLayoutOf schema)
    (hvalid : schema.validTypes) (hwf : GoMap.WF rowMap)
    (hknown : ∀ k, k ∈ GoMap.keys rowMap →
      k ∈ GoMap.keys schema.StringColumns ∨ k ∈ GoMap.keys schema.NumericColumns)
    (hmissing : ∃ k, k ∈ GoMap.keys schema.StringColumns ∧ k ∉ GoMap.keys rowMap) :
    ∃ msg, (table.normalizeRow rowMap).1 = .error msg := by
  obtain ⟨k, hk, hnot⟩ := hmissing
  obtain ⟨arr, harr⟩ := convertRowMapToRowArray_known table schema hs rowMap hknown
  obtain ⟨i0, hi0, hname0⟩ := layout_string_slot table schema hs k hk
  have hnil : arr[i0]? = some Untyped.nil := by
    apply convertRowMapToRowArray_nil table schema hs rowMap hwf arr harr i0
      (Nat.lt_of_lt_of_le hi0 (layout_LayoutOK table schema hs hvalid).dims)
    intro k' hk'mem hk'
    have h1 := layout_index_name table schema hs _ _ hk'
    rw [hname0] at h1
    have : k = k' := Option.some.inj h1
    subst this
    exact hnot hk'mem
  exact normalizeRow_error_of_slot table schema hs hvalid rowMap arr harr i0 _ hi0 hnil rfl

/-- Witness for the amended claim C8: the fixture table rejects `{col1: 5.0}`. -/
theorem C8_missing_string_column_witness :
    ∃ msg, (tableFixture.normalizeRow [("col1", .float64 (Float64.ofInt 5))]).1 = .error msg :=
  C8_missing_string_column tableFixture fixtureSchema [("col1", .float64 (Float64.ofInt 5))]
    (NewFactTable_HasLayoutOf "" 10 fixtureSchema) (by decide) (by decide) (by decide)
    ⟨"col2", by decide, by decide⟩

theorem loadValue_ok (row : List Byte) (off w : Nat) (mk : Nat → Untyped)
    (h : off + w ≤ row.length) :
    loadValue row off w mk = .ok (mk (fromBytesLE ((row.drop off).take w))) :=
  if_pos h

theorem loadValue_not_error (row : List Byte) (off w : Nat) (mk : Nat → Untyped) :
    (loadValue row off w mk).isError = false := by
  unfold loadValue
  split <;> rfl

/-- Reading a column stored as `int16` yields an `int16` value. -/
theorem getColumnValue_int16 (table : FactTable) (hl : table.LayoutOK) (row : List Byte)
    (column : Nat) (hrow : row.length = table.RowSize)
    (hty : table.ColumnIndexToType[column]? = some Int16Type) :
    ∃ n, table.getColumnValue row column = .ok (.int16 n) := by
  have hc : column < table.ColumnIndexToOffset.length := by
    rw [hl.offsets, ← hl.types]; exact (List.getElem?_eq_some_iff.mp hty).1
  have hoff := List.getElem?_eq_getElem hc
  have hfit := hl.fits column _ _ hoff hty
  rw [← hrow] at hfit
  have hw : GoMap.index typeSizes Int16Type = 2 := by decide
  rw [hw] at hfit
  have hpos : row.length ≠ 0 := by omega
  refine ⟨toSigned 16 (fromBytesLE ((row.drop table.ColumnIndexToOffset[column]).take 2)), ?_⟩
  have h1 : Int16Type ≠ Uint8Type := by decide
  have h2 : Int16Type ≠ Int8Type := by decide
  have h3 : Int16Type ≠ Uint16Type := by decide
  simp only [FactTable.getColumnValue, hpos, if_false, hoff, hty, h1, h2, h3, if_true,
    loadValue_ok _ _ _ _ hfit]

theorem isError_ite {α : Type} (c : Prop) [Decidable c] (a b : Result α)
    (ha : a.isError = false) (hb : b.isError = false) :
    (if c then a else b).isError = false := by
  split
  · exact ha
  · exact hb

theorem getColumnValue_not_error (table : FactTable) (row : List Byte) (column : Nat) :
    (table.getColumnValue row column).isError = false := by
  unfold FactTable.getColumnValue
  split
  · rfl
  · split
    · rfl
    · split
      · rfl
      · iterate 10 refine isError_ite _ _ _ (loadValue_not_error _ _ _ _) ?_
        rfl

theorem indexStrings_not_error (rows : List String) (index : Int) :
    (indexStrings rows index).isError = false := by
  unfold indexStrings
  split
  · rfl
  · split <;> rfl

theorem convertUntypedToFloat64_not_error (value : Untyped) :
    (convertUntypedToFloat64 value).isError = false := by
  cases value <;> rfl

theorem denormalizeColumnValue_not_error (table : FactTable) (value : Untyped) (column : Nat) :
    (table.denormalizeColumnValue value column).isError = false := by
  unfold FactTable.denormalizeColumnValue
  split
  · split
    · rfl
    · rename_i dimensionTable _
      have hc := convertUntypedToFloat64_not_error value
      cases hconv : convertUntypedToFloat64 value with
      | error msg => rw [hconv] at hc; cases hc
      | panic msg => rfl
      | ok f =>
        have h := indexStrings_not_error dimensionTable.Rows (f.toInt 64)
        cases hidx : indexStrings dimensionTable.Rows (f.toInt 64) with
        | error msg => rw [hidx] at h; cases h
        | panic msg => simp only [hidx]; rfl
        | ok s => simp only [hidx]; rfl
  · rfl

/-- The loop of DenormalizeRow panics when a string column stored as `int16` is among the
columns still to visit. -/
theorem denormalizeLoop_int16_panics (table : FactTable) (hl : table.LayoutOK) (row : List Byte)
    (hrow : row.length = table.RowSize) (indices : List Nat) :
    ∀ result : GoMap String Untyped,
      (∀ i, i ∈ indices → i < table.ColumnCount) →
      (∃ j, j ∈ indices ∧ j < table.DimensionTables.length ∧
        table.ColumnIndexToType[j]? = some Int16Type) →
      ∃ msg, denormalizeLoop table row indices result = .panic msg := by
  induction indices with
  | nil => rintro result _ ⟨j, hj, _⟩; simp at hj
  | cons i rest ih =>
    rintro result hlt ⟨j, hj, hdim, hty⟩
    have hi : i < table.ColumnIndexToName.length := by
      rw [hl.names]; exact hlt i (List.mem_cons_self _ _)
    have hname := List.getElem?_eq_getElem hi
    by_cases hij : j = i
    · -- the `int16` string column itself
      subst hij
      obtain ⟨n, hget⟩ := getColumnValue_int16 table hl row j hrow hty
      have huse : table.columnUsesDimensionTable j = true := by
        simp [FactTable.columnUsesDimensionTable, hdim]
      have hd := List.getElem?_eq_getElem hdim
      exact ⟨"Unrecognized type: int16", by
        simp [denormalizeLoop, hname, hget, FactTable.denormalizeColumnValue, huse, hd,
          convertUntypedToFloat64, goTypeName]⟩
    · have hjrest : j ∈ rest := by
        rcases List.mem_cons.mp hj with h | h
        · exact absurd h hij
        · exact h
      have hrest := fun result1 => ih result1
        (fun i' hi' => hlt i' (List.mem_cons_of_mem _ hi')) ⟨j, hjrest, hdim, hty⟩
      have h1 := getColumnValue_not_error table row i
      cases hget : table.getColumnValue row i with
      | error msg => rw [hget] at h1; cases h1
      | panic msg => exact ⟨msg, by simp only [denormalizeLoop, hname, hget]⟩
      | ok value =>
        have h2 := denormalizeColumnValue_not_error table value i
        cases hden : table.denormalizeColumnValue value i with
        | error msg => rw [hden] at h2; cases h2
        | panic msg => exact ⟨msg, by simp only [denormalizeLoop, hname, hget, hden]⟩
        | ok v =>
          obtain ⟨msg, hmsg⟩ := hrest (GoMap.set result table.ColumnIndexToName[i] v)
          exact ⟨msg, by simp only [denormalizeLoop, hname, hget, hden, hmsg]⟩

/-- On every table with the layout of a schema that stores one of its string columns as
`int16`, DenormalizeRow panics on every row: convertUntypedToFloat64 has no case for the
`int16` that getColumnValue returns for that column. -/
theorem DenormalizeRow_int16_panics (table : FactTable) (schema : Schema)
    (hs : table.HasLayoutOf schema) (hvalid : schema.validTypes)
    (hwf : GoMap.WF schema.StringColumns) (name : String)
    (hname : (name, Int16Type) ∈ schema.StringColumns)
    (hnum : name ∉ GoMap.keys schema.NumericColumns)
    (row : List Byte) (hrow : row.length = table.RowSize) :
    ∃ msg, table.DenormalizeRow row = .panic msg := by
  have hl := layout_LayoutOK table schema hs hvalid
  have hkey : name ∈ GoMap.keys schema.StringColumns :=
    List.mem_map.mpr ⟨(name, Int16Type), hname, rfl⟩
  obtain ⟨j, hj, hjname⟩ := layout_string_slot table schema hs name hkey
  have hjc : j < table.ColumnCount := Nat.lt_of_lt_of_le hj hl.dims
  have hty : table.ColumnIndexToType[j]? = some Int16Type := by
    have h1 := NewFactTable_types table.FilePath table.Capacity schema
    rw [← hs.indexToType, ← hs.indexToName] at h1
    rw [h1, List.getElem?_map, hjname]
    simp only [Option.map_some']
    rw [columnToType_string schema name Int16Type hwf hname hnum]
  apply denormalizeLoop_int16_panics table hl row hrow _ []
  · intro i hi
    exact List.mem_range.mp hi
  · exact ⟨j, List.mem_range.mpr hjc, hj, hty⟩

/-- Claim C9 (failing input). A table whose string column `s` is stored as `int16`, row map
`{s: "a"}`: normalizeRow succeeds with the two bytes of id 0, and DenormalizeRow of those
bytes panics because convertUntypedToFloat64 has no case for `int16`. -/
theorem C9_int16_dimension_panics :
    ((NewFactTable "" 1 int16Schema).normalizeRow [("s", .string "a")]).1 = .ok [0, 0] ∧
    ((NewFactTable "" 1 int16Schema).normalizeRow [("s", .string "a")]).2.DenormalizeRow [0, 0]
      = .panic "Unrecognized type: int16" := by
  decide

theorem internOK_nil : InternOK [] [] :=
  ⟨List.nodup_nil, fun s => by simp [GoMap.get?]⟩

theorem internOK_mem (values : List String) (m : GoMap String Int) (h : InternOK values m)
    (s : String) : s ∈ values ↔ ∃ i, GoMap.get? m s = some i := by
  rw [h.2 s]
  by_cases hs : s ∈ values <;> simp [hs]

theorem internOK_append (values : List String) (m : GoMap String Int) (h : InternOK values m)
    (s : String) (hs : s ∉ values) :
    InternOK (values ++ [s]) (GoMap.set m s (wrapInt 32 values.length)) := by
  refine ⟨?_, ?_⟩
  · rw [List.nodup_append]
    refine ⟨h.1, List.nodup_singleton s, ?_⟩
    intro x hx hx'
    rw [List.mem_singleton] at hx'
    subst hx'
    exact hs hx
  · intro s'
    rw [GoMap.get?_set]
    by_cases hss : s = s'
    · subst hss
      rw [if_pos rfl, if_pos (by simp), List.indexOf_append_of_not_mem hs,
        List.indexOf_cons_self, Nat.add_zero]
    · rw [if_neg hss, h.2 s']
      by_cases hm : s' ∈ values
      · rw [if_pos hm, if_pos (List.mem_append_left _ hm), List.indexOf_append_of_mem hm]
      · have : s' ∉ values ++ [s] := by
          simp only [List.mem_append, List.mem_singleton, not_or]
          exact ⟨hm, fun h => hss h.symm⟩
        rw [if_neg hm, if_neg this]

theorem foldl_appendNew_nodup (ss : List String) :
    ∀ values : List String, values.Nodup → (ss.foldl appendNew values).Nodup := by
  induction ss with
  | nil => intro values h; exact h
  | cons s rest ih =>
    intro values h
    simp only [List.foldl_cons]
    apply ih
    unfold appendNew
    split
    · exact h
    · rename_i hs
      rw [List.nodup_append]
      refine ⟨h, List.nodup_singleton s, ?_⟩
      intro x hx hx'
      rw [List.mem_singleton] at hx'
      subst hx'
      exact hs hx

theorem foldl_appendNew_mem (ss : List String) (x : String) :
    ∀ values : List String, x ∈ ss.foldl appendNew values ↔ x ∈ values ∨ x ∈ ss := by
  induction ss with
  | nil => intro values; simp
  | cons s rest ih =>
    intro values
    simp only [List.foldl_cons, ih, List.mem_cons]
    unfold appendNew
    split
    · rename_i hs
      constructor
      · rintro (h | h)
        · exact Or.inl h
        · exact Or.inr (Or.inr h)
      · rintro (h | h | h)
        · exact Or.inl h
        · subst h; exact Or.inl hs
        · exact Or.inr h
    · simp only [List.mem_append, List.mem_singleton]
      tauto

theorem foldl_appendNew_extends (ss : List String) :
    ∀ values : List String, ∃ extra, ss.foldl appendNew values = values ++ extra := by
  induction ss with
  | nil => intro values; exact ⟨[], by simp⟩
  | cons s rest ih =>
    intro values
    simp only [List.foldl_cons]
    obtain ⟨extra, he⟩ := ih (appendNew values s)
    rw [he]
    unfold appendNew
    split
    · exact ⟨extra, rfl⟩
    · exact ⟨s :: extra, by simp⟩

/-- The number of strings kept is the number of distinct strings seen. -/
theorem foldl_appendNew_length (ss : List String) :
    (ss.foldl appendNew []).length = ss.dedup.length := by
  rw [← List.toFinset_card_of_nodup (foldl_appendNew_nodup ss [] List.nodup_nil),
    ← List.card_toFinset]
  congr 1
  ext x
  simp [foldl_appendNew_mem]

theorem not_mem_take_indexOf (s : String) (l : List String) : s ∉ l.take (l.indexOf s) := by
  induction l with
  | nil => simp
  | cons a rest ih =>
    by_cases ha : a = s
    · subst ha; simp
    · rw [List.indexOf_cons_ne _ ha, List.take_succ_cons, List.mem_cons, not_or]
      exact ⟨fun h => ha h.symm, ih⟩

theorem split_at_indexOf (s : String) (l : List String) (h : s ∈ l) :
    l = l.take (l.indexOf s) ++ s :: l.drop (l.indexOf s + 1) := by
  have hlt := List.indexOf_lt_length.mpr h
  conv_lhs => rw [← List.take_append_drop (l.indexOf s) l]
  rw [List.drop_eq_getElem_cons hlt, List.getElem_indexOf hlt]

/-- Position of a string among the kept strings: the number of distinct strings seen
before its first occurrence. -/
theorem foldl_appendNew_indexOf (ss : List String) (s : String) (h : s ∈ ss) :
    (ss.foldl appendNew []).indexOf s = (ss.take (ss.indexOf s)).dedup.length := by
  have hsplit := split_at_indexOf s ss h
  have hnot := not_mem_take_indexOf s ss
  generalize ss.take (ss.indexOf s) = pre at hsplit hnot
  generalize ss.drop (ss.indexOf s + 1) = post at hsplit
  rw [hsplit, List.foldl_append, List.foldl_cons]
  have hpre : s ∉ pre.foldl appendNew [] := by
    rw [foldl_appendNew_mem]; simp [hnot]
  have hstep : appendNew (pre.foldl appendNew []) s = pre.foldl appendNew [] ++ [s] :=
    if_neg hpre
  obtain ⟨extra, he⟩ := foldl_appendNew_extends post (appendNew (pre.foldl appendNew []) s)
  rw [he, hstep, List.append_assoc, List.indexOf_append_of_not_mem hpre, List.singleton_append,
    List.indexOf_cons_self, Nat.add_zero, foldl_appendNew_length]

theorem wrapInt_of_lt (n : Nat) (h : n < 2 ^ 31) : wrapInt 32 n = n := by
  unfold wrapInt
  have h1 : (0 : Int) ≤ (n : Int) + 2 ^ (32 - 1) := by positivity
  have h2 : (n : Int) + 2 ^ (32 - 1) < 2 ^ 32 := by
    have : (n : Int) < 2 ^ 31 := by exact_mod_cast h
    norm_num at this ⊢
    omega
  rw [Int.emod_eq_of_lt h1 h2]
  omega

namespace dimension_table

theorem GetAndMaybeSet_new (t : DimensionTable) (h : InternOK t.Values t.ValueToIndex)
    (s : String) (hs : s ∉ t.Values) :
    t.GetAndMaybeSet s = ((wrapInt 32 t.Values.length, false),
      { Values := t.Values ++ [s],
        ValueToIndex := GoMap.set t.ValueToIndex s (wrapInt 32 t.Values.length) }) := by
  have := h.2 s
  rw [if_neg hs] at this
  simp only [DimensionTable.GetAndMaybeSet, this]

theorem GetAndMaybeSet_seen (t : DimensionTable) (h : InternOK t.Values t.ValueToIndex)
    (s : String) (hs : s ∈ t.Values) :
    t.GetAndMaybeSet s = ((wrapInt 32 (t.Values.indexOf s), true), t) := by
  have := h.2 s
  rw [if_pos hs] at this
  simp only [DimensionTable.GetAndMaybeSet, this]

theorem GetAndMaybeSet_step (t : DimensionTable) (h : InternOK t.Values t.ValueToIndex)
    (s : String) :
    InternOK (t.GetAndMaybeSet s).2.Values (t.GetAndMaybeSet s).2.ValueToIndex ∧
      (t.GetAndMaybeSet s).2.Values = appendNew t.Values s := by
  unfold appendNew
  by_cases hs : s ∈ t.Values
  · rw [GetAndMaybeSet_seen t h s hs, if_pos hs]
    exact ⟨h, rfl⟩
  · rw [GetAndMaybeSet_new t h s hs, if_neg hs]
    exact ⟨internOK_append _ _ h s hs, rfl⟩

theorem afterCalls_spec (ss : List String) :
    ∀ t : DimensionTable, InternOK t.Values t.ValueToIndex →
      InternOK (t.afterCalls ss).Values (t.afterCalls ss).ValueToIndex ∧
        (t.afterCalls ss).Values = ss.foldl appendNew t.Values := by
  induction ss with
  | nil => intro t h; exact ⟨h, rfl⟩
  | cons s rest ih =>
    intro t h
    obtain ⟨h1, h2⟩ := GetAndMaybeSet_step t h s
    have := ih _ h1
    simp only [DimensionTable.afterCalls, List.foldl_cons] at this ⊢
    rw [h2] at this
    exact this

/-- The id handed to a string not seen before is the `int32` of the number of distinct
strings seen so far. -/
theorem GetAndMaybeSet_fresh (ss : List String) (s : String) (hs : s ∉ ss) :
    ((newDimensionTable.afterCalls ss).GetAndMaybeSet s).1
        = (wrapInt 32 ss.dedup.length, false) ∧
    ((newDimensionTable.afterCalls ss).GetAndMaybeSet s).2.Values
        = (newDimensionTable.afterCalls ss).Values ++ [s] := by
  obtain ⟨h1, h2⟩ := afterCalls_spec ss newDimensionTable internOK_nil
  have hnot : s ∉ (newDimensionTable.afterCalls ss).Values := by
    rw [h2, foldl_appendNew_mem]
    simp [newDimensionTable, hs]
  rw [GetAndMaybeSet_new _ h1 s hnot]
  refine ⟨?_, rfl⟩
  rw [h2]
  show (wrapInt 32 (ss.foldl appendNew []).length, false) = _
  rw [foldl_appendNew_length]

/-- A repeated call returns the `int32` of the number of distinct strings seen before the
first occurrence, and leaves the table as it is. -/
theorem GetAndMaybeSet_repeat (ss : List String) (s : String) (hs : s ∈ ss) :
    (newDimensionTable.afterCalls ss).GetAndMaybeSet s
      = ((wrapInt 32 (ss.take (ss.indexOf s)).dedup.length, true),
          newDimensionTable.afterCalls ss) := by
  obtain ⟨h1, h2⟩ := afterCalls_spec ss newDimensionTable internOK_nil
  have hmem : s ∈ (newDimensionTable.afterCalls ss).Values := by
    rw [h2, foldl_appendNew_mem]
    exact Or.inr hs
  rw [GetAndMaybeSet_seen _ h1 s hmem, h2]
  show ((wrapInt 32 ((ss.foldl appendNew []).indexOf s), true), _) = _
  rw [foldl_appendNew_indexOf ss s hs]

end dimension_table

theorem lookupOrAddRow_new (t : DimensionTable) (h : InternOK t.Rows t.ValueToId)
    (s : String) (hs : s ∉ t.Rows) :
    t.lookupOrAddRow s = (wrapInt 32 t.Rows.length,
      { t with Rows := t.Rows ++ [s],
               ValueToId := GoMap.set t.ValueToId s (wrapInt 32 t.Rows.length) }) := by
  have := h.2 s
  rw [if_neg hs] at this
  simp only [DimensionTable.lookupOrAddRow, this, DimensionTable.addRow]

theorem lookupOrAddRow_seen (t : DimensionTable) (h : InternOK t.Rows t.ValueToId)
    (s : String) (hs : s ∈ t.Rows) :
    t.lookupOrAddRow s = (wrapInt 32 (t.Rows.indexOf s), t) := by
  have := h.2 s
  rw [if_pos hs] at this
  simp only [DimensionTable.lookupOrAddRow, this]

theorem lookupOrAddRow_step (t : DimensionTable) (h : InternOK t.Rows t.ValueToId)
    (s : String) :
    InternOK (t.lookupOrAddRow s).2.Rows (t.lookupOrAddRow s).2.ValueToId ∧
      (t.lookupOrAddRow s).2.Rows = appendNew t.Rows s := by
  unfold appendNew
  by_cases hs : s ∈ t.Rows
  · rw [lookupOrAddRow_seen t h s hs, if_pos hs]
    exact ⟨h, rfl⟩
  · rw [lookupOrAddRow_new t h s hs, if_neg hs]
    exact ⟨internOK_append _ _ h s hs, rfl⟩

theorem afterRows_spec (ss : List String) :
    ∀ t : DimensionTable, InternOK t.Rows t.ValueToId →
      InternOK (t.afterRows ss).Rows (t.afterRows ss).ValueToId ∧
        (t.afterRows ss).Rows = ss.foldl appendNew t.Rows := by
  induction ss with
  | nil => intro t h; exact ⟨h, rfl⟩
  | cons s rest ih =>
    intro t h
    obtain ⟨h1, h2⟩ := lookupOrAddRow_step t h s
    have := ih _ h1
    simp only [DimensionTable.afterRows, List.foldl_cons] at this ⊢
    rw [h2] at this
    exact this

theorem lookupOrAddRow_fresh (name : String) (ss : List String) (s : String) (hs : s ∉ ss) :
    (((NewDimensionTable name).afterRows ss).lookupOrAddRow s).1
        = wrapInt 32 ss.dedup.length ∧
    (((NewDimensionTable name).afterRows ss).lookupOrAddRow s).2.Rows
        = ((NewDimensionTable name).afterRows ss).Rows ++ [s] := by
  obtain ⟨h1, h2⟩ := afterRows_spec ss (NewDimensionTable name) internOK_nil
  have hnot : s ∉ ((NewDimensionTable name).afterRows ss).Rows := by
    rw [h2, foldl_appendNew_mem]
    simp [NewDimensionTable, hs]
  rw [lookupOrAddRow_new _ h1 s hnot]
  refine ⟨?_, rfl⟩
  rw [h2]
  show wrapInt 32 (ss.foldl appendNew []).length = _
  rw [foldl_appendNew_length]

theorem lookupOrAddRow_repeat (name : String) (ss : List String) (s : String) (hs : s ∈ ss) :
    ((NewDimensionTable name).afterRows ss).lookupOrAddRow s
      = (wrapInt 32 (ss.take (ss.indexOf s)).dedup.length,
          (NewDimensionTable name).afterRows ss) := by
  obtain ⟨h1, h2⟩ := afterRows_spec ss (NewDimensionTable name) internOK_nil
  have hmem : s ∈ ((NewDimensionTable name).afterRows ss).Rows := by
    rw [h2, foldl_appendNew_mem]
    exact Or.inr hs
  rw [lookupOrAddRow_seen _ h1 s hmem, h2]
  show (wrapInt 32 ((ss.foldl appendNew []).indexOf s), _) = _
  rw [foldl_appendNew_indexOf ss s hs]

theorem dedup_take_length_le (ss : List String) (n : Nat) :
    (ss.take n).dedup.length ≤ ss.dedup.length := by
  rw [← List.card_toFinset, ← List.card_toFinset]
  apply Finset.card_le_card
  intro x hx
  rw [List.mem_toFinset] at hx ⊢
  exact List.mem_of_mem_take hx

/-- Claim C10 (amended). Starting from an empty dimension table and as long as fewer than
`2^31` distinct strings have been seen: a GetAndMaybeSet call with a string not seen before
returns the number of distinct strings seen so far with `alreadyExisted = false` and appends
the string; a call with a string seen before returns the id its first call returned with
`alreadyExisted = true` and leaves the table unchanged. The lookup-or-addRow step of
normalizeRow assigns the same ids. -/
theorem C10_dense_ids (ss : List String) (s : String) (name : String)
    (hbound : ss.dedup.length < 2 ^ 31) :
    (s ∉ ss →
      ((dimension_table.newDimensionTable.afterCalls ss).GetAndMaybeSet s).1
          = ((ss.dedup.length : Int), false) ∧
      ((dimension_table.newDimensionTable.afterCalls ss).GetAndMaybeSet s).2.Values
          = (dimension_table.newDimensionTable.afterCalls ss).Values ++ [s] ∧
      (((NewDimensionTable name).afterRows ss).lookupOrAddRow s).1 = (ss.dedup.length : Int)) ∧
    (s ∈ ss →
      ((dimension_table.newDimensionTable.afterCalls (ss.take (ss.indexOf s))).GetAndMaybeSet s).1
          = (((ss.take (ss.indexOf s)).dedup.length : Int), false) ∧
      (dimension_table.newDimensionTable.afterCalls ss).GetAndMaybeSet s
          = ((((ss.take (ss.indexOf s)).dedup.length : Int), true),
              dimension_table.newDimensionTable.afterCalls ss) ∧
      (((NewDimensionTable name).afterRows (ss.take (ss.indexOf s))).lookupOrAddRow s).1
          = ((ss.take (ss.indexOf s)).dedup.length : Int) ∧
      ((NewDimensionTable name).afterRows ss).lookupOrAddRow s
          = (((ss.take (ss.indexOf s)).dedup.length : Int),
              (NewDimensionTable name).afterRows ss)) := by
  have hpre : (ss.take (ss.indexOf s)).dedup.length < 2 ^ 31 :=
    Nat.lt_of_le_of_lt (dedup_take_length_le ss _) hbound
  constructor
  · intro hs
    obtain ⟨h1, h2⟩ := dimension_table.GetAndMaybeSet_fresh ss s hs
    obtain ⟨h3, _⟩ := lookupOrAddRow_fresh name ss s hs
    rw [wrapInt_of_lt _ hbound] at h1 h3
    exact ⟨h1, h2, h3⟩
  · intro hs
    have hnot := not_mem_take_indexOf s ss
    obtain ⟨h1, _⟩ := dimension_table.GetAndMaybeSet_fresh (ss.take (ss.indexOf s)) s hnot
    obtain ⟨h3, _⟩ := lookupOrAddRow_fresh name (ss.take (ss.indexOf s)) s hnot
    have h2 := dimension_table.GetAndMaybeSet_repeat ss s hs
    have h4 := lookupOrAddRow_repeat name ss s hs
    rw [wrapInt_of_lt _ hpre] at h1 h2 h3 h4
    exact ⟨h1, h2, h3, h4⟩

/-- Witness for the amended claim C10: the calls `x`, `y`, `x` and then `z` and `y`. -/
theorem C10_dense_ids_witness :
    ((dimension_table.newDimensionTable.afterCalls ["x", "y", "x"]).GetAndMaybeSet "z").1
        = ((2 : Int), false) ∧
    ((dimension_table.newDimensionTable.afterCalls ["x", "y", "x"]).GetAndMaybeSet "y").1
        = ((1 : Int), true) :=
  ⟨((C10_dense_ids ["x", "y", "x"] "z" "col2" (by decide)).1 (by decide)).1,
    by
      have h := ((C10_dense_ids ["x", "y", "x"] "y" "col2" (by decide)).2 (by decide)).2.1
      rw [h]
      decide⟩

theorem distinctStrings_nodup (n : Nat) : (dimension_table.distinctStrings n).Nodup := by
  unfold dimension_table.distinctStrings
  apply List.Nodup.map _ (List.nodup_range n)
  intro i j hij
  have h := congrArg (fun x : String => x.data.length) hij
  simp only [List.length_replicate] at h
  omega

theorem distinctStrings_not_mem (n : Nat) : "b" ∉ dimension_table.distinctStrings n := by
  unfold dimension_table.distinctStrings
  rw [List.mem_map]
  rintro ⟨i, _, hi⟩
  have h := congrArg (fun x : String => x.data.head?) hi
  simp [List.replicate_succ] at h

/-- Counterexample to claim C10 as stated. After GetAndMaybeSet has been called with `2^31`
pairwise distinct strings, the next new string is handed `int32(2^31) = -2^31`, not the
number `2^31` of distinct strings seen so far. -/
theorem C10_counterexample :
    "b" ∉ dimension_table.distinctStrings (2 ^ 31) ∧
    (dimension_table.distinctStrings (2 ^ 31)).dedup.length = 2 ^ 31 ∧
    (((dimension_table.newDimensionTable.afterCalls
        (dimension_table.distinctStrings (2 ^ 31))).GetAndMaybeSet "b").1
      = ((-2147483648 : Int), false)) ∧
    (((dimension_table.newDimensionTable.afterCalls
        (dimension_table.distinctStrings (2 ^ 31))).GetAndMaybeSet "b").1
      ≠ ((((dimension_table.distinctStrings (2 ^ 31)).dedup.length : Nat) : Int), false)) := by
  have hlen : (dimension_table.distinctStrings (2 ^ 31)).dedup.length = 2 ^ 31 := by
    rw [(distinctStrings_nodup _).dedup]
    unfold dimension_table.distinctStrings
    rw [List.length_map, List.length_range]
  have hnot := distinctStrings_not_mem (2 ^ 31)
  obtain ⟨h1, _⟩ := dimension_table.GetAndMaybeSet_fresh _ "b" hnot
  have hw : wrapInt 32 ((2 ^ 31 : Nat) : Int) = -2147483648 := by
    unfold wrapInt
    norm_num
  rw [hlen, hw] at h1
  refine ⟨hnot, hlen, h1, ?_⟩
  rw [h1, hlen]
  intro h
  injection h with h _
  norm_num at h

theorem mem_keys_iff_get? {β : Type} (m : GoMap String β) (s : String) :
    s ∈ GoMap.keys m ↔ (GoMap.get? m s).isSome = true := by
  induction m with
  | nil => simp [GoMap.keys, GoMap.get?]
  | cons kv rest ih =>
    obtain ⟨k, v⟩ := kv
    by_cases h : k = s
    · simp [GoMap.keys, GoMap.get?, h]
    · have h1 : ¬ s = k := fun e => h e.symm
      simp only [GoMap.keys, List.map_cons, List.mem_cons, GoMap.get?, if_neg h, h1, false_or]
      exact ih

theorem indexOf_of_getElem? (l : List String) (hl : l.Nodup) (i : Nat) (s : String)
    (h : l[i]? = some s) : l.indexOf s = i := by
  obtain ⟨hi, rfl⟩ := List.getElem?_eq_some_iff.mp h
  exact List.indexOf_getElem hl i hi

/-- What the representation invariant says about keys and positions. -/
theorem internOK_facts (values : List String) (m : GoMap String Int) (h : InternOK values m) :
    values.Nodup ∧ (∀ s, s ∈ GoMap.keys m ↔ s ∈ values) ∧
    (∀ (i : Nat) (s : String), values[i]? = some s → GoMap.get? m s = some (wrapInt 32 i)) := by
  refine ⟨h.1, ?_, ?_⟩
  · intro s
    rw [mem_keys_iff_get?, h.2 s]
    by_cases hs : s ∈ values <;> simp [hs]
  · intro i s hi
    have hs : s ∈ values := List.mem_iff_getElem?.mpr ⟨i, hi⟩
    rw [h.2 s, if_pos hs, indexOf_of_getElem? values h.1 i s hi]

/-- Later insertions keep every stored string in its place and every id as it is. -/
theorem internOK_stable (values : List String) (m m1 : GoMap String Int) (more : List String)
    (h : InternOK values m) (h1 : InternOK (more.foldl appendNew values) m1)
    (i : Nat) (s : String) (hi : values[i]? = some s) :
    (more.foldl appendNew values)[i]? = some s ∧ GoMap.get? m1 s = GoMap.get? m s := by
  obtain ⟨extra, he⟩ := foldl_appendNew_extends more values
  have hlt : i < values.length := (List.getElem?_eq_some_iff.mp hi).1
  have h2 : (more.foldl appendNew values)[i]? = some s := by
    rw [he, List.getElem?_append_left hlt, hi]
  refine ⟨h2, ?_⟩
  rw [(internOK_facts _ _ h1).2.2 i s h2, (internOK_facts _ _ h).2.2 i s hi]

theorem foldl_appendNew_nodup_eq (ss : List String) :
    ∀ values : List String, (values ++ ss).Nodup → ss.foldl appendNew values = values ++ ss := by
  induction ss with
  | nil => intro values _; simp
  | cons s rest ih =>
    intro values h
    have hs : s ∉ values := by
      intro hmem
      rw [List.nodup_append] at h
      exact h.2.2 hmem (List.mem_cons_self _ _)
    rw [List.foldl_cons, appendNew, if_neg hs, ih (values ++ [s]) (by simpa using h)]
    simp

/-- Calls with pairwise distinct strings store them in call order. -/
theorem afterCalls_values_of_nodup (ss : List String) (h : ss.Nodup) :
    (dimension_table.newDimensionTable.afterCalls ss).Values = ss := by
  rw [(dimension_table.afterCalls_spec ss dimension_table.newDimensionTable internOK_nil).2]
  have := foldl_appendNew_nodup_eq ss [] (by simpa using h)
  simpa [dimension_table.newDimensionTable] using this

theorem distinctStrings_getElem? (n i : Nat) (h : i < n) :
    (dimension_table.distinctStrings n)[i]? = some (String.mk (List.replicate (i + 1) 'a')) := by
  unfold dimension_table.distinctStrings
  rw [List.getElem?_map, List.getElem?_range h]
  rfl

theorem wrapInt_two_pow_31 : wrapInt 32 ((2 ^ 31 : Nat) : Int) = -2147483648 := by
  unfold wrapInt
  norm_num

/-- Claim C11 (amended). For a dimension table reached from the empty one by GetAndMaybeSet
calls, and for a core.go dimension table reached by the lookup-or-addRow step of normalizeRow:
the values have no duplicates, the keys of the map are exactly the values, and the map sends
the value at every index `i < 2^31` to `i` (at any index to `int32(i)`). After any further
insertions every stored string is still at its index and still has its id. -/
theorem C11_dimension_invariant (ss more : List String) (name : String) :
    ((dimension_table.newDimensionTable.afterCalls ss).Values.Nodup ∧
      (∀ s, s ∈ GoMap.keys (dimension_table.newDimensionTable.afterCalls ss).ValueToIndex
        ↔ s ∈ (dimension_table.newDimensionTable.afterCalls ss).Values) ∧
      (∀ (i : Nat) (s : String),
        (dimension_table.newDimensionTable.afterCalls ss).Values[i]? = some s →
        (dimension_table.newDimensionTable.afterCalls ss).Get s = (wrapInt 32 i, true) ∧
        (i < 2 ^ 31 →
          (dimension_table.newDimensionTable.afterCalls ss).Get s = ((i : Int), true)) ∧
        ((dimension_table.newDimensionTable.afterCalls ss).afterCalls more).Values[i]? = some s ∧
        ((dimension_table.newDimensionTable.afterCalls ss).afterCalls more).Get s
          = (dimension_table.newDimensionTable.afterCalls ss).Get s)) ∧
    (((NewDimensionTable name).afterRows ss).Rows.Nodup ∧
      (∀ s, s ∈ GoMap.keys ((NewDimensionTable name).afterRows ss).ValueToId
        ↔ s ∈ ((NewDimensionTable name).afterRows ss).Rows) ∧
      (∀ (i : Nat) (s : String),
        ((NewDimensionTable name).afterRows ss).Rows[i]? = some s →
        GoMap.get? ((NewDimensionTable name).afterRows ss).ValueToId s = some (wrapInt 32 i) ∧
        (i < 2 ^ 31 →
          GoMap.get? ((NewDimensionTable name).afterRows ss).ValueToId s = some (i : Int)) ∧
        (((NewDimensionTable name).afterRows ss).afterRows more).Rows[i]? = some s ∧
        GoMap.get? (((NewDimensionTable name).afterRows ss).afterRows more).ValueToId s
          = GoMap.get? ((NewDimensionTable name).afterRows ss).ValueToId s)) := by
  constructor
  · obtain ⟨h1, _⟩ := dimension_table.afterCalls_spec ss dimension_table.newDimensionTable internOK_nil
    obtain ⟨h3, h4⟩ := dimension_table.afterCalls_spec more _ h1
    obtain ⟨f1, f2, f3⟩ := internOK_facts _ _ h1
    refine ⟨f1, f2, ?_⟩
    intro i s hi
    rw [h4] at h3
    obtain ⟨g1, g2⟩ := internOK_stable _ _ _ more h1 h3 i s hi
    have hget : (dimension_table.newDimensionTable.afterCalls ss).Get s
        = (wrapInt 32 i, true) := by
      simp only [dimension_table.DimensionTable.Get, f3 i s hi]
    refine ⟨hget, ?_, ?_, ?_⟩
    · intro hlt
      rw [hget, wrapInt_of_lt i hlt]
    · rw [h4]; exact g1
    · simp only [dimension_table.DimensionTable.Get, g2]
  · obtain ⟨h1, _⟩ := afterRows_spec ss (NewDimensionTable name) internOK_nil
    obtain ⟨h3, h4⟩ := afterRows_spec more _ h1
    obtain ⟨f1, f2, f3⟩ := internOK_facts _ _ h1
    refine ⟨f1, f2, ?_⟩
    intro i s hi
    rw [h4] at h3
    obtain ⟨g1, g2⟩ := internOK_stable _ _ _ more h1 h3 i s hi
    refine ⟨f3 i s hi, ?_, ?_, g2⟩
    · intro hlt
      rw [f3 i s hi, wrapInt_of_lt i hlt]
    · rw [h4]; exact g1

/-- Witness for the amended claim C11: after the calls `x`, `y`, `x` the string `y` has the
id 1, and it is still at index 1 after the further call `z`. -/
theorem C11_dimension_invariant_witness :
    (dimension_table.newDimensionTable.afterCalls ["x", "y", "x"]).Get "y" = ((1 : Int), true) ∧
    ((dimension_table.newDimensionTable.afterCalls ["x", "y", "x"]).afterCalls ["z"]).Values[1]?
      = some "y" :=
  ⟨((C11_dimension_invariant ["x", "y", "x"] ["z"] "col2").1.2.2 1 "y" (by decide)).2.1
      (by decide),
    ((C11_dimension_invariant ["x", "y", "x"] ["z"] "col2").1.2.2 1 "y" (by decide)).2.2.1⟩

/-- Counterexample to claim C11 as stated. After GetAndMaybeSet has been called with
`2^31 + 1` pairwise distinct strings, the string stored at index `2^31` is mapped to
`int32(2^31) = -2^31`, not to its index. -/
theorem C11_counterexample :
    (dimension_table.newDimensionTable.afterCalls
        (dimension_table.distinctStrings (2 ^ 31 + 1))).Values[2 ^ 31]?
      = some (String.mk (List.replicate (2 ^ 31 + 1) 'a')) ∧
    GoMap.get? (dimension_table.newDimensionTable.afterCalls
        (dimension_table.distinctStrings (2 ^ 31 + 1))).ValueToIndex
        (String.mk (List.replicate (2 ^ 31 + 1) 'a'))
      = some (-2147483648) ∧
    (-2147483648 : Int) ≠ ((2 ^ 31 : Nat) : Int) := by
  obtain ⟨h1, _⟩ := dimension_table.afterCalls_spec
    (dimension_table.distinctStrings (2 ^ 31 + 1)) dimension_table.newDimensionTable internOK_nil
  have hv := afterCalls_values_of_nodup _ (distinctStrings_nodup (2 ^ 31 + 1))
  have hi : (dimension_table.newDimensionTable.afterCalls
      (dimension_table.distinctStrings (2 ^ 31 + 1))).Values[2 ^ 31]?
      = some (String.mk (List.replicate (2 ^ 31 + 1) 'a')) := by
    rw [hv]
    exact distinctStrings_getElem? _ _ (Nat.lt_succ_self _)
  refine ⟨hi, ?_, by norm_num⟩
  rw [(internOK_facts _ _ h1).2.2 _ _ hi, wrapInt_two_pow_31]

namespace dimension_table

theorem unmarshalLoop_append (xs : List String) (s : String) :
    ∀ (i : Nat) (m : GoMap String Int),
      unmarshalLoop (xs ++ [s]) i m
        = GoMap.set (unmarshalLoop xs i m) s (wrapInt 32 ((i + xs.length : Nat) : Int)) := by
  induction xs with
  | nil => intro i m; simp [unmarshalLoop]
  | cons x rest ih =>
    intro i m
    show unmarshalLoop (rest ++ [s]) (i + 1) (GoMap.set m x (wrapInt 32 i))
      = GoMap.set (unmarshalLoop rest (i + 1) (GoMap.set m x (wrapInt 32 i))) s _
    rw [ih, List.length_cons, show i + 1 + rest.length = i + (rest.length + 1) by omega]

/-- The map UnmarshalJSON builds from pairwise distinct values satisfies the representation
invariant. -/
theorem unmarshalLoop_internOK (values : List String) (h : values.Nodup) :
    InternOK values (unmarshalLoop values 0 []) := by
  induction values using List.reverseRecOn with
  | nil => exact internOK_nil
  | append_singleton xs s ih =>
    have hx : xs.Nodup := (List.nodup_append.mp h).1
    have hs : s ∉ xs := fun hmem => (List.nodup_append.mp h).2.2 hmem (List.mem_singleton_self s)
    rw [unmarshalLoop_append, Nat.zero_add]
    exact internOK_append _ _ (ih hx) s hs

/-- The map GetAndMaybeSet builds is the one UnmarshalJSON rebuilds from the values. -/
theorem afterCalls_unmarshalLoop (ss : List String) :
    ∀ t : DimensionTable, InternOK t.Values t.ValueToIndex →
      t.ValueToIndex = unmarshalLoop t.Values 0 [] →
      (t.afterCalls ss).ValueToIndex = unmarshalLoop (t.afterCalls ss).Values 0 [] := by
  induction ss with
  | nil => intro t _ h; exact h
  | cons s rest ih =>
    intro t h hm
    have hstep := (GetAndMaybeSet_step t h s).1
    have hm1 : (t.GetAndMaybeSet s).2.ValueToIndex
        = unmarshalLoop (t.GetAndMaybeSet s).2.Values 0 [] := by
      by_cases hs : s ∈ t.Values
      · rw [GetAndMaybeSet_seen t h s hs]; exact hm
      · rw [GetAndMaybeSet_new t h s hs]
        simp only [unmarshalLoop_append, Nat.zero_add, ← hm]
    exact ih _ hstep hm1

end dimension_table

theorem UnmarshalJSON_get (d : dimension_table.DimensionTable) (values : List String)
    (hdistinct : values.Nodup) (i : Nat) (s : String) (hi : values[i]? = some s) :
    (d.UnmarshalJSON (.ok values)).2.Get s = (wrapInt 32 i, true) := by
  have hok := dimension_table.unmarshalLoop_internOK values hdistinct
  simp only [dimension_table.DimensionTable.UnmarshalJSON, dimension_table.DimensionTable.Get,
    (internOK_facts _ _ hok).2.2 i s hi]

/-- Claim C12 (amended). UnmarshalJSON of a values vector with pairwise distinct entries
succeeds and stores the vector; afterwards Get of the value at index `i` returns
`(int32(i), true)`, which is `(i, true)` for every `i < 2^31`, and Get of a string that is not
among the values reports not-found. Loading the values of a table that GetAndMaybeSet calls
built from the empty table gives that table back. -/
theorem C12_unmarshal (d : dimension_table.DimensionTable) (values ss : List String)
    (hdistinct : values.Nodup) :
    (d.UnmarshalJSON (.ok values)).1 = .ok () ∧
    (d.UnmarshalJSON (.ok values)).2.Values = values ∧
    (∀ (i : Nat) (s : String), values[i]? = some s →
      (d.UnmarshalJSON (.ok values)).2.Get s = (wrapInt 32 i, true) ∧
      (i < 2 ^ 31 → (d.UnmarshalJSON (.ok values)).2.Get s = ((i : Int), true))) ∧
    (∀ s, s ∉ values → (d.UnmarshalJSON (.ok values)).2.Get s = (0, false)) ∧
    (d.UnmarshalJSON (.ok (dimension_table.newDimensionTable.afterCalls ss).Values)).2
      = dimension_table.newDimensionTable.afterCalls ss := by
  have hok := dimension_table.unmarshalLoop_internOK values hdistinct
  refine ⟨rfl, rfl, ?_, ?_, ?_⟩
  · intro i s hi
    have hget := UnmarshalJSON_get d values hdistinct i s hi
    refine ⟨hget, fun hlt => ?_⟩
    rw [hget, wrapInt_of_lt i hlt]
  · intro s hs
    have := hok.2 s
    rw [if_neg hs] at this
    simp only [dimension_table.DimensionTable.UnmarshalJSON, dimension_table.DimensionTable.Get,
      this]
  · have h := dimension_table.afterCalls_unmarshalLoop ss dimension_table.newDimensionTable
      internOK_nil rfl
    simp only [dimension_table.DimensionTable.UnmarshalJSON, ← h]

/-- Witness for the amended claim C12: the values `x`, `y`, `z`. -/
theorem C12_unmarshal_witness :
    (dimension_table.newDimensionTable.UnmarshalJSON (.ok ["x", "y", "z"])).2.Get "z"
        = ((2 : Int), true) ∧
    (dimension_table.newDimensionTable.UnmarshalJSON (.ok ["x", "y", "z"])).2.Get "w"
        = ((0 : Int), false) :=
  ⟨((C12_unmarshal dimension_table.newDimensionTable ["x", "y", "z"] [] (by decide)).2.2.1
      2 "z" rfl).2 (by decide),
    (C12_unmarshal dimension_table.newDimensionTable ["x", "y", "z"] [] (by decide)).2.2.2.1
      "w" (by decide)⟩

/-- Counterexample to claim C12 as stated. UnmarshalJSON of `2^31 + 1` pairwise distinct
values maps the value at index `2^31` to `int32(2^31) = -2^31`, so Get does not return its
index. -/
theorem C12_counterexample :
    (dimension_table.distinctStrings (2 ^ 31 + 1)).Nodup ∧
    (dimension_table.distinctStrings (2 ^ 31 + 1))[2 ^ 31]?
      = some (String.mk (List.replicate (2 ^ 31 + 1) 'a')) ∧
    (dimension_table.newDimensionTable.UnmarshalJSON
        (.ok (dimension_table.distinctStrings (2 ^ 31 + 1)))).2.Get
        (String.mk (List.replicate (2 ^ 31 + 1) 'a'))
      = ((-2147483648 : Int), true) ∧
    (-2147483648 : Int) ≠ ((2 ^ 31 : Nat) : Int) := by
  have hn := distinctStrings_nodup (2 ^ 31 + 1)
  have hi := distinctStrings_getElem? (2 ^ 31 + 1) (2 ^ 31) (Nat.lt_succ_self _)
  refine ⟨hn, hi, ?_, by norm_num⟩
  rw [UnmarshalJSON_get _ _ hn _ _ hi, wrapInt_two_pow_31]

set_option maxRecDepth 100000 in
/-- Claim C13 fails on the code. The table of `mixedSchema` holds the one row `a = 1, b = 2`:
`a` is a `float64` at offset 0 and `b` a `float32` at offset 8, and getColumnValue reads them
back as 1 and 2. The query without filters and grouping reports the sum 0 for `a` and 1.875
for `b`, since scan reads every column as a `float32` at byte `4 * columnIndex` of the
row. -/
theorem C13_scan_reads_cells :
    mixedTable.Count = 1 ∧
    mixedTable.ColumnIndexToOffset = [0, 8] ∧
    mixedTable.ColumnIndexToType = [Float64Type, Float32Type] ∧
    (mixedTable.getRowSlice 0).bind (fun row => mixedTable.getColumnValue row 0)
      = .ok (.float64 (Float64.ofInt 1)) ∧
    (mixedTable.getRowSlice 0).bind (fun row => mixedTable.getColumnValue row 1)
      = .ok (.float32 (Float32.ofInt 2)) ∧
    mixedTable.InvokeQuery ⟨"", [⟨"sum", "a", "a"⟩, ⟨"sum", "b", "b"⟩], [], []⟩
      = .ok [[("a", .float64 ⟨0⟩), ("b", .float64 ⟨0x3FFE000000000000⟩),
              ("rowCount", .int 1)]] := by
  decide

/-- Stopping at the first filter that rejects a row gives the conjunction of all filters,
when each of them returns a boolean on that row. -/
theorem passesFilters_eq (filters : List FactTableFilterFunc) (rowPtr : Nat)
    (h : ∀ f ∈ filters, ∃ b, f rowPtr = .ok b) :
    passesFilters filters rowPtr
      = .ok (filters.all (fun f => decide (f rowPtr = .ok true))) := by
  induction filters with
  | nil => rfl
  | cons f rest ih =>
    obtain ⟨b, hb⟩ := h f (List.mem_cons_self _ _)
    have ih1 := ih (fun g hg => h g (List.mem_cons_of_mem _ hg))
    cases b with
    | true => simp only [passesFilters, hb, ih1, List.all_cons, decide_True, Bool.true_and]
    | false =>
      simp only [passesFilters, hb, List.all_cons, Bool.false_and]
      simp

/-- The loop of scan adds exactly the rows that pass every filter, in row order. -/
theorem scanLoop_eq_accumulateRows (table : FactTable) (filters : List FactTableFilterFunc)
    (columnIndices : List Nat) (useGrouping : Bool) (columnIndexToGroupBy : Nat)
    (fn : Option (Float32 → Result Float32)) (n : Nat) :
    ∀ (rowPtr : Nat) (state : ScanState),
      (∀ i, i < n → ∀ f ∈ filters, ∃ b, f (rowPtr + i * table.RowSize) = .ok b) →
      table.scanLoop filters columnIndices useGrouping columnIndexToGroupBy fn n rowPtr state
        = table.accumulateRows columnIndices useGrouping columnIndexToGroupBy fn
            (((List.range n).map (fun i => rowPtr + i * table.RowSize)).filter
              (fun p => filters.all (fun f => decide (f p = .ok true)))) state := by
  induction n with
  | zero => intro rowPtr state _; rfl
  | succ n ih =>
    intro rowPtr state h
    have h0 : ∀ f ∈ filters, ∃ b, f rowPtr = .ok b := by
      intro f hf
      have := h 0 (Nat.succ_pos n) f hf
      simpa using this
    have hrest : ∀ i, i < n → ∀ f ∈ filters,
        ∃ b, f (rowPtr + table.RowSize + i * table.RowSize) = .ok b := by
      intro i hi f hf
      have := h (i + 1) (Nat.succ_lt_succ hi) f hf
      rw [show rowPtr + table.RowSize + i * table.RowSize
        = rowPtr + (i + 1) * table.RowSize by ring]
      exact this
    have hlist : (List.range (n + 1)).map (fun i => rowPtr + i * table.RowSize)
        = rowPtr :: (List.range n).map (fun i => rowPtr + table.RowSize + i * table.RowSize) := by
      rw [List.range_succ_eq_map, List.map_cons, List.map_map]
      congr 1
      · simp
      · apply List.map_congr_left
        intro i _
        simp only [Function.comp, Nat.succ_eq_add_one]
        ring
    rw [hlist, List.filter_cons]
    simp only [FactTable.scanLoop, FactTable.scanRow, passesFilters_eq filters rowPtr h0]
    cases hpass : filters.all (fun f => decide (f rowPtr = .ok true)) with
    | true =>
      simp only [if_true, FactTable.accumulateRows]
      cases hacc : table.scanAccumulate columnIndices useGrouping columnIndexToGroupBy fn
          state rowPtr with
      | ok state1 => exact ih _ _ hrest
      | error msg => rfl
      | panic msg => rfl
    | false =>
      simp only [Bool.false_eq_true, if_false]
      exact ih _ _ hrest

/-- The sums loop keeps the count, the group value and the number of sums of a bucket. -/
theorem sumColumns_frame (mem : List Byte) (rowPtr : Nat) (columnIndices : List Nat) :
    ∀ rowAggregate r : RowAggregate, sumColumns mem rowPtr columnIndices rowAggregate = .ok r →
      r.Count = rowAggregate.Count ∧ r.Sums.length = rowAggregate.Sums.length ∧
      r.GroupByValue = rowAggregate.GroupByValue := by
  induction columnIndices with
  | nil =>
    intro rowAggregate r h
    simp only [sumColumns, Result.ok.injEq] at h
    subst h
    exact ⟨rfl, rfl, rfl⟩
  | cons c rest ih =>
    intro rowAggregate r h
    simp only [sumColumns] at h
    cases hread : readCell mem (rowPtr + 4 * c) with
    | ok v =>
      rw [hread] at h
      cases hsum : rowAggregate.Sums[c]? with
      | none => rw [hsum] at h; simp at h
      | some s =>
        rw [hsum] at h
        obtain ⟨h1, h2, h3⟩ := ih _ r h
        refine ⟨h1, ?_, h3⟩
        rw [h2, List.length_set]
    | error msg => rw [hread] at h; simp at h
    | panic msg => rw [hread] at h; simp at h

/-- The sums loop returns when every queried column has a sum and its four bytes at
`4 * columnIndex` lie in the buffer. -/
theorem sumColumns_ok (mem : List Byte) (rowPtr : Nat) (columnIndices : List Nat) :
    ∀ rowAggregate : RowAggregate,
      (∀ c ∈ columnIndices, c < rowAggregate.Sums.length ∧ rowPtr + 4 * c + 4 ≤ mem.length) →
      ∃ r, sumColumns mem rowPtr columnIndices rowAggregate = .ok r := by
  induction columnIndices with
  | nil => intro rowAggregate _; exact ⟨_, rfl⟩
  | cons c rest ih =>
    intro rowAggregate h
    obtain ⟨hc1, hc2⟩ := h c (List.mem_cons_self _ _)
    have hread : readCell mem (rowPtr + 4 * c)
        = .ok ⟨fromBytesLE ((mem.drop (rowPtr + 4 * c)).take 4)⟩ := by
      simp only [readCell, if_pos hc2]
    simp only [sumColumns, hread, List.getElem?_eq_getElem hc1]
    apply ih
    intro c1 hc1mem
    have := h c1 (List.mem_cons_of_mem _ hc1mem)
    rw [List.length_set]
    exact this

/-- The rows scan adds to a bucket are those that pass every filter; the buckets it
returns are those of the rows added. -/
theorem scan_eq_accumulateRows (table : FactTable) (filters : List FactTableFilterFunc)
    (columnIndices : List Nat) (groupByColumnName : String)
    (fn : Option (Float32 → Result Float32))
    (hdefined : ∀ i, i < table.Count → ∀ f ∈ filters, ∃ b, f (i * table.RowSize) = .ok b) :
    table.scan filters columnIndices groupByColumnName fn
      = (table.accumulateRows columnIndices
          (GoMap.get? table.ColumnNameToIndex groupByColumnName).isSome
          ((GoMap.get? table.ColumnNameToIndex groupByColumnName).getD 0) fn
          (((List.range table.Count).filter (fun i =>
              filters.all (fun f => decide (f (i * table.RowSize) = .ok true)))).map
            (fun i => i * table.RowSize))
          { rowAggregate := table.newRowAggregate ⟨0⟩, rowAggregatesMap := [] }).map
        (fun state =>
          if (GoMap.get? table.ColumnNameToIndex groupByColumnName).isSome
          then state.rowAggregatesMap.map Prod.snd else [state.rowAggregate]) := by
  have h := scanLoop_eq_accumulateRows table filters columnIndices
    (GoMap.get? table.ColumnNameToIndex groupByColumnName).isSome
    ((GoMap.get? table.ColumnNameToIndex groupByColumnName).getD 0) fn table.Count 0
    { rowAggregate := table.newRowAggregate ⟨0⟩, rowAggregatesMap := [] }
    (by simpa using hdefined)
  simp only [Nat.zero_add] at h
  rw [List.filter_map] at h
  simp only [FactTable.scan, h]
  rfl

theorem readCell_eq_cellAt (mem : List Byte) (addr : Nat) (h : addr + 4 ≤ mem.length) :
    readCell mem addr = .ok (cellAt mem addr) := by
  simp only [readCell, cellAt, if_pos h]

/-- The sums loop, column by column: the sum of column `k` grows by the cell of that column
once for every occurrence of `k` among the queried columns. -/
theorem sumColumns_spec (mem : List Byte) (rowPtr : Nat) (columnIndices : List Nat) :
    ∀ rowAggregate : RowAggregate,
      (∀ c ∈ columnIndices, c < rowAggregate.Sums.length ∧ rowPtr + 4 * c + 4 ≤ mem.length) →
      ∃ r, sumColumns mem rowPtr columnIndices rowAggregate = .ok r ∧
        r.Count = rowAggregate.Count ∧ r.GroupByValue = rowAggregate.GroupByValue ∧
        r.Sums.length = rowAggregate.Sums.length ∧
        ∀ (k : Nat) (s : Float64), rowAggregate.Sums[k]? = some s →
          r.Sums[k]? = some ((columnIndices.filter (fun c => c = k)).foldl
            (fun sum _ => sum.add (cellAt mem (rowPtr + 4 * k)).toFloat64) s) := by
  induction columnIndices with
  | nil =>
    intro rowAggregate _
    exact ⟨rowAggregate, rfl, rfl, rfl, rfl, fun k s hs => by simpa using hs⟩
  | cons c rest ih =>
    intro rowAggregate h
    obtain ⟨hc1, hc2⟩ := h c (List.mem_cons_self _ _)
    obtain ⟨r, h1, h2, h3, h4, h5⟩ := ih
      { rowAggregate with
        Sums := rowAggregate.Sums.set c
          ((rowAggregate.Sums[c]).add (cellAt mem (rowPtr + 4 * c)).toFloat64) }
      (by
        intro c1 hc1mem
        have := h c1 (List.mem_cons_of_mem _ hc1mem)
        simpa [List.length_set] using this)
    refine ⟨r, ?_, h2, h3, ?_, ?_⟩
    · simp only [sumColumns, readCell_eq_cellAt mem _ hc2, List.getElem?_eq_getElem hc1]
      exact h1
    · rw [h4]
      simp [List.length_set]
    · intro k s hs
      by_cases hk : c = k
      · subst hk
        have hget : rowAggregate.Sums[c] = s := by
          rw [List.getElem?_eq_getElem hc1] at hs
          exact Option.some.inj hs
        rw [h5 c (s.add (cellAt mem (rowPtr + 4 * c)).toFloat64)
          (by simp [List.getElem?_set, hc1, hget])]
        simp [List.filter_cons]
      · rw [h5 k s (by simp only [List.getElem?_set_ne hk]; exact hs)]
        simp [List.filter_cons, hk]

/-- One row added to a bucket that holds the rows `rows`: the bucket holds the rows
`rows ++ [i]`. -/
theorem accumulateRow_bucketOf (table : FactTable) (columnIndices : List Nat)
    (groupByValue : Float32) (rows : List Nat) (i : Nat)
    (h : ∀ c ∈ columnIndices,
      c < table.ColumnCount ∧ i * table.RowSize + 4 * c + 4 ≤ table.rows.length) :
    accumulateRow table.rows (i * table.RowSize) columnIndices
        (table.specBucket columnIndices groupByValue rows)
      = .ok (table.specBucket columnIndices groupByValue (rows ++ [i])) := by
  obtain ⟨r, h1, h2, h3, h4, h5⟩ := sumColumns_spec table.rows (i * table.RowSize)
    columnIndices (table.specBucket columnIndices groupByValue rows)
    (by simpa [FactTable.specBucket] using h)
  simp only [accumulateRow, h1, Result.map]
  congr 1
  have hsums : r.Sums = (table.specBucket columnIndices groupByValue (rows ++ [i])).Sums := by
    apply List.ext_getElem?
    intro k
    by_cases hk : k < table.ColumnCount
    · rw [h5 k (table.specColumnSum columnIndices k rows)
        (by simp [FactTable.specBucket, List.getElem?_map, List.getElem?_range hk])]
      simp only [FactTable.specBucket, List.getElem?_map, List.getElem?_range hk, Option.map_some',
        FactTable.specColumnSum, List.flatMap_append, List.foldl_append, List.flatMap_cons,
        List.flatMap_nil, List.append_nil, List.foldl_map]
    · have e1 : r.Sums.length ≤ k := by
        rw [h4]
        simp [FactTable.specBucket]
        omega
      rw [List.getElem?_eq_none e1, List.getElem?_eq_none (by simp [FactTable.specBucket]; omega)]
  cases r with
  | mk g sums count =>
    simp only at h2 h3 hsums
    simp only [FactTable.specBucket] at h2 h3 hsums ⊢
    simp [h2, h3, hsums]

theorem newRowAggregate_eq_bucketOf (table : FactTable) (columnIndices : List Nat)
    (groupByValue : Float32) :
    table.newRowAggregate groupByValue = table.specBucket columnIndices groupByValue [] := by
  simp only [FactTable.newRowAggregate, FactTable.specBucket, FactTable.specColumnSum,
    List.flatMap_nil, List.foldl_nil, List.length_nil]
  congr 1
  apply List.ext_getElem?
  intro k
  by_cases hk : k < table.ColumnCount
  · simp [List.getElem?_replicate, List.getElem?_range, hk]
  · simp [List.getElem?_replicate, hk]

/-- Without grouping the rows added to the single bucket are the rows the bucket holds. -/
theorem accumulateRows_ungrouped_bucketOf (table : FactTable) (columnIndices : List Nat)
    (gi : Nat) (fn : Option (Float32 → Result Float32)) (groupByValue : Float32)
    (m : RowAggregatesMap) (rows : List Nat)
    (h : ∀ i ∈ rows, ∀ c ∈ columnIndices,
      c < table.ColumnCount ∧ i * table.RowSize + 4 * c + 4 ≤ table.rows.length) :
    ∀ done : List Nat,
      table.accumulateRows columnIndices false gi fn (rows.map (fun i => i * table.RowSize))
          { rowAggregate := table.specBucket columnIndices groupByValue done,
            rowAggregatesMap := m }
        = .ok { rowAggregate := table.specBucket columnIndices groupByValue (done ++ rows),
                rowAggregatesMap := m } := by
  induction rows with
  | nil => intro done; simp [FactTable.accumulateRows]
  | cons i rest ih =>
    intro done
    simp only [List.map_cons, FactTable.accumulateRows, FactTable.scanAccumulate,
      Bool.false_eq_true, if_false,
      accumulateRow_bucketOf table columnIndices groupByValue done i
        (h i (List.mem_cons_self _ _)), Result.map]
    rw [ih (fun j hj => h j (List.mem_cons_of_mem _ hj)) (done ++ [i])]
    simp

theorem Float32.eq_symm (x y : Float32) : x.eq y = y.eq x := by
  simp only [Float32.eq]
  cases x.isNaN <;> cases y.isNaN <;> simp [eq_comm]

theorem Float32.eq_trans (x y z : Float32) (h1 : x.eq y = true) (h2 : y.eq z = true) :
    x.eq z = true := by
  simp only [Float32.eq, Bool.and_eq_true, Bool.not_eq_true', decide_eq_true_eq] at h1 h2 ⊢
  exact ⟨⟨h1.1.1, h2.1.2⟩, h1.2.trans h2.2⟩

/-- One row added to the buckets of a grouped scan, when at most one bucket has the key of
the row: that bucket changes, or a fresh bucket is added behind the others. -/
theorem accumulateInto_map (groupByValue : Float32)
    (accumulate : RowAggregate → Result RowAggregate) (fresh fresh1 : RowAggregate)
    (key : Nat → Float32) (before after : Nat → RowAggregate)
    (hfresh : accumulate fresh = .ok fresh1) :
    ∀ leaders : List Nat,
      (∀ h ∈ leaders, (key h).eq groupByValue = true → accumulate (before h) = .ok (after h)) →
      (∀ h ∈ leaders, (key h).eq groupByValue = false → after h = before h) →
      leaders.Pairwise (fun a b => (key a).eq groupByValue = true →
        (key b).eq groupByValue = false) →
      accumulateInto groupByValue accumulate fresh (leaders.map (fun h => (key h, before h)))
        = .ok (leaders.map (fun h => (key h, after h)) ++
            if leaders.any (fun h => (key h).eq groupByValue) then []
            else [(groupByValue, fresh1)]) := by
  intro leaders
  induction leaders with
  | nil => intro _ _ _; simp [accumulateInto, hfresh, Result.map]
  | cons a rest ih =>
    intro h1 h2 h3
    rw [List.pairwise_cons] at h3
    cases ha : (key a).eq groupByValue with
    | true =>
      have hrest : rest.map (fun h => (key h, after h)) = rest.map (fun h => (key h, before h)) := by
        apply List.map_congr_left
        intro b hb
        rw [h2 b (List.mem_cons_of_mem _ hb) (h3.1 b hb ha)]
      simp only [List.map_cons, accumulateInto, ha, if_true,
        h1 a (List.mem_cons_self _ _) ha, Result.map, List.any_cons, Bool.true_or,
        List.append_nil, hrest]
    | false =>
      have e := ih (fun h hh => h1 h (List.mem_cons_of_mem _ hh))
        (fun h hh => h2 h (List.mem_cons_of_mem _ hh)) h3.2
      simp only [List.map_cons, accumulateInto, ha, Bool.false_eq_true, if_false, e, Result.map,
        List.any_cons, Bool.false_or, h2 a (List.mem_cons_self _ _) ha, List.cons_append]

/-- The leaders of the rows with one more row behind them. -/
theorem groupLeaders_append (key : Nat → Float32) (done : List Nat) (i : Nat)
    (hlt : ∀ j ∈ done, j < i) :
    specGroupLeaders key (done ++ [i])
      = specGroupLeaders key done ++
          if done.any (fun j => (key j).eq (key i)) then [] else [i] := by
  simp only [specGroupLeaders, List.filter_append, List.all_append]
  congr 1
  · apply List.filter_congr
    intro h hh
    have : h ≤ i := Nat.le_of_lt (hlt h hh)
    simp [this]
  · have e : (done.all fun j => decide (i ≤ j) || !(key j).eq (key i))
        = !(done.any fun j => (key j).eq (key i)) := by
      rw [Bool.eq_iff_iff]
      simp only [List.all_eq_true, Bool.or_eq_true, decide_eq_true_eq, Bool.not_eq_true',
        List.any_eq_false, Bool.not_eq_true]
      constructor
      · intro hall j hj
        rcases hall j hj with hle | hne
        · exact absurd (hlt j hj) (Nat.not_lt.mpr hle)
        · exact hne
      · intro hall j hj
        exact Or.inr (hall j hj)
    simp only [List.filter_cons, List.filter_nil, List.all_cons, List.all_nil, e]
    cases done.any fun j => (key j).eq (key i) <;> simp

theorem groupMembers_append (key : Nat → Float32) (done : List Nat) (i h : Nat) :
    specGroupMembers key (done ++ [i]) h
      = specGroupMembers key done h ++ if specSameGroup key h i then [i] else [] := by
  simp only [specGroupMembers, List.filter_append, List.filter_cons, List.filter_nil]

/-- Every row has a leader: a row at or before it, with an equal key unless it is the row
itself, whose key equals the key of no earlier row. -/
theorem groupLeaders_covers (key : Nat → Float32) (rows : List Nat) :
    ∀ j : Nat, j ∈ rows → ∃ h ∈ specGroupLeaders key rows, specSameGroup key h j = true := by
  intro j
  induction j using Nat.strong_induction_on with
  | _ j ih =>
    intro hj
    by_cases hlead : (rows.all (fun j1 => decide (j ≤ j1) || !(key j1).eq (key j))) = true
    · exact ⟨j, List.mem_filter.mpr ⟨hj, hlead⟩, by simp [specSameGroup]⟩
    · simp only [List.all_eq_true, Bool.or_eq_true, decide_eq_true_eq, Bool.not_eq_true',
        not_forall, not_or, Nat.not_le, Bool.not_eq_false] at hlead
      obtain ⟨j1, hj1, hlt, heq⟩ := hlead
      obtain ⟨h, hh, hsame⟩ := ih j1 hlt hj1
      refine ⟨h, hh, ?_⟩
      simp only [specSameGroup, Bool.or_eq_true, decide_eq_true_eq] at hsame ⊢
      rcases hsame with rfl | hsame
      · exact Or.inr heq
      · exact Or.inr (Float32.eq_trans _ _ _ hsame heq)

theorem scanAccumulate_grouped (table : FactTable) (columnIndices : List Nat) (gi : Nat)
    (fn : Option (Float32 → Result Float32)) (state : ScanState) (rowPtr : Nat)
    (groupByValue : Float32) (hkey : table.groupByValueAt gi fn rowPtr = .ok groupByValue) :
    table.scanAccumulate columnIndices true gi fn state rowPtr
      = (accumulateInto groupByValue (accumulateRow table.rows rowPtr columnIndices)
          (table.newRowAggregate groupByValue) state.rowAggregatesMap).map
          (fun m => { state with rowAggregatesMap := m }) := by
  unfold FactTable.groupByValueAt at hkey
  simp only [FactTable.scanAccumulate, if_true]
  cases hread : readCell table.rows (rowPtr + gi * 4) with
  | ok cell =>
    rw [hread] at hkey
    cases fn with
    | none =>
      simp only [Result.ok.injEq] at hkey ⊢
      subst hkey
      rfl
    | some f =>
      simp only at hkey ⊢
      rw [hkey]
  | error msg => rw [hread] at hkey; simp at hkey
  | panic msg => rw [hread] at hkey; simp at hkey

/-- The leaders of rows in rising order have keys that differ from one another. -/
theorem groupLeaders_distinct (key : Nat → Float32) (rows : List Nat)
    (hsorted : rows.Pairwise (fun a b => a < b)) :
    (specGroupLeaders key rows).Pairwise (fun a b => (key a).eq (key b) = false) := by
  have hsub : (specGroupLeaders key rows).Pairwise (fun a b => a < b) :=
    hsorted.sublist (List.filter_sublist _)
  refine hsub.imp_of_mem ?_
  intro a b ha hb hab
  have hamem : a ∈ rows := (List.mem_filter.mp ha).1
  have hbl := (List.mem_filter.mp hb).2
  simp only [List.all_eq_true, Bool.or_eq_true, decide_eq_true_eq, Bool.not_eq_true'] at hbl
  rcases hbl a hamem with hle | hne
  · omega
  · exact hne

/-- One row added to the buckets of a grouped scan that hold the rows `done`, all before
the row: the buckets hold the rows `done ++ [i]`. -/
theorem accumulateInto_groupBuckets (table : FactTable) (columnIndices : List Nat)
    (key : Nat → Float32) (done : List Nat) (i : Nat)
    (hsorted : (done ++ [i]).Pairwise (fun a b => a < b))
    (hcols : ∀ c ∈ columnIndices,
      c < table.ColumnCount ∧ i * table.RowSize + 4 * c + 4 ≤ table.rows.length) :
    accumulateInto (key i) (accumulateRow table.rows (i * table.RowSize) columnIndices)
        (table.newRowAggregate (key i))
        ((specGroupLeaders key done).map (fun h =>
          (key h, table.specBucket columnIndices (key h) (specGroupMembers key done h))))
      = .ok ((specGroupLeaders key (done ++ [i])).map (fun h =>
          (key h, table.specBucket columnIndices (key h) (specGroupMembers key (done ++ [i]) h)))) := by
  rw [List.pairwise_append] at hsorted
  obtain ⟨hdone, _, hlast⟩ := hsorted
  have hlt : ∀ j ∈ done, j < i := fun j hj => hlast j hj i (List.mem_singleton_self i)
  have hmem : ∀ h ∈ specGroupLeaders key done, h ∈ done := fun h hh => (List.mem_filter.mp hh).1
  have hany : (specGroupLeaders key done).any (fun h => (key h).eq (key i))
      = done.any (fun j => (key j).eq (key i)) := by
    rw [Bool.eq_iff_iff]
    simp only [List.any_eq_true]
    constructor
    · rintro ⟨h, hh, he⟩
      exact ⟨h, hmem h hh, he⟩
    · rintro ⟨j, hj, he⟩
      obtain ⟨h, hh, hsame⟩ := groupLeaders_covers key done j hj
      refine ⟨h, hh, ?_⟩
      simp only [specSameGroup, Bool.or_eq_true, decide_eq_true_eq] at hsame
      rcases hsame with rfl | hsame
      · exact he
      · exact Float32.eq_trans _ _ _ hsame he
  have hstep := accumulateInto_map (key i)
    (accumulateRow table.rows (i * table.RowSize) columnIndices)
    (table.newRowAggregate (key i)) (table.specBucket columnIndices (key i) [i]) key
    (fun h => table.specBucket columnIndices (key h) (specGroupMembers key done h))
    (fun h => table.specBucket columnIndices (key h) (specGroupMembers key (done ++ [i]) h))
    (by
      rw [newRowAggregate_eq_bucketOf table columnIndices (key i),
        accumulateRow_bucketOf table columnIndices (key i) [] i hcols]
      rfl)
    (specGroupLeaders key done)
    (by
      intro h _ he
      show accumulateRow table.rows (i * table.RowSize) columnIndices
          (table.specBucket columnIndices (key h) (specGroupMembers key done h))
        = .ok (table.specBucket columnIndices (key h) (specGroupMembers key (done ++ [i]) h))
      rw [groupMembers_append]
      simp only [specSameGroup, he, Bool.or_true, if_true]
      exact accumulateRow_bucketOf table columnIndices (key h) _ i hcols)
    (by
      intro h hh he
      have hne : i ≠ h := Nat.ne_of_gt (hlt h (hmem h hh))
      simp only [groupMembers_append, specSameGroup, he, hne, decide_False, Bool.or_false,
        Bool.false_eq_true, if_false, List.append_nil])
    (by
      refine (groupLeaders_distinct key done hdone).imp ?_
      intro a b hab ha
      cases hb : (key b).eq (key i) with
      | false => rfl
      | true =>
        have := Float32.eq_trans _ _ _ ha (by rw [Float32.eq_symm]; exact hb)
        rw [hab] at this
        exact absurd this (by simp))
  rw [hstep, groupLeaders_append key done i hlt, hany]
  cases hnone : done.any (fun j => (key j).eq (key i)) with
  | true => simp
  | false =>
    have hempty : specGroupMembers key done i = [] := by
      simp only [specGroupMembers, List.filter_eq_nil_iff, specSameGroup, Bool.or_eq_true,
        decide_eq_true_eq, not_or, Bool.not_eq_true]
      intro j hj
      refine ⟨Nat.ne_of_lt (hlt j hj), ?_⟩
      rw [Float32.eq_symm]
      simp only [List.any_eq_false, Bool.not_eq_true] at hnone
      exact hnone j hj
    simp [groupMembers_append, hempty, specSameGroup]

/-- The rows added to the buckets of a grouped scan, in rising order: afterwards there is
one bucket for every group, which holds the rows of the group. -/
theorem accumulateRows_groupBuckets (table : FactTable) (columnIndices : List Nat) (gi : Nat)
    (fn : Option (Float32 → Result Float32)) (key : Nat → Float32)
    (rowAggregate : RowAggregate) (rows : List Nat)
    (hkey : ∀ i ∈ rows, table.groupByValueAt gi fn (i * table.RowSize) = .ok (key i))
    (hcols : ∀ i ∈ rows, ∀ c ∈ columnIndices,
      c < table.ColumnCount ∧ i * table.RowSize + 4 * c + 4 ≤ table.rows.length) :
    ∀ done : List Nat, (done ++ rows).Pairwise (fun a b => a < b) →
      table.accumulateRows columnIndices true gi fn (rows.map (fun i => i * table.RowSize))
          { rowAggregate := rowAggregate,
            rowAggregatesMap := (specGroupLeaders key done).map (fun h =>
              (key h, table.specBucket columnIndices (key h) (specGroupMembers key done h))) }
        = .ok { rowAggregate := rowAggregate,
                rowAggregatesMap := (specGroupLeaders key (done ++ rows)).map (fun h =>
                  (key h,
                    table.specBucket columnIndices (key h) (specGroupMembers key (done ++ rows) h))) } := by
  induction rows with
  | nil => intro done _; simp [FactTable.accumulateRows]
  | cons i rest ih =>
    intro done hsorted
    have hsorted1 : ((done ++ [i]) ++ rest).Pairwise (fun a b => a < b) := by
      simpa using hsorted
    have hstep := accumulateInto_groupBuckets table columnIndices key done i
      (List.pairwise_append.mp hsorted1).1 (hcols i (List.mem_cons_self _ _))
    simp only [List.map_cons, FactTable.accumulateRows,
      scanAccumulate_grouped table columnIndices gi fn _ _ (key i)
        (hkey i (List.mem_cons_self _ _)), hstep, Result.map]
    rw [ih (fun j hj => hkey j (List.mem_cons_of_mem _ hj))
      (fun j hj => hcols j (List.mem_cons_of_mem _ hj)) (done ++ [i]) hsorted1]
    simp

theorem passingRows_sorted (table : FactTable) (filters : List FactTableFilterFunc) :
    (table.specPassingRows filters).Pairwise (fun a b => a < b) :=
  (List.pairwise_lt_range _).sublist (List.filter_sublist _)

theorem mem_passingRows (table : FactTable) (filters : List FactTableFilterFunc) (i : Nat) :
    i ∈ table.specPassingRows filters
      ↔ i < table.Count ∧ ∀ f ∈ filters, f (i * table.RowSize) = .ok true := by
  simp [FactTable.specPassingRows, List.mem_filter, List.all_eq_true]

/-- Scan without grouping: the one bucket holds the rows that pass every filter. -/
theorem scan_ungrouped_bucket (table : FactTable) (filters : List FactTableFilterFunc)
    (columnIndices : List Nat) (groupByColumnName : String)
    (fn : Option (Float32 → Result Float32))
    (hname : GoMap.get? table.ColumnNameToIndex groupByColumnName = none)
    (hdefined : ∀ i, i < table.Count → ∀ f ∈ filters, ∃ b, f (i * table.RowSize) = .ok b)
    (hcols : ∀ i ∈ table.specPassingRows filters, ∀ c ∈ columnIndices,
      c < table.ColumnCount ∧ i * table.RowSize + 4 * c + 4 ≤ table.rows.length) :
    table.scan filters columnIndices groupByColumnName fn
      = .ok [table.specBucket columnIndices ⟨0⟩ (table.specPassingRows filters)] := by
  rw [scan_eq_accumulateRows table filters columnIndices groupByColumnName fn hdefined, hname]
  simp only [Option.isSome_none, Option.getD_none, Bool.false_eq_true, if_false]
  rw [newRowAggregate_eq_bucketOf table columnIndices ⟨0⟩]
  have h := accumulateRows_ungrouped_bucketOf table columnIndices 0 fn ⟨0⟩ []
    (table.specPassingRows filters) hcols []
  simp only [FactTable.specPassingRows, List.nil_append] at h ⊢
  rw [h]
  rfl

/-- Scan with grouping: the buckets are those of the groups of the rows that pass every
filter, in the order in which the groups begin. -/
theorem scan_groupBuckets (table : FactTable) (filters : List FactTableFilterFunc)
    (columnIndices : List Nat) (groupByColumnName : String) (gi : Nat)
    (fn : Option (Float32 → Result Float32)) (key : Nat → Float32)
    (hname : GoMap.get? table.ColumnNameToIndex groupByColumnName = some gi)
    (hdefined : ∀ i, i < table.Count → ∀ f ∈ filters, ∃ b, f (i * table.RowSize) = .ok b)
    (hkey : ∀ i ∈ table.specPassingRows filters,
      table.groupByValueAt gi fn (i * table.RowSize) = .ok (key i))
    (hcols : ∀ i ∈ table.specPassingRows filters, ∀ c ∈ columnIndices,
      c < table.ColumnCount ∧ i * table.RowSize + 4 * c + 4 ≤ table.rows.length) :
    table.scan filters columnIndices groupByColumnName fn
      = .ok (table.specGroupBuckets columnIndices key (table.specPassingRows filters)) := by
  rw [scan_eq_accumulateRows table filters columnIndices groupByColumnName fn hdefined, hname]
  simp only [Option.isSome_some, Option.getD_some, if_true]
  have h := accumulateRows_groupBuckets table columnIndices gi fn key
    (table.newRowAggregate ⟨0⟩) (table.specPassingRows filters) hkey hcols []
    (by simpa using passingRows_sorted table filters)
  simp only [specGroupLeaders, List.filter_nil, List.map_nil] at h
  simp only [FactTable.specPassingRows, List.nil_append] at h ⊢
  rw [h]
  simp [Result.map, FactTable.specGroupBuckets, FactTable.specPassingRows, specGroupLeaders, List.map_map,
    Function.comp]

/-- Claim C14. For every table, with any bytes `adjacent` behind its buffer, and every list
of filter predicates that return a boolean on the rows of the table: evaluating the
predicates in order and stopping at the first failure gives the conjunction of all of them;
the rows scan accumulates are exactly the rows with index in `[0, Count)` on which every
predicate returns true. Without grouping (the group-by name is no column) scan returns one
bucket: its count is the number of those rows and its sum for column `k` is the sum of the
cells of those rows, in row order, added once for every occurrence of `k` among the queried
columns. With grouping scan returns, in some order, one bucket for every group of those
rows, with the count and the sums of the rows of the group. The reads of the queried columns
and of the group-by column must lie in the buffer or in the bytes behind it, every queried
column must have a sum, and the transform must return. -/
theorem C14_filters_conjunctive (table : FactTable) (adjacent : List Byte)
    (filters : List FactTableFilterFunc) (columnIndices : List Nat) (groupByColumnName : String)
    (fn : Option (Float32 → Result Float32)) (key : Nat → Float32)
    (hdefined : ∀ i, i < table.Count → ∀ f ∈ filters, ∃ b, f (i * table.RowSize) = .ok b)
    (hcols : ∀ i ∈ table.specPassingRows filters, ∀ c ∈ columnIndices,
      c < table.ColumnCount ∧
        i * table.RowSize + 4 * c + 4 ≤ table.rows.length + adjacent.length)
    (hkey : ∀ gi, GoMap.get? table.ColumnNameToIndex groupByColumnName = some gi →
      ∀ i ∈ table.specPassingRows filters,
        (table.withAdjacent adjacent).groupByValueAt gi fn (i * table.RowSize) = .ok (key i)) :
    (∀ i, i < table.Count →
      passesFilters filters (i * table.RowSize)
        = .ok (filters.all (fun f => decide (f (i * table.RowSize) = .ok true)))) ∧
    (∀ i, i ∈ table.specPassingRows filters
      ↔ i < table.Count ∧ ∀ f ∈ filters, f (i * table.RowSize) = .ok true) ∧
    (GoMap.get? table.ColumnNameToIndex groupByColumnName = none →
      (table.withAdjacent adjacent).scan filters columnIndices groupByColumnName fn
        = .ok [{ GroupByValue := ⟨0⟩,
                 Sums := (List.range table.ColumnCount).map (fun k =>
                   (table.withAdjacent adjacent).specColumnSum columnIndices k
                     (table.specPassingRows filters)),
                 Count := (table.specPassingRows filters).length }]) ∧
    (GoMap.get? table.ColumnNameToIndex groupByColumnName ≠ none →
      ∃ results,
        (table.withAdjacent adjacent).scan filters columnIndices groupByColumnName fn
          = .ok results ∧
        results.Perm ((table.withAdjacent adjacent).specGroupBuckets columnIndices key
          (table.specPassingRows filters))) := by
  have hlen : (table.withAdjacent adjacent).rows.length
      = table.rows.length + adjacent.length := by
    simp [FactTable.withAdjacent]
  have hcols1 : ∀ i ∈ (table.withAdjacent adjacent).specPassingRows filters, ∀ c ∈ columnIndices,
      c < (table.withAdjacent adjacent).ColumnCount ∧
        i * (table.withAdjacent adjacent).RowSize + 4 * c + 4
          ≤ (table.withAdjacent adjacent).rows.length := by
    intro i hi c hc
    rw [hlen]
    exact hcols i hi c hc
  refine ⟨fun i hi => passesFilters_eq filters _ (hdefined i hi),
    fun i => mem_passingRows table filters i, ?_, ?_⟩
  · intro hnone
    exact scan_ungrouped_bucket (table.withAdjacent adjacent) filters columnIndices
      groupByColumnName fn hnone hdefined hcols1
  · intro hsome
    obtain ⟨gi, hgi⟩ := Option.ne_none_iff_exists'.mp hsome
    exact ⟨_, scan_groupBuckets (table.withAdjacent adjacent) filters columnIndices
      groupByColumnName gi fn key hgi hdefined (hkey gi hgi) hcols1, List.Perm.refl _⟩

set_option maxRecDepth 100000 in
/-- Witness for claim C14: the fixture with the rows `(1, "stringvalue1")`,
`(2, "stringvalue1")` and `(5, "stringvalue2")` under the filters `col1 >= 1` and
`col1 < 5`, grouped by `col2`. The first two rows pass both filters; they are one group,
with the sum 3 of `col1` and the count 2. -/
theorem C14_filters_conjunctive_witness :
    (∀ i, i < threeRowFixture.Count →
      ∀ f ∈ filtersOf threeRowFixture [⟨">=", "col1", .scalar (.int 1)⟩,
        ⟨"<", "col1", .scalar (.int 5)⟩], ∃ b, f (i * threeRowFixture.RowSize) = .ok b) ∧
    threeRowFixture.specPassingRows (filtersOf threeRowFixture
      [⟨">=", "col1", .scalar (.int 1)⟩, ⟨"<", "col1", .scalar (.int 5)⟩]) = [0, 1] ∧
    ∃ results, (threeRowFixture.withAdjacent []).scan
        (filtersOf threeRowFixture [⟨">=", "col1", .scalar (.int 1)⟩,
          ⟨"<", "col1", .scalar (.int 5)⟩]) [1] "col2" none = .ok results ∧
      results.Perm [⟨Float32.ofInt 0, [⟨0⟩, Float64.ofInt 3], 2⟩] := by
  have hd : ∀ i, i < threeRowFixture.Count →
      ∀ f ∈ filtersOf threeRowFixture [⟨">=", "col1", .scalar (.int 1)⟩,
        ⟨"<", "col1", .scalar (.int 5)⟩], ∃ b, f (i * threeRowFixture.RowSize) = .ok b := by
    decide
  have hname : GoMap.get? threeRowFixture.ColumnNameToIndex "col2" = some 0 := by decide
  have h := (C14_filters_conjunctive threeRowFixture []
    (filtersOf threeRowFixture [⟨">=", "col1", .scalar (.int 1)⟩,
      ⟨"<", "col1", .scalar (.int 5)⟩])
    [1] "col2" none (fun i => cellAt threeRowFixture.rows (i * threeRowFixture.RowSize)) hd
    (by decide)
    (by
      intro gi hgi
      rw [hname] at hgi
      cases hgi
      decide)).2.2.2 (by rw [hname]; simp)
  obtain ⟨results, h1, h2⟩ := h
  refine ⟨hd, by decide, results, h1, ?_⟩
  have e : (threeRowFixture.withAdjacent []).specGroupBuckets [1]
      (fun i => cellAt threeRowFixture.rows (i * threeRowFixture.RowSize))
      (threeRowFixture.specPassingRows (filtersOf threeRowFixture
        [⟨">=", "col1", .scalar (.int 1)⟩, ⟨"<", "col1", .scalar (.int 5)⟩]))
      = [⟨Float32.ofInt 0, [⟨0⟩, Float64.ofInt 3], 2⟩] := by decide
  rw [e] at h2
  exact h2

set_option maxRecDepth 100000 in
/-- The expectations of the filter tests of core_test.go on the fixture with its two rows:
the sums of `col1` under `col1 = 2`, `col2 = "stringvalue2"`, `col1 = 3`, `col1 < 2`,
`col1 < 1`, `col1 in [2]`, `col1 in [2, 1]`, `col2 in ["stringvalue1"]` and
`col2 in ["non-existant"]`. -/
theorem InvokeQuery_filter_tests :
    twoRowFixture.InvokeQuery (sumQuery [⟨"equal", "col1", .scalar (.int 2)⟩])
      = .ok [[("col1", .float64 (Float64.ofInt 2)), ("rowCount", .int 1)]] ∧
    twoRowFixture.InvokeQuery (sumQuery [⟨"equal", "col2", .scalar (.string "stringvalue2")⟩])
      = .ok [[("col1", .float64 (Float64.ofInt 2)), ("rowCount", .int 1)]] ∧
    twoRowFixture.InvokeQuery (sumQuery [⟨"equal", "col1", .scalar (.int 3)⟩])
      = .ok [[("col1", .float64 (Float64.ofInt 0)), ("rowCount", .int 0)]] ∧
    twoRowFixture.InvokeQuery (sumQuery [⟨"lessThan", "col1", .scalar (.int 2)⟩])
      = .ok [[("col1", .float64 (Float64.ofInt 1)), ("rowCount", .int 1)]] ∧
    twoRowFixture.InvokeQuery (sumQuery [⟨"lessThan", "col1", .scalar (.int 1)⟩])
      = .ok [[("col1", .float64 (Float64.ofInt 0)), ("rowCount", .int 0)]] ∧
    twoRowFixture.InvokeQuery (sumQuery [⟨"in", "col1", .list [.int 2]⟩])
      = .ok [[("col1", .float64 (Float64.ofInt 2)), ("rowCount", .int 1)]] ∧
    twoRowFixture.InvokeQuery (sumQuery [⟨"in", "col1", .list [.int 2, .int 1]⟩])
      = .ok [[("col1", .float64 (Float64.ofInt 3)), ("rowCount", .int 2)]] ∧
    twoRowFixture.InvokeQuery (sumQuery [⟨"in", "col2", .list [.string "stringvalue1"]⟩])
      = .ok [[("col1", .float64 (Float64.ofInt 1)), ("rowCount", .int 1)]] ∧
    twoRowFixture.InvokeQuery (sumQuery [⟨"in", "col2", .list [.string "non-existant"]⟩])
      = .ok [[("col1", .float64 (Float64.ofInt 0)), ("rowCount", .int 0)]] := by
  refine ⟨?_, ?_, ?_, ?_, ?_, ?_, ?_, ?_, ?_⟩ <;> decide

set_option maxRecDepth 100000 in
/-- Claim C15 fails on the code. In the table of `mixedSchema` the row stores `a = 1` as a
`float64`, yet the predicate made from the filter `a = 1` is false on that row and the query
with that filter counts no row: the predicate reads the four bytes at the offset of `a` as a
`float32`. On the `float32` column `b` the filter `b = 2` is true on the row. -/
theorem C15_filter_reads_cells :
    (mixedTable.getRowSlice 0).bind (fun row => mixedTable.getColumnValue row 0)
      = .ok (.float64 (Float64.ofInt 1)) ∧
    (convertQueryFilterToFilterFunc ⟨"=", "a", .scalar (.float64 (Float64.ofInt 1))⟩
        mixedTable).bind (fun f => f 0) = .ok false ∧
    (convertQueryFilterToFilterFunc ⟨"=", "b", .scalar (.float64 (Float64.ofInt 2))⟩
        mixedTable).bind (fun f => f 0) = .ok true ∧
    mixedTable.InvokeQuery
        ⟨"", [⟨"sum", "b", "b"⟩], [], [⟨"=", "a", .scalar (.float64 (Float64.ofInt 1))⟩]⟩
      = .ok [[("b", .float64 ⟨0⟩), ("rowCount", .int 0)]] := by
  decide

/-- A scalar filter whose string value has no id is made into the function that rejects
every row, whatever its operator. -/
theorem convert_absent_string (table : FactTable) (queryFilter : QueryFilter) (s : String)
    (dimensionTable : DimensionTable)
    (hop : queryFilter.Type' ≠ "in")
    (hvalue : queryFilter.Value = .scalar (.string s))
    (hcol : table.DimensionTables[GoMap.index table.ColumnNameToIndex queryFilter.Column]?
      = some dimensionTable)
    (habsent : GoMap.get? dimensionTable.ValueToId s = none) :
    ∃ f, convertQueryFilterToFilterFunc queryFilter table = .ok f ∧ ∀ row, f row = .ok false := by
  refine ⟨fun _ => .ok false, ?_, fun _ => rfl⟩
  simp only [convertQueryFilterToFilterFunc, if_neg hop, hvalue, hcol,
    DimensionTable.getDimensionRowIdsForValues, List.filterMap_cons, habsent, Option.map_none',
    List.filterMap_nil]

/-- The loop of scan leaves the buckets alone when no row passes the filters. -/
theorem scanLoop_none_pass (table : FactTable) (filters : List FactTableFilterFunc)
    (columnIndices : List Nat) (useGrouping : Bool) (gi : Nat)
    (fn : Option (Float32 → Result Float32)) (n : Nat) :
    ∀ (rowPtr : Nat) (state : ScanState),
      (∀ i, i < n → passesFilters filters (rowPtr + i * table.RowSize) = .ok false) →
      table.scanLoop filters columnIndices useGrouping gi fn n rowPtr state = .ok state := by
  induction n with
  | zero => intro rowPtr state _; rfl
  | succ n ih =>
    intro rowPtr state h
    have h0 : passesFilters filters rowPtr = .ok false := by simpa using h 0 (Nat.succ_pos n)
    simp only [FactTable.scanLoop, FactTable.scanRow, h0]
    apply ih
    intro i hi
    have := h (i + 1) (Nat.succ_lt_succ hi)
    rw [show rowPtr + table.RowSize + i * table.RowSize
      = rowPtr + (i + 1) * table.RowSize by ring]
    exact this

/-- When no row passes the filters scan returns the empty bucket without grouping, and no
bucket with grouping. -/
theorem scan_none_pass (table : FactTable) (filters : List FactTableFilterFunc)
    (columnIndices : List Nat) (groupByColumnName : String)
    (fn : Option (Float32 → Result Float32))
    (hnone : ∀ i, i < table.Count → passesFilters filters (i * table.RowSize) = .ok false) :
    table.scan filters columnIndices groupByColumnName fn
      = .ok (if (GoMap.get? table.ColumnNameToIndex groupByColumnName).isSome then []
             else [table.newRowAggregate ⟨0⟩]) := by
  have h := scanLoop_none_pass table filters columnIndices
    (GoMap.get? table.ColumnNameToIndex groupByColumnName).isSome
    ((GoMap.get? table.ColumnNameToIndex groupByColumnName).getD 0) fn table.Count 0
    { rowAggregate := table.newRowAggregate ⟨0⟩, rowAggregatesMap := [] }
    (by simpa using hnone)
  simp only [FactTable.scan, h, Result.map]
  split <;> rfl

/-- What the aggregates loop of the formatter leaves under a name: the value `v`, when that
is what every "sum" and "average" aggregate of that name writes and one of them exists or
`v` was there before. -/
theorem formatAggregates_get? (table : FactTable) (rowAggregate : RowAggregate) (name : String)
    (v : Untyped) (aggregates : List QueryAggregate) :
    ∀ jsonRow r : GoMap String Untyped,
      (∀ a ∈ aggregates, a.Name = name → ∀ sums,
        rowAggregate.Sums[GoMap.index table.ColumnNameToIndex a.Column]? = some sums →
        (a.Type' = "sum" → Untyped.float64 sums = v) ∧
        (a.Type' = "average" →
          Untyped.float64 (sums.div (Float64.ofInt rowAggregate.Count)) = v)) →
      table.formatAggregates rowAggregate aggregates jsonRow = .ok r →
      ((∃ a ∈ aggregates, a.Name = name ∧ (a.Type' = "sum" ∨ a.Type' = "average")) ∨
        GoMap.get? jsonRow name = some v) →
      GoMap.get? r name = some v := by
  induction aggregates with
  | nil =>
    intro jsonRow r _ h hc
    simp only [FactTable.formatAggregates, Result.ok.injEq] at h
    subst h
    rcases hc with ⟨a, ha, _⟩ | hc
    · simp at ha
    · exact hc
  | cons a rest ih =>
    intro jsonRow r hw h hc
    have hw1 : ∀ b ∈ rest, b.Name = name → ∀ sums,
        rowAggregate.Sums[GoMap.index table.ColumnNameToIndex b.Column]? = some sums →
        (b.Type' = "sum" → Untyped.float64 sums = v) ∧
        (b.Type' = "average" →
          Untyped.float64 (sums.div (Float64.ofInt rowAggregate.Count)) = v) :=
      fun b hb => hw b (List.mem_cons_of_mem _ hb)
    simp only [FactTable.formatAggregates] at h
    cases hs : rowAggregate.Sums[GoMap.index table.ColumnNameToIndex a.Column]? with
    | none => rw [hs] at h; simp at h
    | some sums =>
      rw [hs] at h
      simp only at h
      have hwa := hw a (List.mem_cons_self _ _)
      by_cases hsum : a.Type' = "sum"
      · rw [if_pos hsum] at h
        apply ih _ r hw1 h
        by_cases hn : a.Name = name
        · right
          rw [GoMap.get?_set, if_pos hn, (hwa hn sums hs).1 hsum]
        · rw [GoMap.get?_set, if_neg hn]
          rcases hc with ⟨b, hb, hbn, hbt⟩ | hc
          · rcases List.mem_cons.mp hb with rfl | hb
            · exact absurd hbn hn
            · exact Or.inl ⟨b, hb, hbn, hbt⟩
          · exact Or.inr hc
      · rw [if_neg hsum] at h
        by_cases havg : a.Type' = "average"
        · rw [if_pos havg] at h
          apply ih _ r hw1 h
          by_cases hn : a.Name = name
          · right
            rw [GoMap.get?_set, if_pos hn, (hwa hn sums hs).2 havg]
          · rw [GoMap.get?_set, if_neg hn]
            rcases hc with ⟨b, hb, hbn, hbt⟩ | hc
            · rcases List.mem_cons.mp hb with rfl | hb
              · exact absurd hbn hn
              · exact Or.inl ⟨b, hb, hbn, hbt⟩
            · exact Or.inr hc
        · rw [if_neg havg] at h
          apply ih _ r hw1 h
          rcases hc with ⟨b, hb, hbn, hbt⟩ | hc
          · rcases List.mem_cons.mp hb with rfl | hb
            · rcases hbt with hbt | hbt
              · exact absurd hbt hsum
              · exact absurd hbt havg
            · exact Or.inl ⟨b, hb, hbn, hbt⟩
          · exact Or.inr hc

/-- The aggregates loop of the formatter returns when every aggregate addresses a sum of the
bucket. -/
theorem formatAggregates_ok (table : FactTable) (rowAggregate : RowAggregate)
    (aggregates : List QueryAggregate)
    (h : ∀ a ∈ aggregates,
      GoMap.index table.ColumnNameToIndex a.Column < rowAggregate.Sums.length) :
    ∀ jsonRow, ∃ r, table.formatAggregates rowAggregate aggregates jsonRow = .ok r := by
  induction aggregates with
  | nil => intro jsonRow; exact ⟨_, rfl⟩
  | cons a rest ih =>
    intro jsonRow
    have ha := h a (List.mem_cons_self _ _)
    have ih1 := ih (fun b hb => h b (List.mem_cons_of_mem _ hb))
    simp only [FactTable.formatAggregates, List.getElem?_eq_getElem ha]
    split
    · exact ih1 _
    · split
      · exact ih1 _
      · exact ih1 _

/-- The result row of a bucket for a query without groupings: it is made when every
aggregate addresses a sum, carries the count of the bucket under "rowCount", and keeps what
the aggregates loop wrote under every other name. -/
theorem formatRow_ungrouped (table : FactTable) (query : Query) (rowAggregate : RowAggregate)
    (hg : query.Groupings = [])
    (h : ∀ a ∈ query.Aggregates,
      GoMap.index table.ColumnNameToIndex a.Column < rowAggregate.Sums.length) :
    ∃ jsonRow r, table.formatAggregates rowAggregate query.Aggregates [] = .ok jsonRow ∧
      table.formatRow query rowAggregate = .ok r ∧
      GoMap.get? r "rowCount" = some (.int rowAggregate.Count) ∧
      ∀ name, name ≠ "rowCount" → GoMap.get? r name = GoMap.get? jsonRow name := by
  obtain ⟨jsonRow, hj⟩ := formatAggregates_ok table rowAggregate query.Aggregates h []
  refine ⟨jsonRow, GoMap.set jsonRow "rowCount" (.int rowAggregate.Count), hj, ?_, ?_, ?_⟩
  · simp only [FactTable.formatRow, hj, hg, FactTable.formatGroupings, Result.map]
  · rw [GoMap.get?_set, if_pos rfl]
  · intro name hname
    rw [GoMap.get?_set, if_neg (fun e => hname e.symm)]

/-- The index an aggregate, filter or grouping gets for a column name, also for an unknown
one, is below the column count of a table that has a column. -/
theorem layout_index_lt (table : FactTable) (schema : Schema) (hs : table.HasLayoutOf schema)
    (hpos : 0 < table.ColumnCount) (name : String) :
    GoMap.index table.ColumnNameToIndex name < table.ColumnCount := by
  unfold GoMap.index
  cases h : GoMap.get? table.ColumnNameToIndex name with
  | none => exact hpos
  | some idx =>
    have := layout_index_fits table schema hs name idx h
    rw [List.length_replicate] at this
    exact this

/-- A table has at least as many columns as dimension tables. -/
theorem layout_dims_le (table : FactTable) (schema : Schema) (hs : table.HasLayoutOf schema) :
    table.DimensionTables.length ≤ table.ColumnCount := by
  rw [hs.dimensionTables, hs.columnCount]
  simp [NewFactTable]

/-- A query without groupings whose filters let no row pass is answered from the empty
bucket, or from no bucket when the empty name is a column. -/
theorem InvokeQuery_none_pass (table : FactTable) (query : Query)
    (filterFuncs : List FactTableFilterFunc) (hg : query.Groupings = [])
    (hconv : convertFilters table query.Filters = .ok filterFuncs)
    (hnone : ∀ i, i < table.Count → passesFilters filterFuncs (i * table.RowSize) = .ok false) :
    table.InvokeQuery query
      = table.mapRowAggregatesToJSONResultsFormat query
          (if (GoMap.get? table.ColumnNameToIndex "").isSome then []
           else [table.newRowAggregate ⟨0⟩]) := by
  simp only [FactTable.InvokeQuery, hconv, hg, List.head?_nil, Option.map_none',
    Option.getD_none, scan_none_pass table filterFuncs _ "" none hnone]

/-- The result row of the empty bucket of a table that has a column, for a query without
groupings: "rowCount" is 0, every "sum" aggregate is 0 and every "average" aggregate is the
quotient of 0 by 0, for aggregates whose name is not "rowCount" and is not shared with an
aggregate of the other kind. -/
theorem formatRow_empty_bucket (table : FactTable) (schema : Schema)
    (hs : table.HasLayoutOf schema) (hpos : 0 < table.ColumnCount) (query : Query)
    (hg : query.Groupings = []) :
    ∃ r, table.formatRow query (table.newRowAggregate ⟨0⟩) = .ok r ∧
      GoMap.get? r "rowCount" = some (.int 0) ∧
      (∀ a ∈ query.Aggregates, a.Type' = "sum" → a.Name ≠ "rowCount" →
        (∀ b ∈ query.Aggregates, b.Name = a.Name → b.Type' ≠ "average") →
        GoMap.get? r a.Name = some (.float64 ⟨0⟩)) ∧
      (∀ a ∈ query.Aggregates, a.Type' = "average" → a.Name ≠ "rowCount" →
        (∀ b ∈ query.Aggregates, b.Name = a.Name → b.Type' ≠ "sum") →
        GoMap.get? r a.Name
          = some (.float64 ((⟨0⟩ : Float64).div (Float64.ofInt ((0 : Nat) : Int))))) := by
  have hidx : ∀ a ∈ query.Aggregates,
      GoMap.index table.ColumnNameToIndex a.Column < (table.newRowAggregate ⟨0⟩).Sums.length := by
    intro a _
    simp only [FactTable.newRowAggregate, List.length_replicate]
    exact layout_index_lt table schema hs hpos _
  obtain ⟨jsonRow, r, hj, hr, hcount, hrest⟩ :=
    formatRow_ungrouped table query (table.newRowAggregate ⟨0⟩) hg hidx
  have hzero : ∀ (i : Nat) (sums : Float64),
      (table.newRowAggregate ⟨0⟩).Sums[i]? = some sums → sums = ⟨0⟩ := by
    intro i sums hsums
    simp only [FactTable.newRowAggregate] at hsums
    rw [List.getElem?_replicate] at hsums
    split at hsums
    · simp only [Option.some.injEq] at hsums
      exact hsums.symm
    · simp at hsums
  refine ⟨r, hr, hcount, ?_, ?_⟩
  · intro a ha hsum hname hnoavg
    rw [hrest a.Name hname]
    apply formatAggregates_get? table (table.newRowAggregate ⟨0⟩) a.Name (.float64 ⟨0⟩)
      query.Aggregates [] jsonRow _ hj (Or.inl ⟨a, ha, rfl, Or.inl hsum⟩)
    intro b hb hbn sums hsums
    refine ⟨fun _ => ?_, fun havg => absurd havg (hnoavg b hb hbn)⟩
    rw [hzero _ sums hsums]
  · intro a ha havg hname hnosum
    rw [hrest a.Name hname]
    apply formatAggregates_get? table (table.newRowAggregate ⟨0⟩) a.Name
      (.float64 ((⟨0⟩ : Float64).div (Float64.ofInt ((0 : Nat) : Int))))
      query.Aggregates [] jsonRow _ hj (Or.inl ⟨a, ha, rfl, Or.inr havg⟩)
    intro b hb hbn sums hsums
    refine ⟨fun hsum => absurd hsum (hnosum b hb hbn), fun _ => ?_⟩
    rw [hzero _ sums hsums]
    rfl

/-- A scalar filter with operator `=`, `<`, `<=`, `>` or `>=` (in either spelling) on a
column that has a dimension table, whose string value has no id in that table, is made
without failure into a predicate that is false on every row. A query with that filter alone
and no grouping returns at most one result row, exactly one unless the empty name is a
column of the table; its "rowCount" is 0 and so is every "sum" aggregate (whose name is not
"rowCount" and is not shared with an "average" aggregate). -/
theorem absent_string_query (table : FactTable) (schema : Schema)
    (hlayout : table.HasLayoutOf schema) (queryFilter : QueryFilter) (s : String)
    (dimensionTable : DimensionTable) (tableName : String) (aggregates : List QueryAggregate)
    (hop : queryFilter.Type' ∈ ["=", "equal", "<", "lessThan", "<=", "lessThanOrEqualTo",
      ">", "greaterThan", ">=", "greaterThanOrEqualTo"])
    (hvalue : queryFilter.Value = .scalar (.string s))
    (hcol : table.DimensionTables[GoMap.index table.ColumnNameToIndex queryFilter.Column]?
      = some dimensionTable)
    (habsent : GoMap.get? dimensionTable.ValueToId s = none) :
    (∃ f, convertQueryFilterToFilterFunc queryFilter table = .ok f ∧
      ∀ row, f row = .ok false) ∧
    (∃ rows, table.InvokeQuery ⟨tableName, aggregates, [], [queryFilter]⟩ = .ok rows ∧
      rows.length ≤ 1 ∧
      (GoMap.get? table.ColumnNameToIndex "" = none → rows.length = 1) ∧
      ∀ row ∈ rows, GoMap.get? row "rowCount" = some (.int 0) ∧
        ∀ a ∈ aggregates, a.Type' = "sum" → a.Name ≠ "rowCount" →
          (∀ b ∈ aggregates, b.Name = a.Name → b.Type' ≠ "average") →
          GoMap.get? row a.Name = some (.float64 ⟨0⟩)) := by
  have hnotin : queryFilter.Type' ≠ "in" := by
    intro h
    rw [h] at hop
    revert hop
    decide
  obtain ⟨f, hf, hfalse⟩ := convert_absent_string table queryFilter s dimensionTable hnotin
    hvalue hcol habsent
  refine ⟨⟨f, hf, hfalse⟩, ?_⟩
  have hpos : 0 < table.ColumnCount := by
    have := (List.getElem?_eq_some_iff.mp hcol).1
    have := layout_dims_le table schema hlayout
    omega
  have hinv := InvokeQuery_none_pass table ⟨tableName, aggregates, [], [queryFilter]⟩ [f] rfl
    (by simp only [convertFilters, hf, Result.map])
    (by intro i _; simp only [passesFilters, hfalse])
  rw [hinv]
  cases hname : GoMap.get? table.ColumnNameToIndex "" with
  | some idx =>
    refine ⟨[], ?_, by simp, by simp, by simp⟩
    simp [FactTable.mapRowAggregatesToJSONResultsFormat]
  | none =>
    obtain ⟨r, hr, hcount, hsums, _⟩ := formatRow_empty_bucket table schema hlayout hpos
      ⟨tableName, aggregates, [], [queryFilter]⟩ rfl
    refine ⟨[r], ?_, by simp, by simp, ?_⟩
    · simp [FactTable.mapRowAggregatesToJSONResultsFormat, hr, Result.map]
    · intro row hrow
      rw [List.mem_singleton] at hrow
      subst hrow
      exact ⟨hcount, hsums⟩

set_option maxRecDepth 100000 in
/-- Claim C16 fails on the code. In the table with the columns "" and `col2` and the rows
`(1, "stringvalue1")`, `(2, "stringvalue2")`, the filter `col2 = "non-existant"` on the
string column is made into a predicate that is false on both rows, as the claim says; but
the query with that filter and no grouping is scanned with grouping by the column named ""
and returns no result row at all, not a row with the sum 0 and the row count 0. On the
fixture, which has no column named by the empty string, the same filter gives that row. -/
theorem C16_absent_string_no_result_row :
    emptyNameStringTable.Count = 2 ∧
    emptyNameStringTable.DimensionTables.map (fun d => d.Rows)
      = [["stringvalue1", "stringvalue2"]] ∧
    (convertQueryFilterToFilterFunc ⟨"=", "col2", .scalar (.string "non-existant")⟩
        emptyNameStringTable).bind (fun f => f 0) = .ok false ∧
    (convertQueryFilterToFilterFunc ⟨"=", "col2", .scalar (.string "non-existant")⟩
        emptyNameStringTable).bind (fun f => f emptyNameStringTable.RowSize) = .ok false ∧
    emptyNameStringTable.InvokeQuery
        ⟨"", [⟨"sum", "", "total"⟩], [], [⟨"=", "col2", .scalar (.string "non-existant")⟩]⟩
      = .ok [] ∧
    twoRowFixture.InvokeQuery (sumQuery [⟨"=", "col2", .scalar (.string "non-existant")⟩])
      = .ok [[("col1", .float64 ⟨0⟩), ("rowCount", .int 0)]] := by
  decide

set_option maxRecDepth 100000 in
/-- Claim C17 fails on the code. On the fixture with its two rows, whose strings are
"stringvalue1" and "stringvalue2", the predicate made from the filter
`col2 != "non-existant"` is false on both rows, and the query with that filter reports the
sum 0 over no rows instead of the sum 3 over two rows. -/
theorem C17_not_equal_absent_string :
    twoRowFixture.Count = 2 ∧
    twoRowFixture.DimensionTables.map (fun d => d.Rows) = [["stringvalue1", "stringvalue2"]] ∧
    (convertQueryFilterToFilterFunc ⟨"!=", "col2", .scalar (.string "non-existant")⟩
        twoRowFixture).bind (fun f => f 0) = .ok false ∧
    (convertQueryFilterToFilterFunc ⟨"!=", "col2", .scalar (.string "non-existant")⟩
        twoRowFixture).bind (fun f => f twoRowFixture.RowSize) = .ok false ∧
    twoRowFixture.InvokeQuery (sumQuery [⟨"!=", "col2", .scalar (.string "non-existant")⟩])
      = .ok [[("col1", .float64 ⟨0⟩), ("rowCount", .int 0)]] ∧
    twoRowFixture.InvokeQuery (sumQuery [])
      = .ok [[("col1", .float64 (Float64.ofInt 3)), ("rowCount", .int 2)]] := by
  decide

set_option maxRecDepth 100000 in
/-- Claim C18 fails on the code. In the table of `uint32Schema` the strings "a" and "b" have
the ids 0 and 1, and getDimensionRowIdsForValues keeps the ids of the listed strings that are
present, in list order. The second row stores the id 1 as a `uint32`, yet the predicate made
from the filter `s in ["b"]` is false on it: the predicate reads the four bytes of the id as
a `float32`. -/
theorem C18_in_filter_reads_cells :
    uint32Table.DimensionTables.map (fun d => d.getDimensionRowIdsForValues ["x", "b", "y", "a"])
      = [[Float32.ofInt 1, Float32.ofInt 0]] ∧
    (uint32Table.getRowSlice 1).bind (fun row => uint32Table.getColumnValue row 0)
      = .ok (.uint32 1) ∧
    (convertQueryFilterToFilterFunc ⟨"in", "s", .list [.string "b"]⟩ uint32Table).bind
        (fun f => f uint32Table.RowSize) = .ok false ∧
    uint32Table.InvokeQuery ⟨"", [], [], [⟨"in", "s", .list [.string "b"]⟩]⟩
      = .ok [[("rowCount", .int 0)]] := by
  decide

set_option maxRecDepth 100000 in
/-- Claim C19 fails on the code. In a table whose column is named by the empty string a
query without grouping is scanned with grouping by that column: on the empty table it
returns no result row, and on the table with the rows 1 and 2 it returns two. -/
theorem C19_empty_column_name_groups :
    (NewFactTable "" 10 emptyNameSchema).InvokeQuery ⟨"", [⟨"sum", "", "total"⟩], [], []⟩
      = .ok [] ∧
    emptyNameTable.InvokeQuery ⟨"", [⟨"sum", "", "total"⟩], [], []⟩
      = .ok [[("total", .float64 (Float64.ofInt 1)), ("rowCount", .int 1)],
             [("total", .float64 (Float64.ofInt 2)), ("rowCount", .int 1)]] := by
  decide

set_option maxRecDepth 100000 in
/-- Counterexample to claim C20 as stated. On the fixture with its two rows the query for
the average of `col1` under the filter `col1 = 3`, which no row passes, reports a NaN and
not 0.0. -/
theorem C20_counterexample :
    twoRowFixture.InvokeQuery
        ⟨"", [⟨"average", "col1", "avg"⟩], [], [⟨"=", "col1", .scalar (.int 3)⟩]⟩
      = .ok [[("avg", .float64 ⟨0x7FF8000000000000⟩), ("rowCount", .int 0)]] ∧
    (⟨0x7FF8000000000000⟩ : Float64).val = .nan ∧
    (⟨0x7FF8000000000000⟩ : Float64) ≠ Float64.ofInt 0 := by
  decide

/-- Claim C20 (amended). For a query without grouping on a table that has a column and no
column named by the empty string: when no row passes the filters (the bucket has count 0 and
sums 0) the query returns one result row with "rowCount" 0, in which every "average"
aggregate is the `float64` quotient of 0 by 0, a NaN (for an aggregate whose name is not
"rowCount" and is not shared with a "sum" aggregate). The formatter divides without looking
at the count. -/
theorem C20_average_of_no_rows (table : FactTable) (schema : Schema)
    (hlayout : table.HasLayoutOf schema) (hpos : 0 < table.ColumnCount) (query : Query)
    (filterFuncs : List FactTableFilterFunc)
    (hg : query.Groupings = [])
    (hname : GoMap.get? table.ColumnNameToIndex "" = none)
    (hconv : convertFilters table query.Filters = .ok filterFuncs)
    (hnone : ∀ i, i < table.Count → passesFilters filterFuncs (i * table.RowSize) = .ok false) :
    ∃ row, table.InvokeQuery query = .ok [row] ∧
      GoMap.get? row "rowCount" = some (.int 0) ∧
      ∀ a ∈ query.Aggregates, a.Type' = "average" → a.Name ≠ "rowCount" →
        (∀ b ∈ query.Aggregates, b.Name = a.Name → b.Type' ≠ "sum") →
        ∃ x : Float64, GoMap.get? row a.Name = some (.float64 x) ∧ x.val = .nan ∧
          x = (⟨0⟩ : Float64).div (Float64.ofInt 0) := by
  obtain ⟨r, hr, hcount, _, havg⟩ := formatRow_empty_bucket table schema hlayout hpos query hg
  refine ⟨r, ?_, hcount, ?_⟩
  · rw [InvokeQuery_none_pass table query filterFuncs hg hconv hnone, hname]
    simp [FactTable.mapRowAggregatesToJSONResultsFormat, hr, Result.map]
  · intro a ha hA hn hns
    exact ⟨_, havg a ha hA hn hns, by decide, rfl⟩

set_option maxRecDepth 100000 in
/-- Witness for the amended claim C20: the empty fixture and the query for the average of
`col1` without filters. -/
theorem C20_average_of_no_rows_witness :
    tableFixture.Count = 0 ∧
    ∃ row, tableFixture.InvokeQuery ⟨"", [⟨"average", "col1", "avg"⟩], [], []⟩ = .ok [row] ∧
      ∃ x : Float64, GoMap.get? row "avg" = some (.float64 x) ∧ x.val = .nan := by
  obtain ⟨row, h1, _, h3⟩ := C20_average_of_no_rows tableFixture fixtureSchema
    (NewFactTable_HasLayoutOf "" 10 fixtureSchema) (by decide)
    ⟨"", [⟨"average", "col1", "avg"⟩], [], []⟩ [] rfl (by decide) rfl
    (by
      intro i hi
      rw [show tableFixture.Count = 0 by decide] at hi
      exact absurd hi (Nat.not_lt_zero i))
  obtain ⟨x, hx1, hx2, _⟩ := h3 ⟨"average", "col1", "avg"⟩ (List.mem_singleton_self _) rfl
    (by decide) (by decide)
  exact ⟨by decide, row, h1, x, hx1, hx2⟩

set_option maxRecDepth 100000 in
/-- The expectations of the group-by tests of core_test.go: the three rows of the fixture
grouped by `col2`, and the rows 0, 120, 150 grouped by the minute of `col1`. -/
theorem InvokeQuery_grouping_tests :
    threeRowFixture.InvokeQuery
        ⟨"", [⟨"sum", "col1", "col1"⟩], [⟨"", "col2", "groupbykey"⟩], []⟩
      = .ok [[("col1", .float64 (Float64.ofInt 3)), ("groupbykey", .string "stringvalue1"),
              ("rowCount", .int 2)],
             [("col1", .float64 (Float64.ofInt 5)), ("groupbykey", .string "stringvalue2"),
              ("rowCount", .int 1)]] ∧
    timeFixture.InvokeQuery
        ⟨"", [⟨"sum", "col1", "col1"⟩], [⟨"minute", "col1", "groupbykey"⟩], []⟩
      = .ok [[("col1", .float64 (Float64.ofInt 0)), ("groupbykey", .Cell (Float32.ofInt 0)),
              ("rowCount", .int 1)],
             [("col1", .float64 (Float64.ofInt 270)),
              ("groupbykey", .Cell (Float32.ofInt 120)), ("rowCount", .int 2)]] := by
  refine ⟨?_, ?_⟩ <;> decide

set_option maxRecDepth 100000 in
/-- Claim C21 fails on the code. On the fixture with the three rows of the group-by test, the
query for the sum and the average of `col1` grouped by `col2` reports the sum 6 and the
average 3 for "stringvalue1", whose rows hold 1 and 2, and the sum 10 for "stringvalue2",
whose row holds 5: scan adds a row to the sum of a column once per aggregate on that
column. With the sum alone the buckets are those of the test. -/
theorem C21_sum_counted_per_aggregate :
    threeRowFixture.getColumnIndicesFromQuery
        ⟨"", [⟨"sum", "col1", "col1"⟩, ⟨"average", "col1", "avg"⟩],
          [⟨"", "col2", "groupbykey"⟩], []⟩ = [1, 1] ∧
    threeRowFixture.InvokeQuery
        ⟨"", [⟨"sum", "col1", "col1"⟩, ⟨"average", "col1", "avg"⟩],
          [⟨"", "col2", "groupbykey"⟩], []⟩
      = .ok [[("col1", .float64 (Float64.ofInt 6)), ("avg", .float64 (Float64.ofInt 3)),
              ("groupbykey", .string "stringvalue1"), ("rowCount", .int 2)],
             [("col1", .float64 (Float64.ofInt 10)), ("avg", .float64 (Float64.ofInt 10)),
              ("groupbykey", .string "stringvalue2"), ("rowCount", .int 1)]] ∧
    threeRowFixture.InvokeQuery
        ⟨"", [⟨"sum", "col1", "col1"⟩], [⟨"", "col2", "groupbykey"⟩], []⟩
      = .ok [[("col1", .float64 (Float64.ofInt 3)), ("groupbykey", .string "stringvalue1"),
              ("rowCount", .int 2)],
             [("col1", .float64 (Float64.ofInt 5)), ("groupbykey", .string "stringvalue2"),
              ("rowCount", .int 1)]] := by
  refine ⟨?_, ?_, ?_⟩ <;> decide

set_option maxRecDepth 100000 in
/-- Claim C26 fails on the code. In the table of `uint32Schema` the second row stores the id
1 of "b" as a `uint32`; the scan grouped by `s` gives that row the key with the bits
`00000001` of a `float32`, not the id 1, and the formatter labels both buckets "a". In the
table of `mixedSchema` the column `b` is stored at offset 8 and holds 2; the scan grouped by
`b` reads the key 1.875 at byte 4. -/
theorem C26_group_key_reads_cells :
    (uint32Table.getRowSlice 1).bind (fun row => uint32Table.getColumnValue row 0)
      = .ok (.uint32 1) ∧
    uint32Table.scan [] [] "s" none
      = .ok [⟨⟨0⟩, [⟨0⟩], 1⟩, ⟨⟨1⟩, [⟨0⟩], 1⟩] ∧
    Float32.ofInt 1 = ⟨0x3F800000⟩ ∧
    uint32Table.InvokeQuery ⟨"", [], [⟨"", "s", "g"⟩], []⟩
      = .ok [[("g", .string "a"), ("rowCount", .int 1)],
             [("g", .string "a"), ("rowCount", .int 1)]] ∧
    mixedTable.ColumnIndexToOffset = [0, 8] ∧
    (mixedTable.getRowSlice 0).bind (fun row => mixedTable.getColumnValue row 1)
      = .ok (.float32 ⟨0x40000000⟩) ∧
    (mixedTable.scan [] [] "b" none).map (fun rs => rs.map (fun r => r.GroupByValue))
      = .ok [⟨0x3FF00000⟩] := by
  refine ⟨?_, ?_, ?_, ?_, ?_, ?_, ?_⟩ <;> decide

theorem bitLengthAux_pos : ∀ fuel n : Nat, 0 < n → n ≤ fuel → 0 < bitLengthAux fuel n := by
  intro fuel n hn hle
  cases fuel with
  | zero => omega
  | succ f =>
    simp only [bitLengthAux, if_neg (Nat.pos_iff_ne_zero.mp hn)]
    omega

theorem bitLengthAux_spec : ∀ fuel n : Nat, 0 < n → n ≤ fuel →
    2 ^ (bitLengthAux fuel n - 1) ≤ n ∧ n < 2 ^ bitLengthAux fuel n := by
  intro fuel
  induction fuel with
  | zero => intro n hn hle; omega
  | succ f ih =>
    intro n hn hle
    simp only [bitLengthAux, if_neg (Nat.pos_iff_ne_zero.mp hn), Nat.add_sub_cancel]
    by_cases h1 : n = 1
    · subst h1
      have : bitLengthAux f (1 / 2) = 0 := by
        cases f <;> simp [bitLengthAux]
      rw [this]
      simp
    · have h2 : 0 < n / 2 := Nat.div_pos (by omega) (by omega)
      have h3 : n / 2 ≤ f := by omega
      obtain ⟨a, b⟩ := ih (n / 2) h2 h3
      have hpos := bitLengthAux_pos f (n / 2) h2 h3
      have e : 2 ^ bitLengthAux f (n / 2) = 2 * 2 ^ (bitLengthAux f (n / 2) - 1) := by
        rw [← pow_succ']
        congr 1
        omega
      constructor
      · rw [e]; omega
      · rw [pow_succ]; omega

/-- The number of binary digits of a positive number. -/
theorem bitLength_spec (n : Nat) (hn : 0 < n) :
    2 ^ (bitLength n - 1) ≤ n ∧ n < 2 ^ bitLength n :=
  bitLengthAux_spec n n hn (Nat.le_refl n)

/-- The pattern of a positive integer below `2^24` as a `float32`: the integer shifted up to
24 digits, under the exponent that undoes the shift. -/
theorem roundFloat32_small (neg : Bool) (m : Nat) (hm : 0 < m) (hlt : m < 2 ^ 24) :
    ∃ k, k ≤ 23 ∧ 2 ^ 23 ≤ m * 2 ^ k ∧ m * 2 ^ k < 2 ^ 24 ∧
      roundFloat 8 23 neg m 0
        = (if neg then 2 ^ 31 else 0) + ((149 - k) * 2 ^ 23 + m * 2 ^ k) := by
  obtain ⟨hlo, hhi⟩ := bitLength_spec m hm
  have hLpos : 0 < bitLength m := bitLengthAux_pos m m hm (Nat.le_refl m)
  have hL : bitLength m ≤ 24 := by
    by_contra hcon
    have : 2 ^ 24 ≤ 2 ^ (bitLength m - 1) := Nat.pow_le_pow_right (by norm_num) (by omega)
    omega
  refine ⟨24 - bitLength m, by omega, ?_, ?_, ?_⟩
  · calc 2 ^ 23 = 2 ^ (bitLength m - 1) * 2 ^ (24 - bitLength m) := by
          rw [← pow_add]; congr 1; omega
      _ ≤ m * 2 ^ (24 - bitLength m) := Nat.mul_le_mul_right _ hlo
  · calc m * 2 ^ (24 - bitLength m) < 2 ^ bitLength m * 2 ^ (24 - bitLength m) :=
          Nat.mul_lt_mul_of_pos_right hhi (by positivity)
      _ = 2 ^ 24 := by rw [← pow_add]; congr 1; omega
  · have hq : max ((0 : Int) + (bitLength m : Int) - 1 - (23 : Nat)) (minQuantum 8 23)
        = (bitLength m : Int) - 24 := by
      have : minQuantum 8 23 = -149 := by decide
      rw [this]
      omega
    have hmant : m * 2 ^ (24 - bitLength m) < 2 ^ 24 := by
      calc m * 2 ^ (24 - bitLength m) < 2 ^ bitLength m * 2 ^ (24 - bitLength m) :=
            Nat.mul_lt_mul_of_pos_right hhi (by positivity)
        _ = 2 ^ 24 := by rw [← pow_add]; congr 1; omega
    have hminq : minQuantum 8 23 = -149 := by decide
    simp only [roundFloat, if_neg (Nat.pos_iff_ne_zero.mp hm), hq]
    have h1 : ((bitLength m : Int) - 24 ≤ 0) := by omega
    rw [if_pos h1, hminq]
    have h2 : ((0 : Int) - ((bitLength m : Int) - 24)).toNat = 24 - bitLength m := by omega
    have h3 : ((bitLength m : Int) - 24 - -149).toNat = 149 - (24 - bitLength m) := by omega
    rw [h2, h3]
    have h4 : (149 - (24 - bitLength m)) * 2 ^ 23 + m * 2 ^ (24 - bitLength m)
        ≤ (2 ^ 8 - 1) * 2 ^ 23 := by
      have : 149 - (24 - bitLength m) ≤ 149 := by omega
      have := Nat.mul_le_mul_right (2 ^ 23) this
      norm_num at this hmant ⊢
      omega
    rw [Nat.min_eq_left h4]

/-- Decoding the `float32` pattern with exponent field `150 - k` and a 24-digit mantissa. -/
theorem decodeFloat32_normal (neg : Bool) (k M : Nat) (hk : k ≤ 23) (hlo : 2 ^ 23 ≤ M)
    (hhi : M < 2 ^ 24) :
    decodeFloat 8 23 ((if neg then 2 ^ 31 else 0) + ((149 - k) * 2 ^ 23 + M))
      = .fin neg M (-(k : Int)) := by
  obtain ⟨r, rfl⟩ : ∃ r, M = 2 ^ 23 + r := ⟨M - 2 ^ 23, by omega⟩
  obtain ⟨j, rfl⟩ : ∃ j, k = 23 - j := ⟨23 - k, by omega⟩
  have hr : r < 2 ^ 23 := by norm_num at hhi ⊢; omega
  have hminq : minQuantum 8 23 = -149 := by decide
  unfold decodeFloat
  simp only [hminq]
  cases neg
  · have e1 : ((if false = true then 2 ^ 31 else 0) + ((149 - (23 - j)) * 2 ^ 23 + (2 ^ 23 + r)))
        = (150 - (23 - j)) * 2 ^ 23 + r := by
      simp only [Bool.false_eq_true, if_false, Nat.zero_add]
      have : 150 - (23 - j) = (149 - (23 - j)) + 1 := by omega
      rw [this]; ring
    rw [e1]
    have m1 : ((150 - (23 - j)) * 2 ^ 23 + r) % 2 ^ 23 = r := by
      rw [Nat.add_comm, Nat.add_mul_mod_self_right, Nat.mod_eq_of_lt hr]
    have d1 : ((150 - (23 - j)) * 2 ^ 23 + r) / 2 ^ 23 = 150 - (23 - j) := by
      rw [Nat.add_comm, Nat.add_mul_div_right _ _ (by positivity), Nat.div_eq_of_lt hr,
        Nat.zero_add]
    have d2 : ((150 - (23 - j)) * 2 ^ 23 + r) / 2 ^ (23 + 8) = 0 := by
      apply Nat.div_eq_of_lt
      have : 150 - (23 - j) ≤ 150 := by omega
      have := Nat.mul_le_mul_right (2 ^ 23) this
      norm_num at this hr ⊢
      omega
    rw [m1, d1, d2]
    have e2 : (150 - (23 - j)) % 2 ^ 8 = 150 - (23 - j) := Nat.mod_eq_of_lt (by norm_num; omega)
    rw [e2]
    have n1 : ¬ (150 - (23 - j) = 2 ^ 8 - 1) := by norm_num; omega
    have n2 : ¬ (150 - (23 - j) = 0) := by omega
    rw [if_neg n1, if_neg n2]
    simp only [Nat.zero_mod, zero_ne_one, decide_False]
    congr 1
    omega
  · have e1 : ((if true = true then 2 ^ 31 else 0) + ((149 - (23 - j)) * 2 ^ 23 + (2 ^ 23 + r)))
        = (2 ^ 8 + (150 - (23 - j))) * 2 ^ 23 + r := by
      simp only [if_true]
      have : 150 - (23 - j) = (149 - (23 - j)) + 1 := by omega
      rw [this]; ring
    rw [e1]
    have m1 : ((2 ^ 8 + (150 - (23 - j))) * 2 ^ 23 + r) % 2 ^ 23 = r := by
      rw [Nat.add_comm, Nat.add_mul_mod_self_right, Nat.mod_eq_of_lt hr]
    have d1 : ((2 ^ 8 + (150 - (23 - j))) * 2 ^ 23 + r) / 2 ^ 23 = 2 ^ 8 + (150 - (23 - j)) := by
      rw [Nat.add_comm, Nat.add_mul_div_right _ _ (by positivity), Nat.div_eq_of_lt hr,
        Nat.zero_add]
    have d2 : ((2 ^ 8 + (150 - (23 - j))) * 2 ^ 23 + r) / 2 ^ (23 + 8) = 1 := by
      have : 150 - (23 - j) ≤ 150 := by omega
      have h5 := Nat.mul_le_mul_right (2 ^ 23) this
      apply Nat.div_eq_of_lt_le
      · norm_num at h5 hr ⊢
        omega
      · norm_num at h5 hr ⊢
        omega
    rw [m1, d1, d2]
    have e2 : (2 ^ 8 + (150 - (23 - j))) % 2 ^ 8 = 150 - (23 - j) := by
      rw [Nat.add_mod_left]; exact Nat.mod_eq_of_lt (by norm_num; omega)
    rw [e2]
    have n1 : ¬ (150 - (23 - j) = 2 ^ 8 - 1) := by norm_num; omega
    have n2 : ¬ (150 - (23 - j) = 0) := by omega
    rw [if_neg n1, if_neg n2]
    simp only [Nat.one_mod, decide_True]
    congr 1
    omega

theorem wrapInt_64_of_small (z : Int) (h : z.natAbs < 2 ^ 24) : wrapInt 64 z = z := by
  unfold wrapInt
  have h1 : (0 : Int) ≤ z + 2 ^ (64 - 1) := by
    norm_num at h ⊢
    omega
  have h2 : z + 2 ^ (64 - 1) < 2 ^ 64 := by
    norm_num at h ⊢
    omega
  rw [Int.emod_eq_of_lt h1 h2]
  omega

/-- An integer of magnitude below `2^24` is a `float32`: converting it to a `Cell` and back
to an `int` gives the integer. -/
theorem Float32.toInt_ofInt (n : Int) (h : n.natAbs < 2 ^ 24) :
    (Float32.ofInt n).toInt 64 = n := by
  by_cases h0 : n.natAbs = 0
  · have : n = 0 := Int.natAbs_eq_zero.mp h0
    subst this
    decide
  · obtain ⟨k, hk, hlo, hhi, hround⟩ :=
      roundFloat32_small (decide (n < 0)) n.natAbs (Nat.pos_of_ne_zero h0) h
    have hval : (Float32.ofInt n).val
        = .fin (decide (n < 0)) (n.natAbs * 2 ^ k) (-(k : Int)) := by
      simp only [Float32.ofInt, Float32.val, hround]
      exact decodeFloat32_normal _ k _ hk hlo hhi
    have hshift : (if (0 : Int) ≤ -(k : Int) then (n.natAbs * 2 ^ k) <<< (-(k : Int)).toNat
        else (n.natAbs * 2 ^ k) >>> (-(-(k : Int))).toNat) = n.natAbs := by
      by_cases hk0 : k = 0
      · subst hk0
        simp
      · have : ¬ ((0 : Int) ≤ -(k : Int)) := by omega
        rw [if_neg this]
        have e : (-(-(k : Int))).toNat = k := by omega
        rw [e, Nat.shiftRight_eq_div_pow, Nat.mul_div_cancel _ (by positivity)]
    simp only [Float32.toInt, hval, FloatVal.trunc, hshift]
    by_cases hneg : n < 0
    · simp only [hneg, decide_True, if_true]
      rw [wrapInt_64_of_small _ (by omega)]
      omega
    · simp only [hneg, decide_False, Bool.false_eq_true, if_false]
      rw [wrapInt_64_of_small _ (by omega)]
      omega

theorem Int.tmod_neg_left (w d : Int) : (-w).tmod d = -(w.tmod d) := by
  rw [Int.tmod_def, Int.tmod_def, Int.neg_tdiv]
  ring

/-- The remainder Go computes and what is left after taking it off: a multiple of the
divisor between 0 and the number. -/
theorem tmod_bucket (v d : Int) (hd : 0 < d) :
    d ∣ v - v.tmod d ∧ (v - v.tmod d).natAbs ≤ v.natAbs ∧
    (0 ≤ v → v - v.tmod d ≤ v ∧ v < v - v.tmod d + d ∧ v.tmod d = v % d) ∧
    (v < 0 → v ≤ v - v.tmod d ∧ v - v.tmod d < v + d ∧ v - v.tmod d ≤ 0) := by
  have hdvd : d ∣ v - v.tmod d := ⟨v.tdiv d, by rw [Int.tmod_def]; ring⟩
  by_cases hv : 0 ≤ v
  · have h1 := Int.tmod_nonneg d hv
    have h2 := Int.tmod_lt_of_pos v hd
    have h4 : v.tmod d ≤ v := by
      rw [Int.tmod_def]
      have : 0 ≤ v.tdiv d := Int.tdiv_nonneg hv (le_of_lt hd)
      nlinarith
    refine ⟨hdvd, by omega, fun _ => ⟨by omega, by omega, Int.tmod_eq_emod hv (le_of_lt hd)⟩,
      fun h => by omega⟩
  · have hw : 0 ≤ -v := by omega
    have h1 := Int.tmod_nonneg d hw
    have h2 := Int.tmod_lt_of_pos (-v) hd
    have h3 : v.tmod d = -((-v).tmod d) := by
      rw [← Int.tmod_neg_left, Int.neg_neg]
    have h4 : (-v).tmod d ≤ -v := by
      rw [Int.tmod_def]
      have : 0 ≤ (-v).tdiv d := Int.tdiv_nonneg hw (le_of_lt hd)
      nlinarith
    refine ⟨hdvd, by omega, fun h => by omega, fun _ => ⟨by omega, by omega, by omega⟩⟩

/-- The time transforms on integers of magnitude below `2^24`: the transform of the `Cell`
of `v` is the `Cell` of `v` less its remainder. -/
theorem convertTimeTransformToFunc_exact (name : String) (d : Int) (v : Int)
    (hname : (name = "minute" ∧ d = 60) ∨ (name = "hour" ∧ d = 3600) ∨
      (name = "day" ∧ d = 86400))
    (hv : v.natAbs < 2 ^ 24) :
    convertTimeTransformToFunc name (Float32.ofInt v) = .ok (Float32.ofInt (v - v.tmod d)) := by
  have hint := Float32.toInt_ofInt v hv
  rcases hname with ⟨rfl, rfl⟩ | ⟨rfl, rfl⟩ | ⟨rfl, rfl⟩
  · simp only [convertTimeTransformToFunc, hint]
    rfl
  · simp only [convertTimeTransformToFunc, hint]
    rfl
  · simp only [convertTimeTransformToFunc, hint]
    rfl

theorem accumulateRow_frame (mem : List Byte) (rowPtr : Nat) (columnIndices : List Nat)
    (rowAggregate r : RowAggregate)
    (h : accumulateRow mem rowPtr columnIndices rowAggregate = .ok r) :
    r.Count = rowAggregate.Count + 1 ∧ r.Sums.length = rowAggregate.Sums.length ∧
    r.GroupByValue = rowAggregate.GroupByValue := by
  unfold accumulateRow at h
  cases hs : sumColumns mem rowPtr columnIndices rowAggregate with
  | ok r1 =>
    rw [hs] at h
    simp only [Result.map, Result.ok.injEq] at h
    obtain ⟨h1, h2, h3⟩ := sumColumns_frame _ _ _ _ _ hs
    subst h
    exact ⟨by simp [h1], h2, h3⟩
  | error msg => rw [hs] at h; simp [Result.map] at h
  | panic msg => rw [hs] at h; simp [Result.map] at h

/-- One row added to the buckets of a grouped scan: the keys are those before with the key
of the row inserted, every bucket still carries its key, and the counts add up to one
more. -/
theorem accumulateInto_spec (groupByValue : Float32)
    (accumulate : RowAggregate → Result RowAggregate) (fresh : RowAggregate)
    (hacc : ∀ r r1, accumulate r = .ok r1 →
      r1.Count = r.Count + 1 ∧ r1.GroupByValue = r.GroupByValue)
    (hfresh : fresh.GroupByValue = groupByValue ∧ fresh.Count = 0) :
    ∀ m m1 : RowAggregatesMap, accumulateInto groupByValue accumulate fresh m = .ok m1 →
      (∀ kv ∈ m, kv.2.GroupByValue = kv.1) →
      m1.map Prod.fst = insertKey (m.map Prod.fst) groupByValue ∧
      (∀ kv ∈ m1, kv.2.GroupByValue = kv.1) ∧
      (m1.map (fun kv => kv.2.Count)).sum = (m.map (fun kv => kv.2.Count)).sum + 1 := by
  intro m
  induction m with
  | nil =>
    intro m1 h _
    simp only [accumulateInto] at h
    cases ha : accumulate fresh with
    | ok r =>
      rw [ha] at h
      simp only [Result.map, Result.ok.injEq] at h
      subst h
      obtain ⟨c1, c2⟩ := hacc _ _ ha
      refine ⟨by simp [insertKey], ?_, ?_⟩
      · intro kv hkv
        simp only [List.mem_singleton] at hkv
        subst hkv
        simp [c2, hfresh.1]
      · simp [c1, hfresh.2]
    | error msg => rw [ha] at h; simp [Result.map] at h
    | panic msg => rw [ha] at h; simp [Result.map] at h
  | cons kv rest ih =>
    obtain ⟨key, rowAggregate⟩ := kv
    intro m1 h hinv
    simp only [accumulateInto] at h
    by_cases hk : key.eq groupByValue = true
    · rw [if_pos hk] at h
      cases ha : accumulate rowAggregate with
      | ok r =>
        rw [ha] at h
        simp only [Result.map, Result.ok.injEq] at h
        subst h
        obtain ⟨c1, c2⟩ := hacc _ _ ha
        refine ⟨by simp [insertKey, hk], ?_, ?_⟩
        · intro kv hkv
          rcases List.mem_cons.mp hkv with rfl | hkv
          · simp only [c2]
            exact hinv (key, rowAggregate) (List.mem_cons_self _ _)
          · exact hinv kv (List.mem_cons_of_mem _ hkv)
        · simp only [List.map_cons, List.sum_cons, c1]
          omega
      | error msg => rw [ha] at h; simp [Result.map] at h
      | panic msg => rw [ha] at h; simp [Result.map] at h
    · rw [if_neg hk] at h
      cases hr : accumulateInto groupByValue accumulate fresh rest with
      | ok m2 =>
        rw [hr] at h
        simp only [Result.map, Result.ok.injEq] at h
        subst h
        obtain ⟨i1, i2, i3⟩ := ih m2 hr (fun kv hkv => hinv kv (List.mem_cons_of_mem _ hkv))
        refine ⟨?_, ?_, ?_⟩
        · simp only [List.map_cons, i1, insertKey, List.any_cons, hk, Bool.false_or]
          split <;> simp
        · intro kv hkv
          rcases List.mem_cons.mp hkv with rfl | hkv
          · exact hinv (key, rowAggregate) (List.mem_cons_self _ _)
          · exact i2 kv hkv
        · simp only [List.map_cons, List.sum_cons, i3]
          omega
      | error msg => rw [hr] at h; simp [Result.map] at h
      | panic msg => rw [hr] at h; simp [Result.map] at h

/-- The buckets of a grouped scan after the rows at the given addresses were added: their
keys are the group-by keys of the rows in the order of first appearance, every bucket
carries its key, and the counts add up to the number of rows added. -/
theorem accumulateRows_grouped (table : FactTable) (columnIndices : List Nat) (gi : Nat)
    (fn : Option (Float32 → Result Float32)) (rows : List Nat) :
    ∀ state state1 : ScanState,
      table.accumulateRows columnIndices true gi fn rows state = .ok state1 →
      (∀ kv ∈ state.rowAggregatesMap, kv.2.GroupByValue = kv.1) →
      ∃ keys : List Float32,
        List.Forall₂ (fun p key => table.groupByValueAt gi fn p = .ok key) rows keys ∧
        state1.rowAggregatesMap.map Prod.fst
          = keys.foldl insertKey (state.rowAggregatesMap.map Prod.fst) ∧
        (∀ kv ∈ state1.rowAggregatesMap, kv.2.GroupByValue = kv.1) ∧
        (state1.rowAggregatesMap.map (fun kv => kv.2.Count)).sum
          = (state.rowAggregatesMap.map (fun kv => kv.2.Count)).sum + rows.length := by
  induction rows with
  | nil =>
    intro state state1 h hinv
    simp only [FactTable.accumulateRows, Result.ok.injEq] at h
    subst h
    exact ⟨[], List.Forall₂.nil, rfl, hinv, rfl⟩
  | cons p rest ih =>
    intro state state1 h hinv
    simp only [FactTable.accumulateRows] at h
    cases hstep : table.scanAccumulate columnIndices true gi fn state p with
    | ok state2 =>
      rw [hstep] at h
      simp only at h
      -- the key of the row and the buckets after the row
      have hkey : ∃ key m2, table.groupByValueAt gi fn p = .ok key ∧
          accumulateInto key (accumulateRow table.rows p columnIndices)
            (table.newRowAggregate key) state.rowAggregatesMap = .ok m2 ∧
          state2 = { state with rowAggregatesMap := m2 } := by
        have finish : ∀ key : Float32,
            (accumulateInto key (accumulateRow table.rows p columnIndices)
              (table.newRowAggregate key) state.rowAggregatesMap).map
              (fun m => { state with rowAggregatesMap := m }) = .ok state2 →
            ∃ m2, accumulateInto key (accumulateRow table.rows p columnIndices)
                (table.newRowAggregate key) state.rowAggregatesMap = .ok m2 ∧
              state2 = { state with rowAggregatesMap := m2 } := by
          intro key hmap
          cases hinto : accumulateInto key (accumulateRow table.rows p columnIndices)
              (table.newRowAggregate key) state.rowAggregatesMap with
          | ok m2 =>
            rw [hinto] at hmap
            simp only [Result.map, Result.ok.injEq] at hmap
            exact ⟨m2, rfl, hmap.symm⟩
          | error msg => rw [hinto] at hmap; simp [Result.map] at hmap
          | panic msg => rw [hinto] at hmap; simp [Result.map] at hmap
        simp only [FactTable.scanAccumulate, if_true] at hstep
        unfold FactTable.groupByValueAt
        cases hread : readCell table.rows (p + gi * 4) with
        | ok cell =>
          rw [hread] at hstep
          cases fn with
          | none =>
            simp only at hstep ⊢
            obtain ⟨m2, h1, h2⟩ := finish cell hstep
            exact ⟨cell, m2, rfl, h1, h2⟩
          | some f =>
            simp only at hstep ⊢
            cases hfc : f cell with
            | ok key =>
              rw [hfc] at hstep
              simp only at hstep
              obtain ⟨m2, h1, h2⟩ := finish key hstep
              exact ⟨key, m2, rfl, h1, h2⟩
            | error msg => rw [hfc] at hstep; simp at hstep
            | panic msg => rw [hfc] at hstep; simp at hstep
        | error msg => rw [hread] at hstep; simp at hstep
        | panic msg => rw [hread] at hstep; simp at hstep
      obtain ⟨key, m2, hk, hinto, rfl⟩ := hkey
      obtain ⟨a1, a2, a3⟩ := accumulateInto_spec key (accumulateRow table.rows p columnIndices)
        (table.newRowAggregate key)
        (fun r r1 hr => ⟨(accumulateRow_frame _ _ _ _ _ hr).1,
          (accumulateRow_frame _ _ _ _ _ hr).2.2⟩)
        ⟨rfl, rfl⟩ state.rowAggregatesMap m2 hinto hinv
      obtain ⟨keys, b1, b2, b3, b4⟩ := ih _ state1 h a2
      refine ⟨key :: keys, List.Forall₂.cons hk b1, ?_, b3, ?_⟩
      · rw [b2, List.foldl_cons]
        simp only [a1]
      · rw [b4]
        simp only [a3, List.length_cons]
        omega
    | error msg => rw [hstep] at h; simp at h
    | panic msg => rw [hstep] at h; simp at h

theorem foldl_insertKey_extends (keys : List Float32) :
    ∀ init : List Float32, ∃ extra, keys.foldl insertKey init = init ++ extra ∧
      ∀ k ∈ extra, k ∈ keys := by
  induction keys with
  | nil => intro init; exact ⟨[], by simp, by simp⟩
  | cons g rest ih =>
    intro init
    obtain ⟨extra, h1, h2⟩ := ih (insertKey init g)
    rw [List.foldl_cons, h1]
    unfold insertKey
    split
    · exact ⟨extra, rfl, fun k hk => List.mem_cons_of_mem _ (h2 k hk)⟩
    · refine ⟨g :: extra, by simp, ?_⟩
      intro k hk
      rcases List.mem_cons.mp hk with rfl | hk
      · exact List.mem_cons_self _ _
      · exact List.mem_cons_of_mem _ (h2 k hk)

theorem Float32.eq_self (x : Float32) (h : x.isNaN = false) : x.eq x = true := by
  simp [Float32.eq, h]

/-- Every key met has a bucket whose key equals it, unless it is a NaN. -/
theorem foldl_insertKey_covers (keys : List Float32) :
    ∀ init : List Float32, ∀ g ∈ keys, g.isNaN = false →
      ∃ k ∈ keys.foldl insertKey init, k.eq g = true := by
  induction keys with
  | nil => intro init g hg; simp at hg
  | cons a rest ih =>
    intro init g hg hnan
    rw [List.foldl_cons]
    rcases List.mem_cons.mp hg with rfl | hg
    · obtain ⟨extra, h1, _⟩ := foldl_insertKey_extends rest (insertKey init g)
      rw [h1]
      unfold insertKey
      split
      · rename_i hany
        obtain ⟨k, hk, hkg⟩ := List.any_eq_true.mp hany
        exact ⟨k, List.mem_append_left _ hk, hkg⟩
      · exact ⟨g, List.mem_append_left _ (List.mem_append_right _ (List.mem_singleton_self g)),
          Float32.eq_self g hnan⟩
    · exact ih _ g hg hnan

/-- One row is added to the buckets of a grouped scan without a panic when adding it to
any bucket with `n` sums goes through. -/
theorem accumulateInto_ok (groupByValue : Float32)
    (accumulate : RowAggregate → Result RowAggregate) (fresh : RowAggregate) (n : Nat)
    (hacc : ∀ r, r.Sums.length = n → ∃ r1, accumulate r = .ok r1 ∧ r1.Sums.length = n)
    (hfresh : fresh.Sums.length = n) :
    ∀ m : RowAggregatesMap, (∀ kv ∈ m, kv.2.Sums.length = n) →
      ∃ m1, accumulateInto groupByValue accumulate fresh m = .ok m1 ∧
        ∀ kv ∈ m1, kv.2.Sums.length = n := by
  intro m
  induction m with
  | nil =>
    intro _
    obtain ⟨r1, h1, h2⟩ := hacc fresh hfresh
    refine ⟨[(groupByValue, r1)], by simp [accumulateInto, h1, Result.map], ?_⟩
    intro kv hkv
    simp only [List.mem_singleton] at hkv
    subst hkv
    exact h2
  | cons kv rest ih =>
    obtain ⟨key, rowAggregate⟩ := kv
    intro hinv
    simp only [accumulateInto]
    split
    · obtain ⟨r1, h1, h2⟩ := hacc rowAggregate (hinv (key, rowAggregate) (List.mem_cons_self _ _))
      refine ⟨(key, r1) :: rest, by simp [h1, Result.map], ?_⟩
      intro kv hkv
      rcases List.mem_cons.mp hkv with rfl | hkv
      · exact h2
      · exact hinv kv (List.mem_cons_of_mem _ hkv)
    · obtain ⟨m2, h1, h2⟩ := ih (fun kv hkv => hinv kv (List.mem_cons_of_mem _ hkv))
      refine ⟨(key, rowAggregate) :: m2, by simp [h1, Result.map], ?_⟩
      intro kv hkv
      rcases List.mem_cons.mp hkv with rfl | hkv
      · exact hinv (key, rowAggregate) (List.mem_cons_self _ _)
      · exact h2 kv hkv

theorem accumulateRow_ok (mem : List Byte) (rowPtr : Nat) (columnIndices : List Nat) (n : Nat)
    (h : ∀ c ∈ columnIndices, c < n ∧ rowPtr + 4 * c + 4 ≤ mem.length)
    (r : RowAggregate) (hr : r.Sums.length = n) :
    ∃ r1, accumulateRow mem rowPtr columnIndices r = .ok r1 ∧ r1.Sums.length = n := by
  obtain ⟨r1, h1⟩ := sumColumns_ok mem rowPtr columnIndices r (by rw [hr]; exact h)
  obtain ⟨_, f2, _⟩ := sumColumns_frame _ _ _ _ _ h1
  exact ⟨{ r1 with Count := r1.Count + 1 }, by simp [accumulateRow, h1, Result.map],
    by simp [f2, hr]⟩

/-- A grouped scan adds the rows at the given addresses without a panic when the group-by
key of each of them is defined and the four bytes of every queried column lie in the
buffer. -/
theorem accumulateRows_grouped_ok (table : FactTable) (columnIndices : List Nat) (gi : Nat)
    (fn : Option (Float32 → Result Float32)) (rows : List Nat)
    (hkeys : ∀ p ∈ rows, ∃ key, table.groupByValueAt gi fn p = .ok key)
    (hcols : ∀ p ∈ rows, ∀ c ∈ columnIndices,
      c < table.ColumnCount ∧ p + 4 * c + 4 ≤ table.rows.length) :
    ∀ state : ScanState, (∀ kv ∈ state.rowAggregatesMap, kv.2.Sums.length = table.ColumnCount) →
      ∃ state1, table.accumulateRows columnIndices true gi fn rows state = .ok state1 := by
  induction rows with
  | nil => intro state _; exact ⟨state, rfl⟩
  | cons p rest ih =>
    intro state hinv
    obtain ⟨key, hkey⟩ := hkeys p (List.mem_cons_self _ _)
    obtain ⟨m1, h1, h2⟩ := accumulateInto_ok key (accumulateRow table.rows p columnIndices)
      (table.newRowAggregate key) table.ColumnCount
      (fun r hr => accumulateRow_ok _ _ _ _ (hcols p (List.mem_cons_self _ _)) r hr)
      (by simp [FactTable.newRowAggregate]) state.rowAggregatesMap hinv
    have hstep : table.scanAccumulate columnIndices true gi fn state p
        = .ok { state with rowAggregatesMap := m1 } := by
      unfold FactTable.groupByValueAt at hkey
      simp only [FactTable.scanAccumulate, if_true]
      cases hread : readCell table.rows (p + gi * 4) with
      | ok cell =>
        rw [hread] at hkey
        cases fn with
        | none =>
          simp only [Result.ok.injEq] at hkey ⊢
          subst hkey
          simp only [h1, Result.map]
        | some f =>
          simp only at hkey ⊢
          rw [hkey]
          simp only [h1, Result.map]
      | error msg => rw [hread] at hkey; simp at hkey
      | panic msg => rw [hread] at hkey; simp at hkey
    simp only [FactTable.accumulateRows, hstep]
    exact ih (fun q hq => hkeys q (List.mem_cons_of_mem _ hq))
      (fun q hq => hcols q (List.mem_cons_of_mem _ hq)) _ h2

/-- The grouped scan: when the group-by key of every passing row is defined and the bytes of
every queried column lie in the buffer, scan returns buckets whose keys are the group-by
keys of the passing rows in the order of first appearance and whose counts add up to the
number of passing rows. -/
theorem scan_grouped (table : FactTable) (filters : List FactTableFilterFunc)
    (columnIndices : List Nat) (groupByColumnName : String) (gi : Nat)
    (fn : Option (Float32 → Result Float32))
    (hname : GoMap.get? table.ColumnNameToIndex groupByColumnName = some gi)
    (hdefined : ∀ i, i < table.Count → ∀ f ∈ filters, ∃ b, f (i * table.RowSize) = .ok b)
    (hkeys : ∀ i, i < table.Count →
      ∃ key, table.groupByValueAt gi fn (i * table.RowSize) = .ok key)
    (hcols : ∀ i, i < table.Count → ∀ c ∈ columnIndices,
      c < table.ColumnCount ∧ i * table.RowSize + 4 * c + 4 ≤ table.rows.length) :
    ∃ results keys, table.scan filters columnIndices groupByColumnName fn = .ok results ∧
      List.Forall₂ (fun i key => table.groupByValueAt gi fn (i * table.RowSize) = .ok key)
        ((List.range table.Count).filter (fun i =>
          filters.all (fun f => decide (f (i * table.RowSize) = .ok true)))) keys ∧
      results.map (fun r => r.GroupByValue) = keys.foldl insertKey [] ∧
      (results.map (fun r => r.Count)).sum
        = ((List.range table.Count).filter (fun i =>
            filters.all (fun f => decide (f (i * table.RowSize) = .ok true)))).length := by
  have hscan := scan_eq_accumulateRows table filters columnIndices groupByColumnName fn hdefined
  rw [hname] at hscan
  simp only [Option.isSome_some, Option.getD_some, if_true] at hscan
  have hlt : ∀ p ∈ ((List.range table.Count).filter (fun i =>
      filters.all (fun f => decide (f (i * table.RowSize) = .ok true)))).map
      (fun i => i * table.RowSize), ∃ i, i < table.Count ∧ p = i * table.RowSize := by
    intro p hp
    obtain ⟨i, hi, rfl⟩ := List.mem_map.mp hp
    exact ⟨i, List.mem_range.mp (List.mem_filter.mp hi).1, rfl⟩
  obtain ⟨state1, hacc⟩ := accumulateRows_grouped_ok table columnIndices gi fn _
    (fun p hp => by obtain ⟨i, hi, rfl⟩ := hlt p hp; exact hkeys i hi)
    (fun p hp => by obtain ⟨i, hi, rfl⟩ := hlt p hp; exact hcols i hi)
    { rowAggregate := table.newRowAggregate ⟨0⟩, rowAggregatesMap := [] } (by simp)
  obtain ⟨keys, k1, k2, k3, k4⟩ := accumulateRows_grouped table columnIndices gi fn _ _ _ hacc
    (by simp)
  refine ⟨state1.rowAggregatesMap.map Prod.snd, keys, by rw [hscan, hacc]; rfl, ?_, ?_, ?_⟩
  · exact (List.forall₂_map_left_iff).mp k1
  · have k2' : state1.rowAggregatesMap.map Prod.fst = keys.foldl insertKey [] := k2
    rw [← k2', List.map_map]
    apply List.map_congr_left
    intro kv hkv
    exact k3 kv hkv
  · rw [List.map_map]
    have k4' : (state1.rowAggregatesMap.map (fun kv => kv.2.Count)).sum
        = 0 + (((List.range table.Count).filter (fun i =>
            filters.all (fun f => decide (f (i * table.RowSize) = .ok true)))).map
            (fun i => i * table.RowSize)).length := k4
    rw [Nat.zero_add, List.length_map] at k4'
    exact k4'

set_option maxRecDepth 100000 in
/-- Counterexample to claim C25 as stated. The minute transform maps -30 to 0, not to the
floor -60, and the hour transform maps -3601 to -3600, not to -7200. -/
theorem C25_counterexample :
    convertTimeTransformToFunc "minute" (Float32.ofInt (-30)) = .ok (Float32.ofInt 0) ∧
    (Float32.ofInt 0).toInt 64 = 0 ∧
    convertTimeTransformToFunc "hour" (Float32.ofInt (-3601)) = .ok (Float32.ofInt (-3600)) ∧
    (Float32.ofInt (-3600)).toInt 64 = -3600 ∧
    ¬ ((0 : Int) ≤ -30) := by
  refine ⟨?_, ?_, ?_, ?_, ?_⟩ <;> decide

/-- Claim C25 (amended). For each of the transform names minute, hour, day with the divisor
`d` = 60, 3600, 86400 and every integer `v` of magnitude below `2^24`, the time transform
returns the multiple `r` of `d` next to `v` in the direction of zero: for `v ≥ 0` the floor,
`r ≤ v < r + d`, and for `v < 0` the least multiple not below `v`, `v ≤ r < v + d`. -/
theorem C25_time_transform_truncates (name : String) (d v : Int)
    (hname : (name = "minute" ∧ d = 60) ∨ (name = "hour" ∧ d = 3600) ∨
      (name = "day" ∧ d = 86400))
    (hv : v.natAbs < 2 ^ 24) :
    ∃ r : Int, convertTimeTransformToFunc name (Float32.ofInt v) = .ok (Float32.ofInt r) ∧
      (Float32.ofInt r).toInt 64 = r ∧ d ∣ r ∧
      (0 ≤ v → r ≤ v ∧ v < r + d) ∧
      (v < 0 → v ≤ r ∧ r < v + d ∧ r ≤ 0) := by
  have hd : 0 < d := by
    rcases hname with ⟨_, rfl⟩ | ⟨_, rfl⟩ | ⟨_, rfl⟩ <;> norm_num
  obtain ⟨hdvd, hsmall, hpos, hneg⟩ := tmod_bucket v d hd
  exact ⟨v - v.tmod d, convertTimeTransformToFunc_exact name d v hname hv,
    Float32.toInt_ofInt _ (Nat.lt_of_le_of_lt hsmall hv), hdvd,
    fun h => ⟨(hpos h).1, (hpos h).2.1⟩, hneg⟩

set_option maxRecDepth 100000 in
/-- Witness for the amended claim C25: the hour of -3601 is -3600. -/
theorem C25_time_transform_truncates_witness :
    ∃ r : Int, convertTimeTransformToFunc "hour" (Float32.ofInt (-3601))
        = .ok (Float32.ofInt r) ∧ (3600 : Int) ∣ r ∧ -3601 ≤ r ∧ r < -3601 + 3600 := by
  obtain ⟨r, h1, _, h3, _, h5⟩ := C25_time_transform_truncates "hour" 3600 (-3601)
    (Or.inr (Or.inl ⟨rfl, rfl⟩)) (by decide)
  exact ⟨r, h1, h3, (h5 (by decide)).1, (h5 (by decide)).2.1⟩

/-- The call normalizeRow changes nothing of the table but the contents of its dimension
tables, whatever its outcome. -/
theorem normalizeRow_frame (table : FactTable) (rowMap : GoMap String Untyped) :
    ∃ dims, (table.normalizeRow rowMap).2 = { table with DimensionTables := dims } ∧
      dims.length = table.DimensionTables.length := by
  unfold FactTable.normalizeRow
  split
  · exact normalizeLoop_frame _ 0 _ table
  · exact ⟨table.DimensionTables, rfl, rfl⟩
  · exact ⟨table.DimensionTables, rfl, rfl⟩

/-- A batch that went through leaves the rest of a longer batch to run on its table; a batch
that failed ends the longer batch as well. -/
theorem InsertRowMaps_append (xs ys : List (GoMap String Untyped)) :
    ∀ table : FactTable,
      table.InsertRowMaps (xs ++ ys)
        = if (table.InsertRowMaps xs).1 = .ok () then (table.InsertRowMaps xs).2.InsertRowMaps ys
          else table.InsertRowMaps xs := by
  induction xs with
  | nil => intro table; simp [FactTable.InsertRowMaps]
  | cons x rest ih =>
    intro table
    simp only [List.cons_append, FactTable.InsertRowMaps]
    cases hn : table.normalizeRow x with
    | mk res table1 =>
      cases res with
      | ok normalizedRow =>
        simp only
        cases hi : table1.insertNormalizedRow normalizedRow with
        | ok table2 => simp only; exact ih table2
        | error msg => simp
        | panic msg => simp
      | error msg => simp
      | panic msg => simp

/-- Claim C23. When the rows before row `k` of a batch are inserted and row `k` fails
normalization with an error, InsertRowMaps returns that error, and the row bytes, `Count` and
`NextInsertPosition` of the table are those left by inserting the rows before row `k` alone:
neither row `k` nor a later row is written. -/
theorem C23_batch_stops_at_first_failure (table : FactTable)
    (rows : List (GoMap String Untyped)) (k : Nat) (rowMap : GoMap String Untyped)
    (msg : String)
    (hk : rows[k]? = some rowMap)
    (hbefore : (table.InsertRowMaps (rows.take k)).1 = .ok ())
    (hfail : ((table.InsertRowMaps (rows.take k)).2.normalizeRow rowMap).1 = .error msg) :
    (table.InsertRowMaps rows).1 = .error msg ∧
    (table.InsertRowMaps rows).2.rows = (table.InsertRowMaps (rows.take k)).2.rows ∧
    (table.InsertRowMaps rows).2.Count = (table.InsertRowMaps (rows.take k)).2.Count ∧
    (table.InsertRowMaps rows).2.NextInsertPosition
      = (table.InsertRowMaps (rows.take k)).2.NextInsertPosition := by
  have hlt : k < rows.length := (List.getElem?_eq_some_iff.mp hk).1
  have hsplit : rows = rows.take k ++ rowMap :: rows.drop (k + 1) := by
    conv_lhs => rw [← List.take_append_drop k rows]
    rw [List.drop_eq_getElem_cons hlt, (List.getElem?_eq_some_iff.mp hk).2]
  obtain ⟨dims, hframe, _⟩ :=
    normalizeRow_frame (table.InsertRowMaps (rows.take k)).2 rowMap
  have hstep : (table.InsertRowMaps (rows.take k)).2.InsertRowMaps
      (rowMap :: rows.drop (k + 1))
      = (.error msg, ((table.InsertRowMaps (rows.take k)).2.normalizeRow rowMap).2) := by
    cases hn : (table.InsertRowMaps (rows.take k)).2.normalizeRow rowMap with
    | mk res table1 =>
      rw [hn] at hfail
      simp only at hfail
      subst hfail
      simp only [FactTable.InsertRowMaps, hn]
  have hall : table.InsertRowMaps rows
      = (.error msg, ((table.InsertRowMaps (rows.take k)).2.normalizeRow rowMap).2) := by
    conv_lhs => rw [hsplit]
    rw [InsertRowMaps_append, if_pos hbefore, hstep]
  rw [hall, hframe]
  exact ⟨rfl, rfl, rfl, rfl⟩

set_option maxRecDepth 100000 in
/-- Witness for claim C23: a batch of three rows for the fixture whose second row has no
string for `col2`; the table holds the first row alone. -/
theorem C23_batch_stops_at_first_failure_witness :
    (tableFixture.InsertRowMaps
        [[("col1", .float64 (Float64.ofInt 1)), ("col2", .string "stringvalue1")],
         [("col1", .float64 (Float64.ofInt 2)), ("col2", .float64 (Float64.ofInt 7))],
         [("col1", .float64 (Float64.ofInt 5)), ("col2", .string "stringvalue2")]]).1
      = .error "Cannot insert a non-string value into column col2." ∧
    (tableFixture.InsertRowMaps
        [[("col1", .float64 (Float64.ofInt 1)), ("col2", .string "stringvalue1")],
         [("col1", .float64 (Float64.ofInt 2)), ("col2", .float64 (Float64.ofInt 7))],
         [("col1", .float64 (Float64.ofInt 5)), ("col2", .string "stringvalue2")]]).2.Count
      = 1 := by
  have h := C23_batch_stops_at_first_failure tableFixture
    [[("col1", .float64 (Float64.ofInt 1)), ("col2", .string "stringvalue1")],
     [("col1", .float64 (Float64.ofInt 2)), ("col2", .float64 (Float64.ofInt 7))],
     [("col1", .float64 (Float64.ofInt 5)), ("col2", .string "stringvalue2")]] 1
    [("col1", .float64 (Float64.ofInt 2)), ("col2", .float64 (Float64.ofInt 7))]
    "Cannot insert a non-string value into column col2." rfl (by decide) (by decide)
  refine ⟨h.1, ?_⟩
  rw [h.2.2.1]
  decide

theorem Result.isError_map {α β : Type} (f : α → β) (r : Result α) :
    (r.map f).isError = r.isError := by
  cases r <;> rfl

theorem readCell_not_error (mem : List Byte) (addr : Nat) :
    (readCell mem addr).isError = false := by
  unfold readCell
  split <;> rfl

theorem passesFilters_not_error (filters : List FactTableFilterFunc) (rowPtr : Nat)
    (h : ∀ f ∈ filters, (f rowPtr).isError = false) :
    (passesFilters filters rowPtr).isError = false := by
  induction filters with
  | nil => rfl
  | cons f rest ih =>
    have hf := h f (List.mem_cons_self _ _)
    have ih1 := ih (fun g hg => h g (List.mem_cons_of_mem _ hg))
    simp only [passesFilters]
    cases hfp : f rowPtr with
    | ok b =>
      cases b with
      | true => exact ih1
      | false => rfl
    | error msg => rw [hfp] at hf; cases hf
    | panic msg => rfl

theorem sumColumns_not_error (mem : List Byte) (rowPtr : Nat) (columnIndices : List Nat) :
    ∀ rowAggregate : RowAggregate,
      (sumColumns mem rowPtr columnIndices rowAggregate).isError = false := by
  induction columnIndices with
  | nil => intro _; rfl
  | cons c rest ih =>
    intro rowAggregate
    have hr := readCell_not_error mem (rowPtr + 4 * c)
    simp only [sumColumns]
    cases hread : readCell mem (rowPtr + 4 * c) with
    | ok v =>
      simp only
      cases rowAggregate.Sums[c]? with
      | none => rfl
      | some s => exact ih _
    | error msg => rw [hread] at hr; cases hr
    | panic msg => rfl

theorem accumulateInto_not_error (groupByValue : Float32)
    (accumulate : RowAggregate → Result RowAggregate) (fresh : RowAggregate)
    (h : ∀ r, (accumulate r).isError = false) (m : RowAggregatesMap) :
    (accumulateInto groupByValue accumulate fresh m).isError = false := by
  induction m with
  | nil => simp only [accumulateInto, Result.isError_map, h]
  | cons kv rest ih =>
    obtain ⟨key, rowAggregate⟩ := kv
    simp only [accumulateInto]
    split
    · simp only [Result.isError_map, h]
    · simp only [Result.isError_map, ih]

theorem scanAccumulate_not_error (table : FactTable) (columnIndices : List Nat)
    (useGrouping : Bool) (gi : Nat) (fn : Option (Float32 → Result Float32))
    (hfn : ∀ f, fn = some f → ∀ c, (f c).isError = false) (state : ScanState) (rowPtr : Nat) :
    (table.scanAccumulate columnIndices useGrouping gi fn state rowPtr).isError = false := by
  have hacc : ∀ r, (accumulateRow table.rows rowPtr columnIndices r).isError = false := by
    intro r
    simp only [accumulateRow, Result.isError_map, sumColumns_not_error]
  unfold FactTable.scanAccumulate
  split
  · have hr := readCell_not_error table.rows (rowPtr + gi * 4)
    cases hread : readCell table.rows (rowPtr + gi * 4) with
    | ok cell =>
      simp only
      cases fn with
      | none =>
        simp only [Result.isError_map]
        exact accumulateInto_not_error _ _ _ hacc _
      | some f =>
        have hf := hfn f rfl cell
        simp only
        cases hfc : f cell with
        | ok g =>
          simp only [Result.isError_map]
          exact accumulateInto_not_error _ _ _ hacc _
        | error msg => rw [hfc] at hf; cases hf
        | panic msg => rfl
    | error msg => rw [hread] at hr; cases hr
    | panic msg => rfl
  · simp only [Result.isError_map, hacc]

theorem scanLoop_not_error (table : FactTable) (filters : List FactTableFilterFunc)
    (columnIndices : List Nat) (useGrouping : Bool) (gi : Nat)
    (fn : Option (Float32 → Result Float32))
    (hfilters : ∀ f ∈ filters, ∀ p, (f p).isError = false)
    (hfn : ∀ f, fn = some f → ∀ c, (f c).isError = false) (n : Nat) :
    ∀ (rowPtr : Nat) (state : ScanState),
      (table.scanLoop filters columnIndices useGrouping gi fn n rowPtr state).isError
        = false := by
  induction n with
  | zero => intro _ _; rfl
  | succ n ih =>
    intro rowPtr state
    have hp := passesFilters_not_error filters rowPtr (fun f hf => hfilters f hf rowPtr)
    have ha := scanAccumulate_not_error table columnIndices useGrouping gi fn hfn state rowPtr
    simp only [FactTable.scanLoop, FactTable.scanRow]
    cases hpass : passesFilters filters rowPtr with
    | ok b =>
      cases b with
      | true =>
        simp only
        cases hacc : table.scanAccumulate columnIndices useGrouping gi fn state rowPtr with
        | ok state1 => exact ih _ _
        | error msg => rw [hacc] at ha; cases ha
        | panic msg => rfl
      | false => exact ih _ _
    | error msg => rw [hpass] at hp; cases hp
    | panic msg => rfl

theorem scan_not_error (table : FactTable) (filters : List FactTableFilterFunc)
    (columnIndices : List Nat) (groupByColumnName : String)
    (fn : Option (Float32 → Result Float32))
    (hfilters : ∀ f ∈ filters, ∀ p, (f p).isError = false)
    (hfn : ∀ f, fn = some f → ∀ c, (f c).isError = false) :
    (table.scan filters columnIndices groupByColumnName fn).isError = false := by
  simp only [FactTable.scan, Result.isError_map]
  exact scanLoop_not_error table filters columnIndices _ _ fn hfilters hfn _ _ _

theorem formatAggregates_not_error (table : FactTable) (rowAggregate : RowAggregate)
    (aggregates : List QueryAggregate) :
    ∀ jsonRow, (table.formatAggregates rowAggregate aggregates jsonRow).isError = false := by
  induction aggregates with
  | nil => intro _; rfl
  | cons a rest ih =>
    intro jsonRow
    simp only [FactTable.formatAggregates]
    split
    · rfl
    · split
      · exact ih _
      · split
        · exact ih _
        · exact ih _

theorem formatGroupings_not_error (table : FactTable) (rowAggregate : RowAggregate)
    (groupings : List QueryGrouping) :
    ∀ jsonRow, (table.formatGroupings rowAggregate groupings jsonRow).isError = false := by
  induction groupings with
  | nil => intro _; rfl
  | cons g rest ih =>
    intro jsonRow
    have hd := denormalizeColumnValue_not_error table (.Cell rowAggregate.GroupByValue)
      (GoMap.index table.ColumnNameToIndex g.Column)
    simp only [FactTable.formatGroupings]
    cases hv : table.denormalizeColumnValue (.Cell rowAggregate.GroupByValue)
        (GoMap.index table.ColumnNameToIndex g.Column) with
    | ok value => exact ih _
    | error msg => rw [hv] at hd; cases hd
    | panic msg => rfl

theorem formatRow_not_error (table : FactTable) (query : Query) (rowAggregate : RowAggregate) :
    (table.formatRow query rowAggregate).isError = false := by
  have ha := formatAggregates_not_error table rowAggregate query.Aggregates []
  simp only [FactTable.formatRow]
  cases hagg : table.formatAggregates rowAggregate query.Aggregates [] with
  | ok jsonRow =>
    simp only [Result.isError_map]
    exact formatGroupings_not_error table rowAggregate query.Groupings jsonRow
  | error msg => rw [hagg] at ha; cases ha
  | panic msg => rfl

theorem mapRowAggregates_not_error (table : FactTable) (query : Query)
    (rowAggregates : List RowAggregate) :
    (table.mapRowAggregatesToJSONResultsFormat query rowAggregates).isError = false := by
  induction rowAggregates with
  | nil => rfl
  | cons r rest ih =>
    have hr := formatRow_not_error table query r
    simp only [FactTable.mapRowAggregatesToJSONResultsFormat]
    cases hrow : table.formatRow query r with
    | ok jsonRow => simp only [Result.isError_map, ih]
    | error msg => rw [hrow] at hr; cases hr
    | panic msg => rfl

theorem filterFunc_not_error (table : FactTable) (filterType : String) (columnIndex : Nat)
    (valueAsCell : Float32) (valueAsCells : List Float32) :
    (table.filterFunc filterType columnIndex valueAsCell valueAsCells).isError = false ∧
    ∀ f, table.filterFunc filterType columnIndex valueAsCell valueAsCells = .ok f →
      ∀ p, (f p).isError = false := by
  unfold FactTable.filterFunc
  split
  · exact ⟨rfl, fun f h => by cases h⟩
  · split
    · refine ⟨rfl, ?_⟩
      intro f h p
      simp only [Result.ok.injEq] at h
      subst h
      simp only [Result.isError_map, readCell_not_error]
    · refine ⟨rfl, ?_⟩
      intro f h p
      simp only [Result.ok.injEq] at h
      subst h
      rfl

theorem assertStrings_not_error (values : List Untyped) :
    (assertStrings values).isError = false := by
  induction values with
  | nil => rfl
  | cons v rest ih =>
    cases v <;> simp only [assertStrings, Result.isError_map, ih] <;> rfl

theorem convertCells_not_error (values : List Untyped) :
    (convertCells values).isError = false := by
  induction values with
  | nil => rfl
  | cons v rest ih =>
    have hc := convertUntypedToFloat64_not_error v
    simp only [convertCells]
    cases hv : convertUntypedToFloat64 v with
    | ok f => simp only [Result.isError_map, ih]
    | error msg => rw [hv] at hc; cases hc
    | panic msg => rfl

/-- No error comes out of making a filter function, and none out of the function made. -/
theorem convertQueryFilterToFilterFunc_not_error (queryFilter : QueryFilter)
    (table : FactTable) :
    (convertQueryFilterToFilterFunc queryFilter table).isError = false ∧
    ∀ f, convertQueryFilterToFilterFunc queryFilter table = .ok f →
      ∀ p, (f p).isError = false := by
  obtain ⟨ty, col, value⟩ := queryFilter
  by_cases hin : ty = "in"
  · cases value with
    | scalar v =>
      simp only [convertQueryFilterToFilterFunc, if_pos hin]
      exact ⟨rfl, fun f h => by cases h⟩
    | list vs =>
      simp only [convertQueryFilterToFilterFunc, if_pos hin]
      split
      · have ha := assertStrings_not_error vs
        cases hs : assertStrings vs with
        | ok ss =>
          simp only
          cases table.DimensionTables[GoMap.index table.ColumnNameToIndex col]? with
          | some d => exact filterFunc_not_error _ _ _ _ _
          | none => exact ⟨rfl, fun f h => by cases h⟩
        | error msg => rw [hs] at ha; cases ha
        | panic msg => exact ⟨rfl, fun f h => by cases h⟩
      · have hc := convertCells_not_error vs
        cases hs : convertCells vs with
        | ok cells => exact filterFunc_not_error _ _ _ _ _
        | error msg => rw [hs] at hc; cases hc
        | panic msg => exact ⟨rfl, fun f h => by cases h⟩
  · cases value with
    | list vs =>
      simp only [convertQueryFilterToFilterFunc, if_neg hin]
      exact ⟨rfl, fun f h => by cases h⟩
    | scalar v =>
      have hc := convertUntypedToFloat64_not_error v
      have hnum : (match convertUntypedToFloat64 v with
          | .ok f => table.filterFunc ty (GoMap.index table.ColumnNameToIndex col) f.toFloat32 []
          | .error msg => .error msg
          | .panic msg => .panic msg).isError = false ∧
          ∀ f, (match convertUntypedToFloat64 v with
            | .ok f => table.filterFunc ty (GoMap.index table.ColumnNameToIndex col)
                f.toFloat32 []
            | .error msg => .error msg
            | .panic msg => .panic msg) = .ok f → ∀ p, (f p).isError = false := by
        cases hv : convertUntypedToFloat64 v with
        | ok f => exact filterFunc_not_error _ _ _ _ _
        | error msg => rw [hv] at hc; cases hc
        | panic msg => exact ⟨rfl, fun f h => by cases h⟩
      cases v with
      | string s =>
        simp only [convertQueryFilterToFilterFunc, if_neg hin]
        cases table.DimensionTables[GoMap.index table.ColumnNameToIndex col]? with
        | none => exact ⟨rfl, fun f h => by cases h⟩
        | some d =>
          simp only
          cases d.getDimensionRowIdsForValues [s] with
          | nil =>
            refine ⟨rfl, ?_⟩
            intro f h p
            simp only [Result.ok.injEq] at h
            subst h
            rfl
          | cons c rest => exact filterFunc_not_error _ _ _ _ _
      | _ =>
        simp only [convertQueryFilterToFilterFunc, if_neg hin]
        exact hnum

theorem convertFilters_not_error (table : FactTable) (filters : List QueryFilter) :
    (convertFilters table filters).isError = false ∧
    ∀ fs, convertFilters table filters = .ok fs → ∀ f ∈ fs, ∀ p, (f p).isError = false := by
  induction filters with
  | nil =>
    refine ⟨rfl, ?_⟩
    intro fs h
    simp only [convertFilters, Result.ok.injEq] at h
    subst h
    simp
  | cons q rest ih =>
    obtain ⟨h1, h2⟩ := convertQueryFilterToFilterFunc_not_error q table
    simp only [convertFilters]
    cases hq : convertQueryFilterToFilterFunc q table with
    | ok f =>
      simp only [Result.isError_map]
      refine ⟨ih.1, ?_⟩
      intro fs hfs
      cases hrest : convertFilters table rest with
      | ok fs1 =>
        rw [hrest] at hfs
        simp only [Result.map, Result.ok.injEq] at hfs
        subst hfs
        intro g hg p
        rcases List.mem_cons.mp hg with rfl | hg
        · exact h2 _ hq p
        · exact ih.2 fs1 hrest g hg p
      | error msg => rw [hrest] at hfs; simp [Result.map] at hfs
      | panic msg => rw [hrest] at hfs; simp [Result.map] at hfs
    | error msg => rw [hq] at h1; cases h1
    | panic msg => exact ⟨rfl, fun fs h => by cases h⟩

theorem convertTimeTransformToFunc_not_error (name : String) (cell : Float32) :
    (convertTimeTransformToFunc name cell).isError = false := by
  unfold convertTimeTransformToFunc
  simp only
  split_ifs <;> rfl

/-- The call InvokeQuery has no error outcome. -/
theorem InvokeQuery_not_error (table : FactTable) (query : Query) :
    (table.InvokeQuery query).isError = false := by
  obtain ⟨h1, h2⟩ := convertFilters_not_error table query.Filters
  unfold FactTable.InvokeQuery
  simp only
  cases hf : convertFilters table query.Filters with
  | ok fs =>
    simp only
    split
    · exact mapRowAggregates_not_error table query _
    · rename_i msg hscan
      have hs := scan_not_error table fs (table.getColumnIndicesFromQuery query)
        ((query.Groupings.head?.map (fun grouping => grouping.Column)).getD "")
        (match query.Groupings with
          | grouping :: _ =>
            if grouping.TimeTransform ≠ "" then
              some (convertTimeTransformToFunc grouping.TimeTransform)
            else none
          | [] => none)
        (h2 fs hf)
        (by
          intro f hfn c
          split at hfn
          · split at hfn
            · simp only [Option.some.injEq] at hfn
              subst hfn
              exact convertTimeTransformToFunc_not_error _ c
            · cases hfn
          · cases hfn)
      have e : (Result.error msg : Result (List RowAggregate)).isError = false := by
        rw [← hscan]
        exact hs
      cases e
    · rfl
  | error msg => rw [hf] at h1; cases h1
  | panic msg => rfl

/-- The plain lookup of an unknown column name yields the index 0, that of the first
column. -/
theorem index_unknown (table : FactTable) (c c0 : String)
    (hc : GoMap.get? table.ColumnNameToIndex c = none)
    (h0 : GoMap.get? table.ColumnNameToIndex c0 = some 0) :
    GoMap.index table.ColumnNameToIndex c = GoMap.index table.ColumnNameToIndex c0 := by
  simp [GoMap.index, hc, h0]

theorem formatAggregates_congr (table : FactTable) (rowAggregate : RowAggregate)
    (g : QueryAggregate → QueryAggregate)
    (hg : ∀ a, (g a).Type' = a.Type' ∧ (g a).Name = a.Name ∧
      GoMap.index table.ColumnNameToIndex (g a).Column
        = GoMap.index table.ColumnNameToIndex a.Column)
    (aggregates : List QueryAggregate) :
    ∀ jsonRow, table.formatAggregates rowAggregate (aggregates.map g) jsonRow
      = table.formatAggregates rowAggregate aggregates jsonRow := by
  induction aggregates with
  | nil => intro _; rfl
  | cons a rest ih =>
    intro jsonRow
    obtain ⟨h1, h2, h3⟩ := hg a
    simp only [List.map_cons, FactTable.formatAggregates, h1, h2, h3, ih]

/-- Renaming the columns of the aggregates of a query without changing the indices they
get changes nothing about its result. -/
theorem InvokeQuery_congr_aggregates (table : FactTable) (query : Query)
    (g : QueryAggregate → QueryAggregate)
    (hg : ∀ a, (g a).Type' = a.Type' ∧ (g a).Name = a.Name ∧
      GoMap.index table.ColumnNameToIndex (g a).Column
        = GoMap.index table.ColumnNameToIndex a.Column) :
    table.InvokeQuery { query with Aggregates := query.Aggregates.map g }
      = table.InvokeQuery query := by
  have hcols : table.getColumnIndicesFromQuery { query with Aggregates := query.Aggregates.map g }
      = table.getColumnIndicesFromQuery query := by
    simp only [FactTable.getColumnIndicesFromQuery, List.map_map]
    apply List.map_congr_left
    intro a _
    exact (hg a).2.2
  have hrows : ∀ rowAggregates,
      table.mapRowAggregatesToJSONResultsFormat
          { query with Aggregates := query.Aggregates.map g } rowAggregates
        = table.mapRowAggregatesToJSONResultsFormat query rowAggregates := by
    intro rowAggregates
    induction rowAggregates with
    | nil => rfl
    | cons r rest ih =>
      simp only [FactTable.mapRowAggregatesToJSONResultsFormat, FactTable.formatRow,
        formatAggregates_congr table r g hg, ih]
  simp only [FactTable.InvokeQuery, hcols, hrows]

/-- A scan whose group-by name is not a column runs without grouping, whatever the name and
the transform. -/
theorem scan_unknown_grouping (table : FactTable) (filters : List FactTableFilterFunc)
    (columnIndices : List Nat) (c c' : String) (fn fn' : Option (Float32 → Result Float32))
    (hc : GoMap.get? table.ColumnNameToIndex c = none)
    (hc' : GoMap.get? table.ColumnNameToIndex c' = none) :
    table.scan filters columnIndices c fn = table.scan filters columnIndices c' fn' ∧
    ∀ results, table.scan filters columnIndices c fn = .ok results → results.length = 1 := by
  have hloop : ∀ (n rowPtr : Nat) (state : ScanState),
      table.scanLoop filters columnIndices false 0 fn n rowPtr state
        = table.scanLoop filters columnIndices false 0 fn' n rowPtr state := by
    intro n
    induction n with
    | zero => intro _ _; rfl
    | succ n ih =>
      intro rowPtr state
      simp only [FactTable.scanLoop, FactTable.scanRow, FactTable.scanAccumulate,
        Bool.false_eq_true, if_false, ih]
  constructor
  · simp only [FactTable.scan, hc, hc', Option.isSome_none, Option.getD_none, hloop]
  · intro results h
    simp only [FactTable.scan, hc, Option.isSome_none, Option.getD_none, Bool.false_eq_true,
      if_false] at h
    cases hl : table.scanLoop filters columnIndices false 0 fn table.Count 0
        { rowAggregate := table.newRowAggregate ⟨0⟩, rowAggregatesMap := [] } with
    | ok state =>
      rw [hl] at h
      simp only [Result.map, Result.ok.injEq] at h
      rw [← h]
      rfl
    | error msg => rw [hl] at h; simp [Result.map] at h
    | panic msg => rw [hl] at h; simp [Result.map] at h

set_option maxRecDepth 100000 in
/-- Counterexample to claim C24 as stated. On the fixture with its two rows, whose columns
are `col2` (index 0) and `col1`, the unknown column `nope` is accepted in an aggregate (the
sum of the ids of `col2` comes out), in a grouping (one row for all, labelled with the first
string) and in a filter (`nope = 1` selects the row whose `col2` id is 1): each query returns
result rows. -/
theorem C24_counterexample :
    GoMap.get? twoRowFixture.ColumnNameToIndex "nope" = none ∧
    twoRowFixture.InvokeQuery ⟨"", [⟨"sum", "nope", "total"⟩], [], []⟩
      = .ok [[("total", .float64 (Float64.ofInt 1)), ("rowCount", .int 2)]] ∧
    twoRowFixture.InvokeQuery ⟨"", [⟨"sum", "col1", "total"⟩], [⟨"", "nope", "g"⟩], []⟩
      = .ok [[("total", .float64 (Float64.ofInt 3)), ("g", .string "stringvalue1"),
              ("rowCount", .int 2)]] ∧
    twoRowFixture.InvokeQuery
        ⟨"", [⟨"sum", "col1", "total"⟩], [], [⟨"=", "nope", .scalar (.int 1)⟩]⟩
      = .ok [[("total", .float64 (Float64.ofInt 2)), ("rowCount", .int 1)]] := by
  refine ⟨?_, ?_, ?_, ?_⟩ <;> decide

/-- Claim C24 (amended). InvokeQuery has no error outcome: a query that names a column
outside the schema is not rejected. In an aggregate or a filter the unknown name gets the
index 0 and is read as the first column: renaming it to the name of the first column
changes neither the result of the query nor the filter function. In a grouping the unknown
name makes scan run without grouping and return one bucket. -/
theorem C24_unknown_query_column (table : FactTable) (query : Query)
    (filters : List FactTableFilterFunc) (columnIndices : List Nat)
    (fn : Option (Float32 → Result Float32)) (c c0 op : String) (value : QueryValue)
    (hc : GoMap.get? table.ColumnNameToIndex c = none)
    (h0 : GoMap.get? table.ColumnNameToIndex c0 = some 0) :
    (∀ q, (table.InvokeQuery q).isError = false) ∧
    GoMap.index table.ColumnNameToIndex c = 0 ∧
    table.InvokeQuery
        { query with
          Aggregates :=
            query.Aggregates.map (fun a => if a.Column = c then { a with Column := c0 } else a) }
      = table.InvokeQuery query ∧
    convertQueryFilterToFilterFunc ⟨op, c, value⟩ table
      = convertQueryFilterToFilterFunc ⟨op, c0, value⟩ table ∧
    table.scan filters columnIndices c fn = table.scan filters columnIndices c none ∧
    (∀ results, table.scan filters columnIndices c fn = .ok results → results.length = 1) := by
  have hidx := index_unknown table c c0 hc h0
  refine ⟨InvokeQuery_not_error table, by simp [GoMap.index, hc], ?_, ?_,
    (scan_unknown_grouping table filters columnIndices c c fn none hc hc).1,
    (scan_unknown_grouping table filters columnIndices c c fn none hc hc).2⟩
  · apply InvokeQuery_congr_aggregates
    intro a
    by_cases ha : a.Column = c
    · rw [if_pos ha]
      exact ⟨rfl, rfl, by rw [ha, hidx]⟩
    · rw [if_neg ha]
      exact ⟨rfl, rfl, rfl⟩
  · simp only [convertQueryFilterToFilterFunc, hidx]

set_option maxRecDepth 100000 in
/-- Witness for the amended claim C24: the fixture with its two rows, the unknown column
`nope` and the first column `col2`. -/
theorem C24_unknown_query_column_witness :
    GoMap.get? twoRowFixture.ColumnNameToIndex "nope" = none ∧
    GoMap.get? twoRowFixture.ColumnNameToIndex "col2" = some 0 ∧
    twoRowFixture.InvokeQuery ⟨"", [⟨"sum", "col2", "total"⟩], [], []⟩
      = .ok [[("total", .float64 (Float64.ofInt 1)), ("rowCount", .int 2)]] := by
  have h := (C24_unknown_query_column twoRowFixture ⟨"", [⟨"sum", "nope", "total"⟩], [], []⟩
    [] [] none "nope" "col2" "=" (.scalar (.int 1)) (by decide) (by decide)).2.2.1
  refine ⟨by decide, by decide, ?_⟩
  have e : twoRowFixture.InvokeQuery ⟨"", [⟨"sum", "col2", "total"⟩], [], []⟩
      = twoRowFixture.InvokeQuery ⟨"", [⟨"sum", "nope", "total"⟩], [], []⟩ := h
  rw [e]
  decide

set_option maxRecDepth 100000 in
/-- Claim C28. In the empty table with the string columns `a` and `b`, the row map that
gives the new string "x" to `a` and a number to `b` makes normalizeRow and InsertRowMaps
return an error; no row is written (`Count`, `NextInsertPosition` and the row bytes are
unchanged), and yet the dimension table of `a` has grown by the entry "x". On every table,
a row map with an unrecognized column name makes both return an error and leaves the whole
table, its dimension tables included, as it was. -/
theorem C28_failed_insert_not_atomic (table : FactTable) (schema : Schema)
    (rowMap : GoMap String Untyped) (rest : List (GoMap String Untyped))
    (hs : table.HasLayoutOf schema)
    (hunknown : ∃ k, k ∈ GoMap.keys rowMap ∧ k ∉ GoMap.keys schema.StringColumns ∧
      k ∉ GoMap.keys schema.NumericColumns) :
    ((twoStringTable.normalizeRow [("a", .string "x"), ("b", .float64 (Float64.ofInt 1))]).1
        = .error "Cannot insert a non-string value into column b." ∧
      (twoStringTable.InsertRowMaps
          [[("a", .string "x"), ("b", .float64 (Float64.ofInt 1))]]).1
        = .error "Cannot insert a non-string value into column b." ∧
      (twoStringTable.InsertRowMaps
          [[("a", .string "x"), ("b", .float64 (Float64.ofInt 1))]]).2.Count
        = twoStringTable.Count ∧
      (twoStringTable.InsertRowMaps
          [[("a", .string "x"), ("b", .float64 (Float64.ofInt 1))]]).2.NextInsertPosition
        = twoStringTable.NextInsertPosition ∧
      (twoStringTable.InsertRowMaps
          [[("a", .string "x"), ("b", .float64 (Float64.ofInt 1))]]).2.rows
        = twoStringTable.rows ∧
      twoStringTable.DimensionTables.map (fun d => d.Rows) = [[], []] ∧
      (twoStringTable.InsertRowMaps
          [[("a", .string "x"), ("b", .float64 (Float64.ofInt 1))]]).2.DimensionTables.map
          (fun d => d.Rows)
        = [["x"], []]) ∧
    ∃ msg, table.normalizeRow rowMap = (.error msg, table) ∧
      table.InsertRowMaps (rowMap :: rest) = (.error msg, table) := by
  constructor
  · decide
  · have herr := (convertRowMapToRowArray_isError table schema hs rowMap).mpr hunknown
    cases hconv : table.convertRowMapToRowArray rowMap with
    | ok arr => rw [hconv] at herr; cases herr
    | panic msg => rw [hconv] at herr; cases herr
    | error msg =>
      refine ⟨msg, ?_, ?_⟩
      · simp only [FactTable.normalizeRow, hconv]
      · simp only [FactTable.InsertRowMaps, FactTable.normalizeRow, hconv]

set_option maxRecDepth 100000 in
/-- Witness for claim C28: a row map for the fixture with the unknown column `zz`, given
after one stored row. -/
theorem C28_failed_insert_not_atomic_witness :
    (∃ k, k ∈ GoMap.keys ([("col2", .string "new"), ("zz", .string "y")] :
        GoMap String Untyped) ∧
      k ∉ GoMap.keys fixtureSchema.StringColumns ∧
      k ∉ GoMap.keys fixtureSchema.NumericColumns) ∧
    ∃ msg, twoRowFixture.InsertRowMaps [[("col2", .string "new"), ("zz", .string "y")]]
      = (.error msg, twoRowFixture) :=
  ⟨⟨"zz", by decide, by decide, by decide⟩,
    (C28_failed_insert_not_atomic twoRowFixture fixtureSchema
      [("col2", .string "new"), ("zz", .string "y")] []
      (InsertRowMaps_HasLayoutOf fixtureSchema _ tableFixture
        (NewFactTable_HasLayoutOf "" 10 fixtureSchema))
      ⟨"zz", by decide, by decide, by decide⟩).2.imp (fun _ h => h.2)⟩

theorem fromBytesLE_toBytesLE (w : Nat) : ∀ n, fromBytesLE (toBytesLE w n) = n % 256 ^ w := by
  induction w with
  | zero => intro n; simp [toBytesLE, fromBytesLE, Nat.mod_one]
  | succ w ih =>
    intro n
    simp only [toBytesLE, fromBytesLE, ih, Nat.mod_mod]
    rw [show 256 ^ (w + 1) = 256 * 256 ^ w from by ring, Nat.mod_mul]

/-- A pointer write is the copy of the written bytes into the row. -/
theorem store_eq_copyInto (row bs : List Byte) (off w : Nat) (hb : bs.length = w) :
    row.take off ++ bs ++ row.drop (off + w) = copyInto row off w bs := by
  unfold copyInto
  rw [hb, Nat.min_self, ← hb, List.take_length]

/-- The bytes a pointer write stored are the bytes a read at the same place finds. -/
theorem slice_store_same (row bs : List Byte) (off w : Nat) (h : off + w ≤ row.length)
    (hb : bs.length = w) :
    ((row.take off ++ bs ++ row.drop (off + w)).drop off).take w = bs := by
  rw [store_eq_copyInto row bs off w hb]
  exact slice_copyInto_same row bs off w h hb

/-- A pointer write leaves the bytes outside its range alone. -/
theorem slice_store_other (row bs : List Byte) (off w a n : Nat) (h : off + w ≤ row.length)
    (hb : bs.length = w) (hd : a + n ≤ off ∨ off + w ≤ a) :
    ((row.take off ++ bs ++ row.drop (off + w)).drop a).take n = (row.drop a).take n := by
  rw [store_eq_copyInto row bs off w hb]
  apply List.ext_getElem?
  intro i
  rw [List.getElem?_take, List.getElem?_take, List.getElem?_drop, List.getElem?_drop,
    getElem?_copyInto _ _ _ _ _ h]
  by_cases hi : i < n
  · have : ¬ (off ≤ a + i ∧ a + i < off + min w bs.length) := by
      rw [hb, Nat.min_self]
      omega
    simp only [hi, if_true, this, if_false]
  · simp only [hi, if_false]

theorem length_store (row bs : List Byte) (off w : Nat) (h : off + w ≤ row.length)
    (hb : bs.length = w) : (row.take off ++ bs ++ row.drop (off + w)).length = row.length := by
  simp only [List.length_append, List.length_take, List.length_drop, hb]
  omega

/-- The offsets of a table with the layout of a schema put the columns one after the other:
a column ends where or before a later column starts. -/
theorem layout_disjoint (table : FactTable) (schema : Schema) (hs : table.HasLayoutOf schema)
    (i j offi tyi offj : Nat) (hij : i < j)
    (hoi : table.ColumnIndexToOffset[i]? = some offi)
    (hti : table.ColumnIndexToType[i]? = some tyi)
    (hoj : table.ColumnIndexToOffset[j]? = some offj) :
    offi + GoMap.index typeSizes tyi ≤ offj := by
  rw [hs.indexToOffset] at hoi hoj
  rw [hs.indexToType] at hti
  rw [NewFactTable_column_end _ _ _ i offi tyi hoi hti]
  have hj : j < (NewFactTable table.FilePath table.Capacity schema).ColumnCount := by
    rw [← NewFactTable_offsets_length]; exact (List.getElem?_eq_some_iff.mp hoj).1
  rw [NewFactTable_offset _ _ _ j hj] at hoj
  injection hoj with hoj
  rw [← hoj, List.map_take, List.map_take]
  exact sum_take_mono _ _ _ (by omega)

/-- The read of a column is a pointer read of the width of its element type at its offset. -/
theorem getColumnValue_eq_load (table : FactTable) (hl : table.LayoutOK) (column off ty : Nat)
    (hoff : table.ColumnIndexToOffset[column]? = some off)
    (hty : table.ColumnIndexToType[column]? = some ty) :
    ∃ mk : Nat → Untyped, ∀ row : List Byte, row.length = table.RowSize →
      table.getColumnValue row column = loadValue row off (GoMap.index typeSizes ty) mk := by
  have hv : ty ≤ Float64Type := hl.valid ty (List.getElem?_mem hty)
  have hfit := hl.fits column off ty hoff hty
  simp only [Float64Type] at hv
  have hw : 1 ≤ GoMap.index typeSizes ty := by interval_cases ty <;> decide
  have hne : ∀ row : List Byte, row.length = table.RowSize → row.length ≠ 0 := by
    intro row hrow; omega
  interval_cases ty
  · exact ⟨fun n => .uint8 n, fun row hrow => by
      simp only [FactTable.getColumnValue, hne row hrow, if_false, hoff, hty]; rfl⟩
  · exact ⟨fun n => .int8 (toSigned 8 n), fun row hrow => by
      simp only [FactTable.getColumnValue, hne row hrow, if_false, hoff, hty]; rfl⟩
  · exact ⟨fun n => .uint16 n, fun row hrow => by
      simp only [FactTable.getColumnValue, hne row hrow, if_false, hoff, hty]; rfl⟩
  · exact ⟨fun n => .int16 (toSigned 16 n), fun row hrow => by
      simp only [FactTable.getColumnValue, hne row hrow, if_false, hoff, hty]; rfl⟩
  · exact ⟨fun n => .uint32 n, fun row hrow => by
      simp only [FactTable.getColumnValue, hne row hrow, if_false, hoff, hty]; rfl⟩
  · exact ⟨fun n => .int32 (toSigned 32 n), fun row hrow => by
      simp only [FactTable.getColumnValue, hne row hrow, if_false, hoff, hty]; rfl⟩
  · exact ⟨fun n => .uint64 n, fun row hrow => by
      simp only [FactTable.getColumnValue, hne row hrow, if_false, hoff, hty]; rfl⟩
  · exact ⟨fun n => .int64 (toSigned 64 n), fun row hrow => by
      simp only [FactTable.getColumnValue, hne row hrow, if_false, hoff, hty]; rfl⟩
  · exact ⟨fun n => .float32 ⟨n⟩, fun row hrow => by
      simp only [FactTable.getColumnValue, hne row hrow, if_false, hoff, hty]; rfl⟩
  · exact ⟨fun n => .float64 ⟨n⟩, fun row hrow => by
      simp only [FactTable.getColumnValue, hne row hrow, if_false, hoff, hty]; rfl⟩

/-- The write of a column replaces the bytes of the column, as many as its element type is
wide, and nothing else. -/
theorem setColumnValue_bytes (table : FactTable) (hl : table.LayoutOK) (column off ty : Nat)
    (hoff : table.ColumnIndexToOffset[column]? = some off)
    (hty : table.ColumnIndexToType[column]? = some ty)
    (row : List Byte) (value : Float64) (hrow : row.length = table.RowSize) :
    ∃ bs : List Byte, bs.length = GoMap.index typeSizes ty ∧
      table.setColumnValue row column value
        = .ok (row.take off ++ bs ++ row.drop (off + GoMap.index typeSizes ty)) := by
  have hv : ty ≤ Float64Type := hl.valid ty (List.getElem?_mem hty)
  have hfit := hl.fits column off ty hoff hty
  rw [← hrow] at hfit
  simp only [Float64Type] at hv
  have hw : 1 ≤ GoMap.index typeSizes ty := by interval_cases ty <;> decide
  have hpos : row.length ≠ 0 := by omega
  simp only [FactTable.setColumnValue, hpos, if_false, hoff, hty]
  interval_cases ty
  all_goals
    simp only [Uint8Type, Int8Type, Uint16Type, Int16Type, Uint32Type, Int32Type, Uint64Type,
      Int64Type, Float32Type, Float64Type, if_true, if_false, Nat.reduceEqDiff, OfNat.ofNat_ne_zero,
      OfNat.zero_ne_ofNat, OfNat.ofNat_ne_one, OfNat.one_ne_ofNat, one_ne_zero, zero_ne_one]
    exact ⟨toBytesLE _ _, length_toBytesLE _ _, if_pos hfit⟩

/-- The write of one column leaves the value of every other column as it was. -/
theorem getColumnValue_setColumnValue_other (table : FactTable) (schema : Schema)
    (hs : table.HasLayoutOf schema) (hvalid : schema.validTypes) (i j : Nat) (hij : i ≠ j)
    (hi : i < table.ColumnCount) (hj : j < table.ColumnCount) (row row1 : List Byte)
    (value : Float64) (hrow : row.length = table.RowSize)
    (hset : table.setColumnValue row j value = .ok row1) :
    row1.length = row.length ∧ table.getColumnValue row1 i = table.getColumnValue row i := by
  have hl := layout_LayoutOK table schema hs hvalid
  obtain ⟨offi, hoi⟩ : ∃ o, table.ColumnIndexToOffset[i]? = some o :=
    ⟨_, List.getElem?_eq_getElem (by rw [hl.offsets]; exact hi)⟩
  obtain ⟨tyi, hti⟩ : ∃ t, table.ColumnIndexToType[i]? = some t :=
    ⟨_, List.getElem?_eq_getElem (by rw [hl.types]; exact hi)⟩
  obtain ⟨offj, hoj⟩ : ∃ o, table.ColumnIndexToOffset[j]? = some o :=
    ⟨_, List.getElem?_eq_getElem (by rw [hl.offsets]; exact hj)⟩
  obtain ⟨tyj, htj⟩ : ∃ t, table.ColumnIndexToType[j]? = some t :=
    ⟨_, List.getElem?_eq_getElem (by rw [hl.types]; exact hj)⟩
  have hfj := hl.fits j offj tyj hoj htj
  rw [← hrow] at hfj
  obtain ⟨bs, hbs, hstore⟩ := setColumnValue_bytes table hl j offj tyj hoj htj row value hrow
  rw [hstore] at hset
  injection hset with hset
  have hlen : row1.length = row.length := by
    rw [← hset]; exact length_store row bs offj _ hfj hbs
  obtain ⟨mk, hmk⟩ := getColumnValue_eq_load table hl i offi tyi hoi hti
  refine ⟨hlen, ?_⟩
  rw [hmk row1 (hlen.trans hrow), hmk row hrow]
  have hd : offi + GoMap.index typeSizes tyi ≤ offj ∨ offj + GoMap.index typeSizes tyj ≤ offi := by
    rcases Nat.lt_or_gt_of_ne hij with h | h
    · exact Or.inl (layout_disjoint table schema hs i j offi tyi offj h hoi hti hoj)
    · exact Or.inr (layout_disjoint table schema hs j i offj tyj offi h hoj htj hoi)
  have hslice := slice_store_other row bs offj _ offi (GoMap.index typeSizes tyi) hfj hbs hd
  rw [hset] at hslice
  simp only [loadValue, hlen, hslice]

/-- The pattern of a positive integer below `2^53` as a `float64`: the integer shifted up to
53 digits, under the exponent that undoes the shift. -/
theorem roundFloat64_small (neg : Bool) (m : Nat) (hm : 0 < m) (hlt : m < 2 ^ 53) :
    ∃ k, k ≤ 52 ∧ 2 ^ 52 ≤ m * 2 ^ k ∧ m * 2 ^ k < 2 ^ 53 ∧
      roundFloat 11 52 neg m 0
        = (if neg then 2 ^ 63 else 0) + ((1074 - k) * 2 ^ 52 + m * 2 ^ k) := by
  obtain ⟨hlo, hhi⟩ := bitLength_spec m hm
  have hLpos : 0 < bitLength m := bitLengthAux_pos m m hm (Nat.le_refl m)
  have hL : bitLength m ≤ 53 := by
    by_contra hcon
    have : 2 ^ 53 ≤ 2 ^ (bitLength m - 1) := Nat.pow_le_pow_right (by norm_num) (by omega)
    omega
  refine ⟨53 - bitLength m, by omega, ?_, ?_, ?_⟩
  · calc 2 ^ 52 = 2 ^ (bitLength m - 1) * 2 ^ (53 - bitLength m) := by
          rw [← pow_add]; congr 1; omega
      _ ≤ m * 2 ^ (53 - bitLength m) := Nat.mul_le_mul_right _ hlo
  · calc m * 2 ^ (53 - bitLength m) < 2 ^ bitLength m * 2 ^ (53 - bitLength m) :=
          Nat.mul_lt_mul_of_pos_right hhi (by positivity)
      _ = 2 ^ 53 := by rw [← pow_add]; congr 1; omega
  · have hq : max ((0 : Int) + (bitLength m : Int) - 1 - (52 : Nat)) (minQuantum 11 52)
        = (bitLength m : Int) - 53 := by
      have : minQuantum 11 52 = -1074 := by decide
      rw [this]
      omega
    have hmant : m * 2 ^ (53 - bitLength m) < 2 ^ 53 := by
      calc m * 2 ^ (53 - bitLength m) < 2 ^ bitLength m * 2 ^ (53 - bitLength m) :=
            Nat.mul_lt_mul_of_pos_right hhi (by positivity)
        _ = 2 ^ 53 := by rw [← pow_add]; congr 1; omega
    have hminq : minQuantum 11 52 = -1074 := by decide
    simp only [roundFloat, if_neg (Nat.pos_iff_ne_zero.mp hm), hq]
    have h1 : ((bitLength m : Int) - 53 ≤ 0) := by omega
    rw [if_pos h1, hminq]
    have h2 : ((0 : Int) - ((bitLength m : Int) - 53)).toNat = 53 - bitLength m := by omega
    have h3 : ((bitLength m : Int) - 53 - -1074).toNat = 1074 - (53 - bitLength m) := by omega
    rw [h2, h3]
    have h4 : (1074 - (53 - bitLength m)) * 2 ^ 52 + m * 2 ^ (53 - bitLength m)
        ≤ (2 ^ 11 - 1) * 2 ^ 52 := by
      have : 1074 - (53 - bitLength m) ≤ 1074 := by omega
      have := Nat.mul_le_mul_right (2 ^ 52) this
      norm_num at this hmant ⊢
      omega
    rw [Nat.min_eq_left h4]

/-- Decoding the `float64` pattern with exponent field `1075 - k` and a 53-digit mantissa. -/
theorem decodeFloat64_normal (neg : Bool) (k M : Nat) (hk : k ≤ 52) (hlo : 2 ^ 52 ≤ M)
    (hhi : M < 2 ^ 53) :
    decodeFloat 11 52 ((if neg then 2 ^ 63 else 0) + ((1074 - k) * 2 ^ 52 + M))
      = .fin neg M (-(k : Int)) := by
  obtain ⟨r, rfl⟩ : ∃ r, M = 2 ^ 52 + r := ⟨M - 2 ^ 52, by omega⟩
  obtain ⟨j, rfl⟩ : ∃ j, k = 52 - j := ⟨52 - k, by omega⟩
  have hr : r < 2 ^ 52 := by norm_num at hhi ⊢; omega
  have hminq : minQuantum 11 52 = -1074 := by decide
  unfold decodeFloat
  simp only [hminq]
  cases neg
  · have e1 : ((if false = true then 2 ^ 63 else 0) + ((1074 - (52 - j)) * 2 ^ 52 + (2 ^ 52 + r)))
        = (1075 - (52 - j)) * 2 ^ 52 + r := by
      simp only [Bool.false_eq_true, if_false, Nat.zero_add]
      have : 1075 - (52 - j) = (1074 - (52 - j)) + 1 := by omega
      rw [this]; ring
    rw [e1]
    have m1 : ((1075 - (52 - j)) * 2 ^ 52 + r) % 2 ^ 52 = r := by
      rw [Nat.add_comm, Nat.add_mul_mod_self_right, Nat.mod_eq_of_lt hr]
    have d1 : ((1075 - (52 - j)) * 2 ^ 52 + r) / 2 ^ 52 = 1075 - (52 - j) := by
      rw [Nat.add_comm, Nat.add_mul_div_right _ _ (by positivity), Nat.div_eq_of_lt hr,
        Nat.zero_add]
    have d2 : ((1075 - (52 - j)) * 2 ^ 52 + r) / 2 ^ (52 + 11) = 0 := by
      apply Nat.div_eq_of_lt
      have : 1075 - (52 - j) ≤ 1075 := by omega
      have := Nat.mul_le_mul_right (2 ^ 52) this
      norm_num at this hr ⊢
      omega
    rw [m1, d1, d2]
    have e2 : (1075 - (52 - j)) % 2 ^ 11 = 1075 - (52 - j) := Nat.mod_eq_of_lt (by norm_num; omega)
    rw [e2]
    have n1 : ¬ (1075 - (52 - j) = 2 ^ 11 - 1) := by norm_num; omega
    have n2 : ¬ (1075 - (52 - j) = 0) := by omega
    rw [if_neg n1, if_neg n2]
    simp only [Nat.zero_mod, zero_ne_one, decide_False]
    congr 1
    omega
  · have e1 : ((if true = true then 2 ^ 63 else 0) + ((1074 - (52 - j)) * 2 ^ 52 + (2 ^ 52 + r)))
        = (2 ^ 11 + (1075 - (52 - j))) * 2 ^ 52 + r := by
      simp only [if_true]
      have : 1075 - (52 - j) = (1074 - (52 - j)) + 1 := by omega
      rw [this]; ring
    rw [e1]
    have m1 : ((2 ^ 11 + (1075 - (52 - j))) * 2 ^ 52 + r) % 2 ^ 52 = r := by
      rw [Nat.add_comm, Nat.add_mul_mod_self_right, Nat.mod_eq_of_lt hr]
    have d1 : ((2 ^ 11 + (1075 - (52 - j))) * 2 ^ 52 + r) / 2 ^ 52 = 2 ^ 11 + (1075 - (52 - j)) := by
      rw [Nat.add_comm, Nat.add_mul_div_right _ _ (by positivity), Nat.div_eq_of_lt hr,
        Nat.zero_add]
    have d2 : ((2 ^ 11 + (1075 - (52 - j))) * 2 ^ 52 + r) / 2 ^ (52 + 11) = 1 := by
      have : 1075 - (52 - j) ≤ 1075 := by omega
      have h5 := Nat.mul_le_mul_right (2 ^ 52) this
      apply Nat.div_eq_of_lt_le
      · norm_num at h5 hr ⊢
        omega
      · norm_num at h5 hr ⊢
        omega
    rw [m1, d1, d2]
    have e2 : (2 ^ 11 + (1075 - (52 - j))) % 2 ^ 11 = 1075 - (52 - j) := by
      rw [Nat.add_mod_left]; exact Nat.mod_eq_of_lt (by norm_num; omega)
    rw [e2]
    have n1 : ¬ (1075 - (52 - j) = 2 ^ 11 - 1) := by norm_num; omega
    have n2 : ¬ (1075 - (52 - j) = 0) := by omega
    rw [if_neg n1, if_neg n2]
    simp only [Nat.one_mod, decide_True]
    congr 1
    omega

/-- An integer of magnitude below `2^53` is a `float64`: the conversion `float64(n)` denotes
`n` itself. -/
theorem Float64.trunc_ofInt (n : Int) (h : n.natAbs < 2 ^ 53) :
    (Float64.ofInt n).val.trunc = some n := by
  by_cases h0 : n.natAbs = 0
  · have : n = 0 := Int.natAbs_eq_zero.mp h0
    subst this
    decide
  · obtain ⟨k, hk, hlo, hhi, hround⟩ :=
      roundFloat64_small (decide (n < 0)) n.natAbs (Nat.pos_of_ne_zero h0) h
    have hval : (Float64.ofInt n).val
        = .fin (decide (n < 0)) (n.natAbs * 2 ^ k) (-(k : Int)) := by
      simp only [Float64.ofInt, Float64.val, hround]
      exact decodeFloat64_normal _ k _ hk hlo hhi
    have hshift : (if (0 : Int) ≤ -(k : Int) then (n.natAbs * 2 ^ k) <<< (-(k : Int)).toNat
        else (n.natAbs * 2 ^ k) >>> (-(-(k : Int))).toNat) = n.natAbs := by
      by_cases hk0 : k = 0
      · subst hk0
        simp
      · have : ¬ ((0 : Int) ≤ -(k : Int)) := by omega
        rw [if_neg this]
        have e : (-(-(k : Int))).toNat = k := by omega
        rw [e, Nat.shiftRight_eq_div_pow, Nat.mul_div_cancel _ (by positivity)]
    simp only [hval, FloatVal.trunc, hshift]
    by_cases hneg : n < 0
    · simp only [hneg, decide_True, if_true, Option.some.injEq]
      omega
    · simp only [hneg, decide_False, Bool.false_eq_true, if_false, Option.some.injEq]
      omega

theorem Float64.toInt_ofInt_exact (w : Nat) (n : Int) (h : n.natAbs < 2 ^ 53) :
    (Float64.ofInt n).toInt w = wrapInt w n := by
  simp only [Float64.toInt, Float64.trunc_ofInt n h]

/-- A number of the `int32` range is its own reduction to 32 and to 64 bits, and the signed
reading of its 32-bit pattern. -/
theorem int32_round_trip (z : Int) (hlo : -2 ^ 31 ≤ z) (hhi : z < 2 ^ 31) :
    wrapInt 32 z = z ∧ wrapInt 64 z = z ∧ toSigned 32 (intBits 32 z % 256 ^ 4) = z := by
  refine ⟨?_, ?_, ?_⟩
  · unfold wrapInt
    have h1 : (0 : Int) ≤ z + 2 ^ (32 - 1) := by norm_num at hlo ⊢; omega
    have h2 : z + 2 ^ (32 - 1) < 2 ^ 32 := by norm_num at hhi ⊢; omega
    rw [Int.emod_eq_of_lt h1 h2]
    omega
  · unfold wrapInt
    have h1 : (0 : Int) ≤ z + 2 ^ (64 - 1) := by norm_num at hlo ⊢; omega
    have h2 : z + 2 ^ (64 - 1) < 2 ^ 64 := by norm_num at hhi ⊢; omega
    rw [Int.emod_eq_of_lt h1 h2]
    omega
  · unfold toSigned intBits
    norm_num at hlo hhi ⊢
    have h3 : (0 : Int) ≤ z % 4294967296 := Int.emod_nonneg _ (by norm_num)
    have h4 : z % 4294967296 < 4294967296 := Int.emod_lt_of_pos _ (by norm_num)
    have h5 : (z % 4294967296).toNat % 4294967296 = (z % 4294967296).toNat := by
      apply Nat.mod_eq_of_lt
      omega
    rw [h5]
    by_cases hz : 0 ≤ z
    · have : z % 4294967296 = z := Int.emod_eq_of_lt hz (by omega)
      rw [this]
      have : z.toNat < 2147483648 := by omega
      rw [if_pos this]
      omega
    · have : z % 4294967296 = z + 4294967296 := by
        rw [← Int.add_emod_self]
        exact Int.emod_eq_of_lt (by omega) (by omega)
      rw [this]
      have : ¬ ((z + 4294967296).toNat < 2147483648) := by omega
      rw [if_neg this]
      omega

/-- A column whose write stores `bits` in `w` bytes and whose read builds its value with
`mk` represents the id exactly when the value built from the stored bits converts back to
the id. -/
theorem holdsId_of_codec (table : FactTable) (i off w bits : Nat) (mk : Nat → Untyped)
    (id : Int)
    (hset : ∀ row : List Byte, row.length ≠ 0 →
      table.setColumnValue row i (Float64.ofInt id) = storeBytes row off w bits)
    (hget : ∀ row : List Byte, row.length ≠ 0 →
      table.getColumnValue row i = loadValue row off w mk)
    (hw : 0 < w)
    (hconv : (convertUntypedToFloat64 (mk (bits % 256 ^ w))).map (fun f => f.toInt 64)
      = .ok id) :
    table.holdsId i id := by
  intro row row1 h
  have hpos : row.length ≠ 0 := by
    intro h0
    simp [FactTable.setColumnValue, h0] at h
  rw [hset row hpos] at h
  unfold storeBytes at h
  split at h
  · rename_i hfit
    injection h with h
    have hlen : row1.length = row.length := by
      rw [← h]; exact length_store row _ off w hfit (length_toBytesLE _ _)
    have hslice := slice_store_same row (toBytesLE w bits) off w hfit (length_toBytesLE _ _)
    rw [h] at hslice
    have hpos1 : row1.length ≠ 0 := by omega
    simp only [FactTable.storedId, hget row1 hpos1, loadValue, hlen, hfit, if_true, hslice,
      fromBytesLE_toBytesLE, Result.bind]
    exact hconv
  · cases h

/-- A column stored as `int32` represents every id of the `int32` range exactly. -/
theorem holdsId_int32 (table : FactTable) (i off : Nat)
    (hoff : table.ColumnIndexToOffset[i]? = some off)
    (hty : table.ColumnIndexToType[i]? = some Int32Type)
    (z : Int) (hlo : -2 ^ 31 ≤ z) (hhi : z < 2 ^ 31) : table.holdsId i z := by
  have hn : z.natAbs < 2 ^ 53 := by norm_num at hlo hhi ⊢; omega
  obtain ⟨r1, r2, r3⟩ := int32_round_trip z hlo hhi
  apply holdsId_of_codec table i off 4 (intBits 32 ((Float64.ofInt z).toInt 32))
    (fun n => .int32 (toSigned 32 n)) z
  · intro row hpos
    simp only [FactTable.setColumnValue, hpos, if_false, hoff, hty]
    rfl
  · intro row hpos
    simp only [FactTable.getColumnValue, hpos, if_false, hoff, hty]
    rfl
  · norm_num
  · rw [Float64.toInt_ofInt_exact 32 z hn, r1, r3]
    simp only [convertUntypedToFloat64, Result.map, Float64.toInt_ofInt_exact 64 z hn, r2]

/-- A column stored as `float32` represents an id exactly when the id survives the
conversions `float32(float64(id))` and back. -/
theorem holdsId_float32 (table : FactTable) (i off : Nat)
    (hoff : table.ColumnIndexToOffset[i]? = some off)
    (hty : table.ColumnIndexToType[i]? = some Float32Type) (id : Int)
    (h : (Float32.mk ((Float64.ofInt id).toFloat32.bits % 256 ^ 4)).toFloat64.toInt 64 = id) :
    table.holdsId i id := by
  apply holdsId_of_codec table i off 4 (Float64.ofInt id).toFloat32.bits
    (fun n => .float32 ⟨n⟩) id
  · intro row hpos
    simp only [FactTable.setColumnValue, hpos, if_false, hoff, hty]
    rfl
  · intro row hpos
    simp only [FactTable.getColumnValue, hpos, if_false, hoff, hty]
    rfl
  · norm_num
  · simp only [convertUntypedToFloat64, Result.map, h]

/-- What a step of the loop of normalizeRow that went through has done: it wrote the column,
and for a string column it looked the string up in the dimension table of the column, adding
it when it was new. -/
theorem normalizeColumn_ok_spec (table : FactTable) (hl : table.LayoutOK) (columnIndex : Nat)
    (value : Untyped) (rowSlice row1 : List Byte) (table1 : FactTable)
    (hrow : rowSlice.length = table.RowSize) (hcol : columnIndex < table.ColumnCount)
    (h : table.normalizeColumn columnIndex value rowSlice = (.ok row1, table1)) :
    ∃ v : Float64, table.setColumnValue rowSlice columnIndex v = .ok row1 ∧
      row1.length = rowSlice.length ∧
      ((∃ s d, value = .string s ∧ table.DimensionTables[columnIndex]? = some d ∧
          v = Float64.ofInt (d.lookupOrAddRow s).1 ∧
          table1 = { table with
            DimensionTables := table.DimensionTables.set columnIndex (d.lookupOrAddRow s).2 }) ∨
        (table.DimensionTables.length ≤ columnIndex ∧ table1 = table)) := by
  by_cases hdim : columnIndex < table.DimensionTables.length
  · have huse : table.columnUsesDimensionTable columnIndex = true := by
      simp [FactTable.columnUsesDimensionTable, hdim]
    by_cases hstr : isString value = true
    · cases value with
      | string s =>
        have hd := List.getElem?_eq_getElem hdim
        simp only [FactTable.normalizeColumn, huse, if_true, hd, Prod.mk.injEq] at h
        obtain ⟨hset, ht⟩ := h
        have hset' : table.setColumnValue rowSlice columnIndex
            (Float64.ofInt (table.DimensionTables[columnIndex].lookupOrAddRow s).1)
            = .ok row1 := hset
        obtain ⟨r, hr, hlen⟩ := setColumnValue_ok table hl rowSlice columnIndex
          (Float64.ofInt (table.DimensionTables[columnIndex].lookupOrAddRow s).1) hrow hcol
        rw [hset'] at hr
        injection hr with hr
        subst hr
        exact ⟨_, hset', hlen, Or.inl ⟨s, _, rfl, hd, rfl, ht.symm⟩⟩
      | _ => simp [isString] at hstr
    · obtain ⟨msg, hm⟩ := normalizeColumn_non_string table hl columnIndex value rowSlice
        (by simpa using hstr) hdim
      rw [hm] at h
      simp at h
  · have hnum : table.DimensionTables.length ≤ columnIndex := by omega
    by_cases hf : isFloat64 value = true
    · cases value with
      | float64 x =>
        obtain ⟨r, hr, hlen⟩ := normalizeColumn_float64 table hl columnIndex x rowSlice hrow
          hnum hcol
        rw [hr] at h
        simp only [Prod.mk.injEq, Result.ok.injEq] at h
        obtain ⟨h1, h2⟩ := h
        subst h1
        have huse : table.columnUsesDimensionTable columnIndex = false := by
          simp [FactTable.columnUsesDimensionTable, hnum]
        have hset : table.setColumnValue rowSlice columnIndex x = .ok r := by
          simp only [FactTable.normalizeColumn, huse, Bool.false_eq_true, if_false,
            Prod.mk.injEq, and_true] at hr
          exact hr
        exact ⟨x, hset, hlen, Or.inr ⟨hnum, h2.symm⟩⟩
      | _ => simp [isFloat64] at hf
    · rw [normalizeColumn_not_float64 table columnIndex value rowSlice (by simpa using hf)
        hnum] at h
      simp at h

/-- Replacing the dimension tables keeps the layout of a schema when their number stays. -/
theorem HasLayoutOf_setDimensionTables (table : FactTable) (schema : Schema)
    (hs : table.HasLayoutOf schema) (dims : List DimensionTable)
    (hlen : dims.length = table.DimensionTables.length) :
    ({ table with DimensionTables := dims } : FactTable).HasLayoutOf schema :=
  ⟨hs.columnCount, hs.rowSize, hs.nameToIndex, hs.indexToName, hs.indexToOffset,
    hs.indexToType, hlen.trans hs.dimensionTables⟩

/-- The row that the loop of normalizeRow returns, from column `columnIndex` on: the columns
before keep their values and their dimension tables; every string column from `columnIndex`
on held a string, its dimension table is the one the lookup of that string left, and the
index read back from the column is the id of the lookup when the element type of the column
represents that id exactly. -/
theorem normalizeLoop_ids (schema : Schema) (hvalid : schema.validTypes) (rest : List Untyped) :
    ∀ (columnIndex : Nat) (rowSlice : List Byte) (table : FactTable) (row : List Byte)
      (table1 : FactTable),
      table.HasLayoutOf schema → rowSlice.length = table.RowSize →
      columnIndex + rest.length = table.ColumnCount →
      normalizeLoop rest columnIndex rowSlice table = (.ok row, table1) →
      row.length = table.RowSize ∧
      (∀ i, i < columnIndex →
        table.getColumnValue row i = table.getColumnValue rowSlice i ∧
        table1.DimensionTables[i]? = table.DimensionTables[i]?) ∧
      (∀ i d, columnIndex ≤ i → table.DimensionTables[i]? = some d →
        ∃ s, rest[i - columnIndex]? = some (.string s) ∧
          table1.DimensionTables[i]? = some (d.lookupOrAddRow s).2 ∧
          (table.holdsId i (d.lookupOrAddRow s).1 →
            table.storedId row i = .ok (d.lookupOrAddRow s).1)) := by
  induction rest with
  | nil =>
    intro columnIndex rowSlice table row table1 hs hrow hcount hloop
    simp only [normalizeLoop, Prod.mk.injEq, Result.ok.injEq] at hloop
    obtain ⟨h1, h2⟩ := hloop
    subst h1
    subst h2
    refine ⟨hrow, fun i _ => ⟨rfl, rfl⟩, ?_⟩
    intro i d hi hd
    have hl := layout_LayoutOK table schema hs hvalid
    have := (List.getElem?_eq_some_iff.mp hd).1
    have := hl.dims
    simp only [List.length_nil, Nat.add_zero] at hcount
    omega
  | cons value rest ih =>
    intro columnIndex rowSlice table row table1 hs hrow hcount hloop
    have hl := layout_LayoutOK table schema hs hvalid
    simp only [List.length_cons] at hcount
    have hcol : columnIndex < table.ColumnCount := by omega
    cases hstep : table.normalizeColumn columnIndex value rowSlice with
    | mk res t1 =>
      cases res with
      | error msg => simp [normalizeLoop, hstep] at hloop
      | panic msg => simp [normalizeLoop, hstep] at hloop
      | ok row1 =>
        simp only [normalizeLoop, hstep] at hloop
        obtain ⟨v, hset, hlen1, hcase⟩ := normalizeColumn_ok_spec table hl columnIndex value
          rowSlice row1 t1 hrow hcol hstep
        have hframe : ∀ i, i < columnIndex →
            table.getColumnValue row1 i = table.getColumnValue rowSlice i := by
          intro i hi
          exact (getColumnValue_setColumnValue_other table schema hs hvalid i columnIndex
            (by omega) (by omega) hcol rowSlice row1 v hrow hset).2
        rcases hcase with ⟨s, d, hval, hd, hv, ht1⟩ | ⟨hnum, ht1⟩
        · subst ht1
          subst hval
          have hdim : columnIndex < table.DimensionTables.length :=
            (List.getElem?_eq_some_iff.mp hd).1
          have hs1 := HasLayoutOf_setDimensionTables table schema hs
            (table.DimensionTables.set columnIndex (d.lookupOrAddRow s).2)
            (List.length_set _ _ _)
          obtain ⟨k1, k2, k3⟩ := ih (columnIndex + 1) row1 _ row table1 hs1
            (hlen1.trans hrow) (by show columnIndex + 1 + rest.length = table.ColumnCount; omega)
            hloop
          refine ⟨k1, ?_, ?_⟩
          · intro i hi
            obtain ⟨g1, g2⟩ := k2 i (by omega)
            refine ⟨?_, ?_⟩
            · have g1' : table.getColumnValue row i = table.getColumnValue row1 i := g1
              rw [g1', hframe i hi]
            · rw [g2]
              show (table.DimensionTables.set columnIndex (d.lookupOrAddRow s).2)[i]? = _
              rw [List.getElem?_set_ne (by omega)]
          · intro i d0 hi hd0
            by_cases hic : i = columnIndex
            · subst hic
              rw [hd] at hd0
              injection hd0 with hd0
              subst hd0
              obtain ⟨g1, g2⟩ := k2 i (by omega)
              refine ⟨s, by simp, ?_, ?_⟩
              · rw [g2]
                show (table.DimensionTables.set i (d.lookupOrAddRow s).2)[i]? = _
                rw [List.getElem?_set_self hdim]
              · intro hhold
                have g1' : table.getColumnValue row i = table.getColumnValue row1 i := g1
                have := hhold rowSlice row1 (by rw [← hv]; exact hset)
                simp only [FactTable.storedId, g1'] at this ⊢
                exact this
            · have hd1 : (table.DimensionTables.set columnIndex (d.lookupOrAddRow s).2)[i]?
                  = some d0 := by
                rw [List.getElem?_set_ne (by omega)]; exact hd0
              obtain ⟨s', g1, g2, g3⟩ := k3 i d0 (by omega) hd1
              refine ⟨s', ?_, g2, g3⟩
              have : i - columnIndex = (i - (columnIndex + 1)) + 1 := by omega
              rw [this, List.getElem?_cons_succ]
              exact g1
        · rw [ht1] at hloop
          obtain ⟨k1, k2, k3⟩ := ih (columnIndex + 1) row1 table row table1 hs
            (hlen1.trans hrow) (by omega) hloop
          refine ⟨k1, ?_, ?_⟩
          · intro i hi
            obtain ⟨g1, g2⟩ := k2 i (by omega)
            exact ⟨by rw [g1, hframe i hi], g2⟩
          · intro i d0 hi hd0
            have := (List.getElem?_eq_some_iff.mp hd0).1
            omega

theorem Extends_refl (table : FactTable) : table.Extends table :=
  ⟨rfl, rfl, rfl, rfl, rfl, rfl, rfl, rfl, rfl,
    fun _ d hd => ⟨d, hd, List.prefix_refl _, id⟩⟩

theorem Extends_trans (t1 t2 t3 : FactTable) (h12 : t1.Extends t2) (h23 : t2.Extends t3) :
    t1.Extends t3 where
  filePath := h23.filePath.trans h12.filePath
  capacity := h23.capacity.trans h12.capacity
  columnCount := h23.columnCount.trans h12.columnCount
  rowSize := h23.rowSize.trans h12.rowSize
  nameToIndex := h23.nameToIndex.trans h12.nameToIndex
  indexToName := h23.indexToName.trans h12.indexToName
  indexToOffset := h23.indexToOffset.trans h12.indexToOffset
  indexToType := h23.indexToType.trans h12.indexToType
  dimsLength := h23.dimsLength.trans h12.dimsLength
  grow := by
    intro i d hd
    obtain ⟨d2, hd2, hp2, hi2⟩ := h12.grow i d hd
    obtain ⟨d3, hd3, hp3, hi3⟩ := h23.grow i d2 hd2
    exact ⟨d3, hd3, hp2.trans hp3, fun h => hi3 (hi2 h)⟩

/-- The lookup-or-insert step keeps the strings of the dimension table in place. -/
theorem lookupOrAddRow_keeps_rows (d : DimensionTable) (s : String) :
    d.Rows <+: (d.lookupOrAddRow s).2.Rows := by
  unfold DimensionTable.lookupOrAddRow
  split
  · exact List.prefix_refl _
  · exact List.prefix_append _ _

/-- A step of the loop of normalizeRow extends the table, whatever its outcome. -/
theorem normalizeColumn_Extends (table : FactTable) (columnIndex : Nat) (value : Untyped)
    (rowSlice : List Byte) :
    table.Extends (table.normalizeColumn columnIndex value rowSlice).2 := by
  by_cases huse : table.columnUsesDimensionTable columnIndex = true
  · cases value with
    | string s =>
      cases hd : table.DimensionTables[columnIndex]? with
      | none =>
        simp only [FactTable.normalizeColumn, huse, if_true, hd]
        exact Extends_refl table
      | some d =>
        simp only [FactTable.normalizeColumn, huse, if_true, hd]
        refine ⟨rfl, rfl, rfl, rfl, rfl, rfl, rfl, rfl, List.length_set _ _ _, ?_⟩
        intro i d0 hd0
        by_cases hic : i = columnIndex
        · subst hic
          rw [hd] at hd0
          injection hd0 with hd0
          subst hd0
          refine ⟨(d.lookupOrAddRow s).2, ?_, lookupOrAddRow_keeps_rows d s,
            fun h => (lookupOrAddRow_step d h s).1⟩
          show (table.DimensionTables.set i (d.lookupOrAddRow s).2)[i]? = _
          rw [List.getElem?_set_self (List.getElem?_eq_some_iff.mp hd).1]
        · refine ⟨d0, ?_, List.prefix_refl _, id⟩
          show (table.DimensionTables.set columnIndex (d.lookupOrAddRow s).2)[i]? = _
          rw [List.getElem?_set_ne (fun h => hic h.symm)]
          exact hd0
    | _ =>
      simp only [FactTable.normalizeColumn, huse, if_true]
      split <;> exact Extends_refl table
  · unfold FactTable.normalizeColumn
    rw [if_neg huse]
    split <;> exact Extends_refl table

theorem normalizeLoop_Extends (rest : List Untyped) :
    ∀ (columnIndex : Nat) (rowSlice : List Byte) (table : FactTable),
      table.Extends (normalizeLoop rest columnIndex rowSlice table).2 := by
  induction rest with
  | nil => intro c row t; exact Extends_refl t
  | cons value rest ih =>
    intro c row t
    have h1 := normalizeColumn_Extends t c value row
    cases hstep : t.normalizeColumn c value row with
    | mk res t1 =>
      rw [hstep] at h1
      cases res with
      | ok row1 =>
        simp only [normalizeLoop, hstep]
        exact Extends_trans _ _ _ h1 (ih (c + 1) row1 t1)
      | error msg => simp only [normalizeLoop, hstep]; exact h1
      | panic msg => simp only [normalizeLoop, hstep]; exact h1

/-- The call normalizeRow extends the table, whatever its outcome. -/
theorem normalizeRow_Extends (table : FactTable) (rowMap : GoMap String Untyped) :
    table.Extends (table.normalizeRow rowMap).2 := by
  unfold FactTable.normalizeRow
  split
  · exact normalizeLoop_Extends _ 0 _ table
  · exact Extends_refl table
  · exact Extends_refl table

theorem insertNormalizedRow_Extends (table table1 : FactTable) (row : List Byte)
    (h : table.insertNormalizedRow row = .ok table1) : table.Extends table1 := by
  unfold FactTable.insertNormalizedRow at h
  split at h
  · cases h
  · cases h
  · split at h
    · cases h
    · injection h with h
      subst h
      exact ⟨rfl, rfl, rfl, rfl, rfl, rfl, rfl, rfl, rfl,
        fun _ d hd => ⟨d, hd, List.prefix_refl _, id⟩⟩

/-- The call InsertRowMaps extends the table, whatever its outcome. -/
theorem InsertRowMaps_Extends (rows : List (GoMap String Untyped)) :
    ∀ table : FactTable, table.Extends (table.InsertRowMaps rows).2 := by
  induction rows with
  | nil => intro table; exact Extends_refl table
  | cons rowMap rest ih =>
    intro table
    have h1 := normalizeRow_Extends table rowMap
    cases hn : table.normalizeRow rowMap with
    | mk res table1 =>
      rw [hn] at h1
      cases res with
      | ok normalizedRow =>
        cases hi : table1.insertNormalizedRow normalizedRow with
        | ok table2 =>
          simp only [FactTable.InsertRowMaps, hn, hi]
          exact Extends_trans _ _ _ h1
            (Extends_trans _ _ _ (insertNormalizedRow_Extends _ _ _ hi) (ih table2))
        | error msg => simp only [FactTable.InsertRowMaps, hn, hi]; exact h1
        | panic msg => simp only [FactTable.InsertRowMaps, hn, hi]; exact h1
      | error msg => simp only [FactTable.InsertRowMaps, hn]; exact h1
      | panic msg => simp only [FactTable.InsertRowMaps, hn]; exact h1

theorem afterBatches_Extends (batches : List (List (GoMap String Untyped))) :
    ∀ table : FactTable, table.Extends (table.afterBatches batches) := by
  induction batches with
  | nil => intro table; exact Extends_refl table
  | cons batch rest ih =>
    intro table
    exact Extends_trans _ _ _ (InsertRowMaps_Extends batch table)
      (ih (table.InsertRowMaps batch).2)

theorem storedId_Extends (table table1 : FactTable) (h : table.Extends table1)
    (row : List Byte) (i : Nat) : table1.storedId row i = table.storedId row i := by
  simp only [FactTable.storedId, FactTable.getColumnValue, h.indexToOffset, h.indexToType]

theorem holdsId_Extends (table table1 : FactTable) (h : table.Extends table1) (i : Nat)
    (id : Int) : table1.holdsId i id ↔ table.holdsId i id := by
  simp only [FactTable.holdsId, FactTable.storedId, FactTable.getColumnValue,
    FactTable.setColumnValue, h.indexToOffset, h.indexToType]

theorem getElem?_of_extends (l1 l2 : List String) (h : l1 <+: l2) (n : Nat) (s : String)
    (hn : l1[n]? = some s) : l2[n]? = some s := by
  obtain ⟨t, ht⟩ := h
  rw [← ht, List.getElem?_append_left (List.getElem?_eq_some_iff.mp hn).1]
  exact hn

/-- Exact representation of the ids of the longer dimension tables covers the shorter. -/
theorem Exact_of_Extends (table table1 : FactTable) (h : table.Extends table1)
    (he : table1.Exact) : table.Exact := by
  intro i d hd n hn
  obtain ⟨d1, hd1, hp, _⟩ := h.grow i d hd
  rw [← holdsId_Extends table table1 h]
  exact he i d1 hd1 n (Nat.lt_of_lt_of_le hn hp.length_le)

/-- A stored row stays the stored form of its row map while the table is extended. -/
theorem RowHolds_Extends (table table1 : FactTable) (h : table.Extends table1)
    (row : List Byte) (rowMap : GoMap String Untyped) (hr : table.RowHolds row rowMap) :
    table1.RowHolds row rowMap := by
  intro i d1 hd1
  have hi : i < table.DimensionTables.length := by
    rw [← h.dimsLength]; exact (List.getElem?_eq_some_iff.mp hd1).1
  obtain ⟨d1', hd1', hp, _⟩ := h.grow i _ (List.getElem?_eq_getElem hi)
  rw [hd1] at hd1'
  injection hd1' with hd1'
  subst hd1'
  obtain ⟨n, s, name, h1, h2, h3, h4⟩ := hr i _ (List.getElem?_eq_getElem hi)
  refine ⟨n, s, name, ?_, getElem?_of_extends _ _ hp n s h2, ?_, h4⟩
  · rw [storedId_Extends table table1 h]; exact h1
  · rw [h.indexToName]; exact h3

theorem DimsOK_Extends (table table1 : FactTable) (h : table.Extends table1)
    (hd : table.DimsOK) : table1.DimsOK := by
  intro i d1 hd1
  have hi : i < table.DimensionTables.length := by
    rw [← h.dimsLength]; exact (List.getElem?_eq_some_iff.mp hd1).1
  obtain ⟨d1', hd1', _, hok⟩ := h.grow i _ (List.getElem?_eq_getElem hi)
  rw [hd1] at hd1'
  injection hd1' with hd1'
  subst hd1'
  exact hok (hd i _ (List.getElem?_eq_getElem hi))

theorem HasLayoutOf_Extends (table table1 : FactTable) (schema : Schema)
    (h : table.Extends table1) (hs : table.HasLayoutOf schema) : table1.HasLayoutOf schema := by
  refine ⟨?_, ?_, ?_, ?_, ?_, ?_, ?_⟩
  · rw [h.columnCount, h.filePath, h.capacity]; exact hs.columnCount
  · rw [h.rowSize, h.filePath, h.capacity]; exact hs.rowSize
  · rw [h.nameToIndex, h.filePath, h.capacity]; exact hs.nameToIndex
  · rw [h.indexToName, h.filePath, h.capacity]; exact hs.indexToName
  · rw [h.indexToOffset, h.filePath, h.capacity]; exact hs.indexToOffset
  · rw [h.indexToType, h.filePath, h.capacity]; exact hs.indexToType
  · rw [h.dimsLength, h.filePath, h.capacity]; exact hs.dimensionTables

theorem get?_of_mem_WF {β : Type} (m : GoMap String β) (hwf : GoMap.WF m) (k : String) (v : β)
    (h : (k, v) ∈ m) : GoMap.get? m k = some v := by
  induction m with
  | nil => simp at h
  | cons kv rest ih =>
    obtain ⟨k0, v0⟩ := kv
    have hwf' : k0 ∉ GoMap.keys rest ∧ GoMap.WF rest := by
      simpa [GoMap.WF, GoMap.keys] using hwf
    rcases List.mem_cons.mp h with h | h
    · injection h with h1 h2
      subst h1
      subst h2
      simp [GoMap.get?]
    · have hk : k ∈ GoMap.keys rest := List.mem_map.mpr ⟨(k, v), h, rfl⟩
      have hne : ¬ k0 = k := fun e => hwf'.1 (e ▸ hk)
      simp only [GoMap.get?, if_neg hne]
      exact ih hwf'.2 h

/-- A string in a slot of the converted row is the value the row map gives the column of
that slot. -/
theorem convertRowMapToRowArray_string (table : FactTable) (schema : Schema)
    (hs : table.HasLayoutOf schema) (rowMap : GoMap String Untyped) (hwf : GoMap.WF rowMap)
    (arr : List Untyped) (harr : table.convertRowMapToRowArray rowMap = .ok arr)
    (i : Nat) (name s : String) (hi : i < table.ColumnCount)
    (hname : table.ColumnIndexToName[i]? = some name) (hv : arr[i]? = some (.string s)) :
    GoMap.get? rowMap name = some (.string s) := by
  by_cases hfree : ∀ k, k ∈ GoMap.keys rowMap → GoMap.get? table.ColumnNameToIndex k ≠ some i
  · have := convertRowMapToRowArray_nil table schema hs rowMap hwf arr harr i hi hfree
    rw [hv] at this
    cases this
  · push_neg at hfree
    obtain ⟨k, hk, hki⟩ := hfree
    obtain ⟨kv, hkv, hkv1⟩ := List.mem_map.mp hk
    obtain ⟨k', v⟩ := kv
    simp only at hkv1
    subst hkv1
    obtain ⟨_, hvals⟩ := convertRowMapToRowArray_values table schema hs rowMap hwf arr harr
    obtain ⟨i', hi', hn', hv'⟩ := hvals k' v hkv
    rw [hki] at hi'
    injection hi' with hi'
    subst hi'
    rw [hname] at hn'
    injection hn' with hn'
    subst hn'
    rw [hv] at hv'
    injection hv' with hv'
    subst hv'
    exact get?_of_mem_WF rowMap hwf _ _ hkv

/-- The row that normalizeRow returns: every string column got a string from the row map, the
dimension table of the column is the one the lookup of that string left, and the index read
back from the column is the id of the lookup when the element type of the column represents
that id exactly. -/
theorem normalizeRow_ids (table : FactTable) (schema : Schema)
    (hs : table.HasLayoutOf schema) (hvalid : schema.validTypes)
    (rowMap : GoMap String Untyped) (hwf : GoMap.WF rowMap) (row : List Byte)
    (table1 : FactTable) (hn : table.normalizeRow rowMap = (.ok row, table1)) :
    row.length = table.RowSize ∧
    ∀ (i : Nat) (d : DimensionTable), table.DimensionTables[i]? = some d →
      ∃ s name : String, table.ColumnIndexToName[i]? = some name ∧
        GoMap.get? rowMap name = some (.string s) ∧
        table1.DimensionTables[i]? = some (d.lookupOrAddRow s).2 ∧
        (table.holdsId i (d.lookupOrAddRow s).1 →
          table.storedId row i = .ok (d.lookupOrAddRow s).1) := by
  have hl := layout_LayoutOK table schema hs hvalid
  unfold FactTable.normalizeRow at hn
  cases harr : table.convertRowMapToRowArray rowMap with
  | error msg => rw [harr] at hn; simp at hn
  | panic msg => rw [harr] at hn; simp at hn
  | ok arr =>
    rw [harr] at hn
    simp only at hn
    have hlen := (convertRowMapToRowArray_values table schema hs rowMap hwf arr harr).1
    obtain ⟨k1, _, k3⟩ := normalizeLoop_ids schema hvalid arr 0 _ table row table1 hs
      (List.length_replicate _ _) (by omega) hn
    refine ⟨k1, ?_⟩
    intro i d hdi
    have hi : i < table.DimensionTables.length := (List.getElem?_eq_some_iff.mp hdi).1
    obtain ⟨s, hs1, hs2, hs3⟩ := k3 i d (Nat.zero_le _) hdi
    rw [Nat.sub_zero] at hs1
    have hic : i < table.ColumnCount := Nat.lt_of_lt_of_le hi hl.dims
    obtain ⟨name, hname⟩ : ∃ name, table.ColumnIndexToName[i]? = some name :=
      ⟨_, List.getElem?_eq_getElem (by rw [hl.names]; exact hic)⟩
    exact ⟨s, name, hname,
      convertRowMapToRowArray_string table schema hs rowMap hwf arr harr i name s hic hname hs1,
      hs2, hs3⟩

/-- The row that normalizeRow returns is the stored form of the row map, when the element
types of the string columns represent the ids of the dimension tables it leaves exactly. -/
theorem normalizeRow_RowHolds (table : FactTable) (schema : Schema)
    (hs : table.HasLayoutOf schema) (hvalid : schema.validTypes) (hd : table.DimsOK)
    (rowMap : GoMap String Untyped) (hwf : GoMap.WF rowMap) (row : List Byte)
    (table1 : FactTable) (hn : table.normalizeRow rowMap = (.ok row, table1))
    (hex : table1.Exact) :
    row.length = table.RowSize ∧ table1.RowHolds row rowMap := by
  have hext : table.Extends table1 := by
    have := normalizeRow_Extends table rowMap
    rw [hn] at this
    exact this
  obtain ⟨k1, k3⟩ := normalizeRow_ids table schema hs hvalid rowMap hwf row table1 hn
  refine ⟨k1, ?_⟩
  intro i d1 hd1
  have hi : i < table.DimensionTables.length := by
    rw [← hext.dimsLength]; exact (List.getElem?_eq_some_iff.mp hd1).1
  have hdi := List.getElem?_eq_getElem hi
  generalize table.DimensionTables[i] = d at hdi
  obtain ⟨s, name, hname, hget, hs2, hs3⟩ := k3 i d hdi
  rw [hd1] at hs2
  injection hs2 with hs2
  have hok := hd i d hdi
  have hname1 : table1.ColumnIndexToName[i]? = some name := by
    rw [hext.indexToName]; exact hname
  by_cases hmem : s ∈ d.Rows
  · have hlook := lookupOrAddRow_seen d hok s hmem
    rw [hlook] at hs2 hs3
    simp only at hs2 hs3
    have hlt : d.Rows.indexOf s < d.Rows.length := List.indexOf_lt_length.mpr hmem
    refine ⟨d.Rows.indexOf s, s, name, ?_, ?_, hname1, hget⟩
    · rw [storedId_Extends table table1 hext]
      apply hs3
      rw [← holdsId_Extends table table1 hext]
      exact hex i d1 hd1 _ (by rw [hs2]; exact hlt)
    · rw [hs2]
      exact List.getElem?_indexOf hmem
  · have hlook := lookupOrAddRow_new d hok s hmem
    rw [hlook] at hs2 hs3
    simp only at hs2 hs3
    refine ⟨d.Rows.length, s, name, ?_, ?_, hname1, hget⟩
    · rw [storedId_Extends table table1 hext]
      apply hs3
      rw [← holdsId_Extends table table1 hext]
      exact hex i d1 hd1 _ (by rw [hs2]; simp)
    · rw [hs2]
      exact List.getElem?_concat_length _ _

theorem length_getRowSlice (table : FactTable) (r : Nat) (row : List Byte)
    (h : table.getRowSlice r = .ok row) : row.length = table.RowSize := by
  simp only [FactTable.getRowSlice, FactTable.Rows, FactTable.getRowOffset] at h
  split at h
  · rename_i hb
    injection h with h
    rw [← h, List.length_take, List.length_drop]
    omega
  · cases h

theorem getRowSlice_eq (table : FactTable) (h : table.RingOK) (r : Nat)
    (hr : r < table.Capacity) :
    table.getRowSlice r = .ok ((table.rows.drop (r * table.RowSize)).take table.RowSize) := by
  have hb := slot_in_bounds table h r hr
  simp only [FactTable.getRowSlice, FactTable.Rows, FactTable.getRowOffset] at hb ⊢
  rw [if_pos hb]

theorem IdsOK_mono (table : FactTable) (schema : Schema)
    (inserted inserted1 : List (GoMap String Untyped)) (hsub : inserted ⊆ inserted1)
    (h : table.IdsOK schema inserted) : table.IdsOK schema inserted1 :=
  ⟨h.layout, h.ring, h.dims, h.count, h.cursor, fun r hr => by
    obtain ⟨row, rowMap, h1, h2, h3⟩ := h.stored r hr
    exact ⟨row, rowMap, h1, hsub h2, h3⟩⟩

/-- A table that differs from one with the invariant in its dimension tables alone, and
extends it, has the invariant. -/
theorem IdsOK_setDims (table : FactTable) (schema : Schema)
    (inserted : List (GoMap String Untyped)) (dims : List DimensionTable)
    (h : table.IdsOK schema inserted)
    (hext : table.Extends { table with DimensionTables := dims }) :
    ({ table with DimensionTables := dims } : FactTable).IdsOK schema inserted :=
  ⟨HasLayoutOf_Extends _ _ schema hext h.layout, ⟨h.ring.len, h.ring.pos⟩,
    DimsOK_Extends _ _ hext h.dims, h.count, h.cursor, fun r hr => by
      obtain ⟨row, rowMap, h1, h2, h3⟩ := h.stored r hr
      exact ⟨row, rowMap, h1, h2, RowHolds_Extends _ _ hext row rowMap h3⟩⟩

/-- Writing the stored form of a row map to the ring keeps the invariant; the row sits in
the slot the write cursor named. -/
theorem insertNormalizedRow_IdsOK (table : FactTable) (schema : Schema)
    (inserted : List (GoMap String Untyped)) (rowMap : GoMap String Untyped)
    (row : List Byte) (h : table.IdsOK schema inserted) (hlen : row.length = table.RowSize)
    (hrow : table.RowHolds row rowMap) :
    ∃ table2, table.insertNormalizedRow row = .ok table2 ∧
      table2.IdsOK schema (inserted ++ [rowMap]) ∧
      table2.getRowSlice table.NextInsertPosition = .ok row ∧
      table2.DimensionTables = table.DimensionTables ∧
      table2.Capacity = table.Capacity ∧
      table2.Count = (if table.Count < table.Capacity then table.Count + 1 else table.Count) ∧
      table2.NextInsertPosition = (table.NextInsertPosition + 1) % table.Capacity := by
  have heq := insertNormalizedRow_eq table h.ring row
  obtain ⟨hring2, hcap2, hsize2⟩ := insertNormalizedRow_RingOK table _ h.ring row heq
  have hext := insertNormalizedRow_Extends table _ row heq
  have hbound : table.NextInsertPosition * table.RowSize + table.RowSize
      ≤ table.rows.length := slot_in_bounds table h.ring _ h.ring.pos
  have hslot : ∀ r, r < table.Capacity →
      FactTable.getRowSlice { table with
        rows := copyInto table.rows (table.getRowOffset table.NextInsertPosition)
          table.RowSize row
        NextInsertPosition := (table.NextInsertPosition + 1) % table.Capacity
        Count := if table.Count < table.Capacity then table.Count + 1 else table.Count } r
      = .ok (((copyInto table.rows (table.NextInsertPosition * table.RowSize)
          table.RowSize row).drop (r * table.RowSize)).take table.RowSize) := by
    intro r hr
    exact getRowSlice_eq _ hring2 r hr
  have hpos : FactTable.getRowSlice { table with
        rows := copyInto table.rows (table.getRowOffset table.NextInsertPosition)
          table.RowSize row
        NextInsertPosition := (table.NextInsertPosition + 1) % table.Capacity
        Count := if table.Count < table.Capacity then table.Count + 1 else table.Count }
        table.NextInsertPosition = .ok row := by
    rw [hslot _ h.ring.pos, slice_copyInto_same _ _ _ _ hbound hlen]
  refine ⟨_, heq, ⟨HasLayoutOf_Extends _ _ schema hext h.layout, hring2,
    DimsOK_Extends _ _ hext h.dims, ?_, ?_, ?_⟩, hpos, rfl, rfl, rfl, rfl⟩
  · show (if table.Count < table.Capacity then table.Count + 1 else table.Count)
      ≤ table.Capacity
    have := h.count
    split <;> omega
  · show (if table.Count < table.Capacity then table.Count + 1 else table.Count)
        < table.Capacity →
      (table.NextInsertPosition + 1) % table.Capacity
        = (if table.Count < table.Capacity then table.Count + 1 else table.Count)
    intro hlt
    have hc := h.count
    by_cases hcc : table.Count < table.Capacity
    · rw [if_pos hcc] at hlt ⊢
      rw [h.cursor hcc]
      exact Nat.mod_eq_of_lt hlt
    · rw [if_neg hcc] at hlt
      omega
  · intro r hr
    have hr' : r < (if table.Count < table.Capacity then table.Count + 1 else table.Count) :=
      hr
    by_cases hrp : r = table.NextInsertPosition
    · subst hrp
      exact ⟨row, rowMap, hpos, by simp, RowHolds_Extends _ _ hext row rowMap hrow⟩
    · have hrc : r < table.Count := by
        by_cases hcc : table.Count < table.Capacity
        · rw [if_pos hcc] at hr'
          have := h.cursor hcc
          omega
        · rw [if_neg hcc] at hr'
          exact hr'
      have hrcap : r < table.Capacity := Nat.lt_of_lt_of_le hrc h.count
      obtain ⟨row0, rowMap0, g1, g2, g3⟩ := h.stored r hrc
      rw [getRowSlice_eq table h.ring r hrcap] at g1
      injection g1 with g1
      refine ⟨row0, rowMap0, ?_, List.mem_append_left _ g2,
        RowHolds_Extends _ _ hext row0 rowMap0 g3⟩
      rw [hslot r hrcap, slice_copyInto_other _ _ _ _ _ hbound (fun e => hrp e.symm), g1]

/-- The call InsertRowMaps keeps the invariant, whatever its outcome, when the element types
of the string columns represent the ids of the dimension tables it leaves exactly. -/
theorem InsertRowMaps_IdsOK (schema : Schema) (hvalid : schema.validTypes)
    (rows : List (GoMap String Untyped)) :
    ∀ (table : FactTable) (inserted : List (GoMap String Untyped)),
      table.IdsOK schema inserted → (∀ rowMap ∈ rows, GoMap.WF rowMap) →
      (table.InsertRowMaps rows).2.Exact →
      (table.InsertRowMaps rows).2.IdsOK schema (inserted ++ rows) := by
  induction rows with
  | nil =>
    intro table inserted h _ _
    rw [List.append_nil]
    exact h
  | cons rowMap rest ih =>
    intro table inserted h hwf hex
    obtain ⟨dims, hframe, _⟩ := normalizeRow_frame table rowMap
    have hext1 := normalizeRow_Extends table rowMap
    cases hn : table.normalizeRow rowMap with
    | mk res table1 =>
      rw [hn] at hframe hext1
      simp only at hframe hext1
      subst hframe
      have hI1 := IdsOK_setDims table schema inserted dims h hext1
      cases res with
      | ok normalizedRow =>
        have hfinal : (table.InsertRowMaps (rowMap :: rest)).2.Exact := hex
        cases hi : FactTable.insertNormalizedRow { table with DimensionTables := dims }
            normalizedRow with
        | ok table2 =>
          simp only [FactTable.InsertRowMaps, hn, hi] at hex ⊢
          have hext2 := insertNormalizedRow_Extends _ _ _ hi
          have hext3 := InsertRowMaps_Extends rest table2
          have hex1 : FactTable.Exact { table with DimensionTables := dims } :=
            Exact_of_Extends _ _ (Extends_trans _ _ _ hext2 hext3) hex
          obtain ⟨hlen, hrow⟩ := normalizeRow_RowHolds table schema h.layout hvalid h.dims
            rowMap (hwf rowMap (List.mem_cons_self _ _)) normalizedRow _ hn hex1
          obtain ⟨t2, g1, g2, _⟩ := insertNormalizedRow_IdsOK _ schema inserted rowMap
            normalizedRow hI1 hlen hrow
          rw [hi] at g1
          injection g1 with g1
          subst g1
          have := ih table2 (inserted ++ [rowMap]) g2
            (fun m hm => hwf m (List.mem_cons_of_mem _ hm)) hex
          rw [List.append_assoc] at this
          exact this
        | error msg =>
          simp only [FactTable.InsertRowMaps, hn, hi]
          exact IdsOK_mono _ schema _ _ (List.subset_append_left _ _) hI1
        | panic msg =>
          simp only [FactTable.InsertRowMaps, hn, hi]
          exact IdsOK_mono _ schema _ _ (List.subset_append_left _ _) hI1
      | error msg =>
        simp only [FactTable.InsertRowMaps, hn]
        exact IdsOK_mono _ schema _ _ (List.subset_append_left _ _) hI1
      | panic msg =>
        simp only [FactTable.InsertRowMaps, hn]
        exact IdsOK_mono _ schema _ _ (List.subset_append_left _ _) hI1

theorem afterBatches_IdsOK (schema : Schema) (hvalid : schema.validTypes)
    (batches : List (List (GoMap String Untyped))) :
    ∀ (table : FactTable) (inserted : List (GoMap String Untyped)),
      table.IdsOK schema inserted → (∀ batch ∈ batches, ∀ rowMap ∈ batch, GoMap.WF rowMap) →
      (table.afterBatches batches).Exact →
      (table.afterBatches batches).IdsOK schema (inserted ++ batches.flatten) := by
  induction batches with
  | nil =>
    intro table inserted h _ _
    rw [List.flatten_nil, List.append_nil]
    exact h
  | cons batch rest ih =>
    intro table inserted h hwf hex
    have hex' : ((table.InsertRowMaps batch).2.afterBatches rest).Exact := hex
    have h1 := InsertRowMaps_IdsOK schema hvalid batch table inserted h
      (hwf batch (List.mem_cons_self _ _))
      (Exact_of_Extends _ _ (afterBatches_Extends rest _) hex')
    have := ih (table.InsertRowMaps batch).2 (inserted ++ batch) h1
      (fun b hb => hwf b (List.mem_cons_of_mem _ hb)) hex'
    rw [List.flatten_cons, ← List.append_assoc]
    exact this

/-- A new table with room for a row has the invariant. -/
theorem NewFactTable_IdsOK (filePath : String) (rowCount : Nat) (schema : Schema)
    (hcap : 0 < rowCount) : (NewFactTable filePath rowCount schema).IdsOK schema [] where
  layout := NewFactTable_HasLayoutOf filePath rowCount schema
  ring := NewFactTable_RingOK filePath rowCount schema hcap
  dims := by
    intro i d hd
    have hmem := List.getElem?_mem hd
    simp only [NewFactTable, List.mem_map] at hmem
    obtain ⟨name, _, hname⟩ := hmem
    rw [← hname]
    exact internOK_nil
  count := Nat.zero_le _
  cursor := fun _ => rfl
  stored := fun r hr => absurd hr (Nat.not_lt_zero r)

/-- On a well laid out table the read of a column of a full row returns a value. -/
theorem getColumnValue_ok (table : FactTable) (hl : table.LayoutOK) (row : List Byte)
    (column : Nat) (hrow : row.length = table.RowSize) (hcol : column < table.ColumnCount) :
    ∃ value, table.getColumnValue row column = .ok value := by
  obtain ⟨off, hoff⟩ : ∃ o, table.ColumnIndexToOffset[column]? = some o :=
    ⟨_, List.getElem?_eq_getElem (by rw [hl.offsets]; exact hcol)⟩
  obtain ⟨ty, hty⟩ : ∃ t, table.ColumnIndexToType[column]? = some t :=
    ⟨_, List.getElem?_eq_getElem (by rw [hl.types]; exact hcol)⟩
  obtain ⟨mk, hmk⟩ := getColumnValue_eq_load table hl column off ty hoff hty
  have hfit := hl.fits column off ty hoff hty
  rw [← hrow] at hfit
  exact ⟨_, by rw [hmk row hrow, loadValue_ok _ _ _ _ hfit]⟩

/-- The loop of DenormalizeRow returns when every column it visits has a name, a value and
a denormalized value. -/
theorem denormalizeLoop_ok (table : FactTable) (row : List Byte) (cols : List Nat) :
    ∀ result : GoMap String Untyped,
      (∀ i ∈ cols, ∃ (name : String) (value v : Untyped),
        table.ColumnIndexToName[i]? = some name ∧ table.getColumnValue row i = .ok value ∧
        table.denormalizeColumnValue value i = .ok v) →
      ∃ out, denormalizeLoop table row cols result = .ok out := by
  induction cols with
  | nil => intro result _; exact ⟨result, rfl⟩
  | cons i rest ih =>
    intro result h
    obtain ⟨name, value, v, h1, h2, h3⟩ := h i (List.mem_cons_self _ _)
    obtain ⟨out, hout⟩ := ih (GoMap.set result name v)
      (fun j hj => h j (List.mem_cons_of_mem _ hj))
    exact ⟨out, by simp only [denormalizeLoop, h1, h2, h3, hout]⟩

/-- The loop of GetRowMaps returns when every row it visits can be sliced and
denormalized. -/
theorem getRowMapsLoop_ok (table : FactTable) (n : Nat) :
    ∀ (i : Nat) (results : List (GoMap String Untyped)),
      (∀ r, i ≤ r → r < i + n →
        ∃ row rowMap, table.getRowSlice r = .ok row ∧ table.DenormalizeRow row = .ok rowMap) →
      ∃ out, table.getRowMapsLoop n i results = .ok out ∧ out.length = results.length + n := by
  induction n with
  | zero => intro i results _; exact ⟨results, rfl, rfl⟩
  | succ n ih =>
    intro i results h
    obtain ⟨row, rowMap, h1, h2⟩ := h i (Nat.le_refl i) (by omega)
    obtain ⟨out, hout, hlen⟩ := ih (i + 1) (results ++ [rowMap])
      (fun r hr1 hr2 => h r (by omega) (by omega))
    refine ⟨out, by simp only [FactTable.getRowMapsLoop, h1, h2, hout], ?_⟩
    rw [hlen, List.length_append, List.length_singleton]
    omega

/-- A row that is the stored form of a row map, in a table whose dimension tables hold at
most `2^31` strings: the index read back from a string column is an index of the dimension
table of the column, the string there is the string of the row map, denormalizeColumnValue
returns it, and DenormalizeRow returns. -/
theorem denormalize_stored (table : FactTable) (schema : Schema)
    (hs : table.HasLayoutOf schema) (hvalid : schema.validTypes) (row : List Byte)
    (rowMap : GoMap String Untyped) (hlen : row.length = table.RowSize)
    (hrow : table.RowHolds row rowMap)
    (hbound : ∀ (i : Nat) (d : DimensionTable), table.DimensionTables[i]? = some d →
      d.Rows.length ≤ 2 ^ 31) :
    (∀ (i : Nat) (d : DimensionTable), table.DimensionTables[i]? = some d →
      ∃ (n : Nat) (s name : String) (value : Untyped),
        table.getColumnValue row i = .ok value ∧ table.storedId row i = .ok (n : Int) ∧
        n < d.Rows.length ∧ d.Rows[n]? = some s ∧
        table.ColumnIndexToName[i]? = some name ∧
        GoMap.get? rowMap name = some (.string s) ∧
        table.denormalizeColumnValue value i = .ok (.string s)) ∧
    ∃ result, table.DenormalizeRow row = .ok result := by
  have hl := layout_LayoutOK table schema hs hvalid
  have hstr : ∀ (i : Nat) (d : DimensionTable), table.DimensionTables[i]? = some d →
      ∃ (n : Nat) (s name : String) (value : Untyped),
        table.getColumnValue row i = .ok value ∧ table.storedId row i = .ok (n : Int) ∧
        n < d.Rows.length ∧ d.Rows[n]? = some s ∧
        table.ColumnIndexToName[i]? = some name ∧
        GoMap.get? rowMap name = some (.string s) ∧
        table.denormalizeColumnValue value i = .ok (.string s) := by
    intro i d hd
    obtain ⟨n, s, name, h1, h2, h3, h4⟩ := hrow i d hd
    have hn : n < d.Rows.length := (List.getElem?_eq_some_iff.mp h2).1
    have hn31 : n < 2 ^ 31 := Nat.lt_of_lt_of_le hn (hbound i d hd)
    rw [wrapInt_of_lt n hn31] at h1
    have hi : i < table.DimensionTables.length := (List.getElem?_eq_some_iff.mp hd).1
    have huse : table.columnUsesDimensionTable i = true := by
      simp [FactTable.columnUsesDimensionTable, hi]
    cases hg : table.getColumnValue row i with
    | error msg => simp [FactTable.storedId, hg, Result.bind] at h1
    | panic msg => simp [FactTable.storedId, hg, Result.bind] at h1
    | ok value =>
      cases hc : convertUntypedToFloat64 value with
      | error msg => simp [FactTable.storedId, hg, Result.bind, hc, Result.map] at h1
      | panic msg => simp [FactTable.storedId, hg, Result.bind, hc, Result.map] at h1
      | ok f =>
        have h1' := h1
        simp only [FactTable.storedId, hg, Result.bind, hc, Result.map, Result.ok.injEq] at h1'
        refine ⟨n, s, name, value, rfl, h1, hn, h2, h3, h4, ?_⟩
        have hidx : indexStrings d.Rows (n : Int) = .ok s := by
          have : ¬ ((n : Int) < 0) := by omega
          simp only [indexStrings, this, if_false, Int.toNat_ofNat, h2]
        simp only [FactTable.denormalizeColumnValue, huse, if_true, hd, hc, h1', hidx]
  refine ⟨hstr, ?_⟩
  apply denormalizeLoop_ok
  intro i hi
  have hic : i < table.ColumnCount := List.mem_range.mp hi
  obtain ⟨name, hname⟩ : ∃ name, table.ColumnIndexToName[i]? = some name :=
    ⟨_, List.getElem?_eq_getElem (by rw [hl.names]; exact hic)⟩
  by_cases hdim : i < table.DimensionTables.length
  · obtain ⟨_, s, name', value, g1, _, _, _, _, _, g7⟩ :=
      hstr i _ (List.getElem?_eq_getElem hdim)
    exact ⟨name, value, .string s, hname, g1, g7⟩
  · obtain ⟨value, hvalue⟩ := getColumnValue_ok table hl row i hlen hic
    have huse : table.columnUsesDimensionTable i = false := by
      simp [FactTable.columnUsesDimensionTable]; omega
    exact ⟨name, value, value, hname, hvalue, by
      simp only [FactTable.denormalizeColumnValue, huse, Bool.false_eq_true, if_false]⟩

/-- Claim C27 (amended). Take a new table with room for at least one row and insert batches
of row maps through InsertRowMaps, whatever the outcome of each call. Suppose that the
element type of every string column represents every id assigned so far exactly, and that no
dimension table holds more than `2^31` strings. Then every row below `Count` is the stored
form of one of the row maps given: in every string column the index read back is an index
`n` of the dimension table of the column, `0 ≤ n < len(Rows)`, and `Rows[n]` is the string
that row map gives the column, which is what denormalizeColumnValue returns; DenormalizeRow
returns on the row, and GetRowMaps returns on every range of rows below `Count`. -/
theorem C27_stored_ids_valid (filePath : String) (rowCount : Nat) (schema : Schema)
    (batches : List (List (GoMap String Untyped)))
    (hcap : 0 < rowCount) (hvalid : schema.validTypes)
    (hwf : ∀ batch ∈ batches, ∀ rowMap ∈ batch, GoMap.WF rowMap)
    (hexact : ((NewFactTable filePath rowCount schema).afterBatches batches).Exact)
    (hbound : ∀ (i : Nat) (d : DimensionTable),
      ((NewFactTable filePath rowCount schema).afterBatches batches).DimensionTables[i]?
        = some d → d.Rows.length ≤ 2 ^ 31) :
    (∀ r, r < ((NewFactTable filePath rowCount schema).afterBatches batches).Count →
      ∃ row rowMap,
        ((NewFactTable filePath rowCount schema).afterBatches batches).getRowSlice r
          = .ok row ∧
        rowMap ∈ batches.flatten ∧
        (∀ (i : Nat) (d : DimensionTable),
          ((NewFactTable filePath rowCount schema).afterBatches batches).DimensionTables[i]?
            = some d →
          ∃ (n : Nat) (s name : String) (value : Untyped),
            ((NewFactTable filePath rowCount schema).afterBatches batches).getColumnValue
              row i = .ok value ∧
            ((NewFactTable filePath rowCount schema).afterBatches batches).storedId row i
              = .ok (n : Int) ∧
            n < d.Rows.length ∧ d.Rows[n]? = some s ∧
            ((NewFactTable filePath rowCount schema).afterBatches batches).ColumnIndexToName[i]?
              = some name ∧
            GoMap.get? rowMap name = some (.string s) ∧
            ((NewFactTable filePath rowCount schema).afterBatches
              batches).denormalizeColumnValue value i = .ok (.string s)) ∧
        ∃ result,
          ((NewFactTable filePath rowCount schema).afterBatches batches).DenormalizeRow row
            = .ok result) ∧
    (∀ start end' : Nat, start ≤ end' →
      end' ≤ ((NewFactTable filePath rowCount schema).afterBatches batches).Count →
      ∃ results,
        ((NewFactTable filePath rowCount schema).afterBatches batches).GetRowMaps start end'
          = .ok results ∧ results.length = end' - start) := by
  have hI := afterBatches_IdsOK schema hvalid batches _ []
    (NewFactTable_IdsOK filePath rowCount schema hcap) hwf hexact
  rw [List.nil_append] at hI
  generalize (NewFactTable filePath rowCount schema).afterBatches batches = table at *
  have hrows : ∀ r, r < table.Count →
      ∃ row rowMap, table.getRowSlice r = .ok row ∧ rowMap ∈ batches.flatten ∧
        (∀ (i : Nat) (d : DimensionTable), table.DimensionTables[i]? = some d →
          ∃ (n : Nat) (s name : String) (value : Untyped),
            table.getColumnValue row i = .ok value ∧ table.storedId row i = .ok (n : Int) ∧
            n < d.Rows.length ∧ d.Rows[n]? = some s ∧
            table.ColumnIndexToName[i]? = some name ∧
            GoMap.get? rowMap name = some (.string s) ∧
            table.denormalizeColumnValue value i = .ok (.string s)) ∧
        ∃ result, table.DenormalizeRow row = .ok result := by
    intro r hr
    obtain ⟨row, rowMap, h1, h2, h3⟩ := hI.stored r hr
    obtain ⟨g1, g2⟩ := denormalize_stored table schema hI.layout hvalid row rowMap
      (length_getRowSlice table r row h1) h3 hbound
    exact ⟨row, rowMap, h1, h2, g1, g2⟩
  refine ⟨hrows, ?_⟩
  intro start end' hse hec
  obtain ⟨out, hout, hlen⟩ := getRowMapsLoop_ok table (end' - start) start []
    (fun r hr1 hr2 => by
      obtain ⟨row, _, h1, _, _, result, h4⟩ := hrows r (by omega)
      exact ⟨row, result, h1, h4⟩)
  refine ⟨out, ?_, by simpa using hlen⟩
  simp only [FactTable.GetRowMaps, if_neg (Nat.not_lt.mpr hse), hout]

set_option maxRecDepth 100000 in
/-- Witness for the amended claim C27: the fixture after the batch of the two rows most
tests insert; both ids fit the `float32` column, and GetRowMaps returns both rows. -/
theorem C27_stored_ids_valid_witness :
    ∃ results,
      (tableFixture.afterBatches
        [[[("col1", .float64 (Float64.ofInt 1)), ("col2", .string "stringvalue1")],
          [("col1", .float64 (Float64.ofInt 2)), ("col2", .string "stringvalue2")]]]).GetRowMaps
          0 2 = .ok results ∧ results.length = 2 - 0 := by
  have hdims : (tableFixture.afterBatches
      [[[("col1", .float64 (Float64.ofInt 1)), ("col2", .string "stringvalue1")],
        [("col1", .float64 (Float64.ofInt 2)), ("col2", .string "stringvalue2")]]]).DimensionTables
      = [⟨"col2", ["stringvalue1", "stringvalue2"],
          [("stringvalue1", 0), ("stringvalue2", 1)]⟩] := by decide
  exact (C27_stored_ids_valid "" 10 fixtureSchema
    [[[("col1", .float64 (Float64.ofInt 1)), ("col2", .string "stringvalue1")],
      [("col1", .float64 (Float64.ofInt 2)), ("col2", .string "stringvalue2")]]]
    (by decide) (by decide) (by decide)
    (by
      intro i d hd n hn
      have hd' : (tableFixture.afterBatches
          [[[("col1", .float64 (Float64.ofInt 1)), ("col2", .string "stringvalue1")],
            [("col1", .float64 (Float64.ofInt 2)),
              ("col2", .string "stringvalue2")]]]).DimensionTables[i]? = some d := hd
      rw [hdims] at hd'
      cases i with
      | succ j => simp at hd'
      | zero =>
        simp only [List.getElem?_cons_zero, Option.some.injEq] at hd'
        subst hd'
        have hn' : n < 2 := hn
        interval_cases n
        · exact holdsId_float32 _ 0 0 (by decide) (by decide) _ (by decide)
        · exact holdsId_float32 _ 0 0 (by decide) (by decide) _ (by decide))
    (by
      intro i d hd
      have hd' : (tableFixture.afterBatches
          [[[("col1", .float64 (Float64.ofInt 1)), ("col2", .string "stringvalue1")],
            [("col1", .float64 (Float64.ofInt 2)),
              ("col2", .string "stringvalue2")]]]).DimensionTables[i]? = some d := hd
      rw [hdims] at hd'
      cases i with
      | succ j => simp at hd'
      | zero =>
        simp only [List.getElem?_cons_zero, Option.some.injEq] at hd'
        subst hd'
        norm_num)).2 0 2 (by decide) (by decide)

/-- The layout of a table of `int32Schema`: the one column `s`, four bytes wide. -/
theorem int32_layout (table : FactTable) (hs : table.HasLayoutOf int32Schema) :
    table.ColumnCount = 1 ∧ table.RowSize = 4 ∧ table.ColumnNameToIndex = [("s", 0)] ∧
    table.ColumnIndexToName = ["s"] ∧ table.ColumnIndexToOffset = [0] ∧
    table.ColumnIndexToType = [Int32Type] ∧ table.DimensionTables.length = 1 :=
  ⟨hs.columnCount, hs.rowSize, hs.nameToIndex, hs.indexToName, hs.indexToOffset,
    hs.indexToType, hs.dimensionTables⟩

theorem wrapInt_32_range (z : Int) : -2 ^ 31 ≤ wrapInt 32 z ∧ wrapInt 32 z < 2 ^ 31 := by
  unfold wrapInt
  have h1 : (0 : Int) ≤ (z + 2 ^ (32 - 1)) % 2 ^ 32 := Int.emod_nonneg _ (by norm_num)
  have h2 : (z + 2 ^ (32 - 1)) % 2 ^ 32 < 2 ^ 32 := Int.emod_lt_of_pos _ (by norm_num)
  norm_num at h1 h2 ⊢
  omega

/-- The id that the lookup-or-insert step returns is a number of the `int32` range. -/
theorem lookupOrAddRow_id_range (d : DimensionTable) (hok : InternOK d.Rows d.ValueToId)
    (s : String) :
    -2 ^ 31 ≤ (d.lookupOrAddRow s).1 ∧ (d.lookupOrAddRow s).1 < 2 ^ 31 := by
  by_cases hmem : s ∈ d.Rows
  · rw [lookupOrAddRow_seen d hok s hmem]
    exact wrapInt_32_range _
  · rw [lookupOrAddRow_new d hok s hmem]
    exact wrapInt_32_range _

/-- A string column stored as `int32` represents every id of a dimension table exactly. -/
theorem Exact_int32 (table : FactTable) (hs : table.HasLayoutOf int32Schema) :
    table.Exact := by
  obtain ⟨_, _, _, _, hoff, hty, hdl⟩ := int32_layout table hs
  intro i d hd n _
  have hi : i < table.DimensionTables.length := (List.getElem?_eq_some_iff.mp hd).1
  have hi0 : i = 0 := by omega
  subst hi0
  exact holdsId_int32 table 0 0 (by rw [hoff]; rfl) (by rw [hty]; rfl) _
    (wrapInt_32_range _).1 (wrapInt_32_range _).2

/-- Inserting the row map that gives the string `s` to the one column of a table of
`int32Schema`: the row is written at the write cursor, the dimension table is the one the
lookup of `s` left, and the index read back from the row is the id of the lookup. -/
theorem int32_insert_one (table : FactTable) (inserted : List (GoMap String Untyped))
    (d : DimensionTable) (s : String) (h : table.IdsOK int32Schema inserted)
    (hd : table.DimensionTables = [d]) :
    ∃ (row : List Byte) (table2 : FactTable),
      (∀ rest, table.InsertRowMaps ([("s", .string s)] :: rest) = table2.InsertRowMaps rest) ∧
      table2.IdsOK int32Schema (inserted ++ [[("s", .string s)]]) ∧
      table2.DimensionTables = [(d.lookupOrAddRow s).2] ∧
      table2.Capacity = table.Capacity ∧
      table2.getRowSlice table.NextInsertPosition = .ok row ∧
      table2.storedId row 0 = .ok (d.lookupOrAddRow s).1 ∧
      table2.Count = (if table.Count < table.Capacity then table.Count + 1 else table.Count) := by
  have hvalid : int32Schema.validTypes := by decide
  have hwf : GoMap.WF ([("s", .string s)] : GoMap String Untyped) := by
    simp [GoMap.WF, GoMap.keys]
  obtain ⟨hcc, hrs, hni, hin, hoff, hty, hdl⟩ := int32_layout table h.layout
  have hl := layout_LayoutOK table int32Schema h.layout hvalid
  -- normalizeRow returns a row
  have harr : table.convertRowMapToRowArray [("s", .string s)] = .ok [.string s] := by
    simp [FactTable.convertRowMapToRowArray, convertLoop, hcc, hni, GoMap.get?]
  obtain ⟨row, t1, hstep, _⟩ := normalizeColumn_string table hl 0 s
    (List.replicate table.RowSize 0) (List.length_replicate _ _) (by omega)
  have hn : table.normalizeRow [("s", .string s)] = (.ok row, t1) := by
    simp only [FactTable.normalizeRow, harr, normalizeLoop, hstep]
  obtain ⟨dims, hframe, hdimsl⟩ := normalizeRow_frame table [("s", .string s)]
  have hext := normalizeRow_Extends table [("s", .string s)]
  rw [hn] at hframe hext
  simp only at hframe hext
  subst hframe
  -- what the row holds
  obtain ⟨hlen, hids⟩ := normalizeRow_ids table int32Schema h.layout hvalid _ hwf row _ hn
  obtain ⟨s', name, hname, hget, hd1, hst⟩ := hids 0 d (by rw [hd]; rfl)
  rw [hin] at hname
  simp only [List.getElem?_cons_zero, Option.some.injEq] at hname
  subst hname
  simp only [GoMap.get?, if_true, Option.some.injEq, Untyped.string.injEq] at hget
  subst hget
  have hdims : dims = [(d.lookupOrAddRow s).2] := by
    have hd1' : dims[0]? = some (d.lookupOrAddRow s).2 := hd1
    obtain ⟨x, hx⟩ := List.length_eq_one.mp (hdimsl.trans hdl)
    rw [hx] at hd1' ⊢
    simp only [List.getElem?_cons_zero, Option.some.injEq] at hd1'
    rw [hd1']
  have hI1 := IdsOK_setDims table int32Schema inserted dims h hext
  have hex1 := Exact_int32 _ hI1.layout
  obtain ⟨_, hrow⟩ := normalizeRow_RowHolds table int32Schema h.layout hvalid h.dims _ hwf
    row _ hn hex1
  obtain ⟨t2, g1, g2, g3, g4, g5, g6, _⟩ := insertNormalizedRow_IdsOK _ int32Schema inserted
    [("s", .string s)] row hI1 hlen hrow
  have hext2 := insertNormalizedRow_Extends _ _ _ g1
  refine ⟨row, t2, ?_, g2, g4.trans hdims, g5, g3, ?_, g6⟩
  · intro rest
    simp only [FactTable.InsertRowMaps, hn, g1]
  · rw [storedId_Extends _ _ (Extends_trans _ _ _ hext hext2)]
    obtain ⟨r1, r2⟩ := lookupOrAddRow_id_range d (h.dims 0 d (by rw [hd]; rfl)) s
    exact hst (holdsId_int32 table 0 0 (by rw [hoff]; rfl) (by rw [hty]; rfl) _ r1 r2)

/-- A batch of row maps that give one string each to the one column of a table of
`int32Schema` goes through: the dimension table is the one the lookups of the strings
leave. -/
theorem int32_batch (ss : List String) :
    ∀ (table : FactTable) (inserted : List (GoMap String Untyped)) (d : DimensionTable),
      table.IdsOK int32Schema inserted → table.DimensionTables = [d] →
      ∃ inserted1,
        (table.InsertRowMaps
          (ss.map (fun s => [("s", Untyped.string s)]))).2.IdsOK int32Schema inserted1 ∧
        (table.InsertRowMaps
          (ss.map (fun s => [("s", Untyped.string s)]))).2.DimensionTables
          = [d.afterRows ss] ∧
        (table.InsertRowMaps
          (ss.map (fun s => [("s", Untyped.string s)]))).2.Capacity = table.Capacity := by
  induction ss with
  | nil => intro table inserted d h hd; exact ⟨inserted, h, hd, rfl⟩
  | cons s rest ih =>
    intro table inserted d h hd
    obtain ⟨row, t2, g1, g2, g3, g4, _⟩ := int32_insert_one table inserted d s h hd
    obtain ⟨ins, k1, k2, k3⟩ := ih t2 _ _ g2 g3
    rw [List.map_cons, g1]
    exact ⟨ins, k1, k2, k3.trans g4⟩

/-- After `2^31` pairwise distinct strings went into the one column of a table of
`int32Schema`, the row of a further new string stores the id `-2^31`, and DenormalizeRow and
GetRowMaps panic on it. -/
theorem int32_overflow (ss : List String) (s : String) (hnd : ss.Nodup) (hs : s ∉ ss)
    (hlen : ss.length = 2 ^ 31) :
    ((NewFactTable "" 1 int32Schema).afterBatches
      [ss.map (fun s => [("s", Untyped.string s)]), [[("s", .string s)]]]).Exact ∧
    ((NewFactTable "" 1 int32Schema).afterBatches
      [ss.map (fun s => [("s", Untyped.string s)]), [[("s", .string s)]]]).Count = 1 ∧
    (∃ d, ((NewFactTable "" 1 int32Schema).afterBatches
      [ss.map (fun s => [("s", Untyped.string s)]), [[("s", .string s)]]]).DimensionTables
        = [d] ∧ d.Rows.length = 2 ^ 31 + 1) ∧
    ∃ row, ((NewFactTable "" 1 int32Schema).afterBatches
        [ss.map (fun s => [("s", Untyped.string s)]), [[("s", .string s)]]]).getRowSlice 0
        = .ok row ∧
      ((NewFactTable "" 1 int32Schema).afterBatches
        [ss.map (fun s => [("s", Untyped.string s)]), [[("s", .string s)]]]).storedId row 0
        = .ok (-2147483648) ∧
      ((NewFactTable "" 1 int32Schema).afterBatches
        [ss.map (fun s => [("s", Untyped.string s)]), [[("s", .string s)]]]).DenormalizeRow row
        = .panic "index out of range" ∧
      ((NewFactTable "" 1 int32Schema).afterBatches
        [ss.map (fun s => [("s", Untyped.string s)]), [[("s", .string s)]]]).GetRowMaps 0 1
        = .panic "index out of range" := by
  obtain ⟨ins, hI, hdims, hcap⟩ := int32_batch ss (NewFactTable "" 1 int32Schema) []
    (NewDimensionTable "s") (NewFactTable_IdsOK "" 1 int32Schema (by decide)) rfl
  obtain ⟨hok, hrows⟩ := afterRows_spec ss (NewDimensionTable "s") internOK_nil
  have hrows' : ((NewDimensionTable "s").afterRows ss).Rows = ss := by
    rw [hrows]
    have := foldl_appendNew_nodup_eq ss [] (by simpa using hnd)
    simpa [NewDimensionTable] using this
  have hfinal : (NewFactTable "" 1 int32Schema).afterBatches
      [ss.map (fun s => [("s", Untyped.string s)]), [[("s", .string s)]]]
      = (((NewFactTable "" 1 int32Schema).InsertRowMaps
          (ss.map (fun s => [("s", Untyped.string s)]))).2.InsertRowMaps
          [[("s", .string s)]]).2 := rfl
  rw [hfinal]
  have hcap1 : ((NewFactTable "" 1 int32Schema).InsertRowMaps
      (ss.map (fun s => [("s", Untyped.string s)]))).2.Capacity = 1 := hcap
  generalize ((NewFactTable "" 1 int32Schema).InsertRowMaps
    (ss.map (fun s => [("s", Untyped.string s)]))).2 = tp at hI hdims hcap1
  generalize (NewDimensionTable "s").afterRows ss = dp at hdims hok hrows'
  obtain ⟨row, t2, g1, g2, g3, g4, g5, g6, g7⟩ := int32_insert_one tp ins dp s hI hdims
  rw [g1 [], show t2.InsertRowMaps [] = (Result.ok (), t2) from rfl]
  dsimp only
  have hnot : s ∉ dp.Rows := by rw [hrows']; exact hs
  have hlook := lookupOrAddRow_new dp hok s hnot
  rw [hlook] at g3 g6
  simp only at g3 g6
  rw [hrows', hlen, wrapInt_two_pow_31] at g6
  have hpos : tp.NextInsertPosition = 0 := by
    have := hI.ring.pos
    omega
  have hcount : t2.Count = 1 := by
    rw [g7, hcap1]
    have := hI.count
    split <;> omega
  rw [hpos] at g5
  obtain ⟨hcc, _, _, hin, _, _, _⟩ := int32_layout t2 g2.layout
  have huse : t2.columnUsesDimensionTable 0 = true := by
    simp [FactTable.columnUsesDimensionTable, g3]
  have hden : t2.DenormalizeRow row = .panic "index out of range" := by
    cases hg : t2.getColumnValue row 0 with
    | error msg => simp [FactTable.storedId, hg, Result.bind] at g6
    | panic msg => simp [FactTable.storedId, hg, Result.bind] at g6
    | ok value =>
      cases hc : convertUntypedToFloat64 value with
      | error msg => simp [FactTable.storedId, hg, Result.bind, hc, Result.map] at g6
      | panic msg => simp [FactTable.storedId, hg, Result.bind, hc, Result.map] at g6
      | ok f =>
        simp only [FactTable.storedId, hg, Result.bind, hc, Result.map, Result.ok.injEq] at g6
        have hidx : ∀ rows : List String, indexStrings rows (-2147483648)
            = .panic "index out of range" := by
          intro rows
          simp [indexStrings]
        simp only [FactTable.DenormalizeRow, hcc, List.range_succ, List.range_zero,
          List.nil_append, denormalizeLoop, hin, List.getElem?_cons_zero, hg,
          FactTable.denormalizeColumnValue, huse, if_true, g3, hc, g6, hidx]
  refine ⟨Exact_int32 _ g2.layout, ?_, ⟨_, g3, ?_⟩, row, g5, ?_, hden, ?_⟩
  · exact hcount
  · simp only [List.length_append, hrows', hlen, List.length_singleton]
  · simp only [FactTable.storedId, Result.bind, Result.map] at g6 ⊢
    exact g6
  · simp only [FactTable.GetRowMaps, FactTable.getRowMapsLoop, g5, hden]
    simp

/-- Counterexample to claim C27 as stated. A table with room for one row whose string column
`s` is stored as `int32`, the type of the ids, so that the column represents every assigned
id exactly. After `2^31` pairwise distinct strings were inserted, the row of the new string
"b" stores the id `int32(2^31) = -2^31`, which is no index of the dimension table of
`2^31 + 1` strings: DenormalizeRow and GetRowMaps panic on the one valid row. -/
theorem C27_counterexample :
    (NewFactTable "" 1 int32Schema).Capacity = 1 ∧
    ((NewFactTable "" 1 int32Schema).afterBatches
      [(dimension_table.distinctStrings (2 ^ 31)).map (fun s => [("s", Untyped.string s)]),
        [[("s", .string "b")]]]).Exact ∧
    ((NewFactTable "" 1 int32Schema).afterBatches
      [(dimension_table.distinctStrings (2 ^ 31)).map (fun s => [("s", Untyped.string s)]),
        [[("s", .string "b")]]]).Count = 1 ∧
    (∃ d, ((NewFactTable "" 1 int32Schema).afterBatches
      [(dimension_table.distinctStrings (2 ^ 31)).map (fun s => [("s", Untyped.string s)]),
        [[("s", .string "b")]]]).DimensionTables = [d] ∧ d.Rows.length = 2 ^ 31 + 1) ∧
    ∃ row, ((NewFactTable "" 1 int32Schema).afterBatches
        [(dimension_table.distinctStrings (2 ^ 31)).map (fun s => [("s", Untyped.string s)]),
          [[("s", .string "b")]]]).getRowSlice 0 = .ok row ∧
      ((NewFactTable "" 1 int32Schema).afterBatches
        [(dimension_table.distinctStrings (2 ^ 31)).map (fun s => [("s", Untyped.string s)]),
          [[("s", .string "b")]]]).storedId row 0 = .ok (-2147483648) ∧
      ((NewFactTable "" 1 int32Schema).afterBatches
        [(dimension_table.distinctStrings (2 ^ 31)).map (fun s => [("s", Untyped.string s)]),
          [[("s", .string "b")]]]).DenormalizeRow row = .panic "index out of range" ∧
      ((NewFactTable "" 1 int32Schema).afterBatches
        [(dimension_table.distinctStrings (2 ^ 31)).map (fun s => [("s", Untyped.string s)]),
          [[("s", .string "b")]]]).GetRowMaps 0 1 = .panic "index out of range" := by
  have hlen : (dimension_table.distinctStrings (2 ^ 31)).length = 2 ^ 31 := by
    unfold dimension_table.distinctStrings
    rw [List.length_map, List.length_range]
  exact ⟨rfl, int32_overflow _ "b" (distinctStrings_nodup _) (distinctStrings_not_mem _) hlen⟩

end Gumshoe
